import Mathlib

/-!
Verification of the grid search core in
`tp3-algoritmos-busquedas/code/search_algorithms.py`.

States and actions are integer pairs (Python ints), grids are lists of rows
of characters.  Python dictionaries are modelled as insertion-ordered
association lists, `heapq` frontiers as lists together with a pop-minimum
operation under the exact tuple order Python uses (all pushed tuples are
pairwise distinct in every run, so the heap's behaviour on duplicates never
matters), and `while` loops as fuel-indexed recursions returning `Option`
(`none` = the fuel bound was not enough; for every algorithm we prove a
concrete fuel bound sufficient).  The only run-time error the Python code
can raise is a `KeyError` inside `reconstruct_path` (and, for a cyclic
parent chain, an infinite loop); both are represented by `RunErr`.
-/

namespace Search

abbrev State := Int × Int
abbrev Action := Int × Int
abbrev Grid := List (List Char)

/-- `actions: List[Action] = [(-1, 0), (0, 1), (1, 0), (0, -1)]` — up, right, down, left. -/
def actions : List Action := [(-1, 0), (0, 1), (1, 0), (0, -1)]

/-- `grid[i][j]` for indices already known to satisfy `0 ≤ i < len(grid)` and
`0 ≤ j < len(grid)`; the default is only reachable on a ragged (non-square)
grid, where Python would raise `IndexError`, so every theorem about whole
algorithm runs assumes `IsSquare`. -/
def cellAt (grid : Grid) (i j : Int) : Char :=
  (grid.getD i.toNat []).getD j.toNat ' '

/-- The grids the spec talks about are N×N: every row has length `len(grid)`. -/
def IsSquare (grid : Grid) : Prop :=
  ∀ row ∈ grid, row.length = grid.length

instance (grid : Grid) : Decidable (IsSquare grid) := by
  unfold IsSquare; infer_instance

/-- `get_neighbors(state, grid)`: for each of the four canonical actions, the
resulting coordinate if it is in bounds and not blocked (`'H'`). -/
def get_neighbors (state : State) (grid : Grid) : List (State × Action) :=
  let n : Int := grid.length
  actions.filterMap fun action =>
    let nx := state.1 + action.1
    let ny := state.2 + action.2
    if 0 ≤ nx ∧ nx < n ∧ 0 ≤ ny ∧ ny < n ∧ cellAt grid nx ny ≠ 'H' then
      some ((nx, ny), action)
    else none

/-! ### Python dictionaries as insertion-ordered association lists -/

/-- `Dict[State, β]` with Python's semantics: lookup by key, update in place,
insert at the end. -/
abbrev Dict (β : Type) := List (State × β)

def dLookup {β : Type} (m : Dict β) (k : State) : Option β :=
  (m.find? fun e => e.1 = k).map (·.2)

def dContains {β : Type} (m : Dict β) (k : State) : Bool :=
  (dLookup m k).isSome

def dInsert {β : Type} (m : Dict β) (k : State) (v : β) : Dict β :=
  if dContains m k then m.map (fun e => if e.1 = k then (k, v) else e)
  else m ++ [(k, v)]

def dKeys {β : Type} (m : Dict β) : List State := m.map (·.1)

/-- `parent: Dict[State, Optional[State]]`. -/
abbrev PMap := Dict (Option State)

/-- `cost_so_far: Dict[State, int]`. -/
abbrev CMap := Dict Int

/-! ### `reconstruct_path` -/

/-- What a Python run that does not return normally does: raise `KeyError`
(missing dictionary key — including the step after a `None` predecessor is
appended to the path, since `parent[None]` is a `KeyError`), or loop
forever (a cyclic predecessor chain). -/
inductive RunErr : Type
  | keyError : RunErr
  | nonTermination : RunErr
deriving DecidableEq, Repr

/-- The `while path[-1] != start` walk of `reconstruct_path`, building the
final (already reversed) path.  Fuel `parent.length + 1` is exhausted only
when the predecessor chain revisits a state, which in Python is an infinite
loop. -/
def reconWalk (parent : PMap) (start : State) : Nat → State → Except RunErr (List State)
  | 0, _ => .error .nonTermination
  | fuel + 1, cur =>
    if cur = start then .ok [cur]
    else
      match dLookup parent cur with
      | none => .error .keyError
      | some none => .error .keyError
      | some (some p) => (reconWalk parent start fuel p).map (fun rest => rest ++ [cur])

/-- `reconstruct_path(parent, start, goal)`. -/
def reconstruct_path (parent : PMap) (start goal : State) : Except RunErr (List State) :=
  if dContains parent goal then reconWalk parent start (parent.length + 1) goal
  else .ok []

/-! ### `random_search` -/

/-- `rng.choice` modelled by an arbitrary index stream `rng`: at the i-th
loop iteration the walk picks element `rng i % len` of the non-empty
neighbour list.  Every sequence of draws of Python's RNG is one such
stream. -/
def rngPick (rng : Nat → Nat) (i : Nat) (l : List State) (d : State) : State :=
  l.getD (rng i % l.length) d

def randomLoop (grid : Grid) (goal : State) (rng : Nat → Nat) :
    Nat → Nat → State → List State → List State → List State × Nat
  | 0, _, _, _, visited => ([], visited.length)
  | stepsLeft + 1, i, current, path, visited =>
    if current = goal then (path, visited.length)
    else
      match (get_neighbors current grid).map (·.1) with
      | [] => ([], visited.length)
      | a :: rest =>
        let c := rngPick rng i (a :: rest) a
        randomLoop grid goal rng stepsLeft (i + 1) c (path ++ [c])
          (if c ∈ visited then visited else visited ++ [c])

/-- `random_search(grid, start, goal, max_steps, rng)`. -/
def random_search (grid : Grid) (start goal : State) (max_steps : Nat) (rng : Nat → Nat) :
    List State × Nat :=
  randomLoop grid goal rng max_steps 0 start [start] [start]

/-! ### Generic while-loop iteration

Each `while` loop below is one step function `step : σ → σ ⊕ σ` (`inl` =
keep looping, `inr` = the loop is over) iterated with fuel. -/

def iterStep (step : σ → σ ⊕ σ) : Nat → σ → Option σ
  | 0, _ => none
  | fuel + 1, st =>
    match step st with
    | .inr stDone => some stDone
    | .inl st' => iterStep step fuel st'

/-! ### BFS -/

structure BfsSt where
  queue : List State
  parent : PMap
  states_explored : Nat
deriving Repr

/-- Body of the `for neighbor, _ in get_neighbors(state, grid)` loop of `bfs`:
parents are recorded (and the neighbour enqueued) only at first discovery. -/
def bfsFoldFun (state : State) (acc : BfsSt) (nb : State × Action) : BfsSt :=
  if dContains acc.parent nb.1 then acc
  else ⟨acc.queue ++ [nb.1], acc.parent ++ [(nb.1, some state)], acc.states_explored⟩

/-- One iteration of the BFS `while` loop.  `Sum.inr` = the loop is over
(queue empty, or goal popped → `break`); `Sum.inl` = keep looping. -/
def bfsStep (grid : Grid) (goal : State) (st : BfsSt) : BfsSt ⊕ BfsSt :=
  match st.queue with
  | [] => .inr st
  | state :: rest =>
    let st1 : BfsSt := ⟨rest, st.parent, st.states_explored + 1⟩
    if state = goal then .inr st1
    else
      .inl <| (get_neighbors state grid).foldl (bfsFoldFun state) st1

def bfsLoop (grid : Grid) (goal : State) : Nat → BfsSt → Option BfsSt :=
  iterStep (bfsStep grid goal)

def bfsInit (start : State) : BfsSt := ⟨[start], [(start, none)], 0⟩

def bfsFuel (grid : Grid) : Nat := grid.length * grid.length + 2

/-- `bfs(grid, start, goal)`; `none` never happens (the fuel bound is proved
sufficient below). -/
def bfs (grid : Grid) (start goal : State) : Option (Except RunErr (List State) × Nat) :=
  (bfsLoop grid goal (bfsFuel grid) (bfsInit start)).map fun st =>
    (reconstruct_path st.parent start goal, st.states_explored)

/-! ### DFS -/

structure DfsSt where
  stack : List State
  parent : PMap
  visited : List State
  states_explored : Nat
deriving Repr

/-- Push phase of one DFS expansion: Python iterates `reversed(get_neighbors(...))`,
recording the parent at first discovery and appending each neighbour to the end
(= top) of the stack.  The stack is modelled with its top at the head, so a
Python `append` is a `cons`. -/
def dfsPush (state : State) (nbrs : List (State × Action)) (parent : PMap)
    (stack : List State) : PMap × List State :=
  nbrs.reverse.foldl
    (fun acc nb =>
      (if dContains acc.1 nb.1 then acc.1 else acc.1 ++ [(nb.1, some state)],
       nb.1 :: acc.2))
    (parent, stack)

def dfsStep (grid : Grid) (goal : State) (st : DfsSt) : DfsSt ⊕ DfsSt :=
  match st.stack with
  | [] => .inr st
  | state :: rest =>
    if state ∈ st.visited then .inl ⟨rest, st.parent, st.visited, st.states_explored⟩
    else
      let st1 : DfsSt := ⟨rest, st.parent, st.visited ++ [state], st.states_explored + 1⟩
      if state = goal then .inr st1
      else
        let pr := dfsPush state (get_neighbors state grid) st1.parent st1.stack
        .inl ⟨pr.2, pr.1, st1.visited, st1.states_explored⟩

def dfsLoop (grid : Grid) (goal : State) : Nat → DfsSt → Option DfsSt :=
  iterStep (dfsStep grid goal)

def dfsInit (start : State) : DfsSt := ⟨[start], [(start, none)], [], 0⟩

def dfsFuel (grid : Grid) : Nat := 5 * (grid.length * grid.length + 1) + 2

/-- `dfs(grid, start, goal)`. -/
def dfs (grid : Grid) (start goal : State) : Option (Except RunErr (List State) × Nat) :=
  (dfsLoop grid goal (dfsFuel grid) (dfsInit start)).map fun st =>
    (reconstruct_path st.parent start goal, st.states_explored)

/-! ### Depth-limited search -/

structure DlsSt where
  stack : List (State × Int)
  parent : PMap
  visited : List State
  states_explored : Nat
deriving Repr

def dlsPush (state : State) (depth : Int) (nbrs : List (State × Action)) (parent : PMap)
    (stack : List (State × Int)) : PMap × List (State × Int) :=
  nbrs.reverse.foldl
    (fun acc nb =>
      (if dContains acc.1 nb.1 then acc.1 else acc.1 ++ [(nb.1, some state)],
       (nb.1, depth + 1) :: acc.2))
    (parent, stack)

def dlsStep (grid : Grid) (goal : State) (limit : Int) (st : DlsSt) : DlsSt ⊕ DlsSt :=
  match st.stack with
  | [] => .inr st
  | (state, depth) :: rest =>
    if state ∈ st.visited then .inl ⟨rest, st.parent, st.visited, st.states_explored⟩
    else
      let st1 : DlsSt := ⟨rest, st.parent, st.visited ++ [state], st.states_explored + 1⟩
      if state = goal then .inr st1
      else if depth < limit then
        let pr := dlsPush state depth (get_neighbors state grid) st1.parent st1.stack
        .inl ⟨pr.2, pr.1, st1.visited, st1.states_explored⟩
      else .inl st1

def dlsLoop (grid : Grid) (goal : State) (limit : Int) : Nat → DlsSt → Option DlsSt :=
  iterStep (dlsStep grid goal limit)

def dlsInit (start : State) : DlsSt := ⟨[(start, 0)], [(start, none)], [], 0⟩

/-- `dls(grid, start, goal, limit)`. -/
def dls (grid : Grid) (start goal : State) (limit : Int) :
    Option (Except RunErr (List State) × Nat) :=
  (dlsLoop grid goal limit (dfsFuel grid) (dlsInit start)).map fun st =>
    (reconstruct_path st.parent start goal, st.states_explored)

/-! ### Cost scenarios and heuristic -/

def cost_scenario1 (_ : Action) : Int := 1

def cost_scenario2 (action : Action) : Int :=
  if action = (0, -1) ∨ action = (0, 1) then 1 else 10

def heuristic_scenario2 (state goal : State) : Int :=
  (goal.1 - state.1).natAbs * 10 + (goal.2 - state.2).natAbs * 1

/-! ### Priority frontiers

`heapq` pops the least tuple under Python's lexicographic tuple order; all
tuples simultaneously in a frontier are pairwise distinct in every run of
`ucs`/`astar` (a state is re-pushed only with a strictly smaller g), so a
list plus pop-of-the-least-element is an exact model. -/

/-- Python's `<=` on `State` tuples: lexicographic, row then column. -/
def stateLe (s t : State) : Bool := s.1 < t.1 ∨ (s.1 = t.1 ∧ s.2 ≤ t.2)

/-- Python's `<=` on `(cost, state)` tuples pushed by `ucs`. -/
def ucsKeyLe (a b : Int × State) : Bool :=
  a.1 < b.1 ∨ (a.1 = b.1 ∧ stateLe a.2 b.2)

/-- Python's `<=` on `(f, g, state)` tuples pushed by `astar`. -/
def astarKeyLe (a b : Int × Int × State) : Bool :=
  a.1 < b.1 ∨ (a.1 = b.1 ∧ (a.2.1 < b.2.1 ∨ (a.2.1 = b.2.1 ∧ stateLe a.2.2 b.2.2)))

/-- The least element of a list under `le` (leftmost among `le`-ties). -/
def listMin (le : α → α → Bool) : List α → Option α
  | [] => none
  | x :: xs => some (xs.foldl (fun m y => if le m y then m else y) x)

/-- Remove the first occurrence of `y`. -/
def eraseFirst [DecidableEq α] : List α → α → List α
  | [], _ => []
  | x :: xs, y => if x = y then xs else x :: eraseFirst xs y

/-- `heapq.heappop`: remove and return the least element. -/
def popMin [DecidableEq α] (le : α → α → Bool) (l : List α) : Option (α × List α) :=
  match listMin le l with
  | none => none
  | some m => some (m, eraseFirst l m)

/-! ### Uniform-cost search -/

structure UcsSt where
  frontier : List (Int × State)
  parent : PMap
  cost_so_far : CMap
  visited : List State
  states_explored : Nat
deriving Repr

/-- The relaxation loop over `get_neighbors(state, grid)` in canonical order:
`new_cost = cost + cost_fn(action)`; on improvement update `cost_so_far` and
`parent` and push `(new_cost, neighbor)`. -/
def ucsRelax (cost_fn : Action → Int) (state : State) (cost : Int)
    (nbrs : List (State × Action)) (st : UcsSt) : UcsSt :=
  nbrs.foldl
    (fun acc nb =>
      let new_cost := cost + cost_fn nb.2
      match dLookup acc.cost_so_far nb.1 with
      | some old => if new_cost < old then
          ⟨acc.frontier ++ [(new_cost, nb.1)], dInsert acc.parent nb.1 (some state),
           dInsert acc.cost_so_far nb.1 new_cost, acc.visited, acc.states_explored⟩
        else acc
      | none =>
          ⟨acc.frontier ++ [(new_cost, nb.1)], dInsert acc.parent nb.1 (some state),
           dInsert acc.cost_so_far nb.1 new_cost, acc.visited, acc.states_explored⟩)
    st

def ucsStep (grid : Grid) (goal : State) (cost_fn : Action → Int) (st : UcsSt) :
    UcsSt ⊕ UcsSt :=
  match popMin ucsKeyLe st.frontier with
  | none => .inr st
  | some ((cost, state), rest) =>
    if state ∈ st.visited then
      .inl ⟨rest, st.parent, st.cost_so_far, st.visited, st.states_explored⟩
    else
      let st1 : UcsSt :=
        ⟨rest, st.parent, st.cost_so_far, st.visited ++ [state], st.states_explored + 1⟩
      if state = goal then .inr st1
      else .inl (ucsRelax cost_fn state cost (get_neighbors state grid) st1)

def ucsLoop (grid : Grid) (goal : State) (cost_fn : Action → Int) :
    Nat → UcsSt → Option UcsSt :=
  iterStep (ucsStep grid goal cost_fn)

def ucsInit (start : State) : UcsSt := ⟨[(0, start)], [(start, none)], [(start, 0)], [], 0⟩

/-- `ucs(grid, start, goal, cost_fn)`. -/
def ucs (grid : Grid) (start goal : State) (cost_fn : Action → Int) :
    Option (Except RunErr (List State) × Nat) :=
  (ucsLoop grid goal cost_fn (dfsFuel grid) (ucsInit start)).map fun st =>
    (reconstruct_path st.parent start goal, st.states_explored)

/-! ### A* search -/

structure AstarSt where
  frontier : List (Int × Int × State)
  parent : PMap
  cost_so_far : CMap
  visited : List State
  states_explored : Nat
deriving Repr

def astarRelax (cost_fn : Action → Int) (heuristic_fn : State → State → Int) (goal : State)
    (state : State) (g : Int) (nbrs : List (State × Action)) (st : AstarSt) : AstarSt :=
  nbrs.foldl
    (fun acc nb =>
      let new_g := g + cost_fn nb.2
      match dLookup acc.cost_so_far nb.1 with
      | some old => if new_g < old then
          ⟨acc.frontier ++ [(new_g + heuristic_fn nb.1 goal, new_g, nb.1)],
           dInsert acc.parent nb.1 (some state),
           dInsert acc.cost_so_far nb.1 new_g, acc.visited, acc.states_explored⟩
        else acc
      | none =>
          ⟨acc.frontier ++ [(new_g + heuristic_fn nb.1 goal, new_g, nb.1)],
           dInsert acc.parent nb.1 (some state),
           dInsert acc.cost_so_far nb.1 new_g, acc.visited, acc.states_explored⟩)
    st

def astarStep (grid : Grid) (goal : State) (cost_fn : Action → Int)
    (heuristic_fn : State → State → Int) (st : AstarSt) : AstarSt ⊕ AstarSt :=
  match popMin astarKeyLe st.frontier with
  | none => .inr st
  | some ((_, g, state), rest) =>
    if state ∈ st.visited then
      .inl ⟨rest, st.parent, st.cost_so_far, st.visited, st.states_explored⟩
    else
      let st1 : AstarSt :=
        ⟨rest, st.parent, st.cost_so_far, st.visited ++ [state], st.states_explored + 1⟩
      if state = goal then .inr st1
      else .inl (astarRelax cost_fn heuristic_fn goal state g (get_neighbors state grid) st1)

def astarLoop (grid : Grid) (goal : State) (cost_fn : Action → Int)
    (heuristic_fn : State → State → Int) : Nat → AstarSt → Option AstarSt :=
  iterStep (astarStep grid goal cost_fn heuristic_fn)

def astarInit (start goal : State) (heuristic_fn : State → State → Int) : AstarSt :=
  ⟨[(heuristic_fn start goal, 0, start)], [(start, none)], [(start, 0)], [], 0⟩

/-- `astar(grid, start, goal, cost_fn, heuristic_fn)`. -/
def astar (grid : Grid) (start goal : State) (cost_fn : Action → Int)
    (heuristic_fn : State → State → Int) : Option (Except RunErr (List State) × Nat) :=
  (astarLoop grid goal cost_fn heuristic_fn (dfsFuel grid) (astarInit start goal heuristic_fn)).map
    fun st => (reconstruct_path st.parent start goal, st.states_explored)

/-! ## Association-list dictionary lemmas -/

theorem dLookup_nil {β : Type} (k : State) : dLookup ([] : Dict β) k = none := rfl

theorem dLookup_cons {β : Type} (e : State × β) (m : Dict β) (k : State) :
    dLookup (e :: m) k = if e.1 = k then some e.2 else dLookup m k := by
  simp only [dLookup, List.find?]
  by_cases h : e.1 = k <;> simp [h]

theorem dLookup_append {β : Type} (m l : Dict β) (k : State) :
    dLookup (m ++ l) k = ((dLookup m k).map some).getD (dLookup l k) := by
  induction m with
  | nil => simp [dLookup_nil]
  | cons e m ih =>
    rw [List.cons_append, dLookup_cons, dLookup_cons]
    by_cases h : e.1 = k <;> simp [h, ih]

theorem dContains_iff_mem_keys {β : Type} (m : Dict β) (k : State) :
    dContains m k = true ↔ k ∈ dKeys m := by
  induction m with
  | nil => simp [dContains, dLookup_nil, dKeys]
  | cons e m ih =>
    simp only [dContains] at ih ⊢
    rw [dLookup_cons]
    by_cases h : e.1 = k
    · simp [h, dKeys]
    · simp only [if_neg h, dKeys, List.map_cons, List.mem_cons, ih, dKeys]
      constructor
      · exact fun hh => Or.inr hh
      · rintro (hh | hh)
        · exact absurd hh.symm h
        · exact hh

theorem dLookup_isSome_iff {β : Type} (m : Dict β) (k : State) :
    (dLookup m k).isSome = true ↔ k ∈ dKeys m :=
  dContains_iff_mem_keys m k

theorem dLookup_eq_none_iff {β : Type} (m : Dict β) (k : State) :
    dLookup m k = none ↔ k ∉ dKeys m := by
  rw [← dLookup_isSome_iff]
  cases dLookup m k <;> simp

theorem dLookup_mem {β : Type} {m : Dict β} {k : State} {v : β}
    (h : dLookup m k = some v) : (k, v) ∈ m := by
  induction m with
  | nil => simp [dLookup_nil] at h
  | cons e m ih =>
    rw [dLookup_cons] at h
    by_cases he : e.1 = k
    · rw [if_pos he] at h
      have : e = (k, v) := by
        cases e
        simp only [Option.some.injEq] at h
        simp_all
      exact this ▸ List.mem_cons_self _ _
    · rw [if_neg he] at h
      exact List.mem_cons_of_mem _ (ih h)

theorem mem_dLookup {β : Type} {m : Dict β} {k : State} {v : β}
    (hnd : (dKeys m).Nodup) (h : (k, v) ∈ m) : dLookup m k = some v := by
  induction m with
  | nil => simp at h
  | cons e m ih =>
    simp only [dKeys, List.map_cons, List.nodup_cons] at hnd
    rcases List.mem_cons.mp h with h | h
    · subst h
      rw [dLookup_cons, if_pos rfl]
    · rw [dLookup_cons]
      have hk : e.1 ≠ k := by
        intro he
        exact hnd.1 (he ▸ (List.mem_map.mpr ⟨(k, v), h, rfl⟩))
      rw [if_neg hk]
      exact ih hnd.2 h

theorem dKeys_append {β : Type} (m l : Dict β) : dKeys (m ++ l) = dKeys m ++ dKeys l := by
  simp [dKeys]

/-! ## `popMin` lemmas -/

theorem foldlMin_mem (le : α → α → Bool) (xs : List α) (x : α) :
    xs.foldl (fun m y => if le m y then m else y) x = x ∨
    xs.foldl (fun m y => if le m y then m else y) x ∈ xs := by
  induction xs generalizing x with
  | nil => exact Or.inl rfl
  | cons y ys ih =>
    simp only [List.foldl_cons]
    by_cases hle : le x y
    · rw [if_pos hle]
      rcases ih x with h | h
      · exact Or.inl h
      · exact Or.inr (List.mem_cons_of_mem _ h)
    · rw [if_neg hle]
      rcases ih y with h | h
      · rw [h]
        exact Or.inr (List.mem_cons_self _ _)
      · exact Or.inr (List.mem_cons_of_mem _ h)

theorem foldlMin_le {le : α → α → Bool}
    (htot : ∀ a b, le a b = true ∨ le b a = true)
    (htrans : ∀ a b c, le a b = true → le b c = true → le a c = true)
    (xs : List α) (x : α) :
    ∀ z, (z = x ∨ z ∈ xs) → le (xs.foldl (fun m y => if le m y then m else y) x) z := by
  induction xs generalizing x with
  | nil =>
    intro z hz
    simp only [List.not_mem_nil, or_false] at hz
    subst hz
    rcases htot z z with h | h <;> simpa using h
  | cons y ys ih =>
    intro z hz
    simp only [List.foldl_cons]
    by_cases hle : le x y
    · rw [if_pos hle]
      rcases hz with hz | hz
      · exact ih x z (Or.inl hz)
      · rcases List.mem_cons.mp hz with hz | hz
        · exact hz ▸ htrans _ _ _ (ih x x (Or.inl rfl)) hle
        · exact ih x z (Or.inr hz)
    · rw [if_neg hle]
      have hyx : le y x = true := by
        rcases htot x y with h | h
        · exact absurd h hle
        · exact h
      rcases hz with hz | hz
      · exact hz ▸ htrans _ _ _ (ih y y (Or.inl rfl)) hyx
      · rcases List.mem_cons.mp hz with hz | hz
        · exact ih y z (Or.inl hz)
        · exact ih y z (Or.inr hz)

theorem listMin_mem {le : α → α → Bool} {l : List α} {m : α}
    (h : listMin le l = some m) : m ∈ l := by
  cases l with
  | nil => simp [listMin] at h
  | cons x xs =>
    simp only [listMin, Option.some.injEq] at h
    subst h
    rcases foldlMin_mem le xs x with h | h
    · rw [h]
      exact List.mem_cons_self _ _
    · exact List.mem_cons_of_mem _ h

/-- `le` is total and transitive: the fold computes a lower bound of the list. -/
theorem listMin_le {le : α → α → Bool}
    (htot : ∀ a b, le a b = true ∨ le b a = true)
    (htrans : ∀ a b c, le a b = true → le b c = true → le a c = true)
    {l : List α} {m : α} (h : listMin le l = some m) : ∀ x ∈ l, le m x := by
  cases l with
  | nil => simp [listMin] at h
  | cons x xs =>
    simp only [listMin, Option.some.injEq] at h
    subst h
    intro z hz
    rcases List.mem_cons.mp hz with hz | hz
    · exact foldlMin_le htot htrans xs x z (Or.inl hz)
    · exact foldlMin_le htot htrans xs x z (Or.inr hz)

theorem popMin_nil [DecidableEq α] (le : α → α → Bool) : popMin le ([] : List α) = none := rfl

theorem mem_of_mem_eraseFirst [DecidableEq α] {l : List α} {a b : α}
    (h : a ∈ eraseFirst l b) : a ∈ l := by
  induction l with
  | nil => simpa [eraseFirst] using h
  | cons x xs ih =>
    rw [eraseFirst] at h
    by_cases hx : x = b
    · rw [if_pos hx] at h
      exact List.mem_cons_of_mem _ h
    · rw [if_neg hx] at h
      rcases List.mem_cons.mp h with h | h
      · exact h ▸ List.mem_cons_self _ _
      · exact List.mem_cons_of_mem _ (ih h)

theorem mem_eraseFirst_of_ne [DecidableEq α] {l : List α} {a b : α} (hne : a ≠ b)
    (h : a ∈ l) : a ∈ eraseFirst l b := by
  induction l with
  | nil => simpa using h
  | cons x xs ih =>
    rw [eraseFirst]
    by_cases hx : x = b
    · rw [if_pos hx]
      rcases List.mem_cons.mp h with h | h
      · exact absurd (h.trans hx) hne
      · exact h
    · rw [if_neg hx]
      rcases List.mem_cons.mp h with h | h
      · exact h ▸ List.mem_cons_self _ _
      · exact List.mem_cons_of_mem _ (ih h)

theorem length_eraseFirst_of_mem [DecidableEq α] {l : List α} {b : α} (h : b ∈ l) :
    (eraseFirst l b).length + 1 = l.length := by
  induction l with
  | nil => simp at h
  | cons x xs ih =>
    rw [eraseFirst]
    by_cases hx : x = b
    · rw [if_pos hx]
      rfl
    · rw [if_neg hx, List.length_cons, List.length_cons]
      rcases List.mem_cons.mp h with h | h
      · exact absurd h.symm hx
      · rw [ih h]

theorem popMin_eq_some [DecidableEq α] {le : α → α → Bool} {l : List α}
    {m : α} {r : List α} (h : popMin le l = some (m, r)) :
    m ∈ l ∧ r = eraseFirst l m := by
  simp only [popMin] at h
  cases hm : listMin le l with
  | none => simp [hm] at h
  | some m' =>
    simp only [hm, Option.some.injEq, Prod.mk.injEq] at h
    exact ⟨h.1 ▸ listMin_mem hm, h.2.symm ▸ h.1 ▸ rfl⟩

theorem popMin_le [DecidableEq α] {le : α → α → Bool}
    (htot : ∀ a b, le a b ∨ le b a) (htrans : ∀ a b c, le a b → le b c → le a c)
    {l : List α} {m : α} {r : List α} (h : popMin le l = some (m, r)) :
    ∀ x ∈ l, le m x := by
  simp only [popMin] at h
  cases hm : listMin le l with
  | none => simp [hm] at h
  | some m' =>
    simp only [hm, Option.some.injEq, Prod.mk.injEq] at h
    exact h.1 ▸ listMin_le htot htrans hm

theorem popMin_isSome [DecidableEq α] (le : α → α → Bool) (x : α) (xs : List α) :
    popMin le (x :: xs) = some ((xs.foldl (fun m y => if le m y then m else y) x),
      eraseFirst (x :: xs) (xs.foldl (fun m y => if le m y then m else y) x)) := by
  simp [popMin, listMin]

/-! ## `get_neighbors` characterization -/

theorem mem_get_neighbors {s t : State} {a : Action} {g : Grid} :
    (t, a) ∈ get_neighbors s g ↔
      a ∈ actions ∧ t = (s.1 + a.1, s.2 + a.2) ∧ 0 ≤ t.1 ∧ t.1 < (g.length : Int) ∧
        0 ≤ t.2 ∧ t.2 < (g.length : Int) ∧ cellAt g t.1 t.2 ≠ 'H' := by
  simp only [get_neighbors, List.mem_filterMap]
  constructor
  · rintro ⟨b, hb, hsome⟩
    by_cases hc : 0 ≤ s.1 + b.1 ∧ s.1 + b.1 < (g.length : Int) ∧ 0 ≤ s.2 + b.2 ∧
        s.2 + b.2 < (g.length : Int) ∧ cellAt g (s.1 + b.1) (s.2 + b.2) ≠ 'H'
    · rw [if_pos hc] at hsome
      obtain ⟨ht, hab⟩ := Prod.mk.injEq .. ▸ Option.some.injEq _ _ ▸ hsome
      subst hab
      refine ⟨hb, ?_, ?_, ?_, ?_, ?_, ?_⟩ <;> simp [← ht] <;> tauto
    · rw [if_neg hc] at hsome
      exact absurd hsome (by simp)
  · rintro ⟨ha, ht, h1, h2, h3, h4, h5⟩
    refine ⟨a, ha, ?_⟩
    have hc : 0 ≤ s.1 + a.1 ∧ s.1 + a.1 < (g.length : Int) ∧ 0 ≤ s.2 + a.2 ∧
        s.2 + a.2 < (g.length : Int) ∧ cellAt g (s.1 + a.1) (s.2 + a.2) ≠ 'H' := by
      rw [ht] at h1 h2 h3 h4 h5
      exact ⟨h1, h2, h3, h4, h5⟩
    rw [if_pos hc, ht]

/-- Every neighbour produced by `get_neighbors` is an in-bounds, non-blocked cell. -/
theorem get_neighbors_valid {s t : State} {a : Action} {g : Grid}
    (h : (t, a) ∈ get_neighbors s g) :
    0 ≤ t.1 ∧ t.1 < (g.length : Int) ∧ 0 ≤ t.2 ∧ t.2 < (g.length : Int) ∧
      cellAt g t.1 t.2 ≠ 'H' := by
  have := mem_get_neighbors.mp h
  tauto

/-! ## Graph-level (specification-side) notions -/

/-- A cell that a search may stand on: in bounds and not blocked. -/
def FreeCell (g : Grid) (s : State) : Prop :=
  0 ≤ s.1 ∧ s.1 < (g.length : Int) ∧ 0 ≤ s.2 ∧ s.2 < (g.length : Int) ∧
    cellAt g s.1 s.2 ≠ 'H'

instance (g : Grid) (s : State) : Decidable (FreeCell g s) := by
  unfold FreeCell; infer_instance

/-- One valid move of the search graph. -/
def Adj (g : Grid) (s t : State) : Prop := ∃ a, (t, a) ∈ get_neighbors s g

theorem adj_iff_mem_map {g : Grid} {s t : State} :
    Adj g s t ↔ t ∈ (get_neighbors s g).map (·.1) := by
  simp only [Adj, List.mem_map]
  constructor
  · rintro ⟨a, ha⟩
    exact ⟨(t, a), ha, rfl⟩
  · rintro ⟨⟨t', a⟩, ha, rfl⟩
    exact ⟨a, ha⟩

instance (g : Grid) (s t : State) : Decidable (Adj g s t) :=
  decidable_of_iff _ adj_iff_mem_map.symm

/-- `t` is reachable from `s` in exactly `n` moves. -/
inductive ReachN (g : Grid) (s : State) : Nat → State → Prop
  | zero : ReachN g s 0 s
  | succ {n : Nat} {u t : State} : ReachN g s n u → Adj g u t → ReachN g s (n + 1) t

def Reaches (g : Grid) (s t : State) : Prop := ∃ n, ReachN g s n t

/-- A well-formed path from `s` to `t`: non-empty, starts at `s`, ends at `t`,
and each consecutive pair is one valid move. -/
def PathFrom (g : Grid) (s t : State) (p : List State) : Prop :=
  p ≠ [] ∧ p.head? = some s ∧ p.getLast? = some t ∧ List.Chain' (Adj g) p

/-- Total cost of a path: the sum of `cost_fn` over the actions taken by its
consecutive pairs. -/
def pathCost (cost_fn : Action → Int) (p : List State) : Int :=
  (p.zip p.tail).foldl (fun acc e => acc + cost_fn (e.2.1 - e.1.1, e.2.2 - e.1.2)) 0

theorem adj_free {g : Grid} {s t : State} (h : Adj g s t) : FreeCell g t := by
  obtain ⟨a, ha⟩ := h
  exact get_neighbors_valid ha

theorem reachN_free {g : Grid} {n : Nat} {s t : State} (h : ReachN g s n t)
    (hs : FreeCell g s) : FreeCell g t := by
  induction h with
  | zero => exact hs
  | succ _ hadj _ => exact adj_free hadj

/-- Concatenating reachability witnesses. -/
theorem reachN_trans {g : Grid} {m n : Nat} {s u t : State}
    (h1 : ReachN g s m u) (h2 : ReachN g u n t) : ReachN g s (m + n) t := by
  induction h2 with
  | zero => exact h1
  | succ _ hadj' ih => exact ReachN.succ ih hadj'

/-- Prepending one move to a reachability witness. -/
theorem reachN_succ_left {g : Grid} {n : Nat} {s u t : State}
    (hadj : Adj g s u) (h : ReachN g u n t) : ReachN g s (n + 1) t := by
  have := reachN_trans (ReachN.succ ReachN.zero hadj) h
  simpa [Nat.add_comm] using this

/-- `PathFrom` and `ReachN` agree: a path with `k + 1` states witnesses
reachability in `k` moves. -/
theorem pathFrom_reachN {g : Grid} {s t : State} {p : List State}
    (h : PathFrom g s t p) : ReachN g s (p.length - 1) t := by
  obtain ⟨hne, hhead, hlast, hchain⟩ := h
  induction p generalizing s with
  | nil => exact absurd rfl hne
  | cons x xs ih =>
    simp only [List.head?_cons, Option.some.injEq] at hhead
    subst hhead
    cases xs with
    | nil =>
      have hst : x = t := by simpa using hlast
      subst hst
      simpa using ReachN.zero (g := g) (s := x)
    | cons y ys =>
      have hchain' := List.chain'_cons.mp hchain
      have hlast' : (y :: ys).getLast? = some t := by
        rw [← hlast]
        exact (List.getLast?_cons_cons ..).symm
      have hr := ih (s := y) (by simp) (by simp) hlast' hchain'.2
      have := reachN_succ_left hchain'.1 hr
      simpa using this

theorem reachN_pathFrom {g : Grid} {n : Nat} {s t : State} (h : ReachN g s n t) :
    ∃ p, PathFrom g s t p ∧ p.length = n + 1 := by
  induction h with
  | zero => exact ⟨[s], ⟨by simp, by simp, by simp, by simp⟩, by simp⟩
  | succ hr hadj ih =>
    obtain ⟨p, ⟨hne, hhead, hlast, hchain⟩, hlen⟩ := ih
    rename_i m u t'
    refine ⟨p ++ [t'], ⟨by simp, ?_, by simp, ?_⟩, by simp [hlen]⟩
    · rcases p with _ | ⟨z, zs⟩
      · exact absurd rfl hne
      · simpa using hhead
    · rw [List.chain'_append]
      refine ⟨hchain, by simp, ?_⟩
      intro x hx y hy
      simp only [List.head?_cons, Option.mem_def, Option.some.injEq] at hy
      subst hy
      rw [hlast] at hx
      simp only [Option.mem_def, Option.some.injEq] at hx
      subst hx
      exact hadj

/-! ## Order facts for the priority keys -/

theorem stateLe_total (a b : State) : stateLe a b = true ∨ stateLe b a = true := by
  simp only [stateLe, decide_eq_true_eq]
  omega

theorem stateLe_trans {a b c : State} (h1 : stateLe a b = true) (h2 : stateLe b c = true) :
    stateLe a c = true := by
  simp only [stateLe, decide_eq_true_eq] at *
  omega

theorem stateLe_antisymm {a b : State} (h1 : stateLe a b = true) (h2 : stateLe b a = true) :
    a = b := by
  simp only [stateLe, decide_eq_true_eq] at *
  have : a.1 = b.1 ∧ a.2 = b.2 := by omega
  exact Prod.ext this.1 this.2

theorem ucsKeyLe_total (a b : Int × State) : ucsKeyLe a b = true ∨ ucsKeyLe b a = true := by
  simp only [ucsKeyLe, stateLe, decide_eq_true_eq]
  omega

theorem ucsKeyLe_trans (a b c : Int × State) (h1 : ucsKeyLe a b = true)
    (h2 : ucsKeyLe b c = true) : ucsKeyLe a c = true := by
  simp only [ucsKeyLe, stateLe, decide_eq_true_eq] at *
  omega

theorem astarKeyLe_total (a b : Int × Int × State) :
    astarKeyLe a b = true ∨ astarKeyLe b a = true := by
  simp only [astarKeyLe, stateLe, decide_eq_true_eq]
  omega

theorem astarKeyLe_trans (a b c : Int × Int × State) (h1 : astarKeyLe a b = true)
    (h2 : astarKeyLe b c = true) : astarKeyLe a c = true := by
  simp only [astarKeyLe, stateLe, decide_eq_true_eq] at *
  omega

/-! ## Claim C3: A* tie-breaking -/

/-- C3, counterexample.  Two frontier entries with equal `f = 5` and `g`
values `3` and `2`: the pop of `astar`'s frontier returns the entry with
the SMALLER `g` (Python's `heapq` is a min-heap on the `(f, g, state)`
tuple), not the larger `g` the claim states. -/
theorem astar_pop_smaller_g_counterexample :
    popMin astarKeyLe [(5, 3, ((0 : Int), (0 : Int))), (5, 2, ((9 : Int), (9 : Int)))] =
      some ((5, 2, ((9 : Int), (9 : Int))), [(5, 3, ((0 : Int), (0 : Int)))]) := by
  decide

/-- C3 (amended): in `astar`'s frontier pop (`popMin astarKeyLe`, the model of
`heapq.heappop` on `(f, g, state)` tuples), among entries with equal priority
key `f` the entry with SMALLER `g` is popped first, and remaining ties are
broken by lexicographic order on the `State` (row, then column), smallest
first. -/
theorem astar_pop_tiebreak (l : List (Int × Int × State)) (m : Int × Int × State)
    (r : List (Int × Int × State)) (hpop : popMin astarKeyLe l = some (m, r)) :
    (∀ f g₁ g₂ s₁ s₂, (f, g₁, s₁) ∈ l → (f, g₂, s₂) ∈ l → g₁ < g₂ → m ≠ (f, g₂, s₂)) ∧
    (∀ f gg s₁ s₂, (f, gg, s₁) ∈ l → (f, gg, s₂) ∈ l → s₁ ≠ s₂ → stateLe s₁ s₂ = true →
      m ≠ (f, gg, s₂)) := by
  have hle := popMin_le astarKeyLe_total astarKeyLe_trans hpop
  constructor
  · rintro f g₁ g₂ s₁ s₂ h1 h2 hg rfl
    have := hle _ h1
    simp only [astarKeyLe, stateLe, decide_eq_true_eq] at this
    omega
  · rintro f gg s₁ s₂ h1 h2 hne hlt rfl
    have := hle _ h1
    simp only [astarKeyLe, decide_eq_true_eq] at this
    rcases this with h | ⟨-, h | ⟨-, h⟩⟩
    · omega
    · omega
    · exact hne (stateLe_antisymm hlt h)

/-- C3, witness for the amended theorem at a concrete frontier. -/
theorem astar_pop_tiebreak_witness :
    ((5 : Int), (2 : Int), ((9 : Int), (9 : Int))) ≠ ((5 : Int), (3 : Int), ((0 : Int), (0 : Int))) :=
  (astar_pop_tiebreak [(5, 3, ((0 : Int), (0 : Int))), (5, 2, ((9 : Int), (9 : Int)))]
      (5, 2, ((9 : Int), (9 : Int))) [(5, 3, ((0 : Int), (0 : Int)))] (by decide)).1
    5 2 3 ((9 : Int), (9 : Int)) ((0 : Int), (0 : Int)) (by decide) (by decide) (by decide)

/-! ## Claim C5: `reconstruct_path` error behaviour -/

/-- A successful `reconstruct_path` walk is non-empty, starts at `start` and
ends at the state it was called on. -/
theorem reconWalk_ok_shape {parent : PMap} {start : State} {fuel : Nat} {cur : State}
    {p : List State} (h : reconWalk parent start fuel cur = .ok p) :
    p ≠ [] ∧ p.head? = some start ∧ p.getLast? = some cur := by
  induction fuel generalizing cur p with
  | zero => simp [reconWalk] at h
  | succ fuel ih =>
    rw [reconWalk] at h
    by_cases hcs : cur = start
    · rw [if_pos hcs] at h
      simp only [Except.ok.injEq] at h
      subst h
      exact ⟨by simp, by simp [hcs], by simp⟩
    · rw [if_neg hcs] at h
      cases hl : dLookup parent cur with
      | none => rw [hl] at h; exact absurd h (by simp)
      | some v =>
        cases v with
        | none => rw [hl] at h; exact absurd h (by simp)
        | some q =>
          rw [hl] at h
          have h : Except.map (fun rest => rest ++ [cur]) (reconWalk parent start fuel q) =
              .ok p := h
          cases hw : reconWalk parent start fuel q with
          | error e => rw [hw] at h; exact absurd h (by simp [Except.map])
          | ok rest =>
            rw [hw] at h
            simp only [Except.map, Except.ok.injEq] at h
            subst h
            obtain ⟨hne, hhead, -⟩ := ih hw
            refine ⟨by simp, ?_, by simp⟩
            rcases rest with _ | ⟨z, zs⟩
            · exact absurd rfl hne
            · simpa using hhead

/-- C5, counterexample.  A parent map containing the goal but with a broken
predecessor chain (`(1,1) ↦ (0,0)`, and `(0,0)` not a key): Python's
`reconstruct_path` raises `KeyError` instead of returning an empty list,
refuting the claim's second half. -/
theorem reconstruct_path_broken_chain_counterexample :
    reconstruct_path [(((1 : Int), (1 : Int)), some ((0 : Int), (0 : Int)))]
      ((2 : Int), (2 : Int)) ((1 : Int), (1 : Int)) = .error .keyError := by
  rfl

/-- C5 (amended): if the goal is absent from the parent map,
`reconstruct_path` returns an empty sequence; if the goal is present, it
either raises (`KeyError` when the chain is broken by a missing key or a
`None` predecessor off the start, an infinite loop when the chain is
cyclic) or returns a non-empty path from `start` to `goal` — a broken chain
makes it raise an error, never return the empty sequence. -/
theorem reconstruct_path_defensive (parent : PMap) (start goal : State) :
    (dContains parent goal = false → reconstruct_path parent start goal = .ok []) ∧
    (dContains parent goal = true →
      (∃ e, reconstruct_path parent start goal = .error e) ∨
      (∃ p, reconstruct_path parent start goal = .ok p ∧ p ≠ [] ∧
        p.head? = some start ∧ p.getLast? = some goal)) := by
  constructor
  · intro h
    simp [reconstruct_path, h]
  · intro h
    rw [reconstruct_path, if_pos h]
    cases hw : reconWalk parent start (parent.length + 1) goal with
    | error e => exact Or.inl ⟨e, rfl⟩
    | ok p =>
      obtain ⟨hne, hhead, hlast⟩ := reconWalk_ok_shape hw
      exact Or.inr ⟨p, rfl, hne, hhead, hlast⟩

/-- C5, witness: both halves of the amended theorem at concrete inputs. -/
theorem reconstruct_path_defensive_witness :
    reconstruct_path [] ((0 : Int), (0 : Int)) ((1 : Int), (1 : Int)) = .ok [] ∧
    ((∃ e, reconstruct_path [(((0 : Int), (0 : Int)), none)] ((0 : Int), (0 : Int))
        ((0 : Int), (0 : Int)) = .error e) ∨
     (∃ p, reconstruct_path [(((0 : Int), (0 : Int)), none)] ((0 : Int), (0 : Int))
        ((0 : Int), (0 : Int)) = .ok p ∧ p ≠ [] ∧
        p.head? = some ((0 : Int), (0 : Int)) ∧ p.getLast? = some ((0 : Int), (0 : Int)))) :=
  ⟨(reconstruct_path_defensive [] ((0 : Int), (0 : Int)) ((1 : Int), (1 : Int))).1 (by decide),
   (reconstruct_path_defensive [(((0 : Int), (0 : Int)), none)] ((0 : Int), (0 : Int))
      ((0 : Int), (0 : Int))).2 (by decide)⟩

/-! ## Claim C9: start == goal -/

/-- C9, counterexample.  `random_search` with `max_steps = 0` never reaches
the `if current == goal` check (the `for` body does not run), so even with
`start == goal` on a free cell of a 1×1 grid it returns the EMPTY path (with
`len(visited) = 1`), not the single-element path `[start]` the claim
requires for every `max_steps` value. -/
theorem start_eq_goal_max_steps_zero_counterexample :
    random_search [['F']] ((0 : Int), (0 : Int)) ((0 : Int), (0 : Int)) 0 (fun _ => 0) =
      ([], 1) := by
  rfl

/-- C9 (amended): for every grid and in-bounds free state `s`, calling any of
the six algorithms with `start = goal = s` — for every `max_steps ≥ 1` of
`random_search` (not `max_steps = 0`) and every `limit` of `dls`, every cost
function and every heuristic — returns the single-element path `[s]`, whose
total cost and edge count are `0`, with `states_explored = 1 ≥ 1`. -/
theorem start_eq_goal_single (grid : Grid) (s : State) (max_steps : Nat) (rng : Nat → Nat)
    (limit : Int) (cost_fn : Action → Int) (heuristic_fn : State → State → Int)
    (_hfree : FreeCell grid s) (hms : 1 ≤ max_steps) :
    random_search grid s s max_steps rng = ([s], 1) ∧
    bfs grid s s = some (.ok [s], 1) ∧
    dfs grid s s = some (.ok [s], 1) ∧
    dls grid s s limit = some (.ok [s], 1) ∧
    ucs grid s s cost_fn = some (.ok [s], 1) ∧
    astar grid s s cost_fn heuristic_fn = some (.ok [s], 1) ∧
    pathCost cost_fn [s] = 0 ∧ [s].length - 1 = 0 ∧ 1 ≥ 1 := by
  have hrecon : reconstruct_path [(s, none)] s s = .ok [s] := by
    simp [reconstruct_path, dContains, dLookup, reconWalk]
  refine ⟨?_, ?_, ?_, ?_, ?_, ?_, by simp [pathCost], by simp, le_refl 1⟩
  · obtain ⟨m, rfl⟩ := Nat.exists_eq_add_of_le hms
    rw [Nat.add_comm 1 m]
    simp [random_search, randomLoop]
  · simp [bfs, bfsFuel, bfsLoop, iterStep, bfsInit, bfsStep, hrecon]
  · simp [dfs, dfsFuel, dfsLoop, iterStep, dfsInit, dfsStep, hrecon]
  · simp [dls, dfsFuel, dlsLoop, iterStep, dlsInit, dlsStep, hrecon]
  · simp [ucs, dfsFuel, ucsLoop, iterStep, ucsInit, ucsStep, popMin, listMin, hrecon]
  · simp [astar, dfsFuel, astarLoop, iterStep, astarInit, astarStep, popMin, listMin, hrecon]

/-- C9, witness for the amended theorem on a concrete 1×1 grid. -/
theorem start_eq_goal_single_witness :
    random_search [['F']] ((0 : Int), (0 : Int)) ((0 : Int), (0 : Int)) 1 (fun _ => 0) =
      ([((0 : Int), (0 : Int))], 1) :=
  (start_eq_goal_single [['F']] ((0 : Int), (0 : Int)) 1 (fun _ => 0) 0 cost_scenario1
    heuristic_scenario2 (by decide) (by decide)).1

/-! ## Generic loop lemmas -/

/-- Every state an `iterStep` run passes through, starting from `init`. -/
inductive IterReach {σ : Type} (step : σ → σ ⊕ σ) (init : σ) : σ → Prop
  | refl : IterReach step init init
  | tail {st st' : σ} : IterReach step init st → step st = .inl st' → IterReach step init st'

theorem iterReach_inv {σ : Type} {step : σ → σ ⊕ σ} {P : σ → Prop} {init : σ}
    (hinit : P init) (hstep : ∀ st st', step st = .inl st' → P st → P st') :
    ∀ st, IterReach step init st → P st := by
  intro st h
  induction h with
  | refl => exact hinit
  | tail _ hs ih => exact hstep _ _ hs ih

/-- If the loop returns, the returned state is the `inr`-image of a reachable
loop state. -/
theorem iterStep_last {σ : Type} {step : σ → σ ⊕ σ} :
    ∀ {fuel : Nat} {st stf : σ}, iterStep step fuel st = some stf →
      ∃ st0, IterReach step st st0 ∧ step st0 = .inr stf := by
  intro fuel
  induction fuel with
  | zero =>
    intro st stf h
    simp [iterStep] at h
  | succ fuel ih =>
    intro st stf h
    rw [iterStep] at h
    cases hs : step st with
    | inr done =>
      rw [hs] at h
      have h : some done = some stf := h
      obtain rfl := Option.some.injEq _ _ |>.mp h
      exact ⟨st, IterReach.refl, hs⟩
    | inl st' =>
      rw [hs] at h
      have h : iterStep step fuel st' = some stf := h
      obtain ⟨st0, hr, hlast⟩ := ih h
      refine ⟨st0, ?_, hlast⟩
      clear hlast ih h
      induction hr with
      | refl => exact IterReach.tail IterReach.refl hs
      | tail _ hs' ih' => exact IterReach.tail ih' hs'

/-- Fuel adequacy: a measure decreasing on invariant states bounds the fuel. -/
theorem iterStep_total {σ : Type} (step : σ → σ ⊕ σ) {P : σ → Prop} (μ : σ → Nat)
    (hstep : ∀ st st', step st = .inl st' → P st → P st')
    (hdec : ∀ st st', step st = .inl st' → P st → μ st' < μ st) :
    ∀ (fuel : Nat) (st : σ), P st → μ st < fuel →
      ∃ stf, iterStep step fuel st = some stf := by
  intro fuel
  induction fuel with
  | zero =>
    intro st _ h
    exact absurd h (by omega)
  | succ fuel ih =>
    intro st hP hμ
    rw [iterStep]
    cases hs : step st with
    | inr done => exact ⟨done, rfl⟩
    | inl st' =>
      have := hdec _ _ hs hP
      obtain ⟨stf, hf⟩ := ih st' (hstep _ _ hs hP) (by omega)
      exact ⟨stf, hf⟩

theorem iterReach_trans {σ : Type} {step : σ → σ ⊕ σ} {a b c : σ}
    (h1 : IterReach step a b) (h2 : IterReach step b c) : IterReach step a c := by
  induction h2 with
  | refl => exact h1
  | tail _ hs ih => exact IterReach.tail ih hs

/-! ## `dInsert` lemmas -/

theorem dLookup_mapReplace_ne {β : Type} (m : Dict β) {k j : State} (v : β) (h : j ≠ k) :
    dLookup (m.map (fun e => if e.1 = k then (k, v) else e)) j = dLookup m j := by
  induction m with
  | nil => simp [dLookup]
  | cons e m ih =>
    simp only [List.map_cons]
    by_cases he : e.1 = k
    · rw [if_pos he, dLookup_cons, dLookup_cons, if_neg (fun hh : (k : State) = j => h hh.symm),
        if_neg (fun hh : e.1 = j => h (he ▸ hh).symm)]
      exact ih
    · rw [if_neg he, dLookup_cons, dLookup_cons]
      by_cases hej : e.1 = j
      · simp [hej]
      · rw [if_neg hej, if_neg hej]
        exact ih

theorem dLookup_mapReplace_self {β : Type} (m : Dict β) {k : State} (v : β)
    (h : dContains m k = true) :
    dLookup (m.map (fun e => if e.1 = k then (k, v) else e)) k = some v := by
  induction m with
  | nil => simp [dContains, dLookup] at h
  | cons e m ih =>
    simp only [List.map_cons]
    by_cases he : e.1 = k
    · rw [if_pos he, dLookup_cons, if_pos rfl]
    · rw [if_neg he, dLookup_cons, if_neg he]
      apply ih
      simpa only [dContains, dLookup_cons, if_neg he] using h

theorem dLookup_dInsert_self {β : Type} (m : Dict β) (k : State) (v : β) :
    dLookup (dInsert m k v) k = some v := by
  rw [dInsert]
  by_cases h : dContains m k
  · rw [if_pos h]
    exact dLookup_mapReplace_self m v h
  · rw [if_neg h, dLookup_append]
    simp only [dContains] at h
    have hnone : dLookup m k = none := by
      rw [← Option.not_isSome_iff_eq_none]
      simpa using h
    rw [hnone]
    simp [dLookup_cons]

theorem dLookup_dInsert_ne {β : Type} (m : Dict β) {k j : State} (v : β) (h : j ≠ k) :
    dLookup (dInsert m k v) j = dLookup m j := by
  rw [dInsert]
  by_cases hc : dContains m k
  · rw [if_pos hc]
    exact dLookup_mapReplace_ne m v h
  · rw [if_neg hc, dLookup_append, dLookup_cons,
      if_neg (fun hh : (k : State) = j => h hh.symm)]
    cases dLookup m j <;> simp [dLookup]

theorem dKeys_mapReplace {β : Type} (m : Dict β) (k : State) (v : β) :
    dKeys (m.map (fun e => if e.1 = k then (k, v) else e)) = dKeys m := by
  induction m with
  | nil => rfl
  | cons e m ih =>
    simp only [List.map_cons, dKeys] at *
    by_cases he : e.1 = k
    · rw [if_pos he]
      simpa [he] using ih
    · rw [if_neg he]
      simpa using ih

theorem dKeys_dInsert {β : Type} (m : Dict β) (k : State) (v : β) :
    dKeys (dInsert m k v) = if dContains m k then dKeys m else dKeys m ++ [k] := by
  rw [dInsert]
  by_cases h : dContains m k
  · rw [if_pos h, if_pos h]
    exact dKeys_mapReplace m k v
  · rw [if_neg h, if_neg h, dKeys_append]
    rfl

theorem dInsert_length {β : Type} (m : Dict β) (k : State) (v : β) :
    (dInsert m k v).length = if dContains m k then m.length else m.length + 1 := by
  rw [dInsert]
  by_cases h : dContains m k
  · rw [if_pos h, if_pos h, List.length_map]
  · rw [if_neg h, if_neg h, List.length_append, List.length_cons, List.length_nil]

/-! ## Counting helpers -/

theorem nodup_subset_length_le {l L : List State} (hn : l.Nodup)
    (hsub : ∀ x ∈ l, x ∈ L) : l.length ≤ L.length := by
  have h1 : l.toFinset.card = l.length := List.toFinset_card_of_nodup hn
  have h2 : l.toFinset ⊆ L.toFinset := fun x hx =>
    List.mem_toFinset.mpr (hsub x (List.mem_toFinset.mp hx))
  have h3 := Finset.card_le_card h2
  have h4 := L.toFinset_card_le
  omega

/-- All in-bounds coordinates of the grid, as `Int` pairs. -/
def allCells (g : Grid) : List State :=
  ((List.range g.length) ×ˢ (List.range g.length)).map fun ij => ((ij.1 : Int), (ij.2 : Int))

theorem allCells_length (g : Grid) : (allCells g).length = g.length * g.length := by
  rw [allCells, List.length_map, List.length_product, List.length_range]

theorem mem_allCells_of_inBounds {g : Grid} {s : State}
    (h1 : 0 ≤ s.1) (h2 : s.1 < (g.length : Int)) (h3 : 0 ≤ s.2)
    (h4 : s.2 < (g.length : Int)) : s ∈ allCells g := by
  rw [allCells, List.mem_map]
  refine ⟨(s.1.toNat, s.2.toNat), ?_, ?_⟩
  · rw [List.mem_product, List.mem_range, List.mem_range]
    omega
  · rw [Int.toNat_of_nonneg h1, Int.toNat_of_nonneg h3]

theorem freeCell_mem_allCells {g : Grid} {s : State} (h : FreeCell g s) :
    s ∈ allCells g := by
  obtain ⟨h1, h2, h3, h4, -⟩ := h
  exact mem_allCells_of_inBounds h1 h2 h3 h4

theorem adj_mem_allCells {g : Grid} {s t : State} (h : Adj g s t) : t ∈ allCells g := by
  have := adj_free h
  exact freeCell_mem_allCells this

/-! ## Well-formed parent maps

Every search loop maintains: the start maps to `none`, every other entry maps
to an already-present predecessor one valid move away, and some rank function
decreases along predecessor links (the chain is acyclic).  This is exactly
what makes the final `reconstruct_path` call return a well-formed path. -/

def GoodParent (grid : Grid) (start : State) (m : PMap) : Prop :=
  dLookup m start = some none ∧
  (∀ k, dLookup m k = some none → k = start) ∧
  (∀ k p, dLookup m k = some (some p) → p ∈ dKeys m ∧ Adj grid p k) ∧
  ∃ rk : State → Nat, ∀ k p, dLookup m k = some (some p) → rk p < rk k

theorem pathFrom_single {g : Grid} (s : State) : PathFrom g s s [s] :=
  ⟨by simp, by simp, by simp, by simp⟩

theorem pathFrom_append_adj {g : Grid} {s u t : State} {q : List State}
    (h : PathFrom g s u q) (hadj : Adj g u t) : PathFrom g s t (q ++ [t]) := by
  obtain ⟨hne, hhead, hlast, hchain⟩ := h
  refine ⟨by simp, ?_, by simp, ?_⟩
  · rcases q with _ | ⟨z, zs⟩
    · exact absurd rfl hne
    · simpa using hhead
  · rw [List.chain'_append]
    refine ⟨hchain, by simp, ?_⟩
    intro x hx y hy
    simp only [List.head?_cons, Option.mem_def, Option.some.injEq] at hy
    subst hy
    rw [hlast] at hx
    simp only [Option.mem_def, Option.some.injEq] at hx
    subst hx
    exact hadj

theorem goodParent_walk {grid : Grid} {start : State} {m : PMap}
    (hg : GoodParent grid start m) (rk : State → Nat)
    (hrk : ∀ k p, dLookup m k = some (some p) → rk p < rk k) :
    ∀ (fuel : Nat) (k : State), k ∈ dKeys m →
      ((dKeys m).toFinset.filter (fun x => rk x ≤ rk k)).card ≤ fuel →
      ∃ p, reconWalk m start fuel k = .ok p ∧ PathFrom grid start k p := by
  obtain ⟨hstart, hnone, hedge, -⟩ := hg
  intro fuel
  induction fuel with
  | zero =>
    intro k hk hcard
    have hmem : k ∈ (dKeys m).toFinset.filter (fun x => rk x ≤ rk k) := by
      simp [List.mem_toFinset.mpr hk]
    have := Finset.card_pos.mpr ⟨k, hmem⟩
    omega
  | succ fuel ih =>
    intro k hk hcard
    rw [reconWalk]
    by_cases hks : k = start
    · subst hks
      exact ⟨[k], by rw [if_pos rfl], pathFrom_single k⟩
    · rw [if_neg hks]
      have hsome : (dLookup m k).isSome := (dLookup_isSome_iff m k).mpr hk
      cases hv : dLookup m k with
      | none => rw [hv] at hsome; simp at hsome
      | some v =>
        cases v with
        | none => exact absurd (hnone k hv) hks
        | some p =>
          have ⟨hpmem, hpadj⟩ := hedge k p hv
          have hplt := hrk k p hv
          have hsub : (dKeys m).toFinset.filter (fun x => rk x ≤ rk p) ⊆
              ((dKeys m).toFinset.filter (fun x => rk x ≤ rk k)).erase k := by
            intro x hx
            rw [Finset.mem_filter] at hx
            rw [Finset.mem_erase, Finset.mem_filter]
            refine ⟨?_, hx.1, by omega⟩
            intro hxk
            subst hxk
            omega
          have hkmem : k ∈ (dKeys m).toFinset.filter (fun x => rk x ≤ rk k) := by
            simp [List.mem_toFinset.mpr hk]
          have hcard' : ((dKeys m).toFinset.filter (fun x => rk x ≤ rk p)).card ≤ fuel := by
            have h1 := Finset.card_le_card hsub
            have h2 := Finset.card_erase_of_mem hkmem
            omega
          obtain ⟨q, hq, hqpath⟩ := ih p hpmem hcard'
          refine ⟨q ++ [k], ?_, pathFrom_append_adj hqpath hpadj⟩
          show Except.map (fun rest => rest ++ [k]) (reconWalk m start fuel p) = .ok (q ++ [k])
          rw [hq]
          rfl

/-- On a `GoodParent` map, `reconstruct_path` never errors: it returns `[]`
off the key set and a well-formed path from `start` on it. -/
theorem goodParent_reconstruct {grid : Grid} {start : State} {m : PMap}
    (hg : GoodParent grid start m) (k : State) :
    (k ∉ dKeys m → reconstruct_path m start k = .ok []) ∧
    (k ∈ dKeys m → ∃ p, reconstruct_path m start k = .ok p ∧ PathFrom grid start k p) := by
  constructor
  · intro hk
    have hc : ¬ (dContains m k = true) := fun hcc => hk ((dContains_iff_mem_keys m k).mp hcc)
    rw [reconstruct_path, if_neg hc]
  · intro hk
    obtain ⟨rk, hrk⟩ := hg.2.2.2
    have hcard : ((dKeys m).toFinset.filter (fun x => rk x ≤ rk k)).card ≤ m.length + 1 := by
      have h1 : ((dKeys m).toFinset.filter (fun x => rk x ≤ rk k)) ⊆ (dKeys m).toFinset :=
        Finset.filter_subset _ _
      have h2 := Finset.card_le_card h1
      have h3 := (dKeys m).toFinset_card_le
      have h4 : (dKeys m).length = m.length := List.length_map _ _
      omega
    obtain ⟨p, hp, hppath⟩ := goodParent_walk hg rk hrk (m.length + 1) k hk hcard
    rw [reconstruct_path, if_pos ((dContains_iff_mem_keys m k).mpr hk)]
    exact ⟨p, hp, hppath⟩

/-! ## More dictionary helpers -/

theorem dLookup_append_of_isSome {β : Type} {m : Dict β} (l : Dict β) {k : State}
    {v : β} (h : dLookup m k = some v) : dLookup (m ++ l) k = some v := by
  rw [dLookup_append, h]
  rfl

theorem dLookup_append_cases {β : Type} {m l : Dict β} {k : State} {v : β}
    (h : dLookup (m ++ l) k = some v) :
    dLookup m k = some v ∨ (dLookup m k = none ∧ dLookup l k = some v) := by
  rw [dLookup_append] at h
  cases hm : dLookup m k with
  | none => rw [hm] at h; exact Or.inr ⟨rfl, by simpa using h⟩
  | some w =>
    rw [hm] at h
    have h : some w = some v := h
    exact Or.inl h

theorem dLookup_mapConst {k state : State} {v : Option State} (fresh : List State)
    (h : dLookup (fresh.map fun t => ((t, some state) : State × Option State)) k =
      some v) : v = some state := by
  induction fresh with
  | nil => simp [dLookup] at h
  | cons x xs ih =>
    rw [List.map_cons, dLookup_cons] at h
    by_cases hx : x = k
    · rw [if_pos hx] at h
      have h : some (some state) = some v := h
      exact (Option.some.injEq _ _ |>.mp h).symm
    · rw [if_neg hx] at h
      exact ih h

theorem mem_dKeys_mapConst {state : State} {fresh : List State} {k : State} :
    k ∈ dKeys (fresh.map fun t => ((t, some state) : State × Option State)) ↔ k ∈ fresh := by
  simp [dKeys, List.map_map, Function.comp]

theorem le_foldr_max : ∀ (l : List Nat) (x : Nat), x ∈ l → x ≤ l.foldr max 0 := by
  intro l
  induction l with
  | nil => intro x hx; simp at hx
  | cons y ys ih =>
    intro x hx
    rcases List.mem_cons.mp hx with hx | hx
    · subst hx
      exact le_max_left _ _
    · exact le_trans (ih x hx) (le_max_right _ _)

/-! ## BFS invariants -/

theorem bfsFold_char (state : State) (nbrs : List (State × Action)) :
    ∀ st1 : BfsSt, ∃ fresh : List State,
      (nbrs.foldl (bfsFoldFun state) st1).queue = st1.queue ++ fresh ∧
      (nbrs.foldl (bfsFoldFun state) st1).parent =
        st1.parent ++ fresh.map (fun t => (t, some state)) ∧
      (nbrs.foldl (bfsFoldFun state) st1).states_explored = st1.states_explored ∧
      fresh.Nodup ∧
      (∀ t ∈ fresh, t ∈ nbrs.map (·.1) ∧ t ∉ dKeys st1.parent) ∧
      (∀ t ∈ nbrs.map (·.1), t ∈ dKeys (nbrs.foldl (bfsFoldFun state) st1).parent) := by
  induction nbrs with
  | nil =>
    intro st1
    exact ⟨[], by simp, by simp, rfl, List.nodup_nil, by simp, by simp⟩
  | cons nb rest ih =>
    intro st1
    rw [List.foldl_cons]
    by_cases hc : dContains st1.parent nb.1
    · rw [show bfsFoldFun state st1 nb = st1 from by rw [bfsFoldFun, if_pos hc]]
      obtain ⟨fresh, h1, h2, h3, h4, h5, h6⟩ := ih st1
      refine ⟨fresh, h1, h2, h3, h4, ?_, ?_⟩
      · intro t ht
        obtain ⟨ht1, ht2⟩ := h5 t ht
        exact ⟨List.mem_cons_of_mem _ ht1, ht2⟩
      · intro t ht
        rcases List.mem_cons.mp ht with ht | ht
        · subst ht
          rw [h2, dKeys_append]
          exact List.mem_append_left _ ((dContains_iff_mem_keys _ _).mp hc)
        · exact h6 t ht
    · have hstep : bfsFoldFun state st1 nb =
          ⟨st1.queue ++ [nb.1], st1.parent ++ [(nb.1, some state)], st1.states_explored⟩ := by
        rw [bfsFoldFun, if_neg hc]
      rw [hstep]
      obtain ⟨fresh, h1, h2, h3, h4, h5, h6⟩ :=
        ih ⟨st1.queue ++ [nb.1], st1.parent ++ [(nb.1, some state)], st1.states_explored⟩
      refine ⟨nb.1 :: fresh, ?_, ?_, h3, ?_, ?_, ?_⟩
      · rw [h1]
        simp
      · rw [h2]
        simp
      · refine List.nodup_cons.mpr ⟨?_, h4⟩
        intro hmem
        have := (h5 nb.1 hmem).2
        apply this
        rw [dKeys_append]
        exact List.mem_append_right _ (by simp [dKeys])
      · intro t ht
        rcases List.mem_cons.mp ht with ht | ht
        · subst ht
          refine ⟨by simp, ?_⟩
          intro hmem
          exact hc ((dContains_iff_mem_keys _ _).mpr hmem)
        · obtain ⟨ht1, ht2⟩ := h5 t ht
          refine ⟨List.mem_cons_of_mem _ ht1, ?_⟩
          intro hmem
          apply ht2
          rw [dKeys_append]
          exact List.mem_append_left _ hmem
      · intro t ht
        rcases List.mem_cons.mp ht with ht | ht
        · subst ht
          rw [h2, dKeys_append]
          apply List.mem_append_left
          rw [dKeys_append]
          exact List.mem_append_right _ (by simp [dKeys])
        · exact h6 t ht

/-- Shape of one continuing BFS iteration: pop a non-goal head, enqueue and
record the freshly discovered neighbours. -/
theorem bfsStep_inl_char {grid : Grid} {goal : State} {st st' : BfsSt}
    (h : bfsStep grid goal st = .inl st') :
    ∃ state rest fresh, st.queue = state :: rest ∧ state ≠ goal ∧
      st'.queue = rest ++ fresh ∧
      st'.parent = st.parent ++ fresh.map (fun t => (t, some state)) ∧
      st'.states_explored = st.states_explored + 1 ∧ fresh.Nodup ∧
      (∀ t ∈ fresh, Adj grid state t ∧ t ∉ dKeys st.parent) ∧
      (∀ t, Adj grid state t → t ∈ dKeys st'.parent) := by
  rw [bfsStep] at h
  cases hq : st.queue with
  | nil => rw [hq] at h; exact absurd h (by simp)
  | cons state rest =>
    rw [hq] at h
    have h : (if state = goal then Sum.inr (⟨rest, st.parent, st.states_explored + 1⟩ : BfsSt)
        else Sum.inl ((get_neighbors state grid).foldl (bfsFoldFun state)
          ⟨rest, st.parent, st.states_explored + 1⟩)) = Sum.inl st' := h
    by_cases hg : state = goal
    · rw [if_pos hg] at h
      exact absurd h (by simp)
    · rw [if_neg hg] at h
      have h := Sum.inl.injEq .. ▸ h
      obtain ⟨fresh, h1, h2, h3, h4, h5, h6⟩ :=
        bfsFold_char state (get_neighbors state grid)
          ⟨rest, st.parent, st.states_explored + 1⟩
      rw [h] at h1 h2 h3 h6
      refine ⟨state, rest, fresh, rfl, hg, h1, h2, h3, h4, ?_, ?_⟩
      · intro t ht
        obtain ⟨ht1, ht2⟩ := h5 t ht
        exact ⟨adj_iff_mem_map.mpr ht1, ht2⟩
      · intro t ht
        exact h6 t (adj_iff_mem_map.mp ht)

/-- Shape of the final BFS iteration: empty queue, or the goal popped. -/
theorem bfsStep_inr_char {grid : Grid} {goal : State} {st stf : BfsSt}
    (h : bfsStep grid goal st = .inr stf) :
    (st.queue = [] ∧ stf = st) ∨
    (∃ rest, st.queue = goal :: rest ∧
      stf = ⟨rest, st.parent, st.states_explored + 1⟩) := by
  rw [bfsStep] at h
  cases hq : st.queue with
  | nil =>
    rw [hq] at h
    have h : Sum.inr st = Sum.inr stf := h
    exact Or.inl ⟨rfl, (Sum.inr.injEq .. ▸ h).symm⟩
  | cons state rest =>
    rw [hq] at h
    have h : (if state = goal then Sum.inr (⟨rest, st.parent, st.states_explored + 1⟩ : BfsSt)
        else Sum.inl ((get_neighbors state grid).foldl (bfsFoldFun state)
          ⟨rest, st.parent, st.states_explored + 1⟩)) = Sum.inr stf := h
    by_cases hg : state = goal
    · rw [if_pos hg] at h
      exact Or.inr ⟨rest, by rw [hg], (Sum.inr.injEq .. ▸ h).symm⟩
    · rw [if_neg hg] at h
      exact absurd h (by simp)

theorem dKeys_mapConst_eq (state : State) (fresh : List State) :
    dKeys (fresh.map fun t => ((t, some state) : State × Option State)) = fresh := by
  induction fresh with
  | nil => rfl
  | cons x xs ih => simpa [dKeys] using ih

/-- Everything the BFS loop maintains. -/
structure BfsInv (grid : Grid) (start goal : State) (st : BfsSt) : Prop where
  good : GoodParent grid start st.parent
  keys_nodup : (dKeys st.parent).Nodup
  keys_free : ∀ k ∈ dKeys st.parent, k = start ∨ FreeCell grid k
  keys_reach : ∀ k ∈ dKeys st.parent, Reaches grid start k
  queue_sub : ∀ q ∈ st.queue, q ∈ dKeys st.parent
  queue_nodup : st.queue.Nodup
  count : st.states_explored + st.queue.length = st.parent.length
  goal_in_queue : goal ∈ dKeys st.parent → goal ∈ st.queue
  closure : ∀ k ∈ dKeys st.parent, k ∉ st.queue → ∀ t, Adj grid k t → t ∈ dKeys st.parent

theorem dLookup_single_start (start k : State) (v : Option State) :
    dLookup [(start, v)] k = if start = k then some v else none := by
  rw [dLookup_cons]
  by_cases h : start = k <;> simp [h, dLookup]

/-- The singleton parent map `{start: None}` every algorithm starts from. -/
theorem goodParent_init (grid : Grid) (start : State) :
    GoodParent grid start [(start, none)] := by
  have hlk : ∀ k : State, dLookup [(start, (none : Option State))] k =
      if start = k then some none else none := fun k => dLookup_single_start start k none
  refine ⟨?_, ?_, ?_, fun _ => 0, ?_⟩
  · rw [hlk, if_pos rfl]
  · intro k hk
    rw [hlk] at hk
    by_cases h : start = k
    · exact h.symm
    · rw [if_neg h] at hk; exact absurd hk (by simp)
  · intro k p hk
    rw [hlk] at hk
    by_cases h : start = k
    · rw [if_pos h] at hk; exact absurd hk (by simp)
    · rw [if_neg h] at hk; exact absurd hk (by simp)
  · intro k p hk
    rw [hlk] at hk
    by_cases h : start = k
    · rw [if_pos h] at hk; exact absurd hk (by simp)
    · rw [if_neg h] at hk; exact absurd hk (by simp)

theorem bfsInv_init (grid : Grid) (start goal : State) :
    BfsInv grid start goal (bfsInit start) := by
  refine ⟨goodParent_init grid start, ?_, ?_, ?_, ?_, ?_, ?_, ?_, ?_⟩
  · simp [bfsInit, dKeys]
  · intro k hk
    simp [bfsInit, dKeys] at hk
    exact Or.inl hk
  · intro k hk
    simp [bfsInit, dKeys] at hk
    exact hk ▸ ⟨0, ReachN.zero⟩
  · intro q hq
    simp [bfsInit] at hq
    simp [bfsInit, dKeys, hq]
  · simp [bfsInit]
  · simp [bfsInit]
  · intro hg
    simp [bfsInit, dKeys] at hg
    simp [bfsInit, hg]
  · intro k hk hknq
    simp [bfsInit, dKeys] at hk
    simp [bfsInit, hk] at hknq

theorem bfsInv_step {grid : Grid} {start goal : State} {st st' : BfsSt}
    (h : bfsStep grid goal st = .inl st') (hinv : BfsInv grid start goal st) :
    BfsInv grid start goal st' := by
  obtain ⟨state, rest, fresh, hq, hg, h1, h2, h3, h4, h5, h6⟩ := bfsStep_inl_char h
  obtain ⟨⟨gstart, gnone, gedge, rk, grk⟩, knd, kfree, kreach, qsub, qnd, cnt, giq, clos⟩ := hinv
  have hstate_mem : state ∈ dKeys st.parent :=
    qsub state (by rw [hq]; exact List.mem_cons_self _ _)
  have hkeys' : dKeys st'.parent = dKeys st.parent ++ fresh := by
    rw [h2, dKeys_append, dKeys_mapConst_eq]
  have hqnd' : rest.Nodup ∧ state ∉ rest := by
    have := hq ▸ qnd
    exact ⟨(List.nodup_cons.mp this).2, (List.nodup_cons.mp this).1⟩
  have hfresh_not_old : ∀ t ∈ fresh, t ∉ dKeys st.parent := fun t ht => (h5 t ht).2
  have hfresh_adj : ∀ t ∈ fresh, Adj grid state t := fun t ht => (h5 t ht).1
  -- case analysis on a lookup in the new parent map
  have hcases : ∀ k v, dLookup st'.parent k = some v →
      dLookup st.parent k = some v ∨ (k ∉ dKeys st.parent ∧ k ∈ fresh ∧ v = some state) := by
    intro k v hkv
    rw [h2] at hkv
    rcases dLookup_append_cases hkv with hold | ⟨hnone, hnew⟩
    · exact Or.inl hold
    · refine Or.inr ⟨(dLookup_eq_none_iff _ _).mp hnone, ?_, dLookup_mapConst fresh hnew⟩
      have := (dLookup_isSome_iff _ k).mp (by rw [hnew]; rfl)
      rwa [dKeys_mapConst_eq] at this
  constructor
  · -- GoodParent
    refine ⟨?_, ?_, ?_, ?_⟩
    · rw [h2]
      exact dLookup_append_of_isSome _ gstart
    · intro k hk
      rcases hcases k none hk with hold | ⟨-, -, hv⟩
      · exact gnone k hold
      · exact absurd hv (by simp)
    · intro k p hk
      rcases hcases k (some p) hk with hold | ⟨-, hkf, hv⟩
      · obtain ⟨hp1, hp2⟩ := gedge k p hold
        exact ⟨by rw [hkeys']; exact List.mem_append_left _ hp1, hp2⟩
      · obtain rfl : p = state := by simpa using hv
        exact ⟨by rw [hkeys']; exact List.mem_append_left _ hstate_mem, hfresh_adj k hkf⟩
    · -- the rank
      classical
      refine ⟨fun x => if x ∈ fresh then ((dKeys st.parent).map rk).foldr max 0 + 1 else rk x,
        ?_⟩
      intro k p hk
      dsimp only
      rcases hcases k (some p) hk with hold | ⟨-, hkf, hv⟩
      · have hkm : k ∈ dKeys st.parent := (dLookup_isSome_iff _ k).mp (by rw [hold]; rfl)
        have hpm : p ∈ dKeys st.parent := (gedge k p hold).1
        rw [if_neg (fun hc => hfresh_not_old k hc hkm),
          if_neg (fun hc => hfresh_not_old p hc hpm)]
        exact grk k p hold
      · obtain rfl : p = state := by simpa using hv
        rw [if_pos hkf, if_neg (fun hc => hfresh_not_old p hc hstate_mem)]
        have : rk p ≤ ((dKeys st.parent).map rk).foldr max 0 :=
          le_foldr_max _ _ (List.mem_map.mpr ⟨p, hstate_mem, rfl⟩)
        omega
  · rw [hkeys']
    exact knd.append h4 (fun t ht1 ht2 => hfresh_not_old t ht2 ht1)
  · intro k hk
    rw [hkeys'] at hk
    rcases List.mem_append.mp hk with hk | hk
    · exact kfree k hk
    · exact Or.inr (adj_free (hfresh_adj k hk))
  · intro k hk
    rw [hkeys'] at hk
    rcases List.mem_append.mp hk with hk | hk
    · exact kreach k hk
    · obtain ⟨n, hr⟩ := kreach state hstate_mem
      exact ⟨n + 1, ReachN.succ hr (hfresh_adj k hk)⟩
  · intro q hqm
    rw [h1] at hqm
    rw [hkeys']
    rcases List.mem_append.mp hqm with hqm | hqm
    · exact List.mem_append_left _ (qsub q (by rw [hq]; exact List.mem_cons_of_mem _ hqm))
    · exact List.mem_append_right _ hqm
  · rw [h1]
    refine hqnd'.1.append h4 ?_
    intro t ht1 ht2
    exact hfresh_not_old t ht2 (qsub t (by rw [hq]; exact List.mem_cons_of_mem _ ht1))
  · rw [h1, h2, h3]
    have hql : st.queue.length = rest.length + 1 := by rw [hq]; rfl
    have : (st.parent ++ fresh.map fun t => (t, some state)).length =
        st.parent.length + fresh.length := by
      rw [List.length_append, List.length_map]
    rw [this, List.length_append]
    omega
  · intro hgk
    rw [hkeys'] at hgk
    rw [h1]
    rcases List.mem_append.mp hgk with hgk | hgk
    · have := giq hgk
      rw [hq] at this
      rcases List.mem_cons.mp this with hh | hh
      · exact absurd hh.symm hg
      · exact List.mem_append_left _ hh
    · exact List.mem_append_right _ hgk
  · intro k hk hknq t hadj
    rw [hkeys'] at hk ⊢
    rw [h1] at hknq
    rcases List.mem_append.mp hk with hk | hk
    · by_cases hks : k = state
      · subst hks
        exact hkeys' ▸ h6 t hadj
      · have hknq_old : k ∉ st.queue := by
          rw [hq]
          intro hc
          rcases List.mem_cons.mp hc with hc | hc
          · exact hks hc
          · exact hknq (List.mem_append_left _ hc)
        exact List.mem_append_left _ (clos k hk hknq_old t hadj)
    · exact absurd (List.mem_append_right rest hk) hknq

theorem bfsInv_parent_le {grid : Grid} {start goal : State} {st : BfsSt}
    (hinv : BfsInv grid start goal st) :
    st.parent.length ≤ grid.length * grid.length + 1 := by
  have h1 : (dKeys st.parent).length ≤ (start :: allCells grid).length := by
    refine nodup_subset_length_le hinv.keys_nodup ?_
    intro k hk
    rcases hinv.keys_free k hk with hk | hk
    · exact hk ▸ List.mem_cons_self _ _
    · exact List.mem_cons_of_mem _ (freeCell_mem_allCells hk)
  rw [List.length_cons, allCells_length] at h1
  have : (dKeys st.parent).length = st.parent.length := List.length_map _ _
  omega

/-- The BFS loop always returns within its fuel bound. -/
theorem bfs_loop_some (grid : Grid) (start goal : State) :
    ∃ stf, bfsLoop grid goal (bfsFuel grid) (bfsInit start) = some stf := by
  have := iterStep_total (bfsStep grid goal)
    (P := BfsInv grid start goal)
    (fun st => st.queue.length + ((grid.length * grid.length + 1) - st.parent.length))
    (fun st st' hs hP => bfsInv_step hs hP)
    (fun st st' hs hP => by
      obtain ⟨state, rest, fresh, hq, -, h1, h2, h3, -, -, -⟩ := bfsStep_inl_char hs
      have hle := bfsInv_parent_le hP
      have hle' := bfsInv_parent_le (bfsInv_step hs hP)
      have e1 : st'.queue.length = rest.length + fresh.length := by
        rw [h1, List.length_append]
      have e2 : st'.parent.length = st.parent.length + fresh.length := by
        rw [h2, List.length_append, List.length_map]
      have e3 : st.queue.length = rest.length + 1 := by rw [hq]; rfl
      rw [e2] at hle'
      dsimp only
      omega)
    (bfsFuel grid) (bfsInit start) (bfsInv_init grid start goal)
    (by
      rw [bfsFuel]
      have : (bfsInit start).queue.length = 1 := rfl
      have : (bfsInit start).parent.length = 1 := rfl
      simp [bfsInit]
      omega)
  exact this

/-- Every BFS run: the loop returns, the final state is the image of a last
step out of an invariant-satisfying state, and `bfs` is the reconstruction
from the final parent map. -/
theorem bfs_run (grid : Grid) (start goal : State) :
    ∃ st0 stf, BfsInv grid start goal st0 ∧ bfsStep grid goal st0 = .inr stf ∧
      bfs grid start goal = some (reconstruct_path stf.parent start goal,
        stf.states_explored) := by
  obtain ⟨stf, hloop⟩ := bfs_loop_some grid start goal
  obtain ⟨st0, hreach, hlast⟩ := iterStep_last hloop
  have hinv0 := iterReach_inv (bfsInv_init grid start goal)
    (fun st st' hs hP => bfsInv_step hs hP) st0 hreach
  refine ⟨st0, stf, hinv0, hlast, ?_⟩
  rw [bfs, hloop]
  rfl

/-! ## DFS invariants -/

theorem dfsPushAux_char (state : State) :
    ∀ (l : List (State × Action)) (parent : PMap) (stack : List State),
      ∃ fresh : List State,
        (l.foldl (fun acc nb =>
          (if dContains acc.1 nb.1 then acc.1 else acc.1 ++ [(nb.1, some state)],
           nb.1 :: acc.2)) (parent, stack)).1 =
          parent ++ fresh.map (fun t => (t, some state)) ∧
        (l.foldl (fun acc nb =>
          (if dContains acc.1 nb.1 then acc.1 else acc.1 ++ [(nb.1, some state)],
           nb.1 :: acc.2)) (parent, stack)).2 = l.reverse.map (·.1) ++ stack ∧
        fresh.Nodup ∧ (∀ t ∈ fresh, t ∈ l.map (·.1) ∧ t ∉ dKeys parent) ∧
        (∀ t ∈ l.map (·.1), t ∈ dKeys (l.foldl (fun acc nb =>
          (if dContains acc.1 nb.1 then acc.1 else acc.1 ++ [(nb.1, some state)],
           nb.1 :: acc.2)) (parent, stack)).1) := by
  intro l
  induction l with
  | nil =>
    intro parent stack
    exact ⟨[], by simp, by simp, List.nodup_nil, by simp, by simp⟩
  | cons nb l ih =>
    intro parent stack
    rw [List.foldl_cons]
    by_cases hc : dContains parent nb.1
    · have hacc : (if dContains parent nb.1 then parent else parent ++ [(nb.1, some state)],
          nb.1 :: stack) = (parent, nb.1 :: stack) := by rw [if_pos hc]
      rw [hacc]
      obtain ⟨fresh, h1, h2, h3, h4, h5⟩ := ih parent (nb.1 :: stack)
      refine ⟨fresh, h1, ?_, h3, ?_, ?_⟩
      · rw [h2]
        simp
      · intro t ht
        obtain ⟨ht1, ht2⟩ := h4 t ht
        exact ⟨List.mem_cons_of_mem _ ht1, ht2⟩
      · intro t ht
        rcases List.mem_cons.mp ht with ht | ht
        · subst ht
          rw [h1, dKeys_append]
          exact List.mem_append_left _ ((dContains_iff_mem_keys _ _).mp hc)
        · exact h5 t ht
    · have hacc : (if dContains parent nb.1 then parent else parent ++ [(nb.1, some state)],
          nb.1 :: stack) = (parent ++ [(nb.1, some state)], nb.1 :: stack) := by rw [if_neg hc]
      rw [hacc]
      obtain ⟨fresh, h1, h2, h3, h4, h5⟩ := ih (parent ++ [(nb.1, some state)]) (nb.1 :: stack)
      refine ⟨nb.1 :: fresh, ?_, ?_, ?_, ?_, ?_⟩
      · rw [h1]
        simp
      · rw [h2]
        simp
      · refine List.nodup_cons.mpr ⟨?_, h3⟩
        intro hmem
        apply (h4 nb.1 hmem).2
        rw [dKeys_append]
        exact List.mem_append_right _ (by simp [dKeys])
      · intro t ht
        rcases List.mem_cons.mp ht with ht | ht
        · subst ht
          refine ⟨by simp, ?_⟩
          intro hmem
          exact hc ((dContains_iff_mem_keys _ _).mpr hmem)
        · obtain ⟨ht1, ht2⟩ := h4 t ht
          refine ⟨List.mem_cons_of_mem _ ht1, ?_⟩
          intro hmem
          apply ht2
          rw [dKeys_append]
          exact List.mem_append_left _ hmem
      · intro t ht
        rcases List.mem_cons.mp ht with ht | ht
        · subst ht
          rw [h1, dKeys_append]
          apply List.mem_append_left
          rw [dKeys_append]
          exact List.mem_append_right _ (by simp [dKeys])
        · exact h5 t ht

theorem dfsPush_char (state : State) (nbrs : List (State × Action)) (parent : PMap)
    (stack : List State) :
    ∃ fresh : List State,
      (dfsPush state nbrs parent stack).1 = parent ++ fresh.map (fun t => (t, some state)) ∧
      (dfsPush state nbrs parent stack).2 = nbrs.map (·.1) ++ stack ∧
      fresh.Nodup ∧ (∀ t ∈ fresh, t ∈ nbrs.map (·.1) ∧ t ∉ dKeys parent) ∧
      (∀ t ∈ nbrs.map (·.1), t ∈ dKeys (dfsPush state nbrs parent stack).1) := by
  obtain ⟨fresh, h1, h2, h3, h4, h5⟩ := dfsPushAux_char state nbrs.reverse parent stack
  rw [dfsPush]
  refine ⟨fresh, h1, ?_, h3, ?_, ?_⟩
  · rw [h2]
    simp
  · intro t ht
    obtain ⟨ht1, ht2⟩ := h4 t ht
    rw [List.map_reverse, List.mem_reverse] at ht1
    exact ⟨ht1, ht2⟩
  · intro t ht
    apply h5
    rw [List.map_reverse, List.mem_reverse]
    exact ht

/-- Shape of one continuing DFS iteration: either a duplicate pop that is
skipped, or an expansion. -/
theorem dfsStep_inl_char {grid : Grid} {goal : State} {st st' : DfsSt}
    (h : dfsStep grid goal st = .inl st') :
    (∃ state rest, st.stack = state :: rest ∧ state ∈ st.visited ∧
      st' = ⟨rest, st.parent, st.visited, st.states_explored⟩) ∨
    (∃ (state : State) (rest : List State) (fresh : List State),
      st.stack = state :: rest ∧ state ∉ st.visited ∧ state ≠ goal ∧
      st'.stack = (get_neighbors state grid).map (·.1) ++ rest ∧
      st'.parent = st.parent ++ fresh.map (fun t => (t, some state)) ∧
      st'.visited = st.visited ++ [state] ∧
      st'.states_explored = st.states_explored + 1 ∧ fresh.Nodup ∧
      (∀ t ∈ fresh, Adj grid state t ∧ t ∉ dKeys st.parent) ∧
      (∀ t, Adj grid state t → t ∈ dKeys st'.parent)) := by
  rw [dfsStep] at h
  cases hq : st.stack with
  | nil => rw [hq] at h; exact absurd h (by simp)
  | cons state rest =>
    rw [hq] at h
    have h : (if state ∈ st.visited then
        Sum.inl (⟨rest, st.parent, st.visited, st.states_explored⟩ : DfsSt)
      else if state = goal then
        Sum.inr (⟨rest, st.parent, st.visited ++ [state], st.states_explored + 1⟩ : DfsSt)
      else
        Sum.inl (⟨(dfsPush state (get_neighbors state grid) st.parent rest).2,
          (dfsPush state (get_neighbors state grid) st.parent rest).1,
          st.visited ++ [state], st.states_explored + 1⟩ : DfsSt)) = Sum.inl st' := h
    by_cases hv : state ∈ st.visited
    · rw [if_pos hv] at h
      have h := Sum.inl.injEq .. ▸ h
      exact Or.inl ⟨state, rest, rfl, hv, h.symm⟩
    · rw [if_neg hv] at h
      by_cases hg : state = goal
      · rw [if_pos hg] at h
        exact absurd h (by simp)
      · rw [if_neg hg] at h
        have h := Sum.inl.injEq .. ▸ h
        obtain ⟨fresh, h1, h2, h3, h4, h5⟩ :=
          dfsPush_char state (get_neighbors state grid) st.parent rest
        refine Or.inr ⟨state, rest, fresh, rfl, hv, hg, ?_, ?_, ?_, ?_, h3, ?_, ?_⟩
        · rw [← h]
          exact h2
        · rw [← h]
          exact h1
        · rw [← h]
        · rw [← h]
        · intro t ht
          obtain ⟨ht1, ht2⟩ := h4 t ht
          exact ⟨adj_iff_mem_map.mpr ht1, ht2⟩
        · intro t ht
          rw [← h]
          exact h5 t (adj_iff_mem_map.mp ht)

/-- Shape of the final DFS iteration: empty stack, or the goal expanded. -/
theorem dfsStep_inr_char {grid : Grid} {goal : State} {st stf : DfsSt}
    (h : dfsStep grid goal st = .inr stf) :
    (st.stack = [] ∧ stf = st) ∨
    (∃ rest, st.stack = goal :: rest ∧ goal ∉ st.visited ∧
      stf = ⟨rest, st.parent, st.visited ++ [goal], st.states_explored + 1⟩) := by
  rw [dfsStep] at h
  cases hq : st.stack with
  | nil =>
    rw [hq] at h
    have h : Sum.inr st = Sum.inr stf := h
    exact Or.inl ⟨rfl, (Sum.inr.injEq .. ▸ h).symm⟩
  | cons state rest =>
    rw [hq] at h
    have h : (if state ∈ st.visited then
        Sum.inl (⟨rest, st.parent, st.visited, st.states_explored⟩ : DfsSt)
      else if state = goal then
        Sum.inr (⟨rest, st.parent, st.visited ++ [state], st.states_explored + 1⟩ : DfsSt)
      else
        Sum.inl (⟨(dfsPush state (get_neighbors state grid) st.parent rest).2,
          (dfsPush state (get_neighbors state grid) st.parent rest).1,
          st.visited ++ [state], st.states_explored + 1⟩ : DfsSt)) = Sum.inr stf := h
    by_cases hv : state ∈ st.visited
    · rw [if_pos hv] at h
      exact absurd h (by simp)
    · rw [if_neg hv] at h
      by_cases hg : state = goal
      · rw [if_pos hg] at h
        have h2 : (⟨rest, st.parent, st.visited ++ [state], st.states_explored + 1⟩ : DfsSt)
            = stf := Sum.inr.inj h
        subst hg
        exact Or.inr ⟨rest, rfl, hv, h2.symm⟩
      · rw [if_neg hg] at h
        exact absurd h (by simp)

theorem get_neighbors_length_le (s : State) (g : Grid) :
    (get_neighbors s g).length ≤ 4 := by
  have := List.length_filterMap_le
    (fun action : Action =>
      let nx := s.1 + action.1
      let ny := s.2 + action.2
      if 0 ≤ nx ∧ nx < (g.length : Int) ∧ 0 ≤ ny ∧ ny < (g.length : Int) ∧
          cellAt g nx ny ≠ 'H' then
        some ((nx, ny), action)
      else none) actions
  simpa [get_neighbors] using this

/-- Everything the DFS loop maintains. -/
structure DfsInv (grid : Grid) (start goal : State) (st : DfsSt) : Prop where
  good : GoodParent grid start st.parent
  keys_nodup : (dKeys st.parent).Nodup
  keys_free : ∀ k ∈ dKeys st.parent, k = start ∨ FreeCell grid k
  keys_reach : ∀ k ∈ dKeys st.parent, Reaches grid start k
  stack_sub : ∀ q ∈ st.stack, q ∈ dKeys st.parent
  visited_sub : ∀ v ∈ st.visited, v ∈ dKeys st.parent
  visited_nodup : st.visited.Nodup
  count : st.states_explored = st.visited.length
  goal_not_visited : goal ∉ st.visited
  vclosure : ∀ k ∈ st.visited, ∀ t, Adj grid k t → t ∈ dKeys st.parent
  keys_cover : ∀ k ∈ dKeys st.parent, k ∈ st.visited ∨ k ∈ st.stack

theorem dfsInv_init (grid : Grid) (start goal : State) :
    DfsInv grid start goal (dfsInit start) := by
  refine ⟨goodParent_init grid start, ?_, ?_, ?_, ?_, ?_, ?_, ?_, ?_, ?_, ?_⟩
  · simp [dfsInit, dKeys]
  · intro k hk
    simp [dfsInit, dKeys] at hk
    exact Or.inl hk
  · intro k hk
    simp [dfsInit, dKeys] at hk
    exact hk ▸ ⟨0, ReachN.zero⟩
  · intro q hq
    simp [dfsInit] at hq
    simp [dfsInit, dKeys, hq]
  · intro v hv
    simp [dfsInit] at hv
  · simp [dfsInit]
  · simp [dfsInit]
  · simp [dfsInit]
  · intro k hk
    simp [dfsInit] at hk
  · intro k hk
    simp [dfsInit, dKeys] at hk
    simp [dfsInit, hk]

theorem dfsInv_step {grid : Grid} {start goal : State} {st st' : DfsSt}
    (h : dfsStep grid goal st = .inl st') (hinv : DfsInv grid start goal st) :
    DfsInv grid start goal st' := by
  obtain ⟨⟨gstart, gnone, gedge, rk, grk⟩, knd, kfree, kreach, ssub, vsub, vnd, cnt,
    gnv, vclos, kcov⟩ := hinv
  rcases dfsStep_inl_char h with ⟨state, rest, hq, hv, hst'⟩ |
    ⟨state, rest, fresh, hq, hv, hg, h1, h2, h3, h4, h5, h6, h7⟩
  · -- duplicate pop, skipped
    subst hst'
    refine ⟨⟨gstart, gnone, gedge, rk, grk⟩, knd, kfree, kreach, ?_, vsub, vnd, cnt,
      gnv, vclos, ?_⟩
    · intro q hqm
      exact ssub q (by rw [hq]; exact List.mem_cons_of_mem _ hqm)
    · intro k hk
      rcases kcov k hk with hk2 | hk2
      · exact Or.inl hk2
      · rw [hq] at hk2
        rcases List.mem_cons.mp hk2 with hk2 | hk2
        · exact Or.inl (hk2 ▸ hv)
        · exact Or.inr hk2
  · -- expansion
    have hstate_mem : state ∈ dKeys st.parent :=
      ssub state (by rw [hq]; exact List.mem_cons_self _ _)
    have hkeys' : dKeys st'.parent = dKeys st.parent ++ fresh := by
      rw [h2, dKeys_append, dKeys_mapConst_eq]
    have hfresh_not_old : ∀ t ∈ fresh, t ∉ dKeys st.parent := fun t ht => (h6 t ht).2
    have hfresh_adj : ∀ t ∈ fresh, Adj grid state t := fun t ht => (h6 t ht).1
    have hcases : ∀ k v, dLookup st'.parent k = some v →
        dLookup st.parent k = some v ∨ (k ∉ dKeys st.parent ∧ k ∈ fresh ∧ v = some state) := by
      intro k v hkv
      rw [h2] at hkv
      rcases dLookup_append_cases hkv with hold | ⟨hnone, hnew⟩
      · exact Or.inl hold
      · refine Or.inr ⟨(dLookup_eq_none_iff _ _).mp hnone, ?_, dLookup_mapConst fresh hnew⟩
        have := (dLookup_isSome_iff _ k).mp (by rw [hnew]; rfl)
        rwa [dKeys_mapConst_eq] at this
    constructor
    · refine ⟨?_, ?_, ?_, ?_⟩
      · rw [h2]
        exact dLookup_append_of_isSome _ gstart
      · intro k hk
        rcases hcases k none hk with hold | ⟨-, -, hvv⟩
        · exact gnone k hold
        · exact absurd hvv (by simp)
      · intro k p hk
        rcases hcases k (some p) hk with hold | ⟨-, hkf, hvv⟩
        · obtain ⟨hp1, hp2⟩ := gedge k p hold
          exact ⟨by rw [hkeys']; exact List.mem_append_left _ hp1, hp2⟩
        · obtain rfl : p = state := by simpa using hvv
          exact ⟨by rw [hkeys']; exact List.mem_append_left _ hstate_mem, hfresh_adj k hkf⟩
      · classical
        refine ⟨fun x => if x ∈ fresh then ((dKeys st.parent).map rk).foldr max 0 + 1
          else rk x, ?_⟩
        intro k p hk
        dsimp only
        rcases hcases k (some p) hk with hold | ⟨-, hkf, hvv⟩
        · have hkm : k ∈ dKeys st.parent := (dLookup_isSome_iff _ k).mp (by rw [hold]; rfl)
          have hpm : p ∈ dKeys st.parent := (gedge k p hold).1
          rw [if_neg (fun hc => hfresh_not_old k hc hkm),
            if_neg (fun hc => hfresh_not_old p hc hpm)]
          exact grk k p hold
        · obtain rfl : p = state := by simpa using hvv
          rw [if_pos hkf, if_neg (fun hc => hfresh_not_old p hc hstate_mem)]
          have : rk p ≤ ((dKeys st.parent).map rk).foldr max 0 :=
            le_foldr_max _ _ (List.mem_map.mpr ⟨p, hstate_mem, rfl⟩)
          omega
    · rw [hkeys']
      exact knd.append h5 (fun t ht1 ht2 => hfresh_not_old t ht2 ht1)
    · intro k hk
      rw [hkeys'] at hk
      rcases List.mem_append.mp hk with hk | hk
      · exact kfree k hk
      · exact Or.inr (adj_free (hfresh_adj k hk))
    · intro k hk
      rw [hkeys'] at hk
      rcases List.mem_append.mp hk with hk | hk
      · exact kreach k hk
      · obtain ⟨n, hr⟩ := kreach state hstate_mem
        exact ⟨n + 1, ReachN.succ hr (hfresh_adj k hk)⟩
    · intro q hqm
      rw [h1] at hqm
      rw [hkeys']
      rcases List.mem_append.mp hqm with hqm | hqm
      · exact hkeys' ▸ h7 q (adj_iff_mem_map.mpr hqm)
      · exact List.mem_append_left _ (ssub q (by rw [hq]; exact List.mem_cons_of_mem _ hqm))
    · intro v hvv
      rw [h3] at hvv
      rw [hkeys']
      rcases List.mem_append.mp hvv with hvv | hvv
      · exact List.mem_append_left _ (vsub v hvv)
      · obtain rfl : v = state := by simpa using hvv
        exact List.mem_append_left _ hstate_mem
    · rw [h3]
      refine List.Nodup.append vnd (List.nodup_singleton state) ?_
      intro t ht1 ht2
      obtain rfl : t = state := by simpa using ht2
      exact hv ht1
    · rw [h4, h3, List.length_append, List.length_cons, List.length_nil, cnt]
    · rw [h3]
      intro hc
      rcases List.mem_append.mp hc with hc | hc
      · exact gnv hc
      · have : goal = state := by simpa using hc
        exact hg this.symm
    · intro k hk t hadj
      rw [h3] at hk
      rw [hkeys']
      rcases List.mem_append.mp hk with hk | hk
      · exact List.mem_append_left _ (vclos k hk t hadj)
      · obtain rfl : k = state := by simpa using hk
        exact hkeys' ▸ h7 t hadj
    · intro k hk
      rw [hkeys'] at hk
      rw [h1, h3]
      rcases List.mem_append.mp hk with hk | hk
      · rcases kcov k hk with hk2 | hk2
        · exact Or.inl (List.mem_append_left _ hk2)
        · rw [hq] at hk2
          rcases List.mem_cons.mp hk2 with hk2 | hk2
          · exact Or.inl (List.mem_append_right _ (by simp [hk2]))
          · exact Or.inr (List.mem_append_right _ hk2)
      · refine Or.inr (List.mem_append_left _ ?_)
        exact adj_iff_mem_map.mp (hfresh_adj k hk)

theorem dfsInv_parent_le {grid : Grid} {start goal : State} {st : DfsSt}
    (hinv : DfsInv grid start goal st) :
    st.parent.length ≤ grid.length * grid.length + 1 := by
  have h1 : (dKeys st.parent).length ≤ (start :: allCells grid).length := by
    refine nodup_subset_length_le hinv.keys_nodup ?_
    intro k hk
    rcases hinv.keys_free k hk with hk | hk
    · exact hk ▸ List.mem_cons_self _ _
    · exact List.mem_cons_of_mem _ (freeCell_mem_allCells hk)
  rw [List.length_cons, allCells_length] at h1
  have : (dKeys st.parent).length = st.parent.length := List.length_map _ _
  omega

theorem dfsInv_visited_le {grid : Grid} {start goal : State} {st : DfsSt}
    (hinv : DfsInv grid start goal st) :
    st.visited.length ≤ grid.length * grid.length + 1 := by
  have h1 : st.visited.length ≤ (start :: allCells grid).length := by
    refine nodup_subset_length_le hinv.visited_nodup ?_
    intro k hk
    rcases hinv.keys_free k (hinv.visited_sub k hk) with hk | hk
    · exact hk ▸ List.mem_cons_self _ _
    · exact List.mem_cons_of_mem _ (freeCell_mem_allCells hk)
  rw [List.length_cons, allCells_length] at h1
  omega

theorem dfs_loop_some (grid : Grid) (start goal : State) :
    ∃ stf, dfsLoop grid goal (dfsFuel grid) (dfsInit start) = some stf := by
  have := iterStep_total (dfsStep grid goal)
    (P := DfsInv grid start goal)
    (fun st => st.stack.length +
      5 * ((grid.length * grid.length + 1) - st.visited.length))
    (fun st st' hs hP => dfsInv_step hs hP)
    (fun st st' hs hP => by
      have hP' := dfsInv_step hs hP
      have hvle' := dfsInv_visited_le hP'
      rcases dfsStep_inl_char hs with ⟨state, rest, hq, hv, hst'⟩ |
        ⟨state, rest, fresh, hq, hv, hg, h1, h2, h3, h4, -, -, -⟩
      · subst hst'
        have e3 : st.stack.length = rest.length + 1 := by rw [hq]; rfl
        dsimp only
        omega
      · have e1 : st'.stack.length ≤ 4 + rest.length := by
          rw [h1, List.length_append, List.length_map]
          have := get_neighbors_length_le state grid
          omega
        have e2 : st'.visited.length = st.visited.length + 1 := by
          rw [h3, List.length_append, List.length_cons, List.length_nil]
        have e3 : st.stack.length = rest.length + 1 := by rw [hq]; rfl
        rw [e2] at hvle'
        dsimp only
        omega)
    (dfsFuel grid) (dfsInit start) (dfsInv_init grid start goal)
    (by
      rw [dfsFuel]
      simp [dfsInit]
      omega)
  exact this

/-- Every DFS run, packaged. -/
theorem dfs_run (grid : Grid) (start goal : State) :
    ∃ st0 stf, DfsInv grid start goal st0 ∧ dfsStep grid goal st0 = .inr stf ∧
      dfs grid start goal = some (reconstruct_path stf.parent start goal,
        stf.states_explored) := by
  obtain ⟨stf, hloop⟩ := dfs_loop_some grid start goal
  obtain ⟨st0, hreach, hlast⟩ := iterStep_last hloop
  have hinv0 := iterReach_inv (dfsInv_init grid start goal)
    (fun st st' hs hP => dfsInv_step hs hP) st0 hreach
  refine ⟨st0, stf, hinv0, hlast, ?_⟩
  rw [dfs, hloop]
  rfl

/-! ## DLS invariants -/

theorem dlsPushAux_char (state : State) (depth : Int) :
    ∀ (l : List (State × Action)) (parent : PMap) (stack : List (State × Int)),
      ∃ fresh : List State,
        (l.foldl (fun acc nb =>
          (if dContains acc.1 nb.1 then acc.1 else acc.1 ++ [(nb.1, some state)],
           (nb.1, depth + 1) :: acc.2)) (parent, stack)).1 =
          parent ++ fresh.map (fun t => (t, some state)) ∧
        (l.foldl (fun acc nb =>
          (if dContains acc.1 nb.1 then acc.1 else acc.1 ++ [(nb.1, some state)],
           (nb.1, depth + 1) :: acc.2)) (parent, stack)).2 =
          l.reverse.map (fun nb => (nb.1, depth + 1)) ++ stack ∧
        fresh.Nodup ∧ (∀ t ∈ fresh, t ∈ l.map (·.1) ∧ t ∉ dKeys parent) ∧
        (∀ t ∈ l.map (·.1), t ∈ dKeys (l.foldl (fun acc nb =>
          (if dContains acc.1 nb.1 then acc.1 else acc.1 ++ [(nb.1, some state)],
           (nb.1, depth + 1) :: acc.2)) (parent, stack)).1) := by
  intro l
  induction l with
  | nil =>
    intro parent stack
    exact ⟨[], by simp, by simp, List.nodup_nil, by simp, by simp⟩
  | cons nb l ih =>
    intro parent stack
    rw [List.foldl_cons]
    by_cases hc : dContains parent nb.1
    · have hacc : (if dContains parent nb.1 then parent else parent ++ [(nb.1, some state)],
          ((nb.1, depth + 1)) :: stack) = (parent, (nb.1, depth + 1) :: stack) := by
        rw [if_pos hc]
      rw [hacc]
      obtain ⟨fresh, h1, h2, h3, h4, h5⟩ := ih parent ((nb.1, depth + 1) :: stack)
      refine ⟨fresh, h1, ?_, h3, ?_, ?_⟩
      · rw [h2]
        simp
      · intro t ht
        obtain ⟨ht1, ht2⟩ := h4 t ht
        exact ⟨List.mem_cons_of_mem _ ht1, ht2⟩
      · intro t ht
        rcases List.mem_cons.mp ht with ht | ht
        · subst ht
          rw [h1, dKeys_append]
          exact List.mem_append_left _ ((dContains_iff_mem_keys _ _).mp hc)
        · exact h5 t ht
    · have hacc : (if dContains parent nb.1 then parent else parent ++ [(nb.1, some state)],
          ((nb.1, depth + 1)) :: stack) =
          (parent ++ [(nb.1, some state)], (nb.1, depth + 1) :: stack) := by
        rw [if_neg hc]
      rw [hacc]
      obtain ⟨fresh, h1, h2, h3, h4, h5⟩ :=
        ih (parent ++ [(nb.1, some state)]) ((nb.1, depth + 1) :: stack)
      refine ⟨nb.1 :: fresh, ?_, ?_, ?_, ?_, ?_⟩
      · rw [h1]
        simp
      · rw [h2]
        simp
      · refine List.nodup_cons.mpr ⟨?_, h3⟩
        intro hmem
        apply (h4 nb.1 hmem).2
        rw [dKeys_append]
        exact List.mem_append_right _ (by simp [dKeys])
      · intro t ht
        rcases List.mem_cons.mp ht with ht | ht
        · subst ht
          refine ⟨by simp, ?_⟩
          intro hmem
          exact hc ((dContains_iff_mem_keys _ _).mpr hmem)
        · obtain ⟨ht1, ht2⟩ := h4 t ht
          refine ⟨List.mem_cons_of_mem _ ht1, ?_⟩
          intro hmem
          apply ht2
          rw [dKeys_append]
          exact List.mem_append_left _ hmem
      · intro t ht
        rcases List.mem_cons.mp ht with ht | ht
        · subst ht
          rw [h1, dKeys_append]
          apply List.mem_append_left
          rw [dKeys_append]
          exact List.mem_append_right _ (by simp [dKeys])
        · exact h5 t ht

theorem dlsPush_char (state : State) (depth : Int) (nbrs : List (State × Action))
    (parent : PMap) (stack : List (State × Int)) :
    ∃ fresh : List State,
      (dlsPush state depth nbrs parent stack).1 =
        parent ++ fresh.map (fun t => (t, some state)) ∧
      (dlsPush state depth nbrs parent stack).2 =
        nbrs.map (fun nb => (nb.1, depth + 1)) ++ stack ∧
      fresh.Nodup ∧ (∀ t ∈ fresh, t ∈ nbrs.map (·.1) ∧ t ∉ dKeys parent) ∧
      (∀ t ∈ nbrs.map (·.1), t ∈ dKeys (dlsPush state depth nbrs parent stack).1) := by
  obtain ⟨fresh, h1, h2, h3, h4, h5⟩ := dlsPushAux_char state depth nbrs.reverse parent stack
  rw [dlsPush]
  refine ⟨fresh, h1, ?_, h3, ?_, ?_⟩
  · rw [h2]
    simp
  · intro t ht
    obtain ⟨ht1, ht2⟩ := h4 t ht
    rw [List.map_reverse, List.mem_reverse] at ht1
    exact ⟨ht1, ht2⟩
  · intro t ht
    apply h5
    rw [List.map_reverse, List.mem_reverse]
    exact ht

/-- Shape of one continuing DLS iteration: a skipped duplicate pop, an
expansion that pushes (depth < limit), or an expansion at the depth limit. -/
theorem dlsStep_inl_char {grid : Grid} {goal : State} {limit : Int} {st st' : DlsSt}
    (h : dlsStep grid goal limit st = .inl st') :
    (∃ state depth rest, st.stack = (state, depth) :: rest ∧ state ∈ st.visited ∧
      st' = ⟨rest, st.parent, st.visited, st.states_explored⟩) ∨
    (∃ (state : State) (depth : Int) (rest : List (State × Int)) (fresh : List State),
      st.stack = (state, depth) :: rest ∧ state ∉ st.visited ∧ state ≠ goal ∧
      depth < limit ∧
      st'.stack = (get_neighbors state grid).map (fun nb => (nb.1, depth + 1)) ++ rest ∧
      st'.parent = st.parent ++ fresh.map (fun t => (t, some state)) ∧
      st'.visited = st.visited ++ [state] ∧
      st'.states_explored = st.states_explored + 1 ∧ fresh.Nodup ∧
      (∀ t ∈ fresh, Adj grid state t ∧ t ∉ dKeys st.parent) ∧
      (∀ t, Adj grid state t → t ∈ dKeys st'.parent)) ∨
    (∃ (state : State) (depth : Int) (rest : List (State × Int)),
      st.stack = (state, depth) :: rest ∧ state ∉ st.visited ∧ state ≠ goal ∧
      ¬ depth < limit ∧
      st' = ⟨rest, st.parent, st.visited ++ [state], st.states_explored + 1⟩) := by
  rw [dlsStep] at h
  cases hq : st.stack with
  | nil => rw [hq] at h; exact absurd h (by simp)
  | cons entry rest =>
    obtain ⟨state, depth⟩ := entry
    rw [hq] at h
    have h : (if state ∈ st.visited then
        Sum.inl (⟨rest, st.parent, st.visited, st.states_explored⟩ : DlsSt)
      else if state = goal then
        Sum.inr (⟨rest, st.parent, st.visited ++ [state], st.states_explored + 1⟩ : DlsSt)
      else if depth < limit then
        Sum.inl (⟨(dlsPush state depth (get_neighbors state grid) st.parent rest).2,
          (dlsPush state depth (get_neighbors state grid) st.parent rest).1,
          st.visited ++ [state], st.states_explored + 1⟩ : DlsSt)
      else Sum.inl (⟨rest, st.parent, st.visited ++ [state],
        st.states_explored + 1⟩ : DlsSt)) = Sum.inl st' := h
    by_cases hv : state ∈ st.visited
    · rw [if_pos hv] at h
      exact Or.inl ⟨state, depth, rest, rfl, hv, (Sum.inl.inj h).symm⟩
    · rw [if_neg hv] at h
      by_cases hg : state = goal
      · rw [if_pos hg] at h
        exact absurd h (by simp)
      · rw [if_neg hg] at h
        by_cases hd : depth < limit
        · rw [if_pos hd] at h
          have h2 := Sum.inl.inj h
          obtain ⟨fresh, h1, hst2, h3, h4, h5⟩ :=
            dlsPush_char state depth (get_neighbors state grid) st.parent rest
          refine Or.inr (Or.inl ⟨state, depth, rest, fresh, rfl, hv, hg, hd,
            ?_, ?_, ?_, ?_, h3, ?_, ?_⟩)
          · rw [← h2]
            exact hst2
          · rw [← h2]
            exact h1
          · rw [← h2]
          · rw [← h2]
          · intro t ht
            obtain ⟨ht1, ht2⟩ := h4 t ht
            exact ⟨adj_iff_mem_map.mpr ht1, ht2⟩
          · intro t ht
            rw [← h2]
            exact h5 t (adj_iff_mem_map.mp ht)
        · rw [if_neg hd] at h
          exact Or.inr (Or.inr ⟨state, depth, rest, rfl, hv, hg, hd, (Sum.inl.inj h).symm⟩)

/-- Shape of the final DLS iteration: empty stack, or the goal expanded. -/
theorem dlsStep_inr_char {grid : Grid} {goal : State} {limit : Int} {st stf : DlsSt}
    (h : dlsStep grid goal limit st = .inr stf) :
    (st.stack = [] ∧ stf = st) ∨
    (∃ depth rest, st.stack = (goal, depth) :: rest ∧ goal ∉ st.visited ∧
      stf = ⟨rest, st.parent, st.visited ++ [goal], st.states_explored + 1⟩) := by
  rw [dlsStep] at h
  cases hq : st.stack with
  | nil =>
    rw [hq] at h
    have h : Sum.inr st = Sum.inr stf := h
    exact Or.inl ⟨rfl, (Sum.inr.inj h).symm⟩
  | cons entry rest =>
    obtain ⟨state, depth⟩ := entry
    rw [hq] at h
    have h : (if state ∈ st.visited then
        Sum.inl (⟨rest, st.parent, st.visited, st.states_explored⟩ : DlsSt)
      else if state = goal then
        Sum.inr (⟨rest, st.parent, st.visited ++ [state], st.states_explored + 1⟩ : DlsSt)
      else if depth < limit then
        Sum.inl (⟨(dlsPush state depth (get_neighbors state grid) st.parent rest).2,
          (dlsPush state depth (get_neighbors state grid) st.parent rest).1,
          st.visited ++ [state], st.states_explored + 1⟩ : DlsSt)
      else Sum.inl (⟨rest, st.parent, st.visited ++ [state],
        st.states_explored + 1⟩ : DlsSt)) = Sum.inr stf := h
    by_cases hv : state ∈ st.visited
    · rw [if_pos hv] at h
      exact absurd h (by simp)
    · rw [if_neg hv] at h
      by_cases hg : state = goal
      · rw [if_pos hg] at h
        have h2 := Sum.inr.inj h
        subst hg
        exact Or.inr ⟨depth, rest, rfl, hv, h2.symm⟩
      · rw [if_neg hg] at h
        by_cases hd : depth < limit
        · rw [if_pos hd] at h
          exact absurd h (by simp)
        · rw [if_neg hd] at h
          exact absurd h (by simp)

/-- Everything the DLS loop maintains (the depth-bound facts needed for the
limit guarantee are layered on separately). -/
structure DlsInv (grid : Grid) (start goal : State) (st : DlsSt) : Prop where
  good : GoodParent grid start st.parent
  keys_nodup : (dKeys st.parent).Nodup
  keys_free : ∀ k ∈ dKeys st.parent, k = start ∨ FreeCell grid k
  keys_reach : ∀ k ∈ dKeys st.parent, Reaches grid start k
  stack_sub : ∀ q ∈ st.stack, q.1 ∈ dKeys st.parent
  visited_sub : ∀ v ∈ st.visited, v ∈ dKeys st.parent
  visited_nodup : st.visited.Nodup
  count : st.states_explored = st.visited.length

theorem dlsInv_init (grid : Grid) (start goal : State) :
    DlsInv grid start goal (dlsInit start) := by
  refine ⟨goodParent_init grid start, ?_, ?_, ?_, ?_, ?_, ?_, ?_⟩
  · simp [dlsInit, dKeys]
  · intro k hk
    simp [dlsInit, dKeys] at hk
    exact Or.inl hk
  · intro k hk
    simp [dlsInit, dKeys] at hk
    exact hk ▸ ⟨0, ReachN.zero⟩
  · intro q hq
    simp [dlsInit] at hq
    simp [dlsInit, dKeys, hq]
  · intro v hv
    simp [dlsInit] at hv
  · simp [dlsInit]
  · simp [dlsInit]

theorem dlsInv_step {grid : Grid} {start goal : State} {limit : Int} {st st' : DlsSt}
    (h : dlsStep grid goal limit st = .inl st') (hinv : DlsInv grid start goal st) :
    DlsInv grid start goal st' := by
  obtain ⟨⟨gstart, gnone, gedge, rk, grk⟩, knd, kfree, kreach, ssub, vsub, vnd, cnt⟩ := hinv
  rcases dlsStep_inl_char h with ⟨state, depth, rest, hq, hv, hst'⟩ |
    ⟨state, depth, rest, fresh, hq, hv, hg, hd, h1, h2, h3, h4, h5, h6, h7⟩ |
    ⟨state, depth, rest, hq, hv, hg, hd, hst'⟩
  · subst hst'
    refine ⟨⟨gstart, gnone, gedge, rk, grk⟩, knd, kfree, kreach, ?_, vsub, vnd, cnt⟩
    intro q hqm
    exact ssub q (by rw [hq]; exact List.mem_cons_of_mem _ hqm)
  · have hstate_mem : state ∈ dKeys st.parent :=
      ssub (state, depth) (by rw [hq]; exact List.mem_cons_self _ _)
    have hkeys' : dKeys st'.parent = dKeys st.parent ++ fresh := by
      rw [h2, dKeys_append, dKeys_mapConst_eq]
    have hfresh_not_old : ∀ t ∈ fresh, t ∉ dKeys st.parent := fun t ht => (h6 t ht).2
    have hfresh_adj : ∀ t ∈ fresh, Adj grid state t := fun t ht => (h6 t ht).1
    have hcases : ∀ k v, dLookup st'.parent k = some v →
        dLookup st.parent k = some v ∨ (k ∉ dKeys st.parent ∧ k ∈ fresh ∧ v = some state) := by
      intro k v hkv
      rw [h2] at hkv
      rcases dLookup_append_cases hkv with hold | ⟨hnone, hnew⟩
      · exact Or.inl hold
      · refine Or.inr ⟨(dLookup_eq_none_iff _ _).mp hnone, ?_, dLookup_mapConst fresh hnew⟩
        have := (dLookup_isSome_iff _ k).mp (by rw [hnew]; rfl)
        rwa [dKeys_mapConst_eq] at this
    constructor
    · refine ⟨?_, ?_, ?_, ?_⟩
      · rw [h2]
        exact dLookup_append_of_isSome _ gstart
      · intro k hk
        rcases hcases k none hk with hold | ⟨-, -, hvv⟩
        · exact gnone k hold
        · exact absurd hvv (by simp)
      · intro k p hk
        rcases hcases k (some p) hk with hold | ⟨-, hkf, hvv⟩
        · obtain ⟨hp1, hp2⟩ := gedge k p hold
          exact ⟨by rw [hkeys']; exact List.mem_append_left _ hp1, hp2⟩
        · obtain rfl : p = state := by simpa using hvv
          exact ⟨by rw [hkeys']; exact List.mem_append_left _ hstate_mem, hfresh_adj k hkf⟩
      · classical
        refine ⟨fun x => if x ∈ fresh then ((dKeys st.parent).map rk).foldr max 0 + 1
          else rk x, ?_⟩
        intro k p hk
        dsimp only
        rcases hcases k (some p) hk with hold | ⟨-, hkf, hvv⟩
        · have hkm : k ∈ dKeys st.parent := (dLookup_isSome_iff _ k).mp (by rw [hold]; rfl)
          have hpm : p ∈ dKeys st.parent := (gedge k p hold).1
          rw [if_neg (fun hc => hfresh_not_old k hc hkm),
            if_neg (fun hc => hfresh_not_old p hc hpm)]
          exact grk k p hold
        · obtain rfl : p = state := by simpa using hvv
          rw [if_pos hkf, if_neg (fun hc => hfresh_not_old p hc hstate_mem)]
          have : rk p ≤ ((dKeys st.parent).map rk).foldr max 0 :=
            le_foldr_max _ _ (List.mem_map.mpr ⟨p, hstate_mem, rfl⟩)
          omega
    · rw [hkeys']
      exact knd.append h5 (fun t ht1 ht2 => hfresh_not_old t ht2 ht1)
    · intro k hk
      rw [hkeys'] at hk
      rcases List.mem_append.mp hk with hk | hk
      · exact kfree k hk
      · exact Or.inr (adj_free (hfresh_adj k hk))
    · intro k hk
      rw [hkeys'] at hk
      rcases List.mem_append.mp hk with hk | hk
      · exact kreach k hk
      · obtain ⟨n, hr⟩ := kreach state hstate_mem
        exact ⟨n + 1, ReachN.succ hr (hfresh_adj k hk)⟩
    · intro q hqm
      rw [h1] at hqm
      rcases List.mem_append.mp hqm with hqm | hqm
      · obtain ⟨nb, hnb, rfl⟩ := List.mem_map.mp hqm
        exact hkeys' ▸ h7 nb.1 (adj_iff_mem_map.mpr (List.mem_map.mpr ⟨nb, hnb, rfl⟩))
      · rw [hkeys']
        exact List.mem_append_left _
          (ssub q (by rw [hq]; exact List.mem_cons_of_mem _ hqm))
    · intro v hvv
      rw [h3] at hvv
      rw [hkeys']
      rcases List.mem_append.mp hvv with hvv | hvv
      · exact List.mem_append_left _ (vsub v hvv)
      · obtain rfl : v = state := by simpa using hvv
        exact List.mem_append_left _ hstate_mem
    · rw [h3]
      refine List.Nodup.append vnd (List.nodup_singleton state) ?_
      intro t ht1 ht2
      obtain rfl : t = state := by simpa using ht2
      exact hv ht1
    · rw [h4, h3, List.length_append, List.length_cons, List.length_nil, cnt]
  · subst hst'
    refine ⟨⟨gstart, gnone, gedge, rk, grk⟩, knd, kfree, kreach, ?_, ?_, ?_, ?_⟩
    · intro q hqm
      exact ssub q (by rw [hq]; exact List.mem_cons_of_mem _ hqm)
    · intro v hvv
      rcases List.mem_append.mp hvv with hvv | hvv
      · exact vsub v hvv
      · obtain rfl : v = state := by simpa using hvv
        exact ssub (v, depth) (by rw [hq]; exact List.mem_cons_self _ _)
    · refine List.Nodup.append vnd (List.nodup_singleton state) ?_
      intro t ht1 ht2
      obtain rfl : t = state := by simpa using ht2
      exact hv ht1
    · rw [List.length_append, List.length_cons, List.length_nil, cnt]

theorem dlsInv_visited_le {grid : Grid} {start goal : State} {st : DlsSt}
    (hinv : DlsInv grid start goal st) :
    st.visited.length ≤ grid.length * grid.length + 1 := by
  have h1 : st.visited.length ≤ (start :: allCells grid).length := by
    refine nodup_subset_length_le hinv.visited_nodup ?_
    intro k hk
    rcases hinv.keys_free k (hinv.visited_sub k hk) with hk | hk
    · exact hk ▸ List.mem_cons_self _ _
    · exact List.mem_cons_of_mem _ (freeCell_mem_allCells hk)
  rw [List.length_cons, allCells_length] at h1
  omega

theorem dls_loop_some (grid : Grid) (start goal : State) (limit : Int) :
    ∃ stf, dlsLoop grid goal limit (dfsFuel grid) (dlsInit start) = some stf := by
  have := iterStep_total (dlsStep grid goal limit)
    (P := DlsInv grid start goal)
    (fun st => st.stack.length +
      5 * ((grid.length * grid.length + 1) - st.visited.length))
    (fun st st' hs hP => dlsInv_step hs hP)
    (fun st st' hs hP => by
      have hP' := dlsInv_step hs hP
      have hvle' := dlsInv_visited_le hP'
      rcases dlsStep_inl_char hs with ⟨state, depth, rest, hq, hv, hst'⟩ |
        ⟨state, depth, rest, fresh, hq, hv, hg, hd, h1, h2, h3, h4, -, -, -⟩ |
        ⟨state, depth, rest, hq, hv, hg, hd, hst'⟩
      · subst hst'
        have e3 : st.stack.length = rest.length + 1 := by rw [hq]; rfl
        dsimp only
        omega
      · have e1 : st'.stack.length ≤ 4 + rest.length := by
          rw [h1, List.length_append, List.length_map]
          have := get_neighbors_length_le state grid
          omega
        have e2 : st'.visited.length = st.visited.length + 1 := by
          rw [h3, List.length_append, List.length_cons, List.length_nil]
        have e3 : st.stack.length = rest.length + 1 := by rw [hq]; rfl
        rw [e2] at hvle'
        dsimp only
        omega
      · subst hst'
        have e2 : (st.visited ++ [state]).length = st.visited.length + 1 := by
          rw [List.length_append, List.length_cons, List.length_nil]
        have e3 : st.stack.length = rest.length + 1 := by rw [hq]; rfl
        simp only [e2] at hvle'
        dsimp only
        rw [e2]
        omega)
    (dfsFuel grid) (dlsInit start) (dlsInv_init grid start goal)
    (by
      rw [dfsFuel]
      simp [dlsInit]
      omega)
  exact this

/-- Every DLS run, packaged. -/
theorem dls_run (grid : Grid) (start goal : State) (limit : Int) :
    ∃ st0 stf, DlsInv grid start goal st0 ∧ dlsStep grid goal limit st0 = .inr stf ∧
      dls grid start goal limit = some (reconstruct_path stf.parent start goal,
        stf.states_explored) := by
  obtain ⟨stf, hloop⟩ := dls_loop_some grid start goal limit
  obtain ⟨st0, hreach, hlast⟩ := iterStep_last hloop
  have hinv0 := iterReach_inv (dlsInv_init grid start goal)
    (fun st st' hs hP => dlsInv_step hs hP) st0 hreach
  refine ⟨st0, stf, hinv0, hlast, ?_⟩
  rw [dls, hloop]
  rfl

/-! ## UCS invariants -/

theorem get_neighbors_ne {s t : State} {a : Action} {g : Grid}
    (h : (t, a) ∈ get_neighbors s g) : t ≠ s := by
  obtain ⟨ha, ht, -⟩ := mem_get_neighbors.mp h
  intro hc
  subst hc
  obtain ⟨h1, h2⟩ := Prod.ext_iff.mp ht
  fin_cases ha <;> simp at h1 h2

theorem adj_ne {g : Grid} {s t : State} (h : Adj g s t) : t ≠ s := by
  obtain ⟨a, ha⟩ := h
  exact get_neighbors_ne ha

/-- Shape of one continuing UCS iteration. -/
theorem ucsStep_inl_char {grid : Grid} {goal : State} {cost_fn : Action → Int}
    {st st' : UcsSt} (h : ucsStep grid goal cost_fn st = .inl st') :
    (∃ c s rest, popMin ucsKeyLe st.frontier = some ((c, s), rest) ∧ s ∈ st.visited ∧
      st' = ⟨rest, st.parent, st.cost_so_far, st.visited, st.states_explored⟩) ∨
    (∃ c s rest, popMin ucsKeyLe st.frontier = some ((c, s), rest) ∧ s ∉ st.visited ∧
      s ≠ goal ∧ st' = ucsRelax cost_fn s c (get_neighbors s grid)
        ⟨rest, st.parent, st.cost_so_far, st.visited ++ [s], st.states_explored + 1⟩) := by
  rw [ucsStep] at h
  cases hp : popMin ucsKeyLe st.frontier with
  | none => rw [hp] at h; exact absurd h (by simp)
  | some pr =>
    obtain ⟨⟨c, s⟩, rest⟩ := pr
    rw [hp] at h
    have h : (if s ∈ st.visited then
        Sum.inl (⟨rest, st.parent, st.cost_so_far, st.visited, st.states_explored⟩ : UcsSt)
      else if s = goal then
        Sum.inr (⟨rest, st.parent, st.cost_so_far, st.visited ++ [s],
          st.states_explored + 1⟩ : UcsSt)
      else Sum.inl (ucsRelax cost_fn s c (get_neighbors s grid)
        ⟨rest, st.parent, st.cost_so_far, st.visited ++ [s],
          st.states_explored + 1⟩)) = Sum.inl st' := h
    by_cases hv : s ∈ st.visited
    · rw [if_pos hv] at h
      exact Or.inl ⟨c, s, rest, rfl, hv, (Sum.inl.inj h).symm⟩
    · rw [if_neg hv] at h
      by_cases hg : s = goal
      · rw [if_pos hg] at h
        exact absurd h (by simp)
      · rw [if_neg hg] at h
        exact Or.inr ⟨c, s, rest, rfl, hv, hg, (Sum.inl.inj h).symm⟩

/-- Shape of the final UCS iteration: exhausted frontier, or the goal popped. -/
theorem ucsStep_inr_char {grid : Grid} {goal : State} {cost_fn : Action → Int}
    {st stf : UcsSt} (h : ucsStep grid goal cost_fn st = .inr stf) :
    (popMin ucsKeyLe st.frontier = none ∧ stf = st) ∨
    (∃ c rest, popMin ucsKeyLe st.frontier = some ((c, goal), rest) ∧ goal ∉ st.visited ∧
      stf = ⟨rest, st.parent, st.cost_so_far, st.visited ++ [goal],
        st.states_explored + 1⟩) := by
  rw [ucsStep] at h
  cases hp : popMin ucsKeyLe st.frontier with
  | none =>
    rw [hp] at h
    have h : Sum.inr st = Sum.inr stf := h
    exact Or.inl ⟨rfl, (Sum.inr.inj h).symm⟩
  | some pr =>
    obtain ⟨⟨c, s⟩, rest⟩ := pr
    rw [hp] at h
    have h : (if s ∈ st.visited then
        Sum.inl (⟨rest, st.parent, st.cost_so_far, st.visited, st.states_explored⟩ : UcsSt)
      else if s = goal then
        Sum.inr (⟨rest, st.parent, st.cost_so_far, st.visited ++ [s],
          st.states_explored + 1⟩ : UcsSt)
      else Sum.inl (ucsRelax cost_fn s c (get_neighbors s grid)
        ⟨rest, st.parent, st.cost_so_far, st.visited ++ [s],
          st.states_explored + 1⟩)) = Sum.inr stf := h
    by_cases hv : s ∈ st.visited
    · rw [if_pos hv] at h
      exact absurd h (by simp)
    · rw [if_neg hv] at h
      by_cases hg : s = goal
      · rw [if_pos hg] at h
        have h2 := Sum.inr.inj h
        subst hg
        exact Or.inr ⟨c, rest, rfl, hv, h2.symm⟩
      · rw [if_neg hg] at h
        exact absurd h (by simp)

theorem mem_dKeys_dInsert {β : Type} {m : Dict β} {k j : State} {v : β} :
    j ∈ dKeys (dInsert m k v) ↔ j ∈ dKeys m ∨ j = k := by
  rw [dKeys_dInsert]
  by_cases h : dContains m k
  · rw [if_pos h]
    constructor
    · exact Or.inl
    · rintro (hj | rfl)
      · exact hj
      · exact (dContains_iff_mem_keys m j).mp h
  · rw [if_neg h]
    simp

/-- Everything the UCS loop maintains, for a strictly positive cost function.
`cost_edge` (accumulated cost strictly increases along every parent link) is
what keeps the parent chains acyclic. -/
structure UcsInv (grid : Grid) (start goal : State) (st : UcsSt) : Prop where
  gstart : dLookup st.parent start = some none
  gnone : ∀ k, dLookup st.parent k = some none → k = start
  gedge : ∀ k p, dLookup st.parent k = some (some p) → p ∈ dKeys st.parent ∧ Adj grid p k
  keys_nodup : (dKeys st.parent).Nodup
  keys_free : ∀ k ∈ dKeys st.parent, k = start ∨ FreeCell grid k
  keys_reach : ∀ k ∈ dKeys st.parent, Reaches grid start k
  keys_eq : dKeys st.cost_so_far = dKeys st.parent
  cost_start : dLookup st.cost_so_far start = some 0
  cost_nonneg : ∀ k c, dLookup st.cost_so_far k = some c → 0 ≤ c
  cost_edge : ∀ k p, dLookup st.parent k = some (some p) →
    ∃ ck cp, dLookup st.cost_so_far k = some ck ∧ dLookup st.cost_so_far p = some cp ∧
      cp < ck
  frontier_sub : ∀ e ∈ st.frontier, e.2 ∈ dKeys st.parent ∧
    ∃ c, dLookup st.cost_so_far e.2 = some c ∧ c ≤ e.1
  visited_sub : ∀ v ∈ st.visited, v ∈ dKeys st.parent
  visited_nodup : st.visited.Nodup
  count : st.states_explored = st.visited.length
  goal_not_visited : goal ∉ st.visited
  cover : ∀ k ∈ dKeys st.parent, k ∈ st.visited ∨ ∃ e ∈ st.frontier, e.2 = k

/-- Closure of the visited set (kept outside `UcsInv`: it is momentarily
broken between marking a state visited and relaxing its neighbours). -/
def UcsVC (grid : Grid) (st : UcsSt) : Prop :=
  ∀ k ∈ st.visited, ∀ t, Adj grid k t → t ∈ dKeys st.parent

/-- One relaxation preserves the UCS invariant (and the parent keys grow). -/
theorem ucsRelax1_inv {grid : Grid} {start goal s n : State} {a : Action}
    {cost_fn : Action → Int} {c : Int} {st : UcsSt}
    (hpos : ∀ x, 0 < cost_fn x) (hnb : ((n, a) : State × Action) ∈ get_neighbors s grid)
    (hinv : UcsInv grid start goal st) (hsv : s ∈ st.visited)
    (hcs : ∃ cs, dLookup st.cost_so_far s = some cs ∧ cs ≤ c)
    (hupd : dLookup st.cost_so_far n = none ∨
      (∃ old, dLookup st.cost_so_far n = some old ∧ c + cost_fn a < old)) :
    UcsInv grid start goal
      ⟨st.frontier ++ [(c + cost_fn a, n)], dInsert st.parent n (some s),
        dInsert st.cost_so_far n (c + cost_fn a), st.visited, st.states_explored⟩ := by
  obtain ⟨cs, hcs1, hcs2⟩ := hcs
  obtain ⟨gstart, gnone, gedge, knd, kfree, kreach, keq, czero, cnn, cedge, fsub, vsub,
    vnd, cnt, gnv, cov⟩ := hinv
  set new := c + cost_fn a with hnew
  have hns : n ≠ s := get_neighbors_ne hnb
  have hadj : Adj grid s n := ⟨a, hnb⟩
  have hsmem : s ∈ dKeys st.parent := vsub s hsv
  have hcsnn : 0 ≤ cs := cnn s cs hcs1
  have hnewge : cs + 1 ≤ new := by
    have := hpos a
    omega
  have hnewpos : 0 < new := by omega
  have hnstart : n ≠ start := by
    intro hc
    subst hc
    rcases hupd with hupd | ⟨old, hold, hlt⟩
    · rw [czero] at hupd
      exact absurd hupd (by simp)
    · rw [czero] at hold
      have : old = 0 := by simpa using hold.symm
      omega
  have hkeys_sup : ∀ j, j ∈ dKeys st.parent → j ∈ dKeys (dInsert st.parent n (some s)) :=
    fun j hj => mem_dKeys_dInsert.mpr (Or.inl hj)
  have hlp_self : dLookup (dInsert st.parent n (some s)) n = some (some s) :=
    dLookup_dInsert_self _ _ _
  have hlp_ne : ∀ j, j ≠ n → dLookup (dInsert st.parent n (some s)) j =
      dLookup st.parent j := fun j hj => dLookup_dInsert_ne _ _ hj
  have hlc_self : dLookup (dInsert st.cost_so_far n new) n = some new :=
    dLookup_dInsert_self _ _ _
  have hlc_ne : ∀ j, j ≠ n → dLookup (dInsert st.cost_so_far n new) j =
      dLookup st.cost_so_far j := fun j hj => dLookup_dInsert_ne _ _ hj
  have hcont_iff : dContains st.cost_so_far n = dContains st.parent n := by
    by_cases hmem : n ∈ dKeys st.parent
    · rw [(dContains_iff_mem_keys _ _).mpr hmem,
        (dContains_iff_mem_keys _ _).mpr (keq ▸ hmem)]
    · have h1 : ¬ dContains st.parent n = true := fun hc =>
        hmem ((dContains_iff_mem_keys _ _).mp hc)
      have h2 : ¬ dContains st.cost_so_far n = true := fun hc =>
        hmem (keq ▸ (dContains_iff_mem_keys _ _).mp hc)
      rw [Bool.not_eq_true] at h1 h2
      rw [h1, h2]
  refine ⟨?_, ?_, ?_, ?_, ?_, ?_, ?_, ?_, ?_, ?_, ?_, ?_, vnd, cnt, gnv, ?_⟩
  · rw [hlp_ne start (fun hc => hnstart hc.symm)]
    exact gstart
  · intro k hk
    by_cases hkn : k = n
    · subst hkn
      rw [hlp_self] at hk
      exact absurd hk (by simp)
    · rw [hlp_ne k hkn] at hk
      exact gnone k hk
  · intro k p hk
    by_cases hkn : k = n
    · subst hkn
      rw [hlp_self] at hk
      obtain rfl : s = p := by simpa using hk
      exact ⟨hkeys_sup s hsmem, hadj⟩
    · rw [hlp_ne k hkn] at hk
      obtain ⟨hp1, hp2⟩ := gedge k p hk
      exact ⟨hkeys_sup p hp1, hp2⟩
  · rw [dKeys_dInsert]
    by_cases hc : dContains st.parent n
    · rw [if_pos hc]
      exact knd
    · rw [if_neg hc]
      refine knd.append (List.nodup_singleton n) ?_
      intro t ht1 ht2
      obtain rfl : t = n := by simpa using ht2
      exact hc ((dContains_iff_mem_keys _ _).mpr ht1)
  · intro k hk
    rcases mem_dKeys_dInsert.mp hk with hk | rfl
    · exact kfree k hk
    · exact Or.inr (adj_free hadj)
  · intro k hk
    rcases mem_dKeys_dInsert.mp hk with hk | rfl
    · exact kreach k hk
    · obtain ⟨m, hm⟩ := kreach s hsmem
      exact ⟨m + 1, ReachN.succ hm hadj⟩
  · rw [dKeys_dInsert, dKeys_dInsert, hcont_iff]
    by_cases hc : dContains st.parent n
    · rw [if_pos hc, if_pos hc, keq]
    · rw [if_neg hc, if_neg hc, keq]
  · rw [hlc_ne start (fun hc => hnstart hc.symm)]
    exact czero
  · intro k ck hk
    by_cases hkn : k = n
    · subst hkn
      rw [hlc_self] at hk
      obtain rfl : ck = new := by simpa using hk.symm
      omega
    · rw [hlc_ne k hkn] at hk
      exact cnn k ck hk
  · intro k p hk
    by_cases hkn : k = n
    · subst hkn
      rw [hlp_self] at hk
      obtain rfl : s = p := by simpa using hk
      refine ⟨new, cs, hlc_self, ?_, by omega⟩
      rw [hlc_ne s (fun hc => hns hc.symm)]
      exact hcs1
    · rw [hlp_ne k hkn] at hk
      obtain ⟨ck, cp, hck, hcp, hlt⟩ := cedge k p hk
      by_cases hpn : p = n
      · subst hpn
        rcases hupd with hupd | ⟨old, hold, holt⟩
        · rw [hupd] at hcp
          exact absurd hcp (by simp)
        · rw [hold] at hcp
          obtain rfl : cp = old := by simpa using hcp.symm
          refine ⟨ck, new, by rw [hlc_ne k hkn]; exact hck, hlc_self, by omega⟩
      · refine ⟨ck, cp, by rw [hlc_ne k hkn]; exact hck, by rw [hlc_ne p hpn]; exact hcp,
          hlt⟩
  · intro e he
    rcases List.mem_append.mp he with he | he
    · obtain ⟨he1, ce, hce1, hce2⟩ := fsub e he
      refine ⟨hkeys_sup _ he1, ?_⟩
      by_cases hen : e.2 = n
      · rw [hen, hlc_self]
        rcases hupd with hupd | ⟨old, hold, holt⟩
        · rw [hen, hupd] at hce1
          exact absurd hce1 (by simp)
        · rw [hen, hold] at hce1
          obtain rfl : ce = old := by simpa using hce1.symm
          exact ⟨new, rfl, by omega⟩
      · rw [hlc_ne _ hen]
        exact ⟨ce, hce1, hce2⟩
    · obtain rfl : e = (new, n) := by simpa using he
      exact ⟨mem_dKeys_dInsert.mpr (Or.inr rfl), new, hlc_self, le_refl _⟩
  · intro v hv
    exact hkeys_sup v (vsub v hv)
  · intro k hk
    rcases mem_dKeys_dInsert.mp hk with hk | rfl
    · rcases cov k hk with hk2 | ⟨e, he1, he2⟩
      · exact Or.inl hk2
      · exact Or.inr ⟨e, List.mem_append_left _ he1, he2⟩
    · exact Or.inr ⟨(new, k), List.mem_append_right _ (by simp), rfl⟩

theorem ucsRelax_nil (cost_fn : Action → Int) (s : State) (c : Int) (st : UcsSt) :
    ucsRelax cost_fn s c [] st = st := rfl

theorem ucsRelax_cons (cost_fn : Action → Int) (s : State) (c : Int)
    (nb : State × Action) (nbrs : List (State × Action)) (st : UcsSt) :
    ucsRelax cost_fn s c (nb :: nbrs) st = ucsRelax cost_fn s c nbrs
      (match dLookup st.cost_so_far nb.1 with
       | some old => if c + cost_fn nb.2 < old then
           ⟨st.frontier ++ [(c + cost_fn nb.2, nb.1)], dInsert st.parent nb.1 (some s),
            dInsert st.cost_so_far nb.1 (c + cost_fn nb.2), st.visited, st.states_explored⟩
         else st
       | none =>
           ⟨st.frontier ++ [(c + cost_fn nb.2, nb.1)], dInsert st.parent nb.1 (some s),
            dInsert st.cost_so_far nb.1 (c + cost_fn nb.2), st.visited,
            st.states_explored⟩) := rfl

theorem ucsRelax_cons_none {cost_fn : Action → Int} {s : State} {c : Int}
    {nb : State × Action} {st : UcsSt} (nbrs : List (State × Action))
    (h : dLookup st.cost_so_far nb.1 = none) :
    ucsRelax cost_fn s c (nb :: nbrs) st = ucsRelax cost_fn s c nbrs
      ⟨st.frontier ++ [(c + cost_fn nb.2, nb.1)], dInsert st.parent nb.1 (some s),
       dInsert st.cost_so_far nb.1 (c + cost_fn nb.2), st.visited,
       st.states_explored⟩ := by
  rw [ucsRelax_cons, h]

theorem ucsRelax_cons_some {cost_fn : Action → Int} {s : State} {c old : Int}
    {nb : State × Action} {st : UcsSt} (nbrs : List (State × Action))
    (h : dLookup st.cost_so_far nb.1 = some old) :
    ucsRelax cost_fn s c (nb :: nbrs) st = ucsRelax cost_fn s c nbrs
      (if c + cost_fn nb.2 < old then
        ⟨st.frontier ++ [(c + cost_fn nb.2, nb.1)], dInsert st.parent nb.1 (some s),
         dInsert st.cost_so_far nb.1 (c + cost_fn nb.2), st.visited, st.states_explored⟩
       else st) := by
  rw [ucsRelax_cons, h]

/-- The whole relaxation pass preserves the UCS invariant; afterwards every
neighbour of the expanded state is a parent-map key. -/
theorem ucsRelax_inv {grid : Grid} {start goal : State} {cost_fn : Action → Int}
    (hpos : ∀ x, 0 < cost_fn x) (s : State) (c : Int) :
    ∀ (nbrs : List (State × Action)) (st : UcsSt),
      (∀ nb ∈ nbrs, nb ∈ get_neighbors s grid) →
      UcsInv grid start goal st → s ∈ st.visited →
      (∃ cs, dLookup st.cost_so_far s = some cs ∧ cs ≤ c) →
      UcsInv grid start goal (ucsRelax cost_fn s c nbrs st) ∧
      (∀ nb ∈ nbrs, nb.1 ∈ dKeys (ucsRelax cost_fn s c nbrs st).parent) ∧
      (∀ k ∈ dKeys st.parent, k ∈ dKeys (ucsRelax cost_fn s c nbrs st).parent) ∧
      (ucsRelax cost_fn s c nbrs st).visited = st.visited ∧
      (ucsRelax cost_fn s c nbrs st).states_explored = st.states_explored ∧
      (ucsRelax cost_fn s c nbrs st).frontier.length ≤ st.frontier.length + nbrs.length := by
  intro nbrs
  induction nbrs with
  | nil =>
    intro st _ hinv hsv hcs
    rw [ucsRelax_nil]
    exact ⟨hinv, by simp, fun k hk => hk, rfl, rfl, by simp⟩
  | cons nb nbrs ih =>
    intro st hnb hinv hsv hcs
    obtain ⟨cs, hcs1, hcs2⟩ := hcs
    have hnb0 : nb ∈ get_neighbors s grid := hnb nb (List.mem_cons_self _ _)
    have hnbs : nb.1 ≠ s := get_neighbors_ne (by rwa [show ((nb.1, nb.2) : State × Action)
      = nb from rfl])
    cases hl : dLookup st.cost_so_far nb.1 with
    | none =>
      rw [ucsRelax_cons_none nbrs hl]
      have hinv' := ucsRelax1_inv (n := nb.1) (a := nb.2) hpos
        (by rwa [show ((nb.1, nb.2) : State × Action) = nb from rfl]) hinv hsv
        ⟨cs, hcs1, hcs2⟩ (Or.inl hl)
      have hcs' : dLookup (dInsert st.cost_so_far nb.1 (c + cost_fn nb.2)) s = some cs := by
        rw [dLookup_dInsert_ne _ _ (fun hc => hnbs hc.symm)]
        exact hcs1
      have hrest := ih _ (fun x hx => hnb x (List.mem_cons_of_mem _ hx)) hinv'
        (by exact hsv) ⟨cs, hcs', hcs2⟩
      refine ⟨hrest.1, ?_, ?_, hrest.2.2.2.1, hrest.2.2.2.2.1, ?_⟩
      · intro x hx
        rcases List.mem_cons.mp hx with hx | hx
        · subst hx
          exact hrest.2.2.1 x.1 (mem_dKeys_dInsert.mpr (Or.inr rfl))
        · exact hrest.2.1 x hx
      · intro k hk
        exact hrest.2.2.1 k (mem_dKeys_dInsert.mpr (Or.inl hk))
      · have h1 := hrest.2.2.2.2.2
        simp only [List.length_append, List.length_cons, List.length_nil] at h1 ⊢
        omega
    | some old =>
      rw [ucsRelax_cons_some nbrs hl]
      by_cases hlt : c + cost_fn nb.2 < old
      · rw [if_pos hlt]
        have hinv' := ucsRelax1_inv (n := nb.1) (a := nb.2) hpos
          (by rwa [show ((nb.1, nb.2) : State × Action) = nb from rfl]) hinv hsv
          ⟨cs, hcs1, hcs2⟩ (Or.inr ⟨old, hl, hlt⟩)
        have hcs' : dLookup (dInsert st.cost_so_far nb.1 (c + cost_fn nb.2)) s
            = some cs := by
          rw [dLookup_dInsert_ne _ _ (fun hc => hnbs hc.symm)]
          exact hcs1
        have hrest := ih _ (fun x hx => hnb x (List.mem_cons_of_mem _ hx)) hinv'
          (by exact hsv) ⟨cs, hcs', hcs2⟩
        refine ⟨hrest.1, ?_, ?_, hrest.2.2.2.1, hrest.2.2.2.2.1, ?_⟩
        · intro x hx
          rcases List.mem_cons.mp hx with hx | hx
          · subst hx
            exact hrest.2.2.1 x.1 (mem_dKeys_dInsert.mpr (Or.inr rfl))
          · exact hrest.2.1 x hx
        · intro k hk
          exact hrest.2.2.1 k (mem_dKeys_dInsert.mpr (Or.inl hk))
        · have h1 := hrest.2.2.2.2.2
          simp only [List.length_append, List.length_cons, List.length_nil] at h1 ⊢
          omega
      · rw [if_neg hlt]
        have hrest := ih st (fun x hx => hnb x (List.mem_cons_of_mem _ hx)) hinv hsv
          ⟨cs, hcs1, hcs2⟩
        refine ⟨hrest.1, ?_, hrest.2.2.1, hrest.2.2.2.1, hrest.2.2.2.2.1, ?_⟩
        · intro x hx
          rcases List.mem_cons.mp hx with hx | hx
          · subst hx
            refine hrest.2.2.1 x.1 ?_
            rw [← hinv.keys_eq]
            exact (dLookup_isSome_iff _ _).mp (by rw [hl]; rfl)
          · exact hrest.2.1 x hx
        · have h1 := hrest.2.2.2.2.2
          simp only [List.length_cons] at h1 ⊢
          omega

theorem ucsInv_init (grid : Grid) (start goal : State) :
    UcsInv grid start goal (ucsInit start) ∧ UcsVC grid (ucsInit start) := by
  have hlk : ∀ k : State, dLookup [(start, (none : Option State))] k =
      if start = k then some none else none := fun k => dLookup_single_start start k none
  have hlc : ∀ k : State, dLookup [(start, (0 : Int))] k =
      if start = k then some 0 else none := by
    intro k
    rw [dLookup_cons]
    by_cases h : start = k <;> simp [h, dLookup]
  dsimp only [ucsInit, UcsVC]
  constructor
  · refine ⟨?_, ?_, ?_, ?_, ?_, ?_, ?_, ?_, ?_, ?_, ?_, ?_, ?_, ?_, ?_, ?_⟩
    · rw [hlk, if_pos rfl]
    · intro k hk
      rw [hlk] at hk
      by_cases h : start = k
      · exact h.symm
      · rw [if_neg h] at hk; exact absurd hk (by simp)
    · intro k p hk
      rw [hlk] at hk
      by_cases h : start = k
      · rw [if_pos h] at hk; exact absurd hk (by simp)
      · rw [if_neg h] at hk; exact absurd hk (by simp)
    · simp [ucsInit, dKeys]
    · intro k hk
      simp [ucsInit, dKeys] at hk
      exact Or.inl hk
    · intro k hk
      simp [ucsInit, dKeys] at hk
      exact hk ▸ ⟨0, ReachN.zero⟩
    · simp [ucsInit, dKeys]
    · rw [hlc, if_pos rfl]
    · intro k c hk
      rw [hlc] at hk
      by_cases h : start = k
      · rw [if_pos h] at hk
        obtain rfl : (0 : Int) = c := by simpa using hk
        exact le_refl 0
      · rw [if_neg h] at hk; exact absurd hk (by simp)
    · intro k p hk
      rw [hlk] at hk
      by_cases h : start = k
      · rw [if_pos h] at hk; exact absurd hk (by simp)
      · rw [if_neg h] at hk; exact absurd hk (by simp)
    · intro e he
      simp only [ucsInit, List.mem_singleton] at he
      subst he
      refine ⟨by simp [dKeys], 0, by rw [hlc, if_pos rfl], le_refl 0⟩
    · intro v hv
      simp [ucsInit] at hv
    · simp [ucsInit]
    · simp [ucsInit]
    · simp [ucsInit]
    · intro k hk
      simp only [ucsInit, dKeys, List.map_cons, List.map_nil, List.mem_singleton] at hk
      exact Or.inr ⟨(0, start), by simp [ucsInit], hk.symm⟩
  · intro k hk
    simp [ucsInit] at hk

theorem ucsInv_step {grid : Grid} {start goal : State} {cost_fn : Action → Int}
    {st st' : UcsSt} (hpos : ∀ x, 0 < cost_fn x)
    (h : ucsStep grid goal cost_fn st = .inl st')
    (hinv : UcsInv grid start goal st ∧ UcsVC grid st) :
    UcsInv grid start goal st' ∧ UcsVC grid st' := by
  obtain ⟨hinv, hvc⟩ := hinv
  rcases ucsStep_inl_char h with ⟨c, s, rest, hpop, hv, hst'⟩ |
    ⟨c, s, rest, hpop, hv, hg, hst'⟩
  · -- duplicate pop, skipped
    subst hst'
    obtain ⟨hmem, hrest⟩ := popMin_eq_some hpop
    obtain ⟨gstart, gnone, gedge, knd, kfree, kreach, keq, czero, cnn, cedge, fsub, vsub,
      vnd, cnt, gnv, cov⟩ := hinv
    refine ⟨⟨gstart, gnone, gedge, knd, kfree, kreach, keq, czero, cnn, cedge, ?_, vsub,
      vnd, cnt, gnv, ?_⟩, hvc⟩
    · intro e he
      have he2 : e ∈ rest := he
      rw [hrest] at he2
      exact fsub e (mem_of_mem_eraseFirst he2)
    · intro k hk
      rcases cov k hk with hk2 | ⟨e, he1, he2⟩
      · exact Or.inl hk2
      · by_cases hec : e = (c, s)
        · subst hec
          exact Or.inl (he2 ▸ hv)
        · refine Or.inr ⟨e, ?_, he2⟩
          show e ∈ rest
          rw [hrest]
          exact mem_eraseFirst_of_ne hec he1
  · -- expansion
    obtain ⟨hmem, hrest⟩ := popMin_eq_some hpop
    obtain ⟨hsmem, cs, hcs1, hcs2⟩ := hinv.frontier_sub (c, s) hmem
    have hinv1 : UcsInv grid start goal
        ⟨rest, st.parent, st.cost_so_far, st.visited ++ [s], st.states_explored + 1⟩ := by
      obtain ⟨gstart, gnone, gedge, knd, kfree, kreach, keq, czero, cnn, cedge, fsub, vsub,
        vnd, cnt, gnv, cov⟩ := hinv
      refine ⟨gstart, gnone, gedge, knd, kfree, kreach, keq, czero, cnn, cedge, ?_, ?_,
        ?_, ?_, ?_, ?_⟩
      · intro e he
        have he2 : e ∈ rest := he
        rw [hrest] at he2
        exact fsub e (mem_of_mem_eraseFirst he2)
      · intro v hvv
        have hvv : v ∈ st.visited ++ [s] := hvv
        rcases List.mem_append.mp hvv with hvv | hvv
        · exact vsub v hvv
        · obtain rfl : v = s := by simpa using hvv
          exact hsmem
      · refine List.Nodup.append vnd (List.nodup_singleton s) ?_
        intro t ht1 ht2
        obtain rfl : t = s := by simpa using ht2
        exact hv ht1
      · simp [cnt]
      · intro hc
        rcases List.mem_append.mp hc with hc | hc
        · exact gnv hc
        · have : goal = s := by simpa using hc
          exact hg this.symm
      · intro k hk
        rcases cov k hk with hk2 | ⟨e, he1, he2⟩
        · exact Or.inl (List.mem_append_left _ hk2)
        · by_cases hec : e = (c, s)
          · subst hec
            have hsk : s = k := he2
            subst hsk
            exact Or.inl (List.mem_append_right _ (by simp))
          · refine Or.inr ⟨e, ?_, he2⟩
            show e ∈ rest
            rw [hrest]
            exact mem_eraseFirst_of_ne hec he1
    have hsv1 : s ∈ (st.visited ++ [s]) := List.mem_append_right _ (by simp)
    have hfold := ucsRelax_inv hpos s c (get_neighbors s grid)
      ⟨rest, st.parent, st.cost_so_far, st.visited ++ [s], st.states_explored + 1⟩
      (fun nb hnb => hnb) hinv1 hsv1 ⟨cs, hcs1, hcs2⟩
    subst hst'
    refine ⟨hfold.1, ?_⟩
    intro k hk t hadj
    rw [hfold.2.2.2.1] at hk
    have hk : k ∈ st.visited ++ [s] := hk
    rcases List.mem_append.mp hk with hk | hk
    · exact hfold.2.2.1 t (hvc k hk t hadj)
    · obtain rfl : k = s := by simpa using hk
      exact hfold.2.1 (t, Classical.choose hadj) (Classical.choose_spec hadj)

/-- Structural bounds on one relaxation pass (no invariant needed). -/
theorem ucsRelax_lengths (cost_fn : Action → Int) (s : State) (c : Int) :
    ∀ (nbrs : List (State × Action)) (st : UcsSt),
      (ucsRelax cost_fn s c nbrs st).frontier.length ≤ st.frontier.length + nbrs.length ∧
      (ucsRelax cost_fn s c nbrs st).visited = st.visited ∧
      (ucsRelax cost_fn s c nbrs st).states_explored = st.states_explored := by
  intro nbrs
  induction nbrs with
  | nil =>
    intro st
    rw [ucsRelax_nil]
    exact ⟨by simp, rfl, rfl⟩
  | cons nb nbrs ih =>
    intro st
    cases hl : dLookup st.cost_so_far nb.1 with
    | none =>
      rw [ucsRelax_cons_none nbrs hl]
      have h := ih ⟨st.frontier ++ [(c + cost_fn nb.2, nb.1)], dInsert st.parent nb.1 (some s),
        dInsert st.cost_so_far nb.1 (c + cost_fn nb.2), st.visited, st.states_explored⟩
      refine ⟨?_, h.2.1, h.2.2⟩
      have := h.1
      simp only [List.length_append, List.length_cons, List.length_nil] at this ⊢
      omega
    | some old =>
      rw [ucsRelax_cons_some nbrs hl]
      by_cases hlt : c + cost_fn nb.2 < old
      · rw [if_pos hlt]
        have h := ih ⟨st.frontier ++ [(c + cost_fn nb.2, nb.1)],
          dInsert st.parent nb.1 (some s),
          dInsert st.cost_so_far nb.1 (c + cost_fn nb.2), st.visited, st.states_explored⟩
        refine ⟨?_, h.2.1, h.2.2⟩
        have := h.1
        simp only [List.length_append, List.length_cons, List.length_nil] at this ⊢
        omega
      · rw [if_neg hlt]
        have h := ih st
        refine ⟨?_, h.2.1, h.2.2⟩
        have := h.1
        simp only [List.length_cons] at this ⊢
        omega

theorem ucsInv_visited_le {grid : Grid} {start goal : State} {st : UcsSt}
    (hinv : UcsInv grid start goal st) :
    st.visited.length ≤ grid.length * grid.length + 1 := by
  have h1 : st.visited.length ≤ (start :: allCells grid).length := by
    refine nodup_subset_length_le hinv.visited_nodup ?_
    intro k hk
    rcases hinv.keys_free k (hinv.visited_sub k hk) with hk | hk
    · exact hk ▸ List.mem_cons_self _ _
    · exact List.mem_cons_of_mem _ (freeCell_mem_allCells hk)
  rw [List.length_cons, allCells_length] at h1
  omega

theorem ucs_loop_some (grid : Grid) (start goal : State) (cost_fn : Action → Int)
    (hpos : ∀ x, 0 < cost_fn x) :
    ∃ stf, ucsLoop grid goal cost_fn (dfsFuel grid) (ucsInit start) = some stf := by
  have := iterStep_total (ucsStep grid goal cost_fn)
    (P := fun st => UcsInv grid start goal st ∧ UcsVC grid st)
    (fun st => st.frontier.length +
      5 * ((grid.length * grid.length + 1) - st.visited.length))
    (fun st st' hs hP => ucsInv_step hpos hs hP)
    (fun st st' hs hP => by
      have hP' := ucsInv_step hpos hs hP
      have hvle' := ucsInv_visited_le hP'.1
      rcases ucsStep_inl_char hs with ⟨c, s, rest, hpop, hv, hst'⟩ |
        ⟨c, s, rest, hpop, hv, hg, hst'⟩
      · subst hst'
        obtain ⟨hmem, hrest⟩ := popMin_eq_some hpop
        have e1 : rest.length + 1 = st.frontier.length := by
          rw [hrest]
          exact length_eraseFirst_of_mem hmem
        dsimp only
        omega
      · obtain ⟨hmem, hrest⟩ := popMin_eq_some hpop
        have e1 : rest.length + 1 = st.frontier.length := by
          rw [hrest]
          exact length_eraseFirst_of_mem hmem
        have hlen := ucsRelax_lengths cost_fn s c (get_neighbors s grid)
          ⟨rest, st.parent, st.cost_so_far, st.visited ++ [s], st.states_explored + 1⟩
        have e4 := get_neighbors_length_le s grid
        have f1 : st'.frontier.length ≤ rest.length + 4 := by
          rw [hst']
          have h1 := hlen.1
          have h2 : (⟨rest, st.parent, st.cost_so_far, st.visited ++ [s],
            st.states_explored + 1⟩ : UcsSt).frontier.length = rest.length := rfl
          omega
        have f2 : st'.visited.length = st.visited.length + 1 := by
          rw [hst', hlen.2.1]
          simp
        dsimp only
        omega)
    (dfsFuel grid) (ucsInit start) (ucsInv_init grid start goal)
    (by
      rw [dfsFuel]
      simp [ucsInit]
      omega)
  exact this

/-- Every UCS run with a strictly positive cost function, packaged: the loop
terminates within fuel, the final step leaves a state satisfying the full
invariant, and the returned value is the reconstructed path plus counter. -/
theorem ucs_run (grid : Grid) (start goal : State) (cost_fn : Action → Int)
    (hpos : ∀ x, 0 < cost_fn x) :
    ∃ st0 stf, (UcsInv grid start goal st0 ∧ UcsVC grid st0) ∧
      ucsStep grid goal cost_fn st0 = .inr stf ∧
      ucs grid start goal cost_fn = some (reconstruct_path stf.parent start goal,
        stf.states_explored) := by
  obtain ⟨stf, hloop⟩ := ucs_loop_some grid start goal cost_fn hpos
  obtain ⟨st0, hreach, hlast⟩ := iterStep_last hloop
  have hinv0 := iterReach_inv (P := fun st => UcsInv grid start goal st ∧ UcsVC grid st)
    (ucsInv_init grid start goal)
    (fun st st' hs hP => ucsInv_step hpos hs hP) st0 hreach
  refine ⟨st0, stf, hinv0, hlast, ?_⟩
  rw [ucs, hloop]
  rfl

/-- Shape of one continuing A* iteration. -/
theorem astarStep_inl_char {grid : Grid} {goal : State} {cost_fn : Action → Int}
    {heuristic_fn : State → State → Int} {st st' : AstarSt}
    (h : astarStep grid goal cost_fn heuristic_fn st = .inl st') :
    (∃ f c s rest, popMin astarKeyLe st.frontier = some ((f, c, s), rest) ∧ s ∈ st.visited ∧
      st' = ⟨rest, st.parent, st.cost_so_far, st.visited, st.states_explored⟩) ∨
    (∃ f c s rest, popMin astarKeyLe st.frontier = some ((f, c, s), rest) ∧ s ∉ st.visited ∧
      s ≠ goal ∧ st' = astarRelax cost_fn heuristic_fn goal s c (get_neighbors s grid)
        ⟨rest, st.parent, st.cost_so_far, st.visited ++ [s], st.states_explored + 1⟩) := by
  rw [astarStep] at h
  cases hp : popMin astarKeyLe st.frontier with
  | none => rw [hp] at h; exact absurd h (by simp)
  | some pr =>
    obtain ⟨⟨f, c, s⟩, rest⟩ := pr
    rw [hp] at h
    have h : (if s ∈ st.visited then
        Sum.inl (⟨rest, st.parent, st.cost_so_far, st.visited, st.states_explored⟩ : AstarSt)
      else if s = goal then
        Sum.inr (⟨rest, st.parent, st.cost_so_far, st.visited ++ [s],
          st.states_explored + 1⟩ : AstarSt)
      else Sum.inl (astarRelax cost_fn heuristic_fn goal s c (get_neighbors s grid)
        ⟨rest, st.parent, st.cost_so_far, st.visited ++ [s],
          st.states_explored + 1⟩)) = Sum.inl st' := h
    by_cases hv : s ∈ st.visited
    · rw [if_pos hv] at h
      exact Or.inl ⟨f, c, s, rest, rfl, hv, (Sum.inl.inj h).symm⟩
    · rw [if_neg hv] at h
      by_cases hg : s = goal
      · rw [if_pos hg] at h
        exact absurd h (by simp)
      · rw [if_neg hg] at h
        exact Or.inr ⟨f, c, s, rest, rfl, hv, hg, (Sum.inl.inj h).symm⟩

/-- Shape of the final A* iteration: exhausted frontier, or the goal popped. -/
theorem astarStep_inr_char {grid : Grid} {goal : State} {cost_fn : Action → Int}
    {heuristic_fn : State → State → Int} {st stf : AstarSt}
    (h : astarStep grid goal cost_fn heuristic_fn st = .inr stf) :
    (popMin astarKeyLe st.frontier = none ∧ stf = st) ∨
    (∃ f c rest, popMin astarKeyLe st.frontier = some ((f, c, goal), rest) ∧
      goal ∉ st.visited ∧
      stf = ⟨rest, st.parent, st.cost_so_far, st.visited ++ [goal],
        st.states_explored + 1⟩) := by
  rw [astarStep] at h
  cases hp : popMin astarKeyLe st.frontier with
  | none =>
    rw [hp] at h
    have h : Sum.inr st = Sum.inr stf := h
    exact Or.inl ⟨rfl, (Sum.inr.inj h).symm⟩
  | some pr =>
    obtain ⟨⟨f, c, s⟩, rest⟩ := pr
    rw [hp] at h
    have h : (if s ∈ st.visited then
        Sum.inl (⟨rest, st.parent, st.cost_so_far, st.visited, st.states_explored⟩ : AstarSt)
      else if s = goal then
        Sum.inr (⟨rest, st.parent, st.cost_so_far, st.visited ++ [s],
          st.states_explored + 1⟩ : AstarSt)
      else Sum.inl (astarRelax cost_fn heuristic_fn goal s c (get_neighbors s grid)
        ⟨rest, st.parent, st.cost_so_far, st.visited ++ [s],
          st.states_explored + 1⟩)) = Sum.inr stf := h
    by_cases hv : s ∈ st.visited
    · rw [if_pos hv] at h
      exact absurd h (by simp)
    · rw [if_neg hv] at h
      by_cases hg : s = goal
      · rw [if_pos hg] at h
        have h2 := Sum.inr.inj h
        subst hg
        exact Or.inr ⟨f, c, rest, rfl, hv, h2.symm⟩
      · rw [if_neg hg] at h
        exact absurd h (by simp)

/-- Everything the A* loop maintains, for a strictly positive cost function.
`cost_edge` (accumulated cost strictly increases along every parent link) is
what keeps the parent chains acyclic. -/
structure AstarInv (grid : Grid) (start goal : State) (st : AstarSt) : Prop where
  gstart : dLookup st.parent start = some none
  gnone : ∀ k, dLookup st.parent k = some none → k = start
  gedge : ∀ k p, dLookup st.parent k = some (some p) → p ∈ dKeys st.parent ∧ Adj grid p k
  keys_nodup : (dKeys st.parent).Nodup
  keys_free : ∀ k ∈ dKeys st.parent, k = start ∨ FreeCell grid k
  keys_reach : ∀ k ∈ dKeys st.parent, Reaches grid start k
  keys_eq : dKeys st.cost_so_far = dKeys st.parent
  cost_start : dLookup st.cost_so_far start = some 0
  cost_nonneg : ∀ k c, dLookup st.cost_so_far k = some c → 0 ≤ c
  cost_edge : ∀ k p, dLookup st.parent k = some (some p) →
    ∃ ck cp, dLookup st.cost_so_far k = some ck ∧ dLookup st.cost_so_far p = some cp ∧
      cp < ck
  frontier_sub : ∀ e ∈ st.frontier, e.2.2 ∈ dKeys st.parent ∧
    ∃ c, dLookup st.cost_so_far e.2.2 = some c ∧ c ≤ e.2.1
  visited_sub : ∀ v ∈ st.visited, v ∈ dKeys st.parent
  visited_nodup : st.visited.Nodup
  count : st.states_explored = st.visited.length
  goal_not_visited : goal ∉ st.visited
  cover : ∀ k ∈ dKeys st.parent, k ∈ st.visited ∨ ∃ e ∈ st.frontier, e.2.2 = k

/-- Closure of the visited set (kept outside `AstarInv`: it is momentarily
broken between marking a state visited and relaxing its neighbours). -/
def AstarVC (grid : Grid) (st : AstarSt) : Prop :=
  ∀ k ∈ st.visited, ∀ t, Adj grid k t → t ∈ dKeys st.parent

/-- One relaxation preserves the A* invariant (and the parent keys grow). -/
theorem astarRelax1_inv {grid : Grid} {start goal s n : State} {a : Action}
    {cost_fn : Action → Int} {heuristic_fn : State → State → Int} {c : Int} {st : AstarSt}
    (hpos : ∀ x, 0 < cost_fn x) (hnb : ((n, a) : State × Action) ∈ get_neighbors s grid)
    (hinv : AstarInv grid start goal st) (hsv : s ∈ st.visited)
    (hcs : ∃ cs, dLookup st.cost_so_far s = some cs ∧ cs ≤ c)
    (hupd : dLookup st.cost_so_far n = none ∨
      (∃ old, dLookup st.cost_so_far n = some old ∧ c + cost_fn a < old)) :
    AstarInv grid start goal
      ⟨st.frontier ++ [(c + cost_fn a + heuristic_fn n goal, c + cost_fn a, n)], dInsert st.parent n (some s),
        dInsert st.cost_so_far n (c + cost_fn a), st.visited, st.states_explored⟩ := by
  obtain ⟨cs, hcs1, hcs2⟩ := hcs
  obtain ⟨gstart, gnone, gedge, knd, kfree, kreach, keq, czero, cnn, cedge, fsub, vsub,
    vnd, cnt, gnv, cov⟩ := hinv
  set new := c + cost_fn a with hnew
  have hns : n ≠ s := get_neighbors_ne hnb
  have hadj : Adj grid s n := ⟨a, hnb⟩
  have hsmem : s ∈ dKeys st.parent := vsub s hsv
  have hcsnn : 0 ≤ cs := cnn s cs hcs1
  have hnewge : cs + 1 ≤ new := by
    have := hpos a
    omega
  have hnewpos : 0 < new := by omega
  have hnstart : n ≠ start := by
    intro hc
    subst hc
    rcases hupd with hupd | ⟨old, hold, hlt⟩
    · rw [czero] at hupd
      exact absurd hupd (by simp)
    · rw [czero] at hold
      have : old = 0 := by simpa using hold.symm
      omega
  have hkeys_sup : ∀ j, j ∈ dKeys st.parent → j ∈ dKeys (dInsert st.parent n (some s)) :=
    fun j hj => mem_dKeys_dInsert.mpr (Or.inl hj)
  have hlp_self : dLookup (dInsert st.parent n (some s)) n = some (some s) :=
    dLookup_dInsert_self _ _ _
  have hlp_ne : ∀ j, j ≠ n → dLookup (dInsert st.parent n (some s)) j =
      dLookup st.parent j := fun j hj => dLookup_dInsert_ne _ _ hj
  have hlc_self : dLookup (dInsert st.cost_so_far n new) n = some new :=
    dLookup_dInsert_self _ _ _
  have hlc_ne : ∀ j, j ≠ n → dLookup (dInsert st.cost_so_far n new) j =
      dLookup st.cost_so_far j := fun j hj => dLookup_dInsert_ne _ _ hj
  have hcont_iff : dContains st.cost_so_far n = dContains st.parent n := by
    by_cases hmem : n ∈ dKeys st.parent
    · rw [(dContains_iff_mem_keys _ _).mpr hmem,
        (dContains_iff_mem_keys _ _).mpr (keq ▸ hmem)]
    · have h1 : ¬ dContains st.parent n = true := fun hc =>
        hmem ((dContains_iff_mem_keys _ _).mp hc)
      have h2 : ¬ dContains st.cost_so_far n = true := fun hc =>
        hmem (keq ▸ (dContains_iff_mem_keys _ _).mp hc)
      rw [Bool.not_eq_true] at h1 h2
      rw [h1, h2]
  refine ⟨?_, ?_, ?_, ?_, ?_, ?_, ?_, ?_, ?_, ?_, ?_, ?_, vnd, cnt, gnv, ?_⟩
  · rw [hlp_ne start (fun hc => hnstart hc.symm)]
    exact gstart
  · intro k hk
    by_cases hkn : k = n
    · subst hkn
      rw [hlp_self] at hk
      exact absurd hk (by simp)
    · rw [hlp_ne k hkn] at hk
      exact gnone k hk
  · intro k p hk
    by_cases hkn : k = n
    · subst hkn
      rw [hlp_self] at hk
      obtain rfl : s = p := by simpa using hk
      exact ⟨hkeys_sup s hsmem, hadj⟩
    · rw [hlp_ne k hkn] at hk
      obtain ⟨hp1, hp2⟩ := gedge k p hk
      exact ⟨hkeys_sup p hp1, hp2⟩
  · rw [dKeys_dInsert]
    by_cases hc : dContains st.parent n
    · rw [if_pos hc]
      exact knd
    · rw [if_neg hc]
      refine knd.append (List.nodup_singleton n) ?_
      intro t ht1 ht2
      obtain rfl : t = n := by simpa using ht2
      exact hc ((dContains_iff_mem_keys _ _).mpr ht1)
  · intro k hk
    rcases mem_dKeys_dInsert.mp hk with hk | rfl
    · exact kfree k hk
    · exact Or.inr (adj_free hadj)
  · intro k hk
    rcases mem_dKeys_dInsert.mp hk with hk | rfl
    · exact kreach k hk
    · obtain ⟨m, hm⟩ := kreach s hsmem
      exact ⟨m + 1, ReachN.succ hm hadj⟩
  · rw [dKeys_dInsert, dKeys_dInsert, hcont_iff]
    by_cases hc : dContains st.parent n
    · rw [if_pos hc, if_pos hc, keq]
    · rw [if_neg hc, if_neg hc, keq]
  · rw [hlc_ne start (fun hc => hnstart hc.symm)]
    exact czero
  · intro k ck hk
    by_cases hkn : k = n
    · subst hkn
      rw [hlc_self] at hk
      obtain rfl : ck = new := by simpa using hk.symm
      omega
    · rw [hlc_ne k hkn] at hk
      exact cnn k ck hk
  · intro k p hk
    by_cases hkn : k = n
    · subst hkn
      rw [hlp_self] at hk
      obtain rfl : s = p := by simpa using hk
      refine ⟨new, cs, hlc_self, ?_, by omega⟩
      rw [hlc_ne s (fun hc => hns hc.symm)]
      exact hcs1
    · rw [hlp_ne k hkn] at hk
      obtain ⟨ck, cp, hck, hcp, hlt⟩ := cedge k p hk
      by_cases hpn : p = n
      · subst hpn
        rcases hupd with hupd | ⟨old, hold, holt⟩
        · rw [hupd] at hcp
          exact absurd hcp (by simp)
        · rw [hold] at hcp
          obtain rfl : cp = old := by simpa using hcp.symm
          refine ⟨ck, new, by rw [hlc_ne k hkn]; exact hck, hlc_self, by omega⟩
      · refine ⟨ck, cp, by rw [hlc_ne k hkn]; exact hck, by rw [hlc_ne p hpn]; exact hcp,
          hlt⟩
  · intro e he
    rcases List.mem_append.mp he with he | he
    · obtain ⟨he1, ce, hce1, hce2⟩ := fsub e he
      refine ⟨hkeys_sup _ he1, ?_⟩
      by_cases hen : e.2.2 = n
      · rw [hen, hlc_self]
        rcases hupd with hupd | ⟨old, hold, holt⟩
        · rw [hen, hupd] at hce1
          exact absurd hce1 (by simp)
        · rw [hen, hold] at hce1
          obtain rfl : ce = old := by simpa using hce1.symm
          exact ⟨new, rfl, by omega⟩
      · rw [hlc_ne _ hen]
        exact ⟨ce, hce1, hce2⟩
    · obtain rfl : e = (new + heuristic_fn n goal, new, n) := by simpa using he
      exact ⟨mem_dKeys_dInsert.mpr (Or.inr rfl), new, hlc_self, le_refl _⟩
  · intro v hv
    exact hkeys_sup v (vsub v hv)
  · intro k hk
    rcases mem_dKeys_dInsert.mp hk with hk | rfl
    · rcases cov k hk with hk2 | ⟨e, he1, he2⟩
      · exact Or.inl hk2
      · exact Or.inr ⟨e, List.mem_append_left _ he1, he2⟩
    · exact Or.inr ⟨(new + heuristic_fn k goal, new, k), List.mem_append_right _ (by simp), rfl⟩

theorem astarRelax_nil (cost_fn : Action → Int) (heuristic_fn : State → State → Int)
    (goal s : State) (c : Int) (st : AstarSt) :
    astarRelax cost_fn heuristic_fn goal s c [] st = st := rfl

theorem astarRelax_cons (cost_fn : Action → Int) (heuristic_fn : State → State → Int)
    (goal s : State) (c : Int)
    (nb : State × Action) (nbrs : List (State × Action)) (st : AstarSt) :
    astarRelax cost_fn heuristic_fn goal s c (nb :: nbrs) st = astarRelax cost_fn heuristic_fn goal s c nbrs
      (match dLookup st.cost_so_far nb.1 with
       | some old => if c + cost_fn nb.2 < old then
           ⟨st.frontier ++ [(c + cost_fn nb.2 + heuristic_fn nb.1 goal, c + cost_fn nb.2, nb.1)], dInsert st.parent nb.1 (some s),
            dInsert st.cost_so_far nb.1 (c + cost_fn nb.2), st.visited, st.states_explored⟩
         else st
       | none =>
           ⟨st.frontier ++ [(c + cost_fn nb.2 + heuristic_fn nb.1 goal, c + cost_fn nb.2, nb.1)], dInsert st.parent nb.1 (some s),
            dInsert st.cost_so_far nb.1 (c + cost_fn nb.2), st.visited,
            st.states_explored⟩) := rfl

theorem astarRelax_cons_none {cost_fn : Action → Int}
    {heuristic_fn : State → State → Int} {goal s : State} {c : Int}
    {nb : State × Action} {st : AstarSt} (nbrs : List (State × Action))
    (h : dLookup st.cost_so_far nb.1 = none) :
    astarRelax cost_fn heuristic_fn goal s c (nb :: nbrs) st = astarRelax cost_fn heuristic_fn goal s c nbrs
      ⟨st.frontier ++ [(c + cost_fn nb.2 + heuristic_fn nb.1 goal, c + cost_fn nb.2, nb.1)], dInsert st.parent nb.1 (some s),
       dInsert st.cost_so_far nb.1 (c + cost_fn nb.2), st.visited,
       st.states_explored⟩ := by
  rw [astarRelax_cons, h]

theorem astarRelax_cons_some {cost_fn : Action → Int}
    {heuristic_fn : State → State → Int} {goal s : State} {c old : Int}
    {nb : State × Action} {st : AstarSt} (nbrs : List (State × Action))
    (h : dLookup st.cost_so_far nb.1 = some old) :
    astarRelax cost_fn heuristic_fn goal s c (nb :: nbrs) st = astarRelax cost_fn heuristic_fn goal s c nbrs
      (if c + cost_fn nb.2 < old then
        ⟨st.frontier ++ [(c + cost_fn nb.2 + heuristic_fn nb.1 goal, c + cost_fn nb.2, nb.1)], dInsert st.parent nb.1 (some s),
         dInsert st.cost_so_far nb.1 (c + cost_fn nb.2), st.visited, st.states_explored⟩
       else st) := by
  rw [astarRelax_cons, h]

/-- The whole relaxation pass preserves the A* invariant; afterwards every
neighbour of the expanded state is a parent-map key. -/
theorem astarRelax_inv {grid : Grid} {start goal : State} {cost_fn : Action → Int}
    {heuristic_fn : State → State → Int}
    (hpos : ∀ x, 0 < cost_fn x) (s : State) (c : Int) :
    ∀ (nbrs : List (State × Action)) (st : AstarSt),
      (∀ nb ∈ nbrs, nb ∈ get_neighbors s grid) →
      AstarInv grid start goal st → s ∈ st.visited →
      (∃ cs, dLookup st.cost_so_far s = some cs ∧ cs ≤ c) →
      AstarInv grid start goal (astarRelax cost_fn heuristic_fn goal s c nbrs st) ∧
      (∀ nb ∈ nbrs, nb.1 ∈ dKeys (astarRelax cost_fn heuristic_fn goal s c nbrs st).parent) ∧
      (∀ k ∈ dKeys st.parent, k ∈ dKeys (astarRelax cost_fn heuristic_fn goal s c nbrs st).parent) ∧
      (astarRelax cost_fn heuristic_fn goal s c nbrs st).visited = st.visited ∧
      (astarRelax cost_fn heuristic_fn goal s c nbrs st).states_explored = st.states_explored ∧
      (astarRelax cost_fn heuristic_fn goal s c nbrs st).frontier.length ≤ st.frontier.length + nbrs.length := by
  intro nbrs
  induction nbrs with
  | nil =>
    intro st _ hinv hsv hcs
    rw [astarRelax_nil]
    exact ⟨hinv, by simp, fun k hk => hk, rfl, rfl, by simp⟩
  | cons nb nbrs ih =>
    intro st hnb hinv hsv hcs
    obtain ⟨cs, hcs1, hcs2⟩ := hcs
    have hnb0 : nb ∈ get_neighbors s grid := hnb nb (List.mem_cons_self _ _)
    have hnbs : nb.1 ≠ s := get_neighbors_ne (by rwa [show ((nb.1, nb.2) : State × Action)
      = nb from rfl])
    cases hl : dLookup st.cost_so_far nb.1 with
    | none =>
      rw [astarRelax_cons_none nbrs hl]
      have hinv' := @astarRelax1_inv grid start goal s nb.1 nb.2 cost_fn heuristic_fn c
        st hpos (by rwa [show ((nb.1, nb.2) : State × Action) = nb from rfl]) hinv hsv
        ⟨cs, hcs1, hcs2⟩ (Or.inl hl)
      have hcs' : dLookup (dInsert st.cost_so_far nb.1 (c + cost_fn nb.2)) s = some cs := by
        rw [dLookup_dInsert_ne _ _ (fun hc => hnbs hc.symm)]
        exact hcs1
      have hrest := ih _ (fun x hx => hnb x (List.mem_cons_of_mem _ hx)) hinv'
        (by exact hsv) ⟨cs, hcs', hcs2⟩
      refine ⟨hrest.1, ?_, ?_, hrest.2.2.2.1, hrest.2.2.2.2.1, ?_⟩
      · intro x hx
        rcases List.mem_cons.mp hx with hx | hx
        · subst hx
          exact hrest.2.2.1 x.1 (mem_dKeys_dInsert.mpr (Or.inr rfl))
        · exact hrest.2.1 x hx
      · intro k hk
        exact hrest.2.2.1 k (mem_dKeys_dInsert.mpr (Or.inl hk))
      · have h1 := hrest.2.2.2.2.2
        simp only [List.length_append, List.length_cons, List.length_nil] at h1 ⊢
        omega
    | some old =>
      rw [astarRelax_cons_some nbrs hl]
      by_cases hlt : c + cost_fn nb.2 < old
      · rw [if_pos hlt]
        have hinv' := @astarRelax1_inv grid start goal s nb.1 nb.2 cost_fn heuristic_fn c
          st hpos (by rwa [show ((nb.1, nb.2) : State × Action) = nb from rfl]) hinv hsv
          ⟨cs, hcs1, hcs2⟩ (Or.inr ⟨old, hl, hlt⟩)
        have hcs' : dLookup (dInsert st.cost_so_far nb.1 (c + cost_fn nb.2)) s
            = some cs := by
          rw [dLookup_dInsert_ne _ _ (fun hc => hnbs hc.symm)]
          exact hcs1
        have hrest := ih _ (fun x hx => hnb x (List.mem_cons_of_mem _ hx)) hinv'
          (by exact hsv) ⟨cs, hcs', hcs2⟩
        refine ⟨hrest.1, ?_, ?_, hrest.2.2.2.1, hrest.2.2.2.2.1, ?_⟩
        · intro x hx
          rcases List.mem_cons.mp hx with hx | hx
          · subst hx
            exact hrest.2.2.1 x.1 (mem_dKeys_dInsert.mpr (Or.inr rfl))
          · exact hrest.2.1 x hx
        · intro k hk
          exact hrest.2.2.1 k (mem_dKeys_dInsert.mpr (Or.inl hk))
        · have h1 := hrest.2.2.2.2.2
          simp only [List.length_append, List.length_cons, List.length_nil] at h1 ⊢
          omega
      · rw [if_neg hlt]
        have hrest := ih st (fun x hx => hnb x (List.mem_cons_of_mem _ hx)) hinv hsv
          ⟨cs, hcs1, hcs2⟩
        refine ⟨hrest.1, ?_, hrest.2.2.1, hrest.2.2.2.1, hrest.2.2.2.2.1, ?_⟩
        · intro x hx
          rcases List.mem_cons.mp hx with hx | hx
          · subst hx
            refine hrest.2.2.1 x.1 ?_
            rw [← hinv.keys_eq]
            exact (dLookup_isSome_iff _ _).mp (by rw [hl]; rfl)
          · exact hrest.2.1 x hx
        · have h1 := hrest.2.2.2.2.2
          simp only [List.length_cons] at h1 ⊢
          omega

theorem astarInv_init (grid : Grid) (start goal : State)
    (heuristic_fn : State → State → Int) :
    AstarInv grid start goal (astarInit start goal heuristic_fn) ∧
      AstarVC grid (astarInit start goal heuristic_fn) := by
  have hlk : ∀ k : State, dLookup [(start, (none : Option State))] k =
      if start = k then some none else none := fun k => dLookup_single_start start k none
  have hlc : ∀ k : State, dLookup [(start, (0 : Int))] k =
      if start = k then some 0 else none := by
    intro k
    rw [dLookup_cons]
    by_cases h : start = k <;> simp [h, dLookup]
  dsimp only [astarInit, AstarVC]
  constructor
  · refine ⟨?_, ?_, ?_, ?_, ?_, ?_, ?_, ?_, ?_, ?_, ?_, ?_, ?_, ?_, ?_, ?_⟩
    · rw [hlk, if_pos rfl]
    · intro k hk
      rw [hlk] at hk
      by_cases h : start = k
      · exact h.symm
      · rw [if_neg h] at hk; exact absurd hk (by simp)
    · intro k p hk
      rw [hlk] at hk
      by_cases h : start = k
      · rw [if_pos h] at hk; exact absurd hk (by simp)
      · rw [if_neg h] at hk; exact absurd hk (by simp)
    · simp [astarInit, dKeys]
    · intro k hk
      simp [astarInit, dKeys] at hk
      exact Or.inl hk
    · intro k hk
      simp [astarInit, dKeys] at hk
      exact hk ▸ ⟨0, ReachN.zero⟩
    · simp [astarInit, dKeys]
    · rw [hlc, if_pos rfl]
    · intro k c hk
      rw [hlc] at hk
      by_cases h : start = k
      · rw [if_pos h] at hk
        obtain rfl : (0 : Int) = c := by simpa using hk
        exact le_refl 0
      · rw [if_neg h] at hk; exact absurd hk (by simp)
    · intro k p hk
      rw [hlk] at hk
      by_cases h : start = k
      · rw [if_pos h] at hk; exact absurd hk (by simp)
      · rw [if_neg h] at hk; exact absurd hk (by simp)
    · intro e he
      simp only [astarInit, List.mem_singleton] at he
      subst he
      refine ⟨by simp [dKeys], 0, by rw [hlc, if_pos rfl], le_refl 0⟩
    · intro v hv
      simp [astarInit] at hv
    · simp [astarInit]
    · simp [astarInit]
    · simp [astarInit]
    · intro k hk
      simp only [astarInit, dKeys, List.map_cons, List.map_nil, List.mem_singleton] at hk
      exact Or.inr ⟨(heuristic_fn start goal, 0, start), by simp [astarInit], hk.symm⟩
  · intro k hk
    simp [astarInit] at hk

theorem astarInv_step {grid : Grid} {start goal : State} {cost_fn : Action → Int}
    {heuristic_fn : State → State → Int}
    {st st' : AstarSt} (hpos : ∀ x, 0 < cost_fn x)
    (h : astarStep grid goal cost_fn heuristic_fn st = .inl st')
    (hinv : AstarInv grid start goal st ∧ AstarVC grid st) :
    AstarInv grid start goal st' ∧ AstarVC grid st' := by
  obtain ⟨hinv, hvc⟩ := hinv
  rcases astarStep_inl_char h with ⟨f, c, s, rest, hpop, hv, hst'⟩ |
    ⟨f, c, s, rest, hpop, hv, hg, hst'⟩
  · -- duplicate pop, skipped
    subst hst'
    obtain ⟨hmem, hrest⟩ := popMin_eq_some hpop
    obtain ⟨gstart, gnone, gedge, knd, kfree, kreach, keq, czero, cnn, cedge, fsub, vsub,
      vnd, cnt, gnv, cov⟩ := hinv
    refine ⟨⟨gstart, gnone, gedge, knd, kfree, kreach, keq, czero, cnn, cedge, ?_, vsub,
      vnd, cnt, gnv, ?_⟩, hvc⟩
    · intro e he
      have he2 : e ∈ rest := he
      rw [hrest] at he2
      exact fsub e (mem_of_mem_eraseFirst he2)
    · intro k hk
      rcases cov k hk with hk2 | ⟨e, he1, he2⟩
      · exact Or.inl hk2
      · by_cases hec : e = (f, c, s)
        · subst hec
          exact Or.inl (he2 ▸ hv)
        · refine Or.inr ⟨e, ?_, he2⟩
          show e ∈ rest
          rw [hrest]
          exact mem_eraseFirst_of_ne hec he1
  · -- expansion
    obtain ⟨hmem, hrest⟩ := popMin_eq_some hpop
    obtain ⟨hsmem, cs, hcs1, hcs2⟩ := hinv.frontier_sub (f, c, s) hmem
    have hinv1 : AstarInv grid start goal
        ⟨rest, st.parent, st.cost_so_far, st.visited ++ [s], st.states_explored + 1⟩ := by
      obtain ⟨gstart, gnone, gedge, knd, kfree, kreach, keq, czero, cnn, cedge, fsub, vsub,
        vnd, cnt, gnv, cov⟩ := hinv
      refine ⟨gstart, gnone, gedge, knd, kfree, kreach, keq, czero, cnn, cedge, ?_, ?_,
        ?_, ?_, ?_, ?_⟩
      · intro e he
        have he2 : e ∈ rest := he
        rw [hrest] at he2
        exact fsub e (mem_of_mem_eraseFirst he2)
      · intro v hvv
        have hvv : v ∈ st.visited ++ [s] := hvv
        rcases List.mem_append.mp hvv with hvv | hvv
        · exact vsub v hvv
        · obtain rfl : v = s := by simpa using hvv
          exact hsmem
      · refine List.Nodup.append vnd (List.nodup_singleton s) ?_
        intro t ht1 ht2
        obtain rfl : t = s := by simpa using ht2
        exact hv ht1
      · simp [cnt]
      · intro hc
        rcases List.mem_append.mp hc with hc | hc
        · exact gnv hc
        · have : goal = s := by simpa using hc
          exact hg this.symm
      · intro k hk
        rcases cov k hk with hk2 | ⟨e, he1, he2⟩
        · exact Or.inl (List.mem_append_left _ hk2)
        · by_cases hec : e = (f, c, s)
          · subst hec
            have hsk : s = k := he2
            subst hsk
            exact Or.inl (List.mem_append_right _ (by simp))
          · refine Or.inr ⟨e, ?_, he2⟩
            show e ∈ rest
            rw [hrest]
            exact mem_eraseFirst_of_ne hec he1
    have hsv1 : s ∈ (st.visited ++ [s]) := List.mem_append_right _ (by simp)
    have hfold := @astarRelax_inv grid start goal cost_fn heuristic_fn hpos s c
      (get_neighbors s grid)
      ⟨rest, st.parent, st.cost_so_far, st.visited ++ [s], st.states_explored + 1⟩
      (fun nb hnb => hnb) hinv1 hsv1 ⟨cs, hcs1, hcs2⟩
    subst hst'
    refine ⟨hfold.1, ?_⟩
    intro k hk t hadj
    rw [hfold.2.2.2.1] at hk
    have hk : k ∈ st.visited ++ [s] := hk
    rcases List.mem_append.mp hk with hk | hk
    · exact hfold.2.2.1 t (hvc k hk t hadj)
    · obtain rfl : k = s := by simpa using hk
      exact hfold.2.1 (t, Classical.choose hadj) (Classical.choose_spec hadj)

/-- Structural bounds on one relaxation pass (no invariant needed). -/
theorem astarRelax_lengths (cost_fn : Action → Int) (heuristic_fn : State → State → Int)
    (goal s : State) (c : Int) :
    ∀ (nbrs : List (State × Action)) (st : AstarSt),
      (astarRelax cost_fn heuristic_fn goal s c nbrs st).frontier.length ≤ st.frontier.length + nbrs.length ∧
      (astarRelax cost_fn heuristic_fn goal s c nbrs st).visited = st.visited ∧
      (astarRelax cost_fn heuristic_fn goal s c nbrs st).states_explored = st.states_explored := by
  intro nbrs
  induction nbrs with
  | nil =>
    intro st
    rw [astarRelax_nil]
    exact ⟨by simp, rfl, rfl⟩
  | cons nb nbrs ih =>
    intro st
    cases hl : dLookup st.cost_so_far nb.1 with
    | none =>
      rw [astarRelax_cons_none nbrs hl]
      have h := ih ⟨st.frontier ++ [(c + cost_fn nb.2 + heuristic_fn nb.1 goal, c + cost_fn nb.2, nb.1)], dInsert st.parent nb.1 (some s),
        dInsert st.cost_so_far nb.1 (c + cost_fn nb.2), st.visited, st.states_explored⟩
      refine ⟨?_, h.2.1, h.2.2⟩
      have := h.1
      simp only [List.length_append, List.length_cons, List.length_nil] at this ⊢
      omega
    | some old =>
      rw [astarRelax_cons_some nbrs hl]
      by_cases hlt : c + cost_fn nb.2 < old
      · rw [if_pos hlt]
        have h := ih ⟨st.frontier ++ [(c + cost_fn nb.2 + heuristic_fn nb.1 goal, c + cost_fn nb.2, nb.1)],
          dInsert st.parent nb.1 (some s),
          dInsert st.cost_so_far nb.1 (c + cost_fn nb.2), st.visited, st.states_explored⟩
        refine ⟨?_, h.2.1, h.2.2⟩
        have := h.1
        simp only [List.length_append, List.length_cons, List.length_nil] at this ⊢
        omega
      · rw [if_neg hlt]
        have h := ih st
        refine ⟨?_, h.2.1, h.2.2⟩
        have := h.1
        simp only [List.length_cons] at this ⊢
        omega

theorem astarInv_visited_le {grid : Grid} {start goal : State} {st : AstarSt}
    (hinv : AstarInv grid start goal st) :
    st.visited.length ≤ grid.length * grid.length + 1 := by
  have h1 : st.visited.length ≤ (start :: allCells grid).length := by
    refine nodup_subset_length_le hinv.visited_nodup ?_
    intro k hk
    rcases hinv.keys_free k (hinv.visited_sub k hk) with hk | hk
    · exact hk ▸ List.mem_cons_self _ _
    · exact List.mem_cons_of_mem _ (freeCell_mem_allCells hk)
  rw [List.length_cons, allCells_length] at h1
  omega

theorem astar_loop_some (grid : Grid) (start goal : State) (cost_fn : Action → Int)
    (heuristic_fn : State → State → Int) (hpos : ∀ x, 0 < cost_fn x) :
    ∃ stf, astarLoop grid goal cost_fn heuristic_fn (dfsFuel grid)
      (astarInit start goal heuristic_fn) = some stf := by
  have := iterStep_total (astarStep grid goal cost_fn heuristic_fn)
    (P := fun st => AstarInv grid start goal st ∧ AstarVC grid st)
    (fun st => st.frontier.length +
      5 * ((grid.length * grid.length + 1) - st.visited.length))
    (fun st st' hs hP => astarInv_step hpos hs hP)
    (fun st st' hs hP => by
      have hP' := astarInv_step hpos hs hP
      have hvle' := astarInv_visited_le hP'.1
      rcases astarStep_inl_char hs with ⟨f, c, s, rest, hpop, hv, hst'⟩ |
        ⟨f, c, s, rest, hpop, hv, hg, hst'⟩
      · subst hst'
        obtain ⟨hmem, hrest⟩ := popMin_eq_some hpop
        have e1 : rest.length + 1 = st.frontier.length := by
          rw [hrest]
          exact length_eraseFirst_of_mem hmem
        dsimp only
        omega
      · obtain ⟨hmem, hrest⟩ := popMin_eq_some hpop
        have e1 : rest.length + 1 = st.frontier.length := by
          rw [hrest]
          exact length_eraseFirst_of_mem hmem
        have hlen := astarRelax_lengths cost_fn heuristic_fn goal s c
          (get_neighbors s grid)
          ⟨rest, st.parent, st.cost_so_far, st.visited ++ [s], st.states_explored + 1⟩
        have e4 := get_neighbors_length_le s grid
        have f1 : st'.frontier.length ≤ rest.length + 4 := by
          rw [hst']
          have h1 := hlen.1
          have h2 : (⟨rest, st.parent, st.cost_so_far, st.visited ++ [s],
            st.states_explored + 1⟩ : AstarSt).frontier.length = rest.length := rfl
          omega
        have f2 : st'.visited.length = st.visited.length + 1 := by
          rw [hst', hlen.2.1]
          simp
        dsimp only
        omega)
    (dfsFuel grid) (astarInit start goal heuristic_fn)
    (astarInv_init grid start goal heuristic_fn)
    (by
      rw [dfsFuel]
      simp [astarInit]
      omega)
  exact this

/-- Every A* run with a strictly positive cost function, packaged: the loop
terminates within fuel, the final step leaves a state satisfying the full
invariant, and the returned value is the reconstructed path plus counter. -/
theorem astar_run (grid : Grid) (start goal : State) (cost_fn : Action → Int)
    (heuristic_fn : State → State → Int) (hpos : ∀ x, 0 < cost_fn x) :
    ∃ st0 stf, (AstarInv grid start goal st0 ∧ AstarVC grid st0) ∧
      astarStep grid goal cost_fn heuristic_fn st0 = .inr stf ∧
      astar grid start goal cost_fn heuristic_fn = some (reconstruct_path stf.parent start goal,
        stf.states_explored) := by
  obtain ⟨stf, hloop⟩ := astar_loop_some grid start goal cost_fn heuristic_fn hpos
  obtain ⟨st0, hreach, hlast⟩ := iterStep_last hloop
  have hinv0 := iterReach_inv (P := fun st => AstarInv grid start goal st ∧ AstarVC grid st)
    (astarInv_init grid start goal heuristic_fn)
    (fun st st' hs hP => astarInv_step hpos hs hP) st0 hreach
  refine ⟨st0, stf, hinv0, hlast, ?_⟩
  rw [astar, hloop]
  rfl


/-! ## C10: each state is expanded at most once -/

/-- C10: in every run of `bfs`, `dfs`, `dls`, `ucs` and `astar` (the cost-based
two with a strictly positive cost function), every state the main loop passes
through satisfies the at-most-once expansion discipline: for `dfs`, `dls`,
`ucs` and `astar` the visited list — which gains exactly one entry per counted
expansion and is consulted to skip (without counting) any popped state already
expanded — has no duplicates and its length is exactly `states_explored`; for
`bfs` the parent-map keys are pairwise distinct, the queue is duplicate-free
and contained in the keys (a state is only ever enqueued together with its
first parent-map entry), and `states_explored` counts exactly the distinct
keys that have left the queue. -/
theorem expansion_at_most_once (grid : Grid) (start goal : State) (limit : Int)
    (cost_fn : Action → Int) (heuristic_fn : State → State → Int)
    (hpos : ∀ x, 0 < cost_fn x) :
    (∀ st, IterReach (bfsStep grid goal) (bfsInit start) st →
      (dKeys st.parent).Nodup ∧ st.queue.Nodup ∧ (∀ q ∈ st.queue, q ∈ dKeys st.parent) ∧
      st.states_explored + st.queue.length = st.parent.length) ∧
    (∀ st, IterReach (dfsStep grid goal) (dfsInit start) st →
      st.visited.Nodup ∧ st.states_explored = st.visited.length) ∧
    (∀ st, IterReach (dlsStep grid goal limit) (dlsInit start) st →
      st.visited.Nodup ∧ st.states_explored = st.visited.length) ∧
    (∀ st, IterReach (ucsStep grid goal cost_fn) (ucsInit start) st →
      st.visited.Nodup ∧ st.states_explored = st.visited.length) ∧
    (∀ st, IterReach (astarStep grid goal cost_fn heuristic_fn)
        (astarInit start goal heuristic_fn) st →
      st.visited.Nodup ∧ st.states_explored = st.visited.length) := by
  refine ⟨?_, ?_, ?_, ?_, ?_⟩
  · intro st hst
    have h := iterReach_inv (bfsInv_init grid start goal)
      (fun st st' hs hP => bfsInv_step hs hP) st hst
    exact ⟨h.keys_nodup, h.queue_nodup, h.queue_sub, h.count⟩
  · intro st hst
    have h := iterReach_inv (dfsInv_init grid start goal)
      (fun st st' hs hP => dfsInv_step hs hP) st hst
    exact ⟨h.visited_nodup, h.count⟩
  · intro st hst
    have h := iterReach_inv (dlsInv_init grid start goal)
      (fun st st' hs hP => dlsInv_step hs hP) st hst
    exact ⟨h.visited_nodup, h.count⟩
  · intro st hst
    have h := iterReach_inv (P := fun st => UcsInv grid start goal st ∧ UcsVC grid st)
      (ucsInv_init grid start goal)
      (fun st st' hs hP => ucsInv_step hpos hs hP) st hst
    exact ⟨h.1.visited_nodup, h.1.count⟩
  · intro st hst
    have h := iterReach_inv (P := fun st => AstarInv grid start goal st ∧ AstarVC grid st)
      (astarInv_init grid start goal heuristic_fn)
      (fun st st' hs hP => astarInv_step hpos hs hP) st hst
    exact ⟨h.1.visited_nodup, h.1.count⟩

/-- C10, witness: the scenario-1 cost function is strictly positive, and the
theorem then applies on a concrete 2×2 grid. -/
theorem expansion_at_most_once_witness :
    (∀ x, 0 < cost_scenario1 x) ∧
    (∀ st, IterReach (dfsStep [['F', 'F'], ['F', 'F']] ((1 : Int), (1 : Int)))
        (dfsInit ((0 : Int), (0 : Int))) st →
      st.visited.Nodup ∧ st.states_explored = st.visited.length) :=
  ⟨fun x => by simp [cost_scenario1],
   (expansion_at_most_once [['F', 'F'], ['F', 'F']] ((0 : Int), (0 : Int))
      ((1 : Int), (1 : Int)) 0 cost_scenario1 heuristic_scenario2
      (fun x => by simp [cost_scenario1])).2.1⟩

/-! ## Shape of every returned result

Shared consequences of the run lemmas: each algorithm always returns `.ok`
(never an error), and a non-empty returned path is a well-formed path from
`start` to `goal` whose presence forces `goal` to be `start` or a free cell. -/

theorem chain_head_free {g : Grid} :
    ∀ (p : List State) (s : State), p.head? = some s → List.Chain' (Adj g) p →
      FreeCell g s → ∀ c ∈ p, FreeCell g c := by
  intro p
  induction p with
  | nil => intro s _ _ _ c hc; simp at hc
  | cons x xs ih =>
    intro s hhead hchain hs c hc
    simp only [List.head?_cons, Option.some.injEq] at hhead
    subst hhead
    rcases List.mem_cons.mp hc with rfl | hc
    · exact hs
    · cases xs with
      | nil => simp at hc
      | cons y ys =>
        have hchain' := List.chain'_cons.mp hchain
        exact ih y (by simp) hchain'.2 (adj_free hchain'.1) c hc

theorem pathFrom_all_free {g : Grid} {s t : State} {p : List State}
    (h : PathFrom g s t p) (hs : FreeCell g s) : ∀ c ∈ p, FreeCell g c :=
  chain_head_free p s h.2.1 h.2.2.2 hs

/-- The strictly increasing accumulated cost along parent links is the rank
that makes the UCS parent map reconstructible. -/
theorem ucsInv_goodParent {grid : Grid} {start goal : State} {st : UcsSt}
    (hinv : UcsInv grid start goal st) : GoodParent grid start st.parent := by
  refine ⟨hinv.gstart, hinv.gnone, hinv.gedge,
    fun k => ((dLookup st.cost_so_far k).getD 0).toNat, ?_⟩
  intro k p hk
  obtain ⟨ck, cp, hck, hcp, hlt⟩ := hinv.cost_edge k p hk
  have h1 := hinv.cost_nonneg p cp hcp
  dsimp only
  rw [hck, hcp]
  simp only [Option.getD_some]
  omega

theorem astarInv_goodParent {grid : Grid} {start goal : State} {st : AstarSt}
    (hinv : AstarInv grid start goal st) : GoodParent grid start st.parent := by
  refine ⟨hinv.gstart, hinv.gnone, hinv.gedge,
    fun k => ((dLookup st.cost_so_far k).getD 0).toNat, ?_⟩
  intro k p hk
  obtain ⟨ck, cp, hck, hcp, hlt⟩ := hinv.cost_edge k p hk
  have h1 := hinv.cost_nonneg p cp hcp
  dsimp only
  rw [hck, hcp]
  simp only [Option.getD_some]
  omega

/-- What `reconstruct_path` yields on any `GoodParent` map whose keys are
`start` or free cells: always `.ok`, and non-empty only for a key goal. -/
theorem goodParent_result {grid : Grid} {start goal : State} {m : PMap}
    (hg : GoodParent grid start m) (hfree : ∀ k ∈ dKeys m, k = start ∨ FreeCell grid k) :
    ∃ p, reconstruct_path m start goal = .ok p ∧
      (p ≠ [] → PathFrom grid start goal p ∧ (goal = start ∨ FreeCell grid goal)) ∧
      (goal ∉ dKeys m → p = []) ∧ (goal ∈ dKeys m → p ≠ []) := by
  by_cases hk : goal ∈ dKeys m
  · obtain ⟨p, hp, hppath⟩ := (goodParent_reconstruct hg goal).2 hk
    exact ⟨p, hp, fun _ => ⟨hppath, hfree goal hk⟩, fun hc => absurd hk hc,
      fun _ => hppath.1⟩
  · exact ⟨[], (goodParent_reconstruct hg goal).1 hk, fun hc => absurd rfl hc,
      fun _ => rfl, fun hc => absurd hc hk⟩

theorem bfs_shape (grid : Grid) (start goal : State) :
    ∃ p n, bfs grid start goal = some (.ok p, n) ∧
      (p ≠ [] → PathFrom grid start goal p ∧ (goal = start ∨ FreeCell grid goal)) := by
  obtain ⟨st0, stf, hinv, hlast, hres⟩ := bfs_run grid start goal
  have hparent : stf.parent = st0.parent := by
    rcases bfsStep_inr_char hlast with ⟨-, rfl⟩ | ⟨rest, hq, rfl⟩ <;> rfl
  obtain ⟨p, hp, hshape, -, -⟩ := @goodParent_result grid start goal _ hinv.good hinv.keys_free
  refine ⟨p, stf.states_explored, ?_, hshape⟩
  rw [hres, hparent, hp]

theorem dfs_shape (grid : Grid) (start goal : State) :
    ∃ p n, dfs grid start goal = some (.ok p, n) ∧
      (p ≠ [] → PathFrom grid start goal p ∧ (goal = start ∨ FreeCell grid goal)) := by
  obtain ⟨st0, stf, hinv, hlast, hres⟩ := dfs_run grid start goal
  have hparent : stf.parent = st0.parent := by
    rcases dfsStep_inr_char hlast with ⟨-, rfl⟩ | ⟨rest, hq, -, rfl⟩ <;> rfl
  obtain ⟨p, hp, hshape, -, -⟩ := @goodParent_result grid start goal _ hinv.good hinv.keys_free
  refine ⟨p, stf.states_explored, ?_, hshape⟩
  rw [hres, hparent, hp]

theorem dls_shape (grid : Grid) (start goal : State) (limit : Int) :
    ∃ p n, dls grid start goal limit = some (.ok p, n) ∧
      (p ≠ [] → PathFrom grid start goal p ∧ (goal = start ∨ FreeCell grid goal)) := by
  obtain ⟨st0, stf, hinv, hlast, hres⟩ := dls_run grid start goal limit
  have hparent : stf.parent = st0.parent := by
    rcases dlsStep_inr_char hlast with ⟨-, rfl⟩ | ⟨depth, rest, hq, -, rfl⟩ <;> rfl
  obtain ⟨p, hp, hshape, -, -⟩ := @goodParent_result grid start goal _ hinv.good hinv.keys_free
  refine ⟨p, stf.states_explored, ?_, hshape⟩
  rw [hres, hparent, hp]

theorem ucs_shape (grid : Grid) (start goal : State) (cost_fn : Action → Int)
    (hpos : ∀ x, 0 < cost_fn x) :
    ∃ p n, ucs grid start goal cost_fn = some (.ok p, n) ∧
      (p ≠ [] → PathFrom grid start goal p ∧ (goal = start ∨ FreeCell grid goal)) := by
  obtain ⟨st0, stf, hinv, hlast, hres⟩ := ucs_run grid start goal cost_fn hpos
  have hparent : stf.parent = st0.parent := by
    rcases ucsStep_inr_char hlast with ⟨-, rfl⟩ | ⟨c, rest, hq, -, rfl⟩ <;> rfl
  obtain ⟨p, hp, hshape, -, -⟩ := @goodParent_result grid start goal _
    (ucsInv_goodParent hinv.1) hinv.1.keys_free
  refine ⟨p, stf.states_explored, ?_, hshape⟩
  rw [hres, hparent, hp]

theorem astar_shape (grid : Grid) (start goal : State) (cost_fn : Action → Int)
    (heuristic_fn : State → State → Int) (hpos : ∀ x, 0 < cost_fn x) :
    ∃ p n, astar grid start goal cost_fn heuristic_fn = some (.ok p, n) ∧
      (p ≠ [] → PathFrom grid start goal p ∧ (goal = start ∨ FreeCell grid goal)) := by
  obtain ⟨st0, stf, hinv, hlast, hres⟩ := astar_run grid start goal cost_fn heuristic_fn hpos
  have hparent : stf.parent = st0.parent := by
    rcases astarStep_inr_char hlast with ⟨-, rfl⟩ | ⟨f, c, rest, hq, -, rfl⟩ <;> rfl
  obtain ⟨p, hp, hshape, -, -⟩ := @goodParent_result grid start goal _
    (astarInv_goodParent hinv.1) hinv.1.keys_free
  refine ⟨p, stf.states_explored, ?_, hshape⟩
  rw [hres, hparent, hp]

/-- The walk accumulated by `random_search` stays a well-formed path; a
non-empty result is a path from `start` to `goal`, and reaching the goal
forces it to be `start` itself or a free cell. -/
theorem randomLoop_path (grid : Grid) (goal : State) (rng : Nat → Nat) (start : State) :
    ∀ (steps i : Nat) (current : State) (path visited : List State),
      PathFrom grid start current path → (current = start ∨ FreeCell grid current) →
      (randomLoop grid goal rng steps i current path visited).1 = [] ∨
      (PathFrom grid start goal (randomLoop grid goal rng steps i current path visited).1 ∧
        (goal = start ∨ FreeCell grid goal)) := by
  intro steps
  induction steps with
  | zero => intro i current path visited _ _; exact Or.inl rfl
  | succ steps ih =>
    intro i current path visited hpath hcur
    rw [randomLoop]
    by_cases hg : current = goal
    · rw [if_pos hg]
      subst hg
      exact Or.inr ⟨hpath, hcur⟩
    · rw [if_neg hg]
      cases hn : (get_neighbors current grid).map (·.1) with
      | nil => exact Or.inl rfl
      | cons a rest =>
        have hlen : rng i % (a :: rest).length < (a :: rest).length :=
          Nat.mod_lt _ (by simp)
        have hc : rngPick rng i (a :: rest) a ∈ (a :: rest) := by
          rw [rngPick, List.getD_eq_getElem _ _ hlen]
          exact List.getElem_mem hlen
        have hc2 : rngPick rng i (a :: rest) a ∈ (get_neighbors current grid).map (·.1) := by
          rw [hn]
          exact hc
        have hadj : Adj grid current (rngPick rng i (a :: rest) a) :=
          adj_iff_mem_map.mpr hc2
        exact ih (i + 1) _ _ _ (pathFrom_append_adj hpath hadj)
          (Or.inr (adj_free hadj))

theorem random_search_shape (grid : Grid) (start goal : State) (max_steps : Nat)
    (rng : Nat → Nat) :
    (random_search grid start goal max_steps rng).1 = [] ∨
    (PathFrom grid start goal (random_search grid start goal max_steps rng).1 ∧
      (goal = start ∨ FreeCell grid goal)) := by
  rw [random_search]
  exact randomLoop_path grid goal rng start max_steps 0 start [start] [start]
    (pathFrom_single start) (Or.inl rfl)

/-! ## C4: tolerance of invalid inputs -/

/-- C4, counterexample.  With the start on a blocked cell (`grid[0][0] = 'H'`)
and a valid reachable goal, `bfs` does not fail: `get_neighbors` validates
only the *destination* cell of each move, so the search walks off the blocked
start and returns a NON-empty path (of 3 states, having expanded 4), not the
empty path the claim requires for every invalid start. -/
theorem invalid_start_counterexample :
    bfs [['H', 'F'], ['F', 'F']] ((0 : Int), (0 : Int)) ((1 : Int), (1 : Int)) =
      some (.ok [((0 : Int), (0 : Int)), ((0 : Int), (1 : Int)), ((1 : Int), (1 : Int))],
        4) ∧
    cellAt [['H', 'F'], ['F', 'F']] 0 0 = 'H' :=
  ⟨rfl, rfl⟩

/-- C4 (amended): an invalid GOAL — out of bounds or on a blocked cell, and
distinct from the start — makes every one of the six searches fail softly:
each returns normally (`.ok`, never an error) with an empty path.  An invalid
START does not cause the failure the claim describes: `get_neighbors`
validates only the destination cell of a move, so the search leaves a blocked
start cell normally and can return a non-empty path. -/
theorem invalid_goal_empty_path (grid : Grid) (start goal : State) (max_steps : Nat)
    (rng : Nat → Nat) (limit : Int) (cost_fn : Action → Int)
    (heuristic_fn : State → State → Int) (hpos : ∀ x, 0 < cost_fn x)
    (hne : goal ≠ start) (hblocked : ¬ FreeCell grid goal) :
    (random_search grid start goal max_steps rng).1 = [] ∧
    (∃ n, bfs grid start goal = some (.ok [], n)) ∧
    (∃ n, dfs grid start goal = some (.ok [], n)) ∧
    (∃ n, dls grid start goal limit = some (.ok [], n)) ∧
    (∃ n, ucs grid start goal cost_fn = some (.ok [], n)) ∧
    (∃ n, astar grid start goal cost_fn heuristic_fn = some (.ok [], n)) := by
  have hempty : ∀ {p : List State},
      (p ≠ [] → PathFrom grid start goal p ∧ (goal = start ∨ FreeCell grid goal)) →
      p = [] := by
    intro p h
    by_contra hc
    rcases (h hc).2 with h1 | h1
    · exact hne h1
    · exact hblocked h1
  refine ⟨?_, ?_, ?_, ?_, ?_, ?_⟩
  · rcases random_search_shape grid start goal max_steps rng with h | ⟨-, h2⟩
    · exact h
    · rcases h2 with h1 | h1
      · exact absurd h1 hne
      · exact absurd h1 hblocked
  · obtain ⟨p, n, hres, hsh⟩ := bfs_shape grid start goal
    rw [hempty hsh] at hres
    exact ⟨n, hres⟩
  · obtain ⟨p, n, hres, hsh⟩ := dfs_shape grid start goal
    rw [hempty hsh] at hres
    exact ⟨n, hres⟩
  · obtain ⟨p, n, hres, hsh⟩ := dls_shape grid start goal limit
    rw [hempty hsh] at hres
    exact ⟨n, hres⟩
  · obtain ⟨p, n, hres, hsh⟩ := ucs_shape grid start goal cost_fn hpos
    rw [hempty hsh] at hres
    exact ⟨n, hres⟩
  · obtain ⟨p, n, hres, hsh⟩ := astar_shape grid start goal cost_fn heuristic_fn hpos
    rw [hempty hsh] at hres
    exact ⟨n, hres⟩

/-- C4, witness: an out-of-bounds goal on a 2×2 all-free grid. -/
theorem invalid_goal_empty_path_witness :
    ((5 : Int), (5 : Int)) ≠ ((0 : Int), (0 : Int)) ∧
    ¬ FreeCell [['F', 'F'], ['F', 'F']] ((5 : Int), (5 : Int)) ∧
    (∃ n, bfs [['F', 'F'], ['F', 'F']] ((0 : Int), (0 : Int)) ((5 : Int), (5 : Int)) =
      some (.ok [], n)) :=
  ⟨by decide, by decide,
   (invalid_goal_empty_path [['F', 'F'], ['F', 'F']] ((0 : Int), (0 : Int))
      ((5 : Int), (5 : Int)) 3 (fun _ => 0) 2 cost_scenario1 heuristic_scenario2
      (fun x => by simp [cost_scenario1]) (by decide) (by decide)).2.1⟩

/-! ## C7: well-formedness of returned paths -/

/-- C7, counterexample.  With the start on a blocked cell, `dfs` returns a
path whose first step leaves the blocked cell `(0,0)`: the pair
`((0,0), (0,1))` does not connect two non-blocked cells, contrary to the
claim, which promises this for every input. -/
theorem path_through_blocked_start_counterexample :
    dfs [['H', 'F'], ['F', 'F']] ((0 : Int), (0 : Int)) ((1 : Int), (1 : Int)) =
      some (.ok [((0 : Int), (0 : Int)), ((0 : Int), (1 : Int)), ((1 : Int), (1 : Int))],
        3) ∧
    ¬ FreeCell [['H', 'F'], ['F', 'F']] ((0 : Int), (0 : Int)) :=
  ⟨rfl, by decide⟩

/-- C7 (amended): provided the START is a free in-bounds cell (the claim
fails for a blocked start, whose outgoing move is never validated), every
returned non-empty path of all six algorithms starts at `start`, ends at
`goal`, each consecutive pair is one canonical action (`PathFrom`, whose
`Adj` steps are exactly membership in `get_neighbors`), and every cell on the
path is in-bounds and non-blocked. -/
theorem returned_path_wellformed (grid : Grid) (start goal : State) (max_steps : Nat)
    (rng : Nat → Nat) (limit : Int) (cost_fn : Action → Int)
    (heuristic_fn : State → State → Int) (hpos : ∀ x, 0 < cost_fn x)
    (hstart : FreeCell grid start) :
    (∀ p n, random_search grid start goal max_steps rng = (p, n) → p ≠ [] →
      PathFrom grid start goal p ∧ ∀ c ∈ p, FreeCell grid c) ∧
    (∀ p n, bfs grid start goal = some (.ok p, n) → p ≠ [] →
      PathFrom grid start goal p ∧ ∀ c ∈ p, FreeCell grid c) ∧
    (∀ p n, dfs grid start goal = some (.ok p, n) → p ≠ [] →
      PathFrom grid start goal p ∧ ∀ c ∈ p, FreeCell grid c) ∧
    (∀ p n, dls grid start goal limit = some (.ok p, n) → p ≠ [] →
      PathFrom grid start goal p ∧ ∀ c ∈ p, FreeCell grid c) ∧
    (∀ p n, ucs grid start goal cost_fn = some (.ok p, n) → p ≠ [] →
      PathFrom grid start goal p ∧ ∀ c ∈ p, FreeCell grid c) ∧
    (∀ p n, astar grid start goal cost_fn heuristic_fn = some (.ok p, n) → p ≠ [] →
      PathFrom grid start goal p ∧ ∀ c ∈ p, FreeCell grid c) := by
  refine ⟨?_, ?_, ?_, ?_, ?_, ?_⟩
  · intro p n hres hne
    rcases random_search_shape grid start goal max_steps rng with h | ⟨hp, -⟩
    · rw [hres] at h
      exact absurd h hne
    · rw [hres] at hp
      exact ⟨hp, pathFrom_all_free hp hstart⟩
  · intro p n hres hne
    obtain ⟨p0, n0, hres0, hsh⟩ := bfs_shape grid start goal
    rw [hres0] at hres
    simp only [Option.some.injEq, Prod.mk.injEq, Except.ok.injEq] at hres
    obtain ⟨rfl, rfl⟩ := hres
    obtain ⟨hp, -⟩ := hsh hne
    exact ⟨hp, pathFrom_all_free hp hstart⟩
  · intro p n hres hne
    obtain ⟨p0, n0, hres0, hsh⟩ := dfs_shape grid start goal
    rw [hres0] at hres
    simp only [Option.some.injEq, Prod.mk.injEq, Except.ok.injEq] at hres
    obtain ⟨rfl, rfl⟩ := hres
    obtain ⟨hp, -⟩ := hsh hne
    exact ⟨hp, pathFrom_all_free hp hstart⟩
  · intro p n hres hne
    obtain ⟨p0, n0, hres0, hsh⟩ := dls_shape grid start goal limit
    rw [hres0] at hres
    simp only [Option.some.injEq, Prod.mk.injEq, Except.ok.injEq] at hres
    obtain ⟨rfl, rfl⟩ := hres
    obtain ⟨hp, -⟩ := hsh hne
    exact ⟨hp, pathFrom_all_free hp hstart⟩
  · intro p n hres hne
    obtain ⟨p0, n0, hres0, hsh⟩ := ucs_shape grid start goal cost_fn hpos
    rw [hres0] at hres
    simp only [Option.some.injEq, Prod.mk.injEq, Except.ok.injEq] at hres
    obtain ⟨rfl, rfl⟩ := hres
    obtain ⟨hp, -⟩ := hsh hne
    exact ⟨hp, pathFrom_all_free hp hstart⟩
  · intro p n hres hne
    obtain ⟨p0, n0, hres0, hsh⟩ := astar_shape grid start goal cost_fn heuristic_fn hpos
    rw [hres0] at hres
    simp only [Option.some.injEq, Prod.mk.injEq, Except.ok.injEq] at hres
    obtain ⟨rfl, rfl⟩ := hres
    obtain ⟨hp, -⟩ := hsh hne
    exact ⟨hp, pathFrom_all_free hp hstart⟩

/-- C7, witness: a free start on a 2×2 all-free grid. -/
theorem returned_path_wellformed_witness :
    FreeCell [['F', 'F'], ['F', 'F']] ((0 : Int), (0 : Int)) ∧
    (∀ p n, bfs [['F', 'F'], ['F', 'F']] ((0 : Int), (0 : Int)) ((1 : Int), (1 : Int)) =
        some (.ok p, n) → p ≠ [] →
      PathFrom [['F', 'F'], ['F', 'F']] ((0 : Int), (0 : Int)) ((1 : Int), (1 : Int)) p ∧
      ∀ c ∈ p, FreeCell [['F', 'F'], ['F', 'F']] c) :=
  ⟨by decide,
   (returned_path_wellformed [['F', 'F'], ['F', 'F']] ((0 : Int), (0 : Int))
      ((1 : Int), (1 : Int)) 3 (fun _ => 0) 2 cost_scenario1 heuristic_scenario2
      (fun x => by simp [cost_scenario1]) (by decide)).2.1⟩

/-! ## C8: exhaustion on a disconnected goal -/

/-- Any predicate holding at `start` and closed under valid moves covers
everything reachable from `start`. -/
theorem reaches_subset_closed {grid : Grid} {start : State} {S : State → Prop}
    (hs : S start) (hcl : ∀ u, S u → ∀ t, Adj grid u t → S t) :
    ∀ x, Reaches grid start x → S x := by
  rintro x ⟨n, h⟩
  induction h with
  | zero => exact hs
  | succ _ hadj ih => exact hcl _ ih _ hadj

/-- From a state with no valid outgoing move, only the state itself is
reachable. -/
theorem reaches_of_no_neighbors {grid : Grid} {start : State}
    (h : get_neighbors start grid = []) : ∀ x, Reaches grid start x → x = start := by
  refine reaches_subset_closed rfl ?_
  intro u hu t hadj
  subst hu
  obtain ⟨a, ha⟩ := hadj
  rw [h] at ha
  exact absurd ha (by simp)

/-- C8, counterexample.  On a grid whose bottom-right free cell is cut off,
`dls` with `limit = 0` expands only the start (`states_explored = 1`), yet the
component of the start has at least the two distinct states `(0,0)` and
`(0,1)`: for `dls` the claimed equality with the component size fails. -/
theorem dls_explored_not_component_counterexample :
    dls [['F', 'F', 'H'], ['F', 'F', 'H'], ['H', 'H', 'F']] ((0 : Int), (0 : Int))
        ((2 : Int), (2 : Int)) 0 = some (.ok [], 1) ∧
    Reaches [['F', 'F', 'H'], ['F', 'F', 'H'], ['H', 'H', 'F']] ((0 : Int), (0 : Int))
      ((0 : Int), (1 : Int)) ∧
    ((0 : Int), (1 : Int)) ≠ ((0 : Int), (0 : Int)) :=
  ⟨rfl, ⟨1, ReachN.succ ReachN.zero ⟨((0 : Int), (1 : Int)), by decide⟩⟩, by decide⟩

/-- C8 (amended): with the goal unreachable from `start`, `bfs`, `dfs`, `ucs`
and `astar` (the last two under a strictly positive cost function) return an
empty path with `states_explored` equal to the number of states in the
reachable component of `start` (exhibited as a duplicate-free list holding
exactly the reachable states); `dls` also returns an empty path for every
limit, but its `states_explored` can be smaller than the component (the depth
bound prunes the traversal — see the counterexample). -/
theorem no_path_explores_component (grid : Grid) (start goal : State) (limit : Int)
    (cost_fn : Action → Int) (heuristic_fn : State → State → Int)
    (hpos : ∀ x, 0 < cost_fn x) (hdis : ¬ Reaches grid start goal) :
    (∃ (n : Nat) (comp : List State), bfs grid start goal = some (.ok [], n) ∧ comp.Nodup ∧
      (∀ x, x ∈ comp ↔ Reaches grid start x) ∧ n = comp.length) ∧
    (∃ (n : Nat) (comp : List State), dfs grid start goal = some (.ok [], n) ∧ comp.Nodup ∧
      (∀ x, x ∈ comp ↔ Reaches grid start x) ∧ n = comp.length) ∧
    (∃ n, dls grid start goal limit = some (.ok [], n)) ∧
    (∃ (n : Nat) (comp : List State), ucs grid start goal cost_fn = some (.ok [], n) ∧ comp.Nodup ∧
      (∀ x, x ∈ comp ↔ Reaches grid start x) ∧ n = comp.length) ∧
    (∃ (n : Nat) (comp : List State), astar grid start goal cost_fn heuristic_fn = some (.ok [], n) ∧
      comp.Nodup ∧ (∀ x, x ∈ comp ↔ Reaches grid start x) ∧ n = comp.length) := by
  refine ⟨?_, ?_, ?_, ?_, ?_⟩
  · -- BFS: the queue drains; the parent keys are exactly the component.
    obtain ⟨st0, stf, hinv, hlast, hres⟩ := bfs_run grid start goal
    rcases bfsStep_inr_char hlast with ⟨hq, rfl⟩ | ⟨rest, hq, rfl⟩
    · have hstart : start ∈ dKeys stf.parent :=
        (dLookup_isSome_iff _ _).mp (by rw [hinv.good.1]; rfl)
      have hgoal : goal ∉ dKeys stf.parent := fun hc => hdis (hinv.keys_reach goal hc)
      have hempty := (goodParent_reconstruct hinv.good goal).1 hgoal
      refine ⟨stf.states_explored, dKeys stf.parent, by rw [hres, hempty],
        hinv.keys_nodup, ?_, ?_⟩
      · intro x
        constructor
        · exact hinv.keys_reach x
        · exact reaches_subset_closed hstart
            (fun u hu t hadj => hinv.closure u hu (by rw [hq]; simp) t hadj) x
      · have h1 := hinv.count
        have h2 : (dKeys stf.parent).length = stf.parent.length := List.length_map _ _
        rw [hq] at h1
        simp only [List.length_nil] at h1
        omega
    · exact absurd (hinv.keys_reach goal (hinv.queue_sub goal (by rw [hq]; simp))) hdis
  · -- DFS: the stack drains; visited is exactly the component.
    obtain ⟨st0, stf, hinv, hlast, hres⟩ := dfs_run grid start goal
    rcases dfsStep_inr_char hlast with ⟨hq, rfl⟩ | ⟨rest, hq, -, rfl⟩
    · have hkv : ∀ k ∈ dKeys stf.parent, k ∈ stf.visited := by
        intro k hk
        rcases hinv.keys_cover k hk with h | h
        · exact h
        · rw [hq] at h
          simp at h
      have hstart : start ∈ stf.visited :=
        hkv start ((dLookup_isSome_iff _ _).mp (by rw [hinv.good.1]; rfl))
      have hgoal : goal ∉ dKeys stf.parent := fun hc => hdis (hinv.keys_reach goal hc)
      have hempty := (goodParent_reconstruct hinv.good goal).1 hgoal
      refine ⟨stf.states_explored, stf.visited, by rw [hres, hempty],
        hinv.visited_nodup, ?_, hinv.count⟩
      intro x
      constructor
      · exact fun hx => hinv.keys_reach x (hinv.visited_sub x hx)
      · exact reaches_subset_closed hstart
          (fun u hu t hadj => hkv t (hinv.vclosure u hu t hadj)) x
    · exact absurd (hinv.keys_reach goal (hinv.stack_sub goal (by rw [hq]; simp))) hdis
  · -- DLS: the unreachable goal is never a parent key, so the path is empty.
    obtain ⟨st0, stf, hinv, hlast, hres⟩ := dls_run grid start goal limit
    have hparent : stf.parent = st0.parent := by
      rcases dlsStep_inr_char hlast with ⟨-, rfl⟩ | ⟨depth, rest, hq, -, rfl⟩ <;> rfl
    have hgoal : goal ∉ dKeys st0.parent := fun hc => hdis (hinv.keys_reach goal hc)
    have hempty := (goodParent_reconstruct hinv.good goal).1 hgoal
    exact ⟨stf.states_explored, by rw [hres, hparent, hempty]⟩
  · -- UCS: the frontier drains; visited is exactly the component.
    obtain ⟨st0, stf, hinv, hlast, hres⟩ := ucs_run grid start goal cost_fn hpos
    rcases ucsStep_inr_char hlast with ⟨hq, rfl⟩ | ⟨c, rest, hq, -, rfl⟩
    · have hfr : stf.frontier = [] := by
        cases hf : stf.frontier with
        | nil => rfl
        | cons x xs =>
          rw [hf, popMin_isSome] at hq
          exact absurd hq (by simp)
      have hkv : ∀ k ∈ dKeys stf.parent, k ∈ stf.visited := by
        intro k hk
        rcases hinv.1.cover k hk with h | ⟨e, he, -⟩
        · exact h
        · rw [hfr] at he
          simp at he
      have hstart : start ∈ stf.visited :=
        hkv start ((dLookup_isSome_iff _ _).mp (by rw [hinv.1.gstart]; rfl))
      have hgoal : goal ∉ dKeys stf.parent := fun hc => hdis (hinv.1.keys_reach goal hc)
      have hempty := (goodParent_reconstruct (ucsInv_goodParent hinv.1) goal).1 hgoal
      refine ⟨stf.states_explored, stf.visited, by rw [hres, hempty],
        hinv.1.visited_nodup, ?_, hinv.1.count⟩
      intro x
      constructor
      · exact fun hx => hinv.1.keys_reach x (hinv.1.visited_sub x hx)
      · exact reaches_subset_closed hstart
          (fun u hu t hadj => hkv t (hinv.2 u hu t hadj)) x
    · have hmem := (popMin_eq_some hq).1
      exact absurd (hinv.1.keys_reach goal ((hinv.1.frontier_sub (c, goal) hmem).1)) hdis
  · -- A*: identical to UCS.
    obtain ⟨st0, stf, hinv, hlast, hres⟩ := astar_run grid start goal cost_fn
      heuristic_fn hpos
    rcases astarStep_inr_char hlast with ⟨hq, rfl⟩ | ⟨f, c, rest, hq, -, rfl⟩
    · have hfr : stf.frontier = [] := by
        cases hf : stf.frontier with
        | nil => rfl
        | cons x xs =>
          rw [hf, popMin_isSome] at hq
          exact absurd hq (by simp)
      have hkv : ∀ k ∈ dKeys stf.parent, k ∈ stf.visited := by
        intro k hk
        rcases hinv.1.cover k hk with h | ⟨e, he, -⟩
        · exact h
        · rw [hfr] at he
          simp at he
      have hstart : start ∈ stf.visited :=
        hkv start ((dLookup_isSome_iff _ _).mp (by rw [hinv.1.gstart]; rfl))
      have hgoal : goal ∉ dKeys stf.parent := fun hc => hdis (hinv.1.keys_reach goal hc)
      have hempty := (goodParent_reconstruct (astarInv_goodParent hinv.1) goal).1 hgoal
      refine ⟨stf.states_explored, stf.visited, by rw [hres, hempty],
        hinv.1.visited_nodup, ?_, hinv.1.count⟩
      intro x
      constructor
      · exact fun hx => hinv.1.keys_reach x (hinv.1.visited_sub x hx)
      · exact reaches_subset_closed hstart
          (fun u hu t hadj => hkv t (hinv.2 u hu t hadj)) x
    · have hmem := (popMin_eq_some hq).1
      exact absurd (hinv.1.keys_reach goal ((hinv.1.frontier_sub (f, c, goal) hmem).1))
        hdis

/-- C8, witness: a 2×2 grid whose two free cells are diagonal, hence
disconnected. -/
theorem no_path_explores_component_witness :
    (¬ Reaches [['F', 'H'], ['H', 'F']] ((0 : Int), (0 : Int)) ((1 : Int), (1 : Int))) ∧
    (∃ (n : Nat) (comp : List State),
      bfs [['F', 'H'], ['H', 'F']] ((0 : Int), (0 : Int)) ((1 : Int), (1 : Int)) =
        some (.ok [], n) ∧ comp.Nodup ∧
      (∀ x, x ∈ comp ↔ Reaches [['F', 'H'], ['H', 'F']] ((0 : Int), (0 : Int)) x) ∧
      n = comp.length) := by
  have hdis : ¬ Reaches [['F', 'H'], ['H', 'F']] ((0 : Int), (0 : Int))
      ((1 : Int), (1 : Int)) := fun hr => by
    have := reaches_of_no_neighbors (by rfl) _ hr
    exact absurd this (by decide)
  exact ⟨hdis,
    (no_path_explores_component [['F', 'H'], ['H', 'F']] ((0 : Int), (0 : Int))
      ((1 : Int), (1 : Int)) 2 cost_scenario1 heuristic_scenario2
      (fun x => by simp [cost_scenario1]) hdis).1⟩

/-! ## C6: the depth-limit bound -/

/-- In a stack with nonincreasing labels, the top label bounds them all. -/
theorem stack_labels_le_head {l : List (State × Int)} {x : State × Int}
    (h : List.Chain' (fun a b => b.2 ≤ a.2) (x :: l)) : ∀ e ∈ l, e.2 ≤ x.2 := by
  induction l generalizing x with
  | nil => intro e he; simp at he
  | cons y ys ih =>
    intro e he
    have h' := List.chain'_cons.mp h
    rcases List.mem_cons.mp he with rfl | he
    · exact h'.1
    · exact le_trans (ih h'.2 e he) h'.1

theorem chain_const_labels (c : Int) :
    ∀ (l : List (State × Int)), (∀ e ∈ l, e.2 = c) →
      List.Chain' (fun a b => (b.2 : Int) ≤ a.2) l := by
  intro l
  induction l with
  | nil => intro _; simp
  | cons x xs ih =>
    intro hl
    cases xs with
    | nil => simp
    | cons y ys =>
      rw [List.chain'_cons]
      refine ⟨?_, ih (fun e he => hl e (List.mem_cons_of_mem _ he))⟩
      rw [hl x (by simp), hl y (by simp)]

/-- If `reconWalk` succeeds and some labelling increases by exactly one along
every parent link, the returned path has `D k + 1` states. -/
theorem reconWalk_length {m : PMap} {start : State} (D : State → Nat)
    (hd0 : D start = 0)
    (hedge : ∀ k p, dLookup m k = some (some p) → D k = D p + 1) :
    ∀ (fuel : Nat) (k : State) (p : List State),
      reconWalk m start fuel k = .ok p → p.length = D k + 1 := by
  intro fuel
  induction fuel with
  | zero => intro k p h; exact absurd h (by simp [reconWalk])
  | succ fuel ih =>
    intro k p h
    rw [reconWalk] at h
    by_cases hks : k = start
    · rw [if_pos hks] at h
      have h : Except.ok [k] = Except.ok p := h
      obtain rfl : [k] = p := by simpa using h
      subst hks
      simp [hd0]
    · rw [if_neg hks] at h
      cases hv : dLookup m k with
      | none =>
        rw [hv] at h
        exact absurd h (by simp)
      | some v =>
        cases v with
        | none =>
          rw [hv] at h
          exact absurd h (by simp)
        | some q =>
          rw [hv] at h
          have h : Except.map (fun rest => rest ++ [k]) (reconWalk m start fuel q) =
            Except.ok p := h
          cases hw : reconWalk m start fuel q with
          | error e =>
            rw [hw] at h
            exact absurd h (by simp [Except.map])
          | ok rest =>
            rw [hw] at h
            have h : Except.ok (rest ++ [k]) = Except.ok p := h
            obtain rfl : rest ++ [k] = p := by simpa using h
            have := ih q rest hw
            rw [List.length_append, this, hedge k q hv]
            simp

/-- The depth certificate the DLS loop maintains when `0 ≤ limit`: a depth
labelling of the parent keys that increases by one along parent links, is
bounded by `limit` on every key and on every stack label, is nonincreasing
from the top of the stack, and bounds the label of some live stack entry of
every key not yet expanded. -/
def DlsDepth (limit : Int) (start : State) (st : DlsSt) : Prop :=
  ∃ D : State → Nat, D start = 0 ∧
    (∀ k p, dLookup st.parent k = some (some p) → D k = D p + 1) ∧
    (∀ k ∈ dKeys st.parent, (D k : Int) ≤ limit) ∧
    List.Chain' (fun a b => (b.2 : Int) ≤ a.2) st.stack ∧
    (∀ e ∈ st.stack, e.2 ≤ limit) ∧
    (∀ k ∈ dKeys st.parent, k ∉ st.visited →
      ∃ e ∈ st.stack, e.1 = k ∧ (D k : Int) ≤ e.2)

theorem dlsDepth_init (limit : Int) (start : State) (h0 : 0 ≤ limit) :
    DlsDepth limit start (dlsInit start) := by
  refine ⟨fun _ => 0, rfl, ?_, ?_, ?_, ?_, ?_⟩
  · intro k p hk
    rw [show (dlsInit start).parent = [(start, none)] from rfl,
      dLookup_single_start] at hk
    by_cases h : start = k
    · rw [if_pos h] at hk
      exact absurd hk (by simp)
    · rw [if_neg h] at hk
      exact absurd hk (by simp)
  · intro k hk
    simpa using h0
  · show List.Chain' _ [(start, 0)]
    simp
  · intro e he
    have he : e ∈ [(start, (0 : Int))] := he
    obtain rfl : e = (start, 0) := by simpa using he
    simpa using h0
  · intro k hk hv
    have hk : k ∈ dKeys [(start, (none : Option State))] := hk
    simp only [dKeys, List.map_cons, List.map_nil, List.mem_singleton] at hk
    subst hk
    exact ⟨(k, 0), by simp [dlsInit], rfl, by simp⟩

theorem dlsDepth_step {grid : Grid} {start goal : State} {limit : Int} {st st' : DlsSt}
    (h : dlsStep grid goal limit st = .inl st')
    (hP : DlsInv grid start goal st ∧ DlsDepth limit start st) :
    DlsInv grid start goal st' ∧ DlsDepth limit start st' := by
  refine ⟨dlsInv_step h hP.1, ?_⟩
  obtain ⟨D, hd0, hedge, hkey, hmono, hlab, hcov⟩ := hP.2
  rcases dlsStep_inl_char h with ⟨state, depth, rest, hq, hv, hst'⟩ |
    ⟨state, depth, rest, fresh, hq, hv, hg, hd, h1, h2, h3, h4, h5, h6, h7⟩ |
    ⟨state, depth, rest, hq, hv, hg, hd, hst'⟩
  · -- an already-visited state is skipped
    subst hst'
    rw [hq] at hmono hlab hcov
    refine ⟨D, hd0, hedge, hkey, hmono.tail, fun e he => hlab e (List.mem_cons_of_mem _ he),
      ?_⟩
    intro k hk hkv
    obtain ⟨e, he, he1, he2⟩ := hcov k hk hkv
    rcases List.mem_cons.mp he with rfl | he
    · exact absurd (he1 ▸ hv) hkv
    · exact ⟨e, he, he1, he2⟩
  · -- a fresh state is expanded (depth < limit)
    rw [hq] at hmono hlab hcov
    have smem : state ∈ dKeys st.parent := hP.1.stack_sub (state, depth) (by rw [hq]; simp)
    have hsfresh : state ∉ fresh := fun hc => (h6 state hc).2 smem
    have hDs : (D state : Int) ≤ depth := by
      obtain ⟨e, he, he1, he2⟩ := hcov state smem hv
      rcases List.mem_cons.mp he with rfl | he
      · exact he2
      · exact le_trans he2 (stack_labels_le_head hmono e he)
    refine ⟨fun t => if t ∈ fresh then D state + 1 else D t, ?_, ?_, ?_, ?_, ?_, ?_⟩
    · have : start ∉ fresh := fun hc =>
        (h6 start hc).2 ((dLookup_isSome_iff _ _).mp (by rw [hP.1.good.1]; rfl))
      simp [this, hd0]
    · intro k p hk
      rw [h2] at hk
      rcases dLookup_append_cases hk with hk | ⟨hnone, hk⟩
      · have hkf : k ∉ fresh := fun hc =>
          (h6 k hc).2 ((dLookup_isSome_iff _ _).mp (by rw [hk]; rfl))
        have hpf : p ∉ fresh := fun hc =>
          (h6 p hc).2 (hP.1.good.2.2.1 k p hk).1
        simp only [if_neg hkf, if_neg hpf]
        exact hedge k p hk
      · have hks : k ∈ fresh := by
          have := (dLookup_isSome_iff (fresh.map fun t =>
            ((t, some state) : State × Option State)) k).mp (by rw [hk]; rfl)
          rwa [dKeys_mapConst_eq] at this
        have := dLookup_mapConst fresh hk
        obtain rfl : p = state := by simpa using this
        simp only [if_pos hks, if_neg hsfresh]
    · intro k hk
      rw [h2, dKeys_append, dKeys_mapConst_eq] at hk
      rcases List.mem_append.mp hk with hk | hk
      · have hkf : k ∉ fresh := fun hc => (h6 k hc).2 hk
        simp only [if_neg hkf]
        exact hkey k hk
      · simp only [if_pos hk]
        push_cast
        omega
    · rw [h1]
      rw [List.chain'_append]
      refine ⟨chain_const_labels (depth + 1) _ ?_, hmono.tail, ?_⟩
      · intro e he
        obtain ⟨nb, -, rfl⟩ := List.mem_map.mp he
        rfl
      · intro x hx y hy
        have hx2 : x.2 = depth + 1 := by
          have hx' := List.mem_of_mem_getLast? hx
          obtain ⟨nb, -, rfl⟩ := List.mem_map.mp hx'
          rfl
        have hy2 : (y.2 : Int) ≤ depth := by
          have hy' := List.mem_of_mem_head? hy
          exact stack_labels_le_head hmono y hy'
        omega
    · intro e he
      rw [h1] at he
      rcases List.mem_append.mp he with he | he
      · obtain ⟨nb, -, rfl⟩ := List.mem_map.mp he
        simpa using hd
      · exact hlab e (List.mem_cons_of_mem _ he)
    · intro k hk hkv
      rw [h3] at hkv
      have hkstate : k ≠ state := fun hc => hkv (hc ▸ List.mem_append_right _ (by simp))
      have hkvold : k ∉ st.visited := fun hc => hkv (List.mem_append_left _ hc)
      rw [h2, dKeys_append, dKeys_mapConst_eq] at hk
      rcases List.mem_append.mp hk with hk | hk
      · obtain ⟨e, he, he1, he2⟩ := hcov k hk hkvold
        have hef : k ∉ fresh := fun hc => (h6 k hc).2 hk
        rcases List.mem_cons.mp he with heq | he
        · exact absurd (by rw [← he1, heq]) hkstate
        · refine ⟨e, ?_, he1, by simpa [if_neg hef] using he2⟩
          rw [h1]
          exact List.mem_append_right _ he
      · have hadjk := (h6 k hk).1
        have hkm : k ∈ (get_neighbors state grid).map (·.1) := adj_iff_mem_map.mp hadjk
        obtain ⟨nb, hnb, rfl⟩ := List.mem_map.mp hkm
        refine ⟨(nb.1, depth + 1), ?_, rfl, ?_⟩
        · rw [h1]
          exact List.mem_append_left _ (List.mem_map.mpr ⟨nb, hnb, rfl⟩)
        · simp only [if_pos hk]
          push_cast
          omega
  · -- the depth limit blocks the expansion
    subst hst'
    rw [hq] at hmono hlab hcov
    refine ⟨D, hd0, hedge, hkey, hmono.tail,
      fun e he => hlab e (List.mem_cons_of_mem _ he), ?_⟩
    intro k hk hkv
    have hkstate : k ≠ state := fun hc => hkv (hc ▸ List.mem_append_right _ (by simp))
    have hkvold : k ∉ st.visited := fun hc => hkv (List.mem_append_left _ hc)
    obtain ⟨e, he, he1, he2⟩ := hcov k hk hkvold
    rcases List.mem_cons.mp he with heq | he
    · exact absurd (by rw [← he1, heq]) hkstate
    · exact ⟨e, he, he1, he2⟩

/-- A DLS run together with its depth certificate. -/
theorem dls_depth_run (grid : Grid) (start goal : State) (limit : Int) (h0 : 0 ≤ limit) :
    ∃ st0 stf, (DlsInv grid start goal st0 ∧ DlsDepth limit start st0) ∧
      dlsStep grid goal limit st0 = .inr stf ∧
      dls grid start goal limit = some (reconstruct_path stf.parent start goal,
        stf.states_explored) := by
  obtain ⟨stf, hloop⟩ := dls_loop_some grid start goal limit
  obtain ⟨st0, hreach, hlast⟩ := iterStep_last hloop
  have hinv0 := iterReach_inv
    (P := fun st => DlsInv grid start goal st ∧ DlsDepth limit start st)
    ⟨dlsInv_init grid start goal, dlsDepth_init limit start h0⟩
    (fun st st' hs hP => dlsDepth_step hs hP) st0 hreach
  refine ⟨st0, stf, hinv0, hlast, ?_⟩
  rw [dls, hloop]
  rfl

/-- C6, counterexample.  With the negative limit `-1` and `start = goal` on a
free 1×1 grid, `dls` returns the non-empty path `[(0,0)]` with `0` edges, and
`0 ≤ -1` fails: the edge bound of the claim does not hold for every limit. -/
theorem dls_negative_limit_counterexample :
    dls [['F']] ((0 : Int), (0 : Int)) ((0 : Int), (0 : Int)) (-1) =
      some (.ok [((0 : Int), (0 : Int))], 1) ∧
    ¬ (([((0 : Int), (0 : Int))].length : Int) - 1 ≤ -1) :=
  ⟨rfl, by decide⟩

/-- C6 (amended): for every `limit ≥ 0` (the bound fails for negative limits,
where the start itself is still returned when it equals the goal), every
non-empty path returned by `dls` is a well-formed path from `start` to `goal`
with at most `limit` edges; consequently, if every path from `start` to
`goal` needs more than `limit` edges, `dls` returns an empty path. -/
theorem dls_depth_bound (grid : Grid) (start goal : State) (limit : Int)
    (h0 : 0 ≤ limit) :
    ∃ p n, dls grid start goal limit = some (.ok p, n) ∧
      (p ≠ [] → PathFrom grid start goal p ∧ (p.length : Int) - 1 ≤ limit) ∧
      ((∀ q, PathFrom grid start goal q → limit < (q.length : Int) - 1) → p = []) := by
  obtain ⟨st0, stf, hP, hlast, hres⟩ := dls_depth_run grid start goal limit h0
  have hparent : stf.parent = st0.parent := by
    rcases dlsStep_inr_char hlast with ⟨-, rfl⟩ | ⟨depth, rest, hq, -, rfl⟩ <;> rfl
  obtain ⟨D, hd0, hedge, hkey, -, -, -⟩ := hP.2
  by_cases hk : goal ∈ dKeys st0.parent
  · obtain ⟨p, hp, hppath⟩ := (goodParent_reconstruct hP.1.good goal).2 hk
    have hlen : p.length = D goal + 1 := by
      rw [reconstruct_path, if_pos ((dContains_iff_mem_keys _ _).mpr hk)] at hp
      exact reconWalk_length D hd0 hedge _ goal p hp
    have hDg := hkey goal hk
    refine ⟨p, stf.states_explored, by rw [hres, hparent, hp], ?_, ?_⟩
    · intro hne
      refine ⟨hppath, ?_⟩
      rw [hlen]
      push_cast
      omega
    · intro hall
      exfalso
      have h1 := hall p hppath
      rw [hlen] at h1
      push_cast at h1
      omega
  · have hp := (goodParent_reconstruct hP.1.good goal).1 hk
    exact ⟨[], stf.states_explored, by rw [hres, hparent, hp],
      fun hc => absurd rfl hc, fun _ => rfl⟩

/-- C6, witness: the depth bound applied with `limit = 1` on a free 2×2
grid. -/
theorem dls_depth_bound_witness :
    (0 : Int) ≤ 1 ∧
    (∃ p n, dls [['F', 'F'], ['F', 'F']] ((0 : Int), (0 : Int)) ((1 : Int), (1 : Int)) 1 =
        some (.ok p, n) ∧
      (p ≠ [] → PathFrom [['F', 'F'], ['F', 'F']] ((0 : Int), (0 : Int))
        ((1 : Int), (1 : Int)) p ∧ (p.length : Int) - 1 ≤ 1) ∧
      ((∀ q, PathFrom [['F', 'F'], ['F', 'F']] ((0 : Int), (0 : Int))
        ((1 : Int), (1 : Int)) q → 1 < (q.length : Int) - 1) → p = [])) :=
  ⟨by decide,
   dls_depth_bound [['F', 'F'], ['F', 'F']] ((0 : Int), (0 : Int)) ((1 : Int), (1 : Int))
     1 (by decide)⟩

/-! ## C1: BFS minimality -/

theorem pairwise_const_f {f : State → Nat} {c : Nat} :
    ∀ {l : List State}, (∀ e ∈ l, f e = c) → l.Pairwise (fun a b => f a ≤ f b) := by
  intro l
  induction l with
  | nil => intro _; simp
  | cons x xs ih =>
    intro hl
    rw [List.pairwise_cons]
    refine ⟨?_, ih fun e he => hl e (List.mem_cons_of_mem _ he)⟩
    intro b hb
    rw [hl x (by simp), hl b (List.mem_cons_of_mem _ hb)]

/-- The breadth-first distance certificate: a labelling of the parent keys
that increases by one along parent links, is nondecreasing along the queue,
differs by at most one between any key and any queued state, and bounds the
neighbours of every already-expanded key. -/
def BfsDist (grid : Grid) (start : State) (st : BfsSt) : Prop :=
  ∃ D : State → Nat, D start = 0 ∧
    (∀ k p, dLookup st.parent k = some (some p) → D k = D p + 1) ∧
    st.queue.Pairwise (fun a b => D a ≤ D b) ∧
    (∀ k ∈ dKeys st.parent, ∀ q ∈ st.queue, D k ≤ D q + 1) ∧
    (∀ k ∈ dKeys st.parent, k ∉ st.queue → ∀ t, Adj grid k t →
      t ∈ dKeys st.parent ∧ D t ≤ D k + 1)

theorem bfsDist_init (grid : Grid) (start : State) : BfsDist grid start (bfsInit start) := by
  refine ⟨fun _ => 0, rfl, ?_, ?_, ?_, ?_⟩
  · intro k p hk
    rw [show (bfsInit start).parent = [(start, none)] from rfl, dLookup_single_start] at hk
    by_cases h : start = k
    · rw [if_pos h] at hk
      exact absurd hk (by simp)
    · rw [if_neg h] at hk
      exact absurd hk (by simp)
  · show List.Pairwise _ [start]
    simp
  · intro k _ q _
    dsimp only
    omega
  · intro k hk hkq
    have hk : k ∈ dKeys [(start, (none : Option State))] := hk
    simp only [dKeys, List.map_cons, List.map_nil, List.mem_singleton] at hk
    subst hk
    exact absurd (show k ∈ (bfsInit k).queue by simp [bfsInit]) hkq

theorem bfsDist_step {grid : Grid} {start goal : State} {st st' : BfsSt}
    (h : bfsStep grid goal st = .inl st')
    (hP : BfsInv grid start goal st ∧ BfsDist grid start st) :
    BfsInv grid start goal st' ∧ BfsDist grid start st' := by
  refine ⟨bfsInv_step h hP.1, ?_⟩
  obtain ⟨D, hd0, hedge, hpair, hd4, hd5⟩ := hP.2
  obtain ⟨state, rest, fresh, hq, hg, h1, h2, h3, h4, h5, h6⟩ := bfsStep_inl_char h
  rw [hq] at hpair hd4
  have hpair' := List.pairwise_cons.mp hpair
  have smem : state ∈ dKeys st.parent := hP.1.queue_sub state (by rw [hq]; simp)
  have hsfresh : state ∉ fresh := fun hc => (h5 state hc).2 smem
  have hstartkeys : start ∈ dKeys st.parent :=
    (dLookup_isSome_iff _ _).mp (by rw [hP.1.good.1]; rfl)
  refine ⟨fun t => if t ∈ fresh then D state + 1 else D t, ?_, ?_, ?_, ?_, ?_⟩
  · have : start ∉ fresh := fun hc => (h5 start hc).2 hstartkeys
    simp [this, hd0]
  · intro k p hk
    rw [h2] at hk
    rcases dLookup_append_cases hk with hk | ⟨hnone, hk⟩
    · have hkf : k ∉ fresh := fun hc =>
        (h5 k hc).2 ((dLookup_isSome_iff _ _).mp (by rw [hk]; rfl))
      have hpf : p ∉ fresh := fun hc =>
        (h5 p hc).2 (hP.1.good.2.2.1 k p hk).1
      simp only [if_neg hkf, if_neg hpf]
      exact hedge k p hk
    · have hks : k ∈ fresh := by
        have := (dLookup_isSome_iff (fresh.map fun t =>
          ((t, some state) : State × Option State)) k).mp (by rw [hk]; rfl)
        rwa [dKeys_mapConst_eq] at this
      have := dLookup_mapConst fresh hk
      obtain rfl : p = state := by simpa using this
      simp only [if_pos hks, if_neg hsfresh]
  · rw [h1, List.pairwise_append]
    have hrk : ∀ r ∈ rest, r ∈ dKeys st.parent :=
      fun r hr => hP.1.queue_sub r (by rw [hq]; exact List.mem_cons_of_mem _ hr)
    have hrf : ∀ r ∈ rest, r ∉ fresh := fun r hr hc => (h5 r hc).2 (hrk r hr)
    refine ⟨?_, pairwise_const_f (c := D state + 1) (fun e he => by simp [he]), ?_⟩
    · refine hpair'.2.imp_of_mem ?_
      intro a b ha hb hab
      simp only [if_neg (hrf a ha), if_neg (hrf b hb)]
      exact hab
    · intro r hr t ht
      simp only [if_neg (hrf r hr), if_pos ht]
      have := hd4 r (hrk r hr) state (by simp)
      omega
  · intro k hk q hqm
    rw [h2, dKeys_append, dKeys_mapConst_eq] at hk
    rw [h1] at hqm
    rcases List.mem_append.mp hqm with hqm | hqm
    · have hqf : q ∉ fresh := fun hc =>
        (h5 q hc).2 (hP.1.queue_sub q (by rw [hq]; exact List.mem_cons_of_mem _ hqm))
      rcases List.mem_append.mp hk with hk | hk
      · have hkf : k ∉ fresh := fun hc => (h5 k hc).2 hk
        simp only [if_neg hkf, if_neg hqf]
        exact hd4 k hk q (List.mem_cons_of_mem _ hqm)
      · simp only [if_pos hk, if_neg hqf]
        have := hpair'.1 q hqm
        omega
    · rcases List.mem_append.mp hk with hk | hk
      · have hkf : k ∉ fresh := fun hc => (h5 k hc).2 hk
        simp only [if_neg hkf, if_pos hqm]
        have := hd4 k hk state (by simp)
        omega
      · simp only [if_pos hk, if_pos hqm]
        omega
  · intro k hk hkq t hadj
    rw [h2, dKeys_append, dKeys_mapConst_eq] at hk
    rw [h1] at hkq
    rcases List.mem_append.mp hk with hk | hk
    · by_cases hks : k = state
      · subst hks
        have ht' := h6 t hadj
        refine ⟨ht', ?_⟩
        by_cases htf : t ∈ fresh
        · simp only [if_pos htf, if_neg hsfresh]
          omega
        · have htk : t ∈ dKeys st.parent := by
            have ht2 := ht'
            rw [h2, dKeys_append, dKeys_mapConst_eq] at ht2
            rcases List.mem_append.mp ht2 with ht2 | ht2
            · exact ht2
            · exact absurd ht2 htf
          simp only [if_neg htf, if_neg hsfresh]
          have := hd4 t htk k (by simp)
          omega
      · have hkold : k ∉ st.queue := by
          rw [hq]
          intro hc
          rcases List.mem_cons.mp hc with hc | hc
          · exact hks hc
          · exact hkq (List.mem_append_left _ hc)
        obtain ⟨ht, hDt⟩ := hd5 k hk hkold t hadj
        have hkf : k ∉ fresh := fun hc => (h5 k hc).2 hk
        have htf : t ∉ fresh := fun hc => (h5 t hc).2 ht
        refine ⟨by rw [h2, dKeys_append, dKeys_mapConst_eq]; exact List.mem_append_left _ ht,
          ?_⟩
        simp only [if_neg hkf, if_neg htf]
        exact hDt
    · exact absurd (List.mem_append_right _ hk) hkq

/-- A BFS run together with its distance certificate. -/
theorem bfs_dist_run (grid : Grid) (start goal : State) :
    ∃ st0 stf, (BfsInv grid start goal st0 ∧ BfsDist grid start st0) ∧
      bfsStep grid goal st0 = .inr stf ∧
      bfs grid start goal = some (reconstruct_path stf.parent start goal,
        stf.states_explored) := by
  obtain ⟨stf, hloop⟩ := bfs_loop_some grid start goal
  obtain ⟨st0, hreach, hlast⟩ := iterStep_last hloop
  have hinv0 := iterReach_inv
    (P := fun st => BfsInv grid start goal st ∧ BfsDist grid start st)
    ⟨bfsInv_init grid start goal, bfsDist_init grid start⟩
    (fun st st' hs hP => bfsDist_step hs hP) st0 hreach
  refine ⟨st0, stf, hinv0, hlast, ?_⟩
  rw [bfs, hloop]
  rfl

/-- C1: with an in-bounds, non-blocked start and goal and the goal reachable
from the start, `bfs` returns a non-empty well-formed path from `start` to
`goal` whose number of edges (that is, whose length) is minimal among all
valid paths from `start` to `goal`: FIFO expansion keeps the queue's
breadth-first distance labels nondecreasing, so the first pop of the goal
happens at the true distance. -/
theorem bfs_minimal (grid : Grid) (start goal : State)
    (_hs : FreeCell grid start) (_hg : FreeCell grid goal)
    (hreach : Reaches grid start goal) :
    ∃ p n, bfs grid start goal = some (.ok p, n) ∧ p ≠ [] ∧
      PathFrom grid start goal p ∧
      ∀ q, PathFrom grid start goal q → p.length ≤ q.length := by
  obtain ⟨st0, stf, hP, hlast, hres⟩ := bfs_dist_run grid start goal
  obtain ⟨hinv, D, hd0, hedge, hpair, hd4, hd5⟩ := hP
  have hstartkeys : start ∈ dKeys st0.parent :=
    (dLookup_isSome_iff _ _).mp (by rw [hinv.good.1]; rfl)
  rcases bfsStep_inr_char hlast with ⟨hq, rfl⟩ | ⟨rest, hq, rfl⟩
  · -- a drained queue is impossible: the reachable goal would be a key,
    -- hence queued
    exfalso
    have hclosed : ∀ x, Reaches grid start x → x ∈ dKeys stf.parent :=
      reaches_subset_closed hstartkeys
        (fun u hu t hadj => (hd5 u hu (by rw [hq]; simp) t hadj).1)
    have := hinv.goal_in_queue (hclosed goal hreach)
    rw [hq] at this
    simp at this
  · -- the goal is popped from the front of the queue
    have hgmem : goal ∈ dKeys st0.parent := hinv.queue_sub goal (by rw [hq]; simp)
    obtain ⟨p, hp, hppath⟩ := (goodParent_reconstruct hinv.good goal).2 hgmem
    have hlen : p.length = D goal + 1 := by
      rw [reconstruct_path, if_pos ((dContains_iff_mem_keys _ _).mpr hgmem)] at hp
      exact reconWalk_length D hd0 hedge _ goal p hp
    have hheadmin : ∀ u ∈ st0.queue, D goal ≤ D u := by
      rw [hq]
      intro u hu
      rcases List.mem_cons.mp hu with rfl | hu
      · exact le_refl _
      · exact (List.pairwise_cons.mp (by rw [hq] at hpair; exact hpair)).1 u hu
    have key : ∀ (n : Nat) (x : State), ReachN grid start n x →
        D goal ≤ n ∨ (x ∈ dKeys st0.parent ∧ D x ≤ n) := by
      intro n x h
      induction h with
      | zero => exact Or.inr ⟨hstartkeys, by omega⟩
      | succ hr hadj ih =>
        rcases ih with hih | ⟨hu, hDu⟩
        · left
          omega
        · rename_i m u t
          by_cases huq : u ∈ st0.queue
          · left
            have := hheadmin u huq
            omega
          · obtain ⟨ht, hDt⟩ := hd5 u hu huq t hadj
            exact Or.inr ⟨ht, by omega⟩
    refine ⟨p, st0.states_explored + 1, by rw [hres, hp], hppath.1, hppath, ?_⟩
    intro q hqpath
    have hr := pathFrom_reachN hqpath
    have hq1 : 1 ≤ q.length := by
      cases q with
      | nil => exact absurd rfl hqpath.1
      | cons a l => simp
    rcases key (q.length - 1) goal hr with hn | ⟨-, hn⟩ <;> omega

/-- C1, witness: a free, reachable goal on a 2×2 all-free grid. -/
theorem bfs_minimal_witness :
    FreeCell [['F', 'F'], ['F', 'F']] ((0 : Int), (0 : Int)) ∧
    FreeCell [['F', 'F'], ['F', 'F']] ((1 : Int), (1 : Int)) ∧
    Reaches [['F', 'F'], ['F', 'F']] ((0 : Int), (0 : Int)) ((1 : Int), (1 : Int)) ∧
    (∃ p n, bfs [['F', 'F'], ['F', 'F']] ((0 : Int), (0 : Int)) ((1 : Int), (1 : Int)) =
        some (.ok p, n) ∧ p ≠ [] ∧
      PathFrom [['F', 'F'], ['F', 'F']] ((0 : Int), (0 : Int)) ((1 : Int), (1 : Int)) p ∧
      ∀ q, PathFrom [['F', 'F'], ['F', 'F']] ((0 : Int), (0 : Int))
        ((1 : Int), (1 : Int)) q → p.length ≤ q.length) :=
  ⟨by decide, by decide,
   ⟨2, ReachN.succ (t := ((1 : Int), (1 : Int)))
     (ReachN.succ (t := ((0 : Int), (1 : Int))) ReachN.zero
       ⟨((0 : Int), (1 : Int)), by decide⟩)
     ⟨((1 : Int), (0 : Int)), by decide⟩⟩,
   bfs_minimal [['F', 'F'], ['F', 'F']] ((0 : Int), (0 : Int)) ((1 : Int), (1 : Int))
     (by decide) (by decide)
     ⟨2, ReachN.succ (t := ((1 : Int), (1 : Int)))
       (ReachN.succ (t := ((0 : Int), (1 : Int))) ReachN.zero
         ⟨((0 : Int), (1 : Int)), by decide⟩)
       ⟨((1 : Int), (0 : Int)), by decide⟩⟩⟩

/-! ## C2: cost toolbox -/

/-- Cost of the move between two (adjacent) cells, as `pathCost` charges it:
the cost of the coordinate difference. -/
def eCost (cost_fn : Action → Int) (u t : State) : Int :=
  cost_fn (t.1 - u.1, t.2 - u.2)

/-- `c` is the total cost of some valid path from `start` to `k`. -/
def CostReach (g : Grid) (cost_fn : Action → Int) (start k : State) (c : Int) : Prop :=
  ∃ q, PathFrom g start k q ∧ pathCost cost_fn q = c

theorem pathCost_single (cost_fn : Action → Int) (s : State) :
    pathCost cost_fn [s] = 0 := rfl

theorem foldl_cost_shift (cost_fn : Action → Int) :
    ∀ (l : List (State × State)) (a : Int),
      l.foldl (fun acc e => acc + cost_fn (e.2.1 - e.1.1, e.2.2 - e.1.2)) a =
        a + l.foldl (fun acc e => acc + cost_fn (e.2.1 - e.1.1, e.2.2 - e.1.2)) 0 := by
  intro l
  induction l with
  | nil => intro a; simp
  | cons x xs ih =>
    intro a
    rw [List.foldl_cons, List.foldl_cons, ih, ih (0 + _)]
    ring

theorem zip_tail_snoc {u t : State} :
    ∀ (q : List State), q.getLast? = some u →
      (q ++ [t]).zip (q ++ [t]).tail = q.zip q.tail ++ [(u, t)] := by
  intro q
  induction q with
  | nil => intro h; simp at h
  | cons a q ih =>
    intro h
    cases q with
    | nil =>
      obtain rfl : a = u := by simpa using h
      simp
    | cons b q =>
      have h' : (b :: q).getLast? = some u := by
        rw [← h]
        exact (List.getLast?_cons_cons ..).symm
      have := ih h'
      simp only [List.cons_append, List.zip_cons_cons, List.tail_cons] at this ⊢
      rw [this]

theorem pathCost_snoc {u t : State} (cost_fn : Action → Int) {q : List State}
    (h : q.getLast? = some u) :
    pathCost cost_fn (q ++ [t]) = pathCost cost_fn q + eCost cost_fn u t := by
  rw [pathCost, pathCost, zip_tail_snoc q h, List.foldl_append]
  rw [List.foldl_cons, List.foldl_nil, foldl_cost_shift]
  rw [eCost]

theorem pathCost_nonneg {cost_fn : Action → Int} (hnn : ∀ x, 0 ≤ cost_fn x) :
    ∀ p, 0 ≤ pathCost cost_fn p := by
  have key : ∀ (l : List (State × State)) (a : Int), 0 ≤ a →
      0 ≤ l.foldl (fun acc e => acc + cost_fn (e.2.1 - e.1.1, e.2.2 - e.1.2)) a := by
    intro l
    induction l with
    | nil => intro a ha; simpa using ha
    | cons x xs ih =>
      intro a ha
      rw [List.foldl_cons]
      exact ih _ (by have := hnn (x.2.1 - x.1.1, x.2.2 - x.1.2); omega)
  intro p
  exact key _ 0 (le_refl 0)

theorem adj_eCost {g : Grid} {s t : State} {a : Action} (cost_fn : Action → Int)
    (h : (t, a) ∈ get_neighbors s g) : eCost cost_fn s t = cost_fn a := by
  obtain ⟨-, ht, -⟩ := mem_get_neighbors.mp h
  obtain ⟨a1, a2⟩ := a
  subst ht
  rw [eCost]
  congr 1
  simp

/-- Extending a `CostReach` witness by one valid move. -/
theorem costReach_step {g : Grid} {start s n : State} {a : Action}
    {cost_fn : Action → Int} {c : Int} (h : CostReach g cost_fn start s c)
    (hnb : ((n, a) : State × Action) ∈ get_neighbors s g) :
    CostReach g cost_fn start n (c + cost_fn a) := by
  obtain ⟨q, hq, hqc⟩ := h
  refine ⟨q ++ [n], pathFrom_append_adj hq ⟨a, hnb⟩, ?_⟩
  rw [pathCost_snoc cost_fn hq.2.2.1, hqc, adj_eCost cost_fn hnb]

/-- Splitting a non-trivial path at its last move. -/
theorem pathFrom_snoc {g : Grid} {s t : State} {p : List State}
    (h : PathFrom g s t p) :
    (p = [s] ∧ t = s) ∨
    ∃ p' u, p = p' ++ [t] ∧ PathFrom g s u p' ∧ Adj g u t := by
  obtain ⟨hne, hhead, hlast, hchain⟩ := h
  rcases List.eq_nil_or_concat p with rfl | ⟨p', x, rfl⟩
  · exact absurd rfl hne
  · rw [List.concat_eq_append] at hhead hlast hchain ⊢
    have hx : t = x := by
      have : (p' ++ [x]).getLast? = some x := by simp
      rw [this] at hlast
      simpa using hlast.symm
    subst hx
    cases p' with
    | nil =>
      left
      have hts : t = s := by simpa using hhead
      subst hts
      exact ⟨by simp, rfl⟩
    | cons b q =>
      right
      have hbq : (b :: q) ≠ [] := by simp
      refine ⟨b :: q, (b :: q).getLast hbq, rfl, ⟨hbq, ?_, ?_, ?_⟩, ?_⟩
      · have : b = s := by
          rw [List.head?_append_of_ne_nil _ hbq] at hhead
          simpa using hhead
        simpa using this
      · exact List.getLast?_eq_getLast _ hbq
      · exact (List.chain'_append.mp hchain).1
      · have hj := (List.chain'_append.mp hchain).2.2
        refine hj _ ?_ t (by simp)
        rw [List.getLast?_eq_getLast _ hbq]
        rfl

/-! ## C2: the UCS optimality certificate -/

theorem ucsKeyLe_fst {a b : Int × State} (h : ucsKeyLe a b = true) : a.1 ≤ b.1 := by
  simp only [ucsKeyLe, Bool.decide_or, Bool.or_eq_true, decide_eq_true_eq,
    Bool.and_eq_true] at h
  rcases h with h | ⟨h, -⟩ <;> omega

/-- Position of the first occurrence of a state in a list. -/
def idxIn : List State → State → Nat
  | [], _ => 0
  | x :: xs, k => if x = k then 0 else idxIn xs k + 1

theorem idxIn_append_of_mem {l : List State} {k : State} (h : k ∈ l) (w : List State) :
    idxIn (l ++ w) k = idxIn l k := by
  induction l with
  | nil => simp at h
  | cons x xs ih =>
    rw [List.cons_append, idxIn, idxIn]
    by_cases hx : x = k
    · rw [if_pos hx, if_pos hx]
    · rw [if_neg hx, if_neg hx,
        ih ((List.mem_cons.mp h).resolve_left fun hc => hx hc.symm)]

theorem idxIn_lt_length {l : List State} {k : State} (h : k ∈ l) :
    idxIn l k < l.length := by
  induction l with
  | nil => simp at h
  | cons x xs ih =>
    rw [idxIn]
    by_cases hx : x = k
    · rw [if_pos hx]
      simp
    · rw [if_neg hx, List.length_cons]
      have := ih ((List.mem_cons.mp h).resolve_left fun hc => hx hc.symm)
      omega

theorem idxIn_append_self {l : List State} {k : State} (h : k ∉ l) :
    idxIn (l ++ [k]) k = l.length := by
  induction l with
  | nil => simp [idxIn]
  | cons x xs ih =>
    rw [List.cons_append, idxIn]
    have hx : x ≠ k := fun hc => h (by rw [hc]; exact List.mem_cons_self _ _)
    rw [if_neg hx, ih (fun hc => h (List.mem_cons_of_mem _ hc)), List.length_cons]

/-- Everything the UCS loop maintains for a non-negative cost function: the
certificate behind cost optimality.  `ach`/`achF` witness every stored and
queued cost by a concrete path, `vlb` says expanded costs are lower bounds
over all paths, `coverPlus` keeps a live frontier entry at most the stored
cost for every unexpanded key, `pc` makes the stored costs telescope along
parent links, and `pvis` orients parent links backwards along the expansion
order. -/
structure UcsOptInv (grid : Grid) (start goal : State) (cost_fn : Action → Int)
    (st : UcsSt) : Prop where
  gstart : dLookup st.parent start = some none
  gnone : ∀ k, dLookup st.parent k = some none → k = start
  gedge : ∀ k p, dLookup st.parent k = some (some p) → p ∈ dKeys st.parent ∧ Adj grid p k
  keys_nodup : (dKeys st.parent).Nodup
  keys_free : ∀ k ∈ dKeys st.parent, k = start ∨ FreeCell grid k
  keys_reach : ∀ k ∈ dKeys st.parent, Reaches grid start k
  keys_eq : dKeys st.cost_so_far = dKeys st.parent
  cost_start : dLookup st.cost_so_far start = some 0
  cost_nonneg : ∀ k c, dLookup st.cost_so_far k = some c → 0 ≤ c
  frontier_sub : ∀ e ∈ st.frontier, e.2 ∈ dKeys st.parent ∧
    ∃ c, dLookup st.cost_so_far e.2 = some c ∧ c ≤ e.1
  visited_sub : ∀ v ∈ st.visited, v ∈ dKeys st.parent
  visited_nodup : st.visited.Nodup
  count : st.states_explored = st.visited.length
  goal_not_visited : goal ∉ st.visited
  coverPlus : ∀ k ∈ dKeys st.parent, k ∉ st.visited →
    ∃ e ∈ st.frontier, e.2 = k ∧ ∃ ck, dLookup st.cost_so_far k = some ck ∧ e.1 ≤ ck
  ach : ∀ k c, dLookup st.cost_so_far k = some c → CostReach grid cost_fn start k c
  achF : ∀ e ∈ st.frontier, CostReach grid cost_fn start e.2 e.1
  vlb : ∀ v ∈ st.visited, ∃ cv, dLookup st.cost_so_far v = some cv ∧
    ∀ q, PathFrom grid start v q → cv ≤ pathCost cost_fn q
  pc : ∀ k p, dLookup st.parent k = some (some p) →
    ∃ ck cp, dLookup st.cost_so_far k = some ck ∧ dLookup st.cost_so_far p = some cp ∧
      ck = cp + eCost cost_fn p k
  pvis : ∀ k p, dLookup st.parent k = some (some p) → p ∈ st.visited ∧
    (k ∈ st.visited → idxIn st.visited p < idxIn st.visited k)
  start_visited : st.visited ≠ [] → start ∈ st.visited
  empty_init : st.visited = [] → st = ucsInit start

/-- The closure the expanded set keeps (momentarily broken between marking a
state visited and relaxing its neighbours): every neighbour of an expanded
state is a key whose stored cost is at most the expanded cost plus the move
cost. -/
def UcsOptVC (grid : Grid) (cost_fn : Action → Int) (st : UcsSt) : Prop :=
  ∀ v ∈ st.visited, ∀ w, Adj grid v w → w ∈ dKeys st.parent ∧
    ∃ cv cw, dLookup st.cost_so_far v = some cv ∧ dLookup st.cost_so_far w = some cw ∧
      cw ≤ cv + eCost cost_fn v w

/-- The expansion order is the rank making the parent map reconstructible. -/
theorem ucsOptInv_goodParent {grid : Grid} {start goal : State} {cost_fn : Action → Int}
    {st : UcsSt} (hinv : UcsOptInv grid start goal cost_fn st) :
    GoodParent grid start st.parent := by
  refine ⟨hinv.gstart, hinv.gnone, hinv.gedge,
    fun k => if k ∈ st.visited then idxIn st.visited k else st.visited.length, ?_⟩
  intro k p hk
  obtain ⟨hp, hlt⟩ := hinv.pvis k p hk
  by_cases hkv : k ∈ st.visited
  · simp only [if_pos hkv, if_pos hp]
    exact hlt hkv
  · simp only [if_neg hkv, if_pos hp]
    exact idxIn_lt_length hp

theorem ucsOptInv_init (grid : Grid) (start goal : State) (cost_fn : Action → Int) :
    UcsOptInv grid start goal cost_fn (ucsInit start) ∧
      UcsOptVC grid cost_fn (ucsInit start) := by
  have hlk : ∀ k : State, dLookup [(start, (none : Option State))] k =
      if start = k then some none else none := fun k => dLookup_single_start start k none
  have hlc : ∀ k : State, dLookup [(start, (0 : Int))] k =
      if start = k then some 0 else none := by
    intro k
    rw [dLookup_cons]
    by_cases h : start = k <;> simp [h, dLookup]
  constructor
  · refine ⟨?_, ?_, ?_, ?_, ?_, ?_, ?_, ?_, ?_, ?_, ?_, ?_, ?_, ?_, ?_, ?_, ?_, ?_, ?_,
      ?_, ?_, ?_⟩
    · rw [show (ucsInit start).parent = [(start, none)] from rfl, hlk, if_pos rfl]
    · intro k hk
      rw [show (ucsInit start).parent = [(start, none)] from rfl, hlk] at hk
      by_cases h : start = k
      · exact h.symm
      · rw [if_neg h] at hk
        exact absurd hk (by simp)
    · intro k p hk
      rw [show (ucsInit start).parent = [(start, none)] from rfl, hlk] at hk
      by_cases h : start = k
      · rw [if_pos h] at hk
        exact absurd hk (by simp)
      · rw [if_neg h] at hk
        exact absurd hk (by simp)
    · simp [ucsInit, dKeys]
    · intro k hk
      simp [ucsInit, dKeys] at hk
      exact Or.inl hk
    · intro k hk
      simp [ucsInit, dKeys] at hk
      exact hk ▸ ⟨0, ReachN.zero⟩
    · simp [ucsInit, dKeys]
    · rw [show (ucsInit start).cost_so_far = [(start, 0)] from rfl, hlc, if_pos rfl]
    · intro k c hk
      rw [show (ucsInit start).cost_so_far = [(start, 0)] from rfl, hlc] at hk
      by_cases h : start = k
      · rw [if_pos h] at hk
        obtain rfl : (0 : Int) = c := by simpa using hk
        exact le_refl 0
      · rw [if_neg h] at hk
        exact absurd hk (by simp)
    · intro e he
      simp only [ucsInit, List.mem_singleton] at he
      subst he
      refine ⟨by simp [dKeys, ucsInit], 0, ?_, le_refl 0⟩
      rw [show (ucsInit start).cost_so_far = [(start, 0)] from rfl, hlc, if_pos rfl]
    · intro v hv
      simp [ucsInit] at hv
    · simp [ucsInit]
    · simp [ucsInit]
    · simp [ucsInit]
    · intro k hk hkv
      simp only [ucsInit, dKeys, List.map_cons, List.map_nil, List.mem_singleton] at hk
      subst hk
      refine ⟨(0, k), by simp [ucsInit], rfl, 0, ?_, le_refl 0⟩
      rw [show (ucsInit k).cost_so_far = [(k, 0)] from rfl, dLookup_cons]
      simp
    · intro k c hk
      rw [show (ucsInit start).cost_so_far = [(start, 0)] from rfl, hlc] at hk
      by_cases h : start = k
      · rw [if_pos h] at hk
        obtain rfl : (0 : Int) = c := by simpa using hk
        subst h
        exact ⟨[start], pathFrom_single start, pathCost_single cost_fn start⟩
      · rw [if_neg h] at hk
        exact absurd hk (by simp)
    · intro e he
      simp only [ucsInit, List.mem_singleton] at he
      subst he
      exact ⟨[start], pathFrom_single start, pathCost_single cost_fn start⟩
    · intro v hv
      simp [ucsInit] at hv
    · intro k p hk
      rw [show (ucsInit start).parent = [(start, none)] from rfl, hlk] at hk
      by_cases h : start = k
      · rw [if_pos h] at hk
        exact absurd hk (by simp)
      · rw [if_neg h] at hk
        exact absurd hk (by simp)
    · intro k p hk
      rw [show (ucsInit start).parent = [(start, none)] from rfl, hlk] at hk
      by_cases h : start = k
      · rw [if_pos h] at hk
        exact absurd hk (by simp)
      · rw [if_neg h] at hk
        exact absurd hk (by simp)
    · intro h
      exact absurd rfl h
    · intro _
      rfl
  · intro v hv
    simp [ucsInit] at hv

/-- One improving relaxation preserves the optimality certificate.  The base
cost `c` is required to be exactly the stored cost of the expanded state. -/
theorem ucsOptRelax1_inv {grid : Grid} {start goal s n : State} {a : Action}
    {cost_fn : Action → Int} {c : Int} {st : UcsSt}
    (hnn : ∀ x, 0 ≤ cost_fn x) (hnb : ((n, a) : State × Action) ∈ get_neighbors s grid)
    (hinv : UcsOptInv grid start goal cost_fn st) (hsv : s ∈ st.visited)
    (hcs : dLookup st.cost_so_far s = some c)
    (hupd : dLookup st.cost_so_far n = none ∨
      (∃ old, dLookup st.cost_so_far n = some old ∧ c + cost_fn a < old)) :
    UcsOptInv grid start goal cost_fn
      ⟨st.frontier ++ [(c + cost_fn a, n)], dInsert st.parent n (some s),
        dInsert st.cost_so_far n (c + cost_fn a), st.visited, st.states_explored⟩ := by
  have hns : n ≠ s := get_neighbors_ne hnb
  have hadj : Adj grid s n := ⟨a, hnb⟩
  have hsmem : s ∈ dKeys st.parent := hinv.visited_sub s hsv
  set new := c + cost_fn a with hnewdef
  have heC : eCost cost_fn s n = cost_fn a := adj_eCost cost_fn hnb
  have hach_new : CostReach grid cost_fn start n new :=
    costReach_step (hinv.ach s c hcs) hnb
  have hnvis : n ∉ st.visited := by
    intro hc
    obtain ⟨cn, hcn, hlbn⟩ := hinv.vlb n hc
    obtain ⟨q, hqp, hqc⟩ := hach_new
    have h1 : cn ≤ new := hqc ▸ hlbn q hqp
    rcases hupd with hupd | ⟨old, hold, hlt⟩
    · rw [hupd] at hcn
      exact absurd hcn (by simp)
    · rw [hold] at hcn
      obtain rfl : cn = old := by simpa using hcn.symm
      omega
  have hcnn : 0 ≤ c := hinv.cost_nonneg s c hcs
  have hnn_a : 0 ≤ cost_fn a := hnn a
  have hnew_nn : 0 ≤ new := by omega
  have hnstart : n ≠ start := by
    intro hc
    subst hc
    rcases hupd with hupd | ⟨old, hold, hlt⟩
    · rw [hinv.cost_start] at hupd
      exact absurd hupd (by simp)
    · rw [hinv.cost_start] at hold
      obtain rfl : old = 0 := by simpa using hold.symm
      omega
  have hkeys_sup : ∀ j, j ∈ dKeys st.parent → j ∈ dKeys (dInsert st.parent n (some s)) :=
    fun j hj => mem_dKeys_dInsert.mpr (Or.inl hj)
  have hlp_self : dLookup (dInsert st.parent n (some s)) n = some (some s) :=
    dLookup_dInsert_self _ _ _
  have hlp_ne : ∀ j, j ≠ n → dLookup (dInsert st.parent n (some s)) j =
      dLookup st.parent j := fun j hj => dLookup_dInsert_ne _ _ hj
  have hlc_self : dLookup (dInsert st.cost_so_far n new) n = some new :=
    dLookup_dInsert_self _ _ _
  have hlc_ne : ∀ j, j ≠ n → dLookup (dInsert st.cost_so_far n new) j =
      dLookup st.cost_so_far j := fun j hj => dLookup_dInsert_ne _ _ hj
  have hcont_iff : dContains st.cost_so_far n = dContains st.parent n := by
    by_cases hmem : n ∈ dKeys st.parent
    · rw [(dContains_iff_mem_keys _ _).mpr hmem,
        (dContains_iff_mem_keys _ _).mpr (hinv.keys_eq ▸ hmem)]
    · have h1 : ¬ dContains st.parent n = true := fun hc =>
        hmem ((dContains_iff_mem_keys _ _).mp hc)
      have h2 : ¬ dContains st.cost_so_far n = true := fun hc =>
        hmem (hinv.keys_eq ▸ (dContains_iff_mem_keys _ _).mp hc)
      rw [Bool.not_eq_true] at h1 h2
      rw [h1, h2]
  refine ⟨?_, ?_, ?_, ?_, ?_, ?_, ?_, ?_, ?_, ?_, ?_, hinv.visited_nodup, hinv.count,
    hinv.goal_not_visited, ?_, ?_, ?_, ?_, ?_, ?_, hinv.start_visited, ?_⟩
  · rw [hlp_ne start (fun hc => hnstart hc.symm)]
    exact hinv.gstart
  · intro k hk
    by_cases hkn : k = n
    · subst hkn
      rw [hlp_self] at hk
      exact absurd hk (by simp)
    · rw [hlp_ne k hkn] at hk
      exact hinv.gnone k hk
  · intro k p hk
    by_cases hkn : k = n
    · subst hkn
      rw [hlp_self] at hk
      obtain rfl : s = p := by simpa using hk
      exact ⟨hkeys_sup s hsmem, hadj⟩
    · rw [hlp_ne k hkn] at hk
      obtain ⟨hp1, hp2⟩ := hinv.gedge k p hk
      exact ⟨hkeys_sup p hp1, hp2⟩
  · rw [dKeys_dInsert]
    by_cases hc : dContains st.parent n
    · rw [if_pos hc]
      exact hinv.keys_nodup
    · rw [if_neg hc]
      refine hinv.keys_nodup.append (List.nodup_singleton n) ?_
      intro t ht1 ht2
      obtain rfl : t = n := by simpa using ht2
      exact hc ((dContains_iff_mem_keys _ _).mpr ht1)
  · intro k hk
    rcases mem_dKeys_dInsert.mp hk with hk | rfl
    · exact hinv.keys_free k hk
    · exact Or.inr (adj_free hadj)
  · intro k hk
    rcases mem_dKeys_dInsert.mp hk with hk | rfl
    · exact hinv.keys_reach k hk
    · obtain ⟨m, hm⟩ := hinv.keys_reach s hsmem
      exact ⟨m + 1, ReachN.succ hm hadj⟩
  · rw [dKeys_dInsert, dKeys_dInsert, hcont_iff]
    by_cases hc : dContains st.parent n
    · rw [if_pos hc, if_pos hc, hinv.keys_eq]
    · rw [if_neg hc, if_neg hc, hinv.keys_eq]
  · rw [hlc_ne start (fun hc => hnstart hc.symm)]
    exact hinv.cost_start
  · intro k ck hk
    by_cases hkn : k = n
    · subst hkn
      rw [hlc_self] at hk
      obtain rfl : ck = new := by simpa using hk.symm
      omega
    · rw [hlc_ne k hkn] at hk
      exact hinv.cost_nonneg k ck hk
  · intro e he
    rcases List.mem_append.mp he with he | he
    · obtain ⟨he1, ce, hce1, hce2⟩ := hinv.frontier_sub e he
      refine ⟨hkeys_sup _ he1, ?_⟩
      by_cases hen : e.2 = n
      · rw [hen, hlc_self]
        rcases hupd with hupd | ⟨old, hold, holt⟩
        · rw [hen, hupd] at hce1
          exact absurd hce1 (by simp)
        · rw [hen, hold] at hce1
          obtain rfl : ce = old := by simpa using hce1.symm
          exact ⟨new, rfl, by omega⟩
      · rw [hlc_ne _ hen]
        exact ⟨ce, hce1, hce2⟩
    · obtain rfl : e = (new, n) := by simpa using he
      exact ⟨mem_dKeys_dInsert.mpr (Or.inr rfl), new, hlc_self, le_refl _⟩
  · intro v hv
    exact hkeys_sup v (hinv.visited_sub v hv)
  · intro k hk hkv
    rcases mem_dKeys_dInsert.mp hk with hk | rfl
    · by_cases hkn : k = n
      · subst hkn
        refine ⟨(new, k), List.mem_append_right _ (by simp), rfl, new, hlc_self,
          le_refl _⟩
      · obtain ⟨e, he, he2, ck, hck, hle⟩ := hinv.coverPlus k hk hkv
        exact ⟨e, List.mem_append_left _ he, he2, ck, by rw [hlc_ne k hkn]; exact hck,
          hle⟩
    · exact ⟨(new, k), List.mem_append_right _ (by simp), rfl, new, hlc_self, le_refl _⟩
  · intro k ck hk
    by_cases hkn : k = n
    · subst hkn
      rw [hlc_self] at hk
      obtain rfl : ck = new := by simpa using hk.symm
      exact hach_new
    · rw [hlc_ne k hkn] at hk
      exact hinv.ach k ck hk
  · intro e he
    rcases List.mem_append.mp he with he | he
    · exact hinv.achF e he
    · obtain rfl : e = (new, n) := by simpa using he
      exact hach_new
  · intro v hv
    have hvn : v ≠ n := fun hc => hnvis (hc ▸ hv)
    obtain ⟨cv, hcv, hlbv⟩ := hinv.vlb v hv
    exact ⟨cv, by rw [hlc_ne v hvn]; exact hcv, hlbv⟩
  · intro k p hk
    by_cases hkn : k = n
    · subst hkn
      rw [hlp_self] at hk
      obtain rfl : s = p := by simpa using hk
      refine ⟨new, c, hlc_self, by rw [hlc_ne s (fun hc => hns hc.symm)]; exact hcs, ?_⟩
      rw [heC]
    · rw [hlp_ne k hkn] at hk
      obtain ⟨ck, cp, hck, hcp, hsum⟩ := hinv.pc k p hk
      have hpn : p ≠ n := fun hc => hnvis (hc ▸ (hinv.pvis k p hk).1)
      exact ⟨ck, cp, by rw [hlc_ne k hkn]; exact hck, by rw [hlc_ne p hpn]; exact hcp,
        hsum⟩
  · intro k p hk
    by_cases hkn : k = n
    · subst hkn
      rw [hlp_self] at hk
      obtain rfl : s = p := by simpa using hk
      exact ⟨hsv, fun hc => absurd hc hnvis⟩
    · rw [hlp_ne k hkn] at hk
      exact hinv.pvis k p hk
  · intro hc
    exact absurd (hc ▸ hsv) (List.not_mem_nil s)

/-- The whole relaxation pass preserves the optimality certificate; afterwards
every neighbour's stored cost is at most the expanded cost plus the move
cost, parent keys only grow, stored costs only decrease, and the stored costs
of visited states are untouched. -/
theorem ucsOptRelax_inv {grid : Grid} {start goal : State} {cost_fn : Action → Int}
    (hnn : ∀ x, 0 ≤ cost_fn x) (s : State) (c : Int) :
    ∀ (nbrs : List (State × Action)) (st : UcsSt),
      (∀ nb ∈ nbrs, nb ∈ get_neighbors s grid) →
      UcsOptInv grid start goal cost_fn st → s ∈ st.visited →
      dLookup st.cost_so_far s = some c →
      UcsOptInv grid start goal cost_fn (ucsRelax cost_fn s c nbrs st) ∧
      (∀ nb ∈ nbrs, ∃ cw, dLookup (ucsRelax cost_fn s c nbrs st).cost_so_far nb.1 =
        some cw ∧ cw ≤ c + cost_fn nb.2) ∧
      (∀ k ∈ dKeys st.parent, k ∈ dKeys (ucsRelax cost_fn s c nbrs st).parent) ∧
      (ucsRelax cost_fn s c nbrs st).visited = st.visited ∧
      (ucsRelax cost_fn s c nbrs st).states_explored = st.states_explored ∧
      (∀ k ck, dLookup st.cost_so_far k = some ck →
        ∃ ck2, dLookup (ucsRelax cost_fn s c nbrs st).cost_so_far k = some ck2 ∧
          ck2 ≤ ck) ∧
      (∀ v ∈ st.visited, dLookup (ucsRelax cost_fn s c nbrs st).cost_so_far v =
        dLookup st.cost_so_far v) := by
  intro nbrs
  induction nbrs with
  | nil =>
    intro st _ hinv hsv hcs
    rw [ucsRelax_nil]
    exact ⟨hinv, by simp, fun k hk => hk, rfl, rfl,
      fun k ck hck => ⟨ck, hck, le_refl ck⟩, fun v _ => rfl⟩
  | cons nb nbrs ih =>
    intro st hnb hinv hsv hcs
    have hnb0 : nb ∈ get_neighbors s grid := hnb nb (List.mem_cons_self _ _)
    have hnb0' : ((nb.1, nb.2) : State × Action) ∈ get_neighbors s grid := by
      rwa [show ((nb.1, nb.2) : State × Action) = nb from rfl]
    have hnbs : nb.1 ≠ s := get_neighbors_ne hnb0'
    have hach_new : CostReach grid cost_fn start nb.1 (c + cost_fn nb.2) :=
      costReach_step (hinv.ach s c hcs) hnb0'
    cases hl : dLookup st.cost_so_far nb.1 with
    | none =>
      rw [ucsRelax_cons_none nbrs hl]
      have hinv' := @ucsOptRelax1_inv grid start goal s nb.1 nb.2 cost_fn c st hnn
        hnb0' hinv hsv hcs (Or.inl hl)
      have hcs' : dLookup (dInsert st.cost_so_far nb.1 (c + cost_fn nb.2)) s =
          some c := by
        rw [dLookup_dInsert_ne _ _ (fun hc => hnbs hc.symm)]
        exact hcs
      have hrest := ih _ (fun x hx => hnb x (List.mem_cons_of_mem _ hx)) hinv'
        (by exact hsv) hcs'
      obtain ⟨hr1, hr2, hr3, hr4, hr5, hr6, hr7⟩ := hrest
      refine ⟨hr1, ?_, ?_, hr4, hr5, ?_, ?_⟩
      · intro x hx
        rcases List.mem_cons.mp hx with hx | hx
        · subst hx
          obtain ⟨ck2, hck2, hle2⟩ := hr6 x.1 (c + cost_fn x.2)
            (dLookup_dInsert_self _ _ _)
          exact ⟨ck2, hck2, hle2⟩
        · exact hr2 x hx
      · intro k hk
        exact hr3 k (mem_dKeys_dInsert.mpr (Or.inl hk))
      · intro k ck hck
        have hkn : k ≠ nb.1 := fun hc => by
          rw [hc, hl] at hck
          exact absurd hck (by simp)
        refine hr6 k ck ?_
        rw [dLookup_dInsert_ne _ _ hkn]
        exact hck
      · intro v hv
        have hvn : v ≠ nb.1 := fun hc => by
          have h1 := hinv.visited_sub v hv
          rw [← hinv.keys_eq] at h1
          have h2 := (dLookup_isSome_iff _ _).mpr h1
          rw [hc, hl] at h2
          simp at h2
        rw [hr7 v (by exact hv), dLookup_dInsert_ne _ _ hvn]
    | some old =>
      rw [ucsRelax_cons_some nbrs hl]
      by_cases hlt : c + cost_fn nb.2 < old
      · rw [if_pos hlt]
        have hinv' := @ucsOptRelax1_inv grid start goal s nb.1 nb.2 cost_fn c st hnn
          hnb0' hinv hsv hcs (Or.inr ⟨old, hl, hlt⟩)
        have hcs' : dLookup (dInsert st.cost_so_far nb.1 (c + cost_fn nb.2)) s =
            some c := by
          rw [dLookup_dInsert_ne _ _ (fun hc => hnbs hc.symm)]
          exact hcs
        have hrest := ih _ (fun x hx => hnb x (List.mem_cons_of_mem _ hx)) hinv'
          (by exact hsv) hcs'
        obtain ⟨hr1, hr2, hr3, hr4, hr5, hr6, hr7⟩ := hrest
        have hnvis : nb.1 ∉ st.visited := by
          intro hc
          obtain ⟨cv, hcv, hlbv⟩ := hinv.vlb nb.1 hc
          obtain rfl : cv = old := by
            rw [hl] at hcv
            simpa using hcv.symm
          obtain ⟨q, hqp, hqc⟩ := hach_new
          have := hlbv q hqp
          omega
        refine ⟨hr1, ?_, ?_, hr4, hr5, ?_, ?_⟩
        · intro x hx
          rcases List.mem_cons.mp hx with hx | hx
          · subst hx
            obtain ⟨ck2, hck2, hle2⟩ := hr6 x.1 (c + cost_fn x.2)
              (dLookup_dInsert_self _ _ _)
            exact ⟨ck2, hck2, hle2⟩
          · exact hr2 x hx
        · intro k hk
          exact hr3 k (mem_dKeys_dInsert.mpr (Or.inl hk))
        · intro k ck hck
          by_cases hkn : k = nb.1
          · subst hkn
            obtain rfl : ck = old := by
              rw [hl] at hck
              simpa using hck.symm
            obtain ⟨ck2, hck2, hle2⟩ := hr6 nb.1 (c + cost_fn nb.2)
              (dLookup_dInsert_self _ _ _)
            exact ⟨ck2, hck2, by omega⟩
          · refine hr6 k ck ?_
            rw [dLookup_dInsert_ne _ _ hkn]
            exact hck
        · intro v hv
          have hvn : v ≠ nb.1 := fun hc => hnvis (hc ▸ hv)
          rw [hr7 v (by exact hv), dLookup_dInsert_ne _ _ hvn]
      · rw [if_neg hlt]
        have hrest := ih st (fun x hx => hnb x (List.mem_cons_of_mem _ hx)) hinv hsv hcs
        obtain ⟨hr1, hr2, hr3, hr4, hr5, hr6, hr7⟩ := hrest
        refine ⟨hr1, ?_, hr3, hr4, hr5, hr6, hr7⟩
        intro x hx
        rcases List.mem_cons.mp hx with hx | hx
        · subst hx
          obtain ⟨ck2, hck2, hle2⟩ := hr6 x.1 old hl
          exact ⟨ck2, hck2, by omega⟩
        · exact hr2 x hx

/-- The cut argument: whenever the loop pops a minimal frontier entry
`(c, s)`, `c` is a lower bound on the cost of every valid path to every
not-yet-expanded state. -/
theorem ucs_cut {grid : Grid} {start goal : State} {cost_fn : Action → Int} {st : UcsSt}
    (hnn : ∀ x, 0 ≤ cost_fn x)
    (hinv : UcsOptInv grid start goal cost_fn st) (hvc : UcsOptVC grid cost_fn st)
    {c : Int} {s : State} {rest : List (Int × State)}
    (hpop : popMin ucsKeyLe st.frontier = some ((c, s), rest)) :
    ∀ (q : List State) (x : State), PathFrom grid start x q → x ∉ st.visited →
      c ≤ pathCost cost_fn q := by
  have hmain : ∀ (m : Nat) (q : List State) (x : State), q.length ≤ m →
      PathFrom grid start x q → x ∉ st.visited → c ≤ pathCost cost_fn q := by
    intro m
    induction m with
    | zero =>
      intro q x hlen hq _
      rcases q with _ | ⟨a, l⟩
      · exact absurd rfl hq.1
      · simp at hlen
    | succ m ih =>
      intro q x hlen hq hx
      rcases pathFrom_snoc hq with ⟨rfl, rfl⟩ | ⟨q', u, rfl, hq', hadj⟩
      · have hve : st.visited = [] := by
          by_contra hv
          exact hx (hinv.start_visited hv)
        have hst := hinv.empty_init hve
        rw [hst] at hpop
        have hss : popMin ucsKeyLe (ucsInit x).frontier = some ((0, x), []) := by
          simp [ucsInit, popMin, listMin, eraseFirst]
        rw [hss] at hpop
        simp only [Option.some.injEq, Prod.mk.injEq] at hpop
        obtain ⟨⟨hc0, -⟩, -⟩ := hpop
        rw [← hc0, pathCost_single]
      · have hqlast := hq'.2.2.1
        rw [pathCost_snoc cost_fn hqlast]
        have hlen' : q'.length ≤ m := by
          rw [List.length_append] at hlen
          simp only [List.length_cons, List.length_nil] at hlen
          omega
        have heCnn : 0 ≤ eCost cost_fn u x := by
          obtain ⟨a, ha⟩ := hadj
          rw [adj_eCost cost_fn ha]
          exact hnn a
        by_cases huv : u ∈ st.visited
        · obtain ⟨hxkeys, cv, cw, hcv, hcw, hcwle⟩ := hvc u huv x hadj
          obtain ⟨cvlb, hcvlb, hlbv⟩ := hinv.vlb u huv
          obtain rfl : cvlb = cv := by
            rw [hcv] at hcvlb
            simpa using hcvlb.symm
          obtain ⟨e, he, he2, ck, hck, hckle⟩ := hinv.coverPlus x hxkeys hx
          obtain rfl : ck = cw := by
            rw [hcw] at hck
            simpa using hck.symm
          have hkey := popMin_le ucsKeyLe_total ucsKeyLe_trans hpop e he
          have hce : c ≤ e.1 := ucsKeyLe_fst hkey
          have hlbq := hlbv q' hq'
          omega
        · have := ih q' u hlen' hq' huv
          omega
  intro q x hq hx
  exact hmain q.length q x (le_refl _) hq hx

/-- One continuing UCS step preserves the optimality certificate and its
expansion closure. -/
theorem ucsOpt_step {grid : Grid} {start goal : State} {cost_fn : Action → Int}
    {st st' : UcsSt} (hnn : ∀ x, 0 ≤ cost_fn x)
    (h : ucsStep grid goal cost_fn st = .inl st')
    (hP : UcsOptInv grid start goal cost_fn st ∧ UcsOptVC grid cost_fn st) :
    UcsOptInv grid start goal cost_fn st' ∧ UcsOptVC grid cost_fn st' := by
  obtain ⟨hinv, hvc⟩ := hP
  rcases ucsStep_inl_char h with ⟨c, s, rest, hpop, hv, hst'⟩ |
    ⟨c, s, rest, hpop, hv, hg, hst'⟩
  · subst hst'
    obtain ⟨hmem, hrest⟩ := popMin_eq_some hpop
    constructor
    · refine ⟨hinv.gstart, hinv.gnone, hinv.gedge, hinv.keys_nodup, hinv.keys_free,
        hinv.keys_reach, hinv.keys_eq, hinv.cost_start, hinv.cost_nonneg, ?_,
        hinv.visited_sub, hinv.visited_nodup, hinv.count, hinv.goal_not_visited, ?_,
        hinv.ach, ?_, hinv.vlb, hinv.pc, hinv.pvis, hinv.start_visited, ?_⟩
      · intro e he
        have he2 : e ∈ rest := he
        rw [hrest] at he2
        exact hinv.frontier_sub e (mem_of_mem_eraseFirst he2)
      · intro k hk hkv
        obtain ⟨e, he, he2, ck, hck, hle⟩ := hinv.coverPlus k hk hkv
        have hec : e ≠ (c, s) := fun hc => hkv (by rw [← he2, hc]; exact hv)
        refine ⟨e, ?_, he2, ck, hck, hle⟩
        show e ∈ rest
        rw [hrest]
        exact mem_eraseFirst_of_ne hec he
      · intro e he
        have he2 : e ∈ rest := he
        rw [hrest] at he2
        exact hinv.achF e (mem_of_mem_eraseFirst he2)
      · intro hc
        exact absurd ((show st.visited = [] from hc) ▸ hv) (List.not_mem_nil s)
    · exact hvc
  · obtain ⟨hmem, hrest⟩ := popMin_eq_some hpop
    obtain ⟨hsmem, cs0, hcs0, hcs0le⟩ := hinv.frontier_sub (c, s) hmem
    obtain ⟨e', he', he'2, ck', hck', hck'le⟩ := hinv.coverPlus s hsmem hv
    have heq1 : ck' = cs0 := by
      rw [hcs0] at hck'
      simpa using hck'.symm
    have hkey := popMin_le ucsKeyLe_total ucsKeyLe_trans hpop e' he'
    have hce' : c ≤ e'.1 := ucsKeyLe_fst hkey
    have hcs : dLookup st.cost_so_far s = some c := by
      have heq2 : cs0 = c := by omega
      rw [hcs0, heq2]
    have hlbs : ∀ q, PathFrom grid start s q → c ≤ pathCost cost_fn q :=
      fun q hq => ucs_cut hnn hinv hvc hpop q s hq hv
    have hsv1 : s ∈ st.visited ++ [s] := List.mem_append_right _ (by simp)
    have hinv1 : UcsOptInv grid start goal cost_fn
        ⟨rest, st.parent, st.cost_so_far, st.visited ++ [s],
          st.states_explored + 1⟩ := by
      refine ⟨hinv.gstart, hinv.gnone, hinv.gedge, hinv.keys_nodup, hinv.keys_free,
        hinv.keys_reach, hinv.keys_eq, hinv.cost_start, hinv.cost_nonneg, ?_, ?_, ?_,
        ?_, ?_, ?_, hinv.ach, ?_, ?_, hinv.pc, ?_, ?_, ?_⟩
      · intro e he
        have he2 : e ∈ rest := he
        rw [hrest] at he2
        exact hinv.frontier_sub e (mem_of_mem_eraseFirst he2)
      · intro v hvv
        have hvv : v ∈ st.visited ++ [s] := hvv
        rcases List.mem_append.mp hvv with hvv | hvv
        · exact hinv.visited_sub v hvv
        · obtain rfl : v = s := by simpa using hvv
          exact hsmem
      · refine List.Nodup.append hinv.visited_nodup (List.nodup_singleton s) ?_
        intro t ht1 ht2
        obtain rfl : t = s := by simpa using ht2
        exact hv ht1
      · simp [hinv.count]
      · intro hc
        rcases List.mem_append.mp hc with hc | hc
        · exact hinv.goal_not_visited hc
        · have : goal = s := by simpa using hc
          exact hg this.symm
      · intro k hk hkv
        have hks : k ≠ s := fun hc => hkv (hc ▸ hsv1)
        have hkvold : k ∉ st.visited := fun hc => hkv (List.mem_append_left _ hc)
        obtain ⟨e, he, he2, ck, hck, hle⟩ := hinv.coverPlus k hk hkvold
        have hec : e ≠ (c, s) := fun hc => hks (by rw [← he2, hc])
        refine ⟨e, ?_, he2, ck, hck, hle⟩
        show e ∈ rest
        rw [hrest]
        exact mem_eraseFirst_of_ne hec he
      · intro e he
        have he2 : e ∈ rest := he
        rw [hrest] at he2
        exact hinv.achF e (mem_of_mem_eraseFirst he2)
      · intro v hvv
        have hvv : v ∈ st.visited ++ [s] := hvv
        rcases List.mem_append.mp hvv with hvv | hvv
        · obtain ⟨cv, hcv, hlbv⟩ := hinv.vlb v hvv
          exact ⟨cv, hcv, hlbv⟩
        · obtain rfl : v = s := by simpa using hvv
          exact ⟨c, hcs, hlbs⟩
      · intro k p hk
        obtain ⟨hpv, hord⟩ := hinv.pvis k p hk
        refine ⟨List.mem_append_left _ hpv, ?_⟩
        intro hkv
        have hkv : k ∈ st.visited ++ [s] := hkv
        rcases List.mem_append.mp hkv with hkv | hkv
        · show idxIn (st.visited ++ [s]) p < idxIn (st.visited ++ [s]) k
          rw [idxIn_append_of_mem hpv, idxIn_append_of_mem hkv]
          exact hord hkv
        · obtain rfl : k = s := by simpa using hkv
          show idxIn (st.visited ++ [k]) p < idxIn (st.visited ++ [k]) k
          rw [idxIn_append_of_mem hpv, idxIn_append_self hv]
          exact idxIn_lt_length hpv
      · intro _
        by_cases hve : st.visited = []
        · have hst := hinv.empty_init hve
          have hmem2 : (c, s) ∈ (ucsInit start).frontier := by
            rw [← hst]
            exact hmem
          simp only [ucsInit, List.mem_singleton, Prod.mk.injEq] at hmem2
          obtain ⟨-, rfl⟩ := hmem2
          exact List.mem_append_right _ (by simp)
        · exact List.mem_append_left _ (hinv.start_visited hve)
      · intro hc
        exact absurd hc (by simp)
    have hfold := ucsOptRelax_inv hnn s c (get_neighbors s grid)
      ⟨rest, st.parent, st.cost_so_far, st.visited ++ [s], st.states_explored + 1⟩
      (fun nb hnb => hnb) hinv1 hsv1 (by exact hcs)
    obtain ⟨hf1, hf2, hf3, hf4, hf5, hf6, hf7⟩ := hfold
    subst hst'
    refine ⟨hf1, ?_⟩
    intro v hvv w hadj
    rw [hf4] at hvv
    have hvv : v ∈ st.visited ++ [s] := hvv
    rcases List.mem_append.mp hvv with hvv | hvv
    · obtain ⟨hwkeys, cv, cw, hcv, hcw, hcwle⟩ := hvc v hvv w hadj
      refine ⟨hf3 w hwkeys, ?_⟩
      obtain ⟨cw2, hcw2, hcw2le⟩ := hf6 w cw (by exact hcw)
      have hcvfix := hf7 v (List.mem_append_left _ hvv)
      exact ⟨cv, cw2, by rw [hcvfix]; exact hcv, hcw2, by omega⟩
    · obtain rfl : v = s := by simpa using hvv
      obtain ⟨a, ha⟩ := hadj
      obtain ⟨cw, hcw, hcwle⟩ := hf2 (w, a) ha
      have hsfix := hf7 v hsv1
      have hcw2 : dLookup (ucsRelax cost_fn v c (get_neighbors v grid)
          ⟨rest, st.parent, st.cost_so_far, st.visited ++ [v],
            st.states_explored + 1⟩).cost_so_far w = some cw := hcw
      have hwkeys : w ∈ dKeys (ucsRelax cost_fn v c (get_neighbors v grid)
          ⟨rest, st.parent, st.cost_so_far, st.visited ++ [v],
            st.states_explored + 1⟩).cost_so_far :=
        (dLookup_isSome_iff _ _).mp (by rw [hcw2]; rfl)
      have hcwle2 : cw ≤ c + cost_fn a := hcwle
      refine ⟨hf1.keys_eq ▸ hwkeys, c, cw, by rw [hsfix]; exact hcs, hcw, ?_⟩
      rw [adj_eCost cost_fn ha]
      omega

theorem ucsOptInv_visited_le {grid : Grid} {start goal : State} {cost_fn : Action → Int}
    {st : UcsSt} (hinv : UcsOptInv grid start goal cost_fn st) :
    st.visited.length ≤ grid.length * grid.length + 1 := by
  have h1 : st.visited.length ≤ (start :: allCells grid).length := by
    refine nodup_subset_length_le hinv.visited_nodup ?_
    intro k hk
    rcases hinv.keys_free k (hinv.visited_sub k hk) with hk | hk
    · exact hk ▸ List.mem_cons_self _ _
    · exact List.mem_cons_of_mem _ (freeCell_mem_allCells hk)
  rw [List.length_cons, allCells_length] at h1
  omega

theorem ucs_opt_loop_some (grid : Grid) (start goal : State) (cost_fn : Action → Int)
    (hnn : ∀ x, 0 ≤ cost_fn x) :
    ∃ stf, ucsLoop grid goal cost_fn (dfsFuel grid) (ucsInit start) = some stf := by
  have := iterStep_total (ucsStep grid goal cost_fn)
    (P := fun st => UcsOptInv grid start goal cost_fn st ∧ UcsOptVC grid cost_fn st)
    (fun st => st.frontier.length +
      5 * ((grid.length * grid.length + 1) - st.visited.length))
    (fun st st' hs hP => ucsOpt_step hnn hs hP)
    (fun st st' hs hP => by
      have hP' := ucsOpt_step hnn hs hP
      have hvle' := ucsOptInv_visited_le hP'.1
      rcases ucsStep_inl_char hs with ⟨c, s, rest, hpop, hv, hst'⟩ |
        ⟨c, s, rest, hpop, hv, hg, hst'⟩
      · subst hst'
        obtain ⟨hmem, hrest⟩ := popMin_eq_some hpop
        have e1 : rest.length + 1 = st.frontier.length := by
          rw [hrest]
          exact length_eraseFirst_of_mem hmem
        dsimp only
        omega
      · obtain ⟨hmem, hrest⟩ := popMin_eq_some hpop
        have e1 : rest.length + 1 = st.frontier.length := by
          rw [hrest]
          exact length_eraseFirst_of_mem hmem
        have hlen := ucsRelax_lengths cost_fn s c (get_neighbors s grid)
          ⟨rest, st.parent, st.cost_so_far, st.visited ++ [s], st.states_explored + 1⟩
        have e4 := get_neighbors_length_le s grid
        have f1 : st'.frontier.length ≤ rest.length + 4 := by
          rw [hst']
          have h1 := hlen.1
          have h2 : (⟨rest, st.parent, st.cost_so_far, st.visited ++ [s],
            st.states_explored + 1⟩ : UcsSt).frontier.length = rest.length := rfl
          omega
        have f2 : st'.visited.length = st.visited.length + 1 := by
          rw [hst', hlen.2.1]
          simp
        dsimp only
        omega)
    (dfsFuel grid) (ucsInit start) (ucsOptInv_init grid start goal cost_fn)
    (by
      rw [dfsFuel]
      simp [ucsInit]
      omega)
  exact this

/-- Every UCS run with a non-negative cost function, packaged with the full
optimality certificate. -/
theorem ucs_opt_run (grid : Grid) (start goal : State) (cost_fn : Action → Int)
    (hnn : ∀ x, 0 ≤ cost_fn x) :
    ∃ st0 stf, (UcsOptInv grid start goal cost_fn st0 ∧ UcsOptVC grid cost_fn st0) ∧
      ucsStep grid goal cost_fn st0 = .inr stf ∧
      ucs grid start goal cost_fn = some (reconstruct_path stf.parent start goal,
        stf.states_explored) := by
  obtain ⟨stf, hloop⟩ := ucs_opt_loop_some grid start goal cost_fn hnn
  obtain ⟨st0, hreach, hlast⟩ := iterStep_last hloop
  have hinv0 := iterReach_inv
    (P := fun st => UcsOptInv grid start goal cost_fn st ∧ UcsOptVC grid cost_fn st)
    (ucsOptInv_init grid start goal cost_fn)
    (fun st st' hs hP => ucsOpt_step hnn hs hP) st0 hreach
  refine ⟨st0, stf, hinv0, hlast, ?_⟩
  rw [ucs, hloop]
  rfl

/-- On a map whose stored costs telescope along parent links, the
reconstructed path costs exactly the stored cost of its endpoint. -/
theorem reconWalk_cost {m : PMap} {cmap : CMap} {start : State}
    {cost_fn : Action → Int} (h0 : dLookup cmap start = some 0)
    (hpc : ∀ k p, dLookup m k = some (some p) → ∃ ck cp, dLookup cmap k = some ck ∧
      dLookup cmap p = some cp ∧ ck = cp + eCost cost_fn p k) :
    ∀ (fuel : Nat) (k : State) (p : List State) (ck : Int),
      reconWalk m start fuel k = .ok p → dLookup cmap k = some ck →
      pathCost cost_fn p = ck := by
  intro fuel
  induction fuel with
  | zero =>
    intro k p ck h
    exact absurd h (by simp [reconWalk])
  | succ fuel ih =>
    intro k p ck h hck
    rw [reconWalk] at h
    by_cases hks : k = start
    · rw [if_pos hks] at h
      have h : Except.ok [k] = Except.ok p := h
      obtain rfl : [k] = p := by simpa using h
      subst hks
      rw [h0] at hck
      obtain rfl : ck = 0 := by simpa using hck.symm
      exact pathCost_single cost_fn k
    · rw [if_neg hks] at h
      cases hv : dLookup m k with
      | none =>
        rw [hv] at h
        exact absurd h (by simp)
      | some v =>
        cases v with
        | none =>
          rw [hv] at h
          exact absurd h (by simp)
        | some q =>
          rw [hv] at h
          have h : Except.map (fun rest => rest ++ [k]) (reconWalk m start fuel q) =
            Except.ok p := h
          cases hw : reconWalk m start fuel q with
          | error e =>
            rw [hw] at h
            exact absurd h (by simp [Except.map])
          | ok rest =>
            rw [hw] at h
            have h : Except.ok (rest ++ [k]) = Except.ok p := h
            obtain rfl : rest ++ [k] = p := by simpa using h
            obtain ⟨ck2, cq, hck2, hcq, hsum⟩ := hpc k q hv
            obtain rfl : ck = ck2 := by
              rw [hck2] at hck
              simpa using hck.symm
            have hlast : rest.getLast? = some q := (reconWalk_ok_shape hw).2.2
            rw [pathCost_snoc cost_fn hlast, ih q rest cq hw hcq, hsum]

/-- With a non-negative cost function and the goal reachable, `ucs` returns a
non-empty valid path of minimal total cost, and its expansion counter comes
from the certified final state. -/
theorem ucs_min_cost (grid : Grid) (start goal : State) (cost_fn : Action → Int)
    (hnn : ∀ x, 0 ≤ cost_fn x) (hreach : Reaches grid start goal) :
    ∃ p n, ucs grid start goal cost_fn = some (.ok p, n) ∧ p ≠ [] ∧
      PathFrom grid start goal p ∧
      ∀ q, PathFrom grid start goal q → pathCost cost_fn p ≤ pathCost cost_fn q := by
  obtain ⟨st0, stf, ⟨hinv, hvc⟩, hlast, hres⟩ := ucs_opt_run grid start goal cost_fn hnn
  rcases ucsStep_inr_char hlast with ⟨hq, rfl⟩ | ⟨c, rest, hpop, hgv, rfl⟩
  · exfalso
    have hfr : stf.frontier = [] := by
      cases hf : stf.frontier with
      | nil => rfl
      | cons x xs =>
        rw [hf, popMin_isSome] at hq
        exact absurd hq (by simp)
    have hkv : ∀ k ∈ dKeys stf.parent, k ∈ stf.visited := by
      intro k hk
      by_contra hkv
      obtain ⟨e, he, -⟩ := hinv.coverPlus k hk hkv
      rw [hfr] at he
      simp at he
    have hstart : start ∈ dKeys stf.parent :=
      (dLookup_isSome_iff _ _).mp (by rw [hinv.gstart]; rfl)
    have hclosed : ∀ x, Reaches grid start x → x ∈ dKeys stf.parent :=
      reaches_subset_closed hstart
        (fun u hu t hadj => (hvc u (hkv u hu) t hadj).1)
    exact hinv.goal_not_visited (hkv goal (hclosed goal hreach))
  · obtain ⟨hmem, hrest⟩ := popMin_eq_some hpop
    obtain ⟨hgmem, cg, hcg, hcgle⟩ := hinv.frontier_sub (c, goal) hmem
    obtain ⟨e', he', he'2, ck', hck', hck'le⟩ := hinv.coverPlus goal hgmem hgv
    have heq1 : ck' = cg := by
      rw [hcg] at hck'
      simpa using hck'.symm
    have hkey := popMin_le ucsKeyLe_total ucsKeyLe_trans hpop e' he'
    have hce' : c ≤ e'.1 := ucsKeyLe_fst hkey
    have hcg' : dLookup st0.cost_so_far goal = some c := by
      have heq2 : cg = c := by
        have h1 : cg ≤ (c, goal).1 := hcgle
        have h2 : cg ≤ c := h1
        omega
      rw [hcg, heq2]
    obtain ⟨p, hp, hppath⟩ :=
      (goodParent_reconstruct (ucsOptInv_goodParent hinv) goal).2 hgmem
    have hcost : pathCost cost_fn p = c := by
      rw [reconstruct_path, if_pos ((dContains_iff_mem_keys _ _).mpr hgmem)] at hp
      exact reconWalk_cost hinv.cost_start hinv.pc _ goal p c hp hcg'
    refine ⟨p, st0.states_explored + 1, ?_, hppath.1, hppath, ?_⟩
    · rw [hres]
      show some (reconstruct_path st0.parent start goal, st0.states_explored + 1) = _
      rw [hp]
    · intro q hqpath
      rw [hcost]
      exact ucs_cut hnn hinv hvc hpop q goal hqpath hgv

/-! ## C2: the A* optimality certificate -/

theorem astarKeyLe_fst {a b : Int × Int × State} (h : astarKeyLe a b = true) :
    a.1 ≤ b.1 := by
  simp only [astarKeyLe, Bool.decide_or, Bool.or_eq_true, decide_eq_true_eq,
    Bool.and_eq_true] at h
  rcases h with h | ⟨h, -⟩ <;> omega

/-- The A* analogue of the UCS optimality certificate.  Stored costs are
`g`-values; every frontier entry `(f, g, n)` carries `f = g + h(n, goal)`
(`fkey`), and the remaining fields mirror the UCS certificate with the
`g`-component in the frontier's place. -/
structure AstarOptInv (grid : Grid) (start goal : State) (cost_fn : Action → Int)
    (heuristic_fn : State → State → Int) (st : AstarSt) : Prop where
  gstart : dLookup st.parent start = some none
  gnone : ∀ k, dLookup st.parent k = some none → k = start
  gedge : ∀ k p, dLookup st.parent k = some (some p) → p ∈ dKeys st.parent ∧ Adj grid p k
  keys_nodup : (dKeys st.parent).Nodup
  keys_free : ∀ k ∈ dKeys st.parent, k = start ∨ FreeCell grid k
  keys_reach : ∀ k ∈ dKeys st.parent, Reaches grid start k
  keys_eq : dKeys st.cost_so_far = dKeys st.parent
  cost_start : dLookup st.cost_so_far start = some 0
  cost_nonneg : ∀ k c, dLookup st.cost_so_far k = some c → 0 ≤ c
  fkey : ∀ e ∈ st.frontier, e.1 = e.2.1 + heuristic_fn e.2.2 goal
  frontier_sub : ∀ e ∈ st.frontier, e.2.2 ∈ dKeys st.parent ∧
    ∃ c, dLookup st.cost_so_far e.2.2 = some c ∧ c ≤ e.2.1
  visited_sub : ∀ v ∈ st.visited, v ∈ dKeys st.parent
  visited_nodup : st.visited.Nodup
  count : st.states_explored = st.visited.length
  goal_not_visited : goal ∉ st.visited
  coverPlus : ∀ k ∈ dKeys st.parent, k ∉ st.visited →
    ∃ e ∈ st.frontier, e.2.2 = k ∧ ∃ ck, dLookup st.cost_so_far k = some ck ∧
      e.2.1 ≤ ck
  ach : ∀ k c, dLookup st.cost_so_far k = some c → CostReach grid cost_fn start k c
  achF : ∀ e ∈ st.frontier, CostReach grid cost_fn start e.2.2 e.2.1
  vlb : ∀ v ∈ st.visited, ∃ cv, dLookup st.cost_so_far v = some cv ∧
    ∀ q, PathFrom grid start v q → cv ≤ pathCost cost_fn q
  pc : ∀ k p, dLookup st.parent k = some (some p) →
    ∃ ck cp, dLookup st.cost_so_far k = some ck ∧ dLookup st.cost_so_far p = some cp ∧
      ck = cp + eCost cost_fn p k
  pvis : ∀ k p, dLookup st.parent k = some (some p) → p ∈ st.visited ∧
    (k ∈ st.visited → idxIn st.visited p < idxIn st.visited k)
  start_visited : st.visited ≠ [] → start ∈ st.visited
  empty_init : st.visited = [] → st = astarInit start goal heuristic_fn

def AstarOptVC (grid : Grid) (cost_fn : Action → Int) (st : AstarSt) : Prop :=
  ∀ v ∈ st.visited, ∀ w, Adj grid v w → w ∈ dKeys st.parent ∧
    ∃ cv cw, dLookup st.cost_so_far v = some cv ∧ dLookup st.cost_so_far w = some cw ∧
      cw ≤ cv + eCost cost_fn v w

theorem astarOptInv_goodParent {grid : Grid} {start goal : State}
    {cost_fn : Action → Int} {heuristic_fn : State → State → Int} {st : AstarSt}
    (hinv : AstarOptInv grid start goal cost_fn heuristic_fn st) :
    GoodParent grid start st.parent := by
  refine ⟨hinv.gstart, hinv.gnone, hinv.gedge,
    fun k => if k ∈ st.visited then idxIn st.visited k else st.visited.length, ?_⟩
  intro k p hk
  obtain ⟨hp, hlt⟩ := hinv.pvis k p hk
  by_cases hkv : k ∈ st.visited
  · simp only [if_pos hkv, if_pos hp]
    exact hlt hkv
  · simp only [if_neg hkv, if_pos hp]
    exact idxIn_lt_length hp

theorem astarOptInv_init (grid : Grid) (start goal : State) (cost_fn : Action → Int)
    (heuristic_fn : State → State → Int) :
    AstarOptInv grid start goal cost_fn heuristic_fn (astarInit start goal heuristic_fn) ∧
      AstarOptVC grid cost_fn (astarInit start goal heuristic_fn) := by
  have hlk : ∀ k : State, dLookup [(start, (none : Option State))] k =
      if start = k then some none else none := fun k => dLookup_single_start start k none
  have hlc : ∀ k : State, dLookup [(start, (0 : Int))] k =
      if start = k then some 0 else none := by
    intro k
    rw [dLookup_cons]
    by_cases h : start = k <;> simp [h, dLookup]
  constructor
  · refine ⟨?_, ?_, ?_, ?_, ?_, ?_, ?_, ?_, ?_, ?_, ?_, ?_, ?_, ?_, ?_, ?_, ?_, ?_, ?_,
      ?_, ?_, ?_, ?_⟩
    · rw [show (astarInit start goal heuristic_fn).parent = [(start, none)] from rfl,
        hlk, if_pos rfl]
    · intro k hk
      rw [show (astarInit start goal heuristic_fn).parent = [(start, none)] from rfl,
        hlk] at hk
      by_cases h : start = k
      · exact h.symm
      · rw [if_neg h] at hk
        exact absurd hk (by simp)
    · intro k p hk
      rw [show (astarInit start goal heuristic_fn).parent = [(start, none)] from rfl,
        hlk] at hk
      by_cases h : start = k
      · rw [if_pos h] at hk
        exact absurd hk (by simp)
      · rw [if_neg h] at hk
        exact absurd hk (by simp)
    · simp [astarInit, dKeys]
    · intro k hk
      simp [astarInit, dKeys] at hk
      exact Or.inl hk
    · intro k hk
      simp [astarInit, dKeys] at hk
      exact hk ▸ ⟨0, ReachN.zero⟩
    · simp [astarInit, dKeys]
    · rw [show (astarInit start goal heuristic_fn).cost_so_far = [(start, 0)] from rfl,
        hlc, if_pos rfl]
    · intro k c hk
      rw [show (astarInit start goal heuristic_fn).cost_so_far = [(start, 0)] from rfl,
        hlc] at hk
      by_cases h : start = k
      · rw [if_pos h] at hk
        obtain rfl : (0 : Int) = c := by simpa using hk
        exact le_refl 0
      · rw [if_neg h] at hk
        exact absurd hk (by simp)
    · intro e he
      simp only [astarInit, List.mem_singleton] at he
      subst he
      simp
    · intro e he
      simp only [astarInit, List.mem_singleton] at he
      subst he
      refine ⟨by simp [dKeys, astarInit], 0, ?_, le_refl 0⟩
      rw [show (astarInit start goal heuristic_fn).cost_so_far = [(start, 0)] from rfl,
        hlc, if_pos rfl]
    · intro v hv
      simp [astarInit] at hv
    · simp [astarInit]
    · simp [astarInit]
    · simp [astarInit]
    · intro k hk hkv
      simp only [astarInit, dKeys, List.map_cons, List.map_nil, List.mem_singleton] at hk
      subst hk
      refine ⟨(heuristic_fn k goal, 0, k), by simp [astarInit], rfl, 0, ?_, le_refl 0⟩
      rw [show (astarInit k goal heuristic_fn).cost_so_far = [(k, 0)] from rfl,
        dLookup_cons]
      simp
    · intro k c hk
      rw [show (astarInit start goal heuristic_fn).cost_so_far = [(start, 0)] from rfl,
        hlc] at hk
      by_cases h : start = k
      · rw [if_pos h] at hk
        obtain rfl : (0 : Int) = c := by simpa using hk
        subst h
        exact ⟨[start], pathFrom_single start, pathCost_single cost_fn start⟩
      · rw [if_neg h] at hk
        exact absurd hk (by simp)
    · intro e he
      simp only [astarInit, List.mem_singleton] at he
      subst he
      exact ⟨[start], pathFrom_single start, pathCost_single cost_fn start⟩
    · intro v hv
      simp [astarInit] at hv
    · intro k p hk
      rw [show (astarInit start goal heuristic_fn).parent = [(start, none)] from rfl,
        hlk] at hk
      by_cases h : start = k
      · rw [if_pos h] at hk
        exact absurd hk (by simp)
      · rw [if_neg h] at hk
        exact absurd hk (by simp)
    · intro k p hk
      rw [show (astarInit start goal heuristic_fn).parent = [(start, none)] from rfl,
        hlk] at hk
      by_cases h : start = k
      · rw [if_pos h] at hk
        exact absurd hk (by simp)
      · rw [if_neg h] at hk
        exact absurd hk (by simp)
    · intro h
      exact absurd rfl h
    · intro _
      rfl
  · intro v hv
    simp [astarInit] at hv

/-- One improving A* relaxation preserves the optimality certificate; the
base `g`-value `c` must be exactly the stored cost of the expanded state. -/
theorem astarOptRelax1_inv {grid : Grid} {start goal s n : State} {a : Action}
    {cost_fn : Action → Int} {heuristic_fn : State → State → Int} {c : Int}
    {st : AstarSt}
    (hnn : ∀ x, 0 ≤ cost_fn x) (hnb : ((n, a) : State × Action) ∈ get_neighbors s grid)
    (hinv : AstarOptInv grid start goal cost_fn heuristic_fn st) (hsv : s ∈ st.visited)
    (hcs : dLookup st.cost_so_far s = some c)
    (hupd : dLookup st.cost_so_far n = none ∨
      (∃ old, dLookup st.cost_so_far n = some old ∧ c + cost_fn a < old)) :
    AstarOptInv grid start goal cost_fn heuristic_fn
      ⟨st.frontier ++ [(c + cost_fn a + heuristic_fn n goal, c + cost_fn a, n)],
        dInsert st.parent n (some s),
        dInsert st.cost_so_far n (c + cost_fn a), st.visited, st.states_explored⟩ := by
  have hns : n ≠ s := get_neighbors_ne hnb
  have hadj : Adj grid s n := ⟨a, hnb⟩
  have hsmem : s ∈ dKeys st.parent := hinv.visited_sub s hsv
  set new := c + cost_fn a with hnewdef
  have heC : eCost cost_fn s n = cost_fn a := adj_eCost cost_fn hnb
  have hach_new : CostReach grid cost_fn start n new :=
    costReach_step (hinv.ach s c hcs) hnb
  have hnvis : n ∉ st.visited := by
    intro hc
    obtain ⟨cn, hcn, hlbn⟩ := hinv.vlb n hc
    obtain ⟨q, hqp, hqc⟩ := hach_new
    have h1 : cn ≤ new := hqc ▸ hlbn q hqp
    rcases hupd with hupd | ⟨old, hold, hlt⟩
    · rw [hupd] at hcn
      exact absurd hcn (by simp)
    · rw [hold] at hcn
      obtain rfl : cn = old := by simpa using hcn.symm
      omega
  have hcnn : 0 ≤ c := hinv.cost_nonneg s c hcs
  have hnn_a : 0 ≤ cost_fn a := hnn a
  have hnew_nn : 0 ≤ new := by omega
  have hnstart : n ≠ start := by
    intro hc
    subst hc
    rcases hupd with hupd | ⟨old, hold, hlt⟩
    · rw [hinv.cost_start] at hupd
      exact absurd hupd (by simp)
    · rw [hinv.cost_start] at hold
      obtain rfl : old = 0 := by simpa using hold.symm
      omega
  have hkeys_sup : ∀ j, j ∈ dKeys st.parent → j ∈ dKeys (dInsert st.parent n (some s)) :=
    fun j hj => mem_dKeys_dInsert.mpr (Or.inl hj)
  have hlp_self : dLookup (dInsert st.parent n (some s)) n = some (some s) :=
    dLookup_dInsert_self _ _ _
  have hlp_ne : ∀ j, j ≠ n → dLookup (dInsert st.parent n (some s)) j =
      dLookup st.parent j := fun j hj => dLookup_dInsert_ne _ _ hj
  have hlc_self : dLookup (dInsert st.cost_so_far n new) n = some new :=
    dLookup_dInsert_self _ _ _
  have hlc_ne : ∀ j, j ≠ n → dLookup (dInsert st.cost_so_far n new) j =
      dLookup st.cost_so_far j := fun j hj => dLookup_dInsert_ne _ _ hj
  have hcont_iff : dContains st.cost_so_far n = dContains st.parent n := by
    by_cases hmem : n ∈ dKeys st.parent
    · rw [(dContains_iff_mem_keys _ _).mpr hmem,
        (dContains_iff_mem_keys _ _).mpr (hinv.keys_eq ▸ hmem)]
    · have h1 : ¬ dContains st.parent n = true := fun hc =>
        hmem ((dContains_iff_mem_keys _ _).mp hc)
      have h2 : ¬ dContains st.cost_so_far n = true := fun hc =>
        hmem (hinv.keys_eq ▸ (dContains_iff_mem_keys _ _).mp hc)
      rw [Bool.not_eq_true] at h1 h2
      rw [h1, h2]
  refine ⟨?_, ?_, ?_, ?_, ?_, ?_, ?_, ?_, ?_, ?_, ?_, ?_, hinv.visited_nodup, hinv.count,
    hinv.goal_not_visited, ?_, ?_, ?_, ?_, ?_, ?_, hinv.start_visited, ?_⟩
  · rw [hlp_ne start (fun hc => hnstart hc.symm)]
    exact hinv.gstart
  · intro k hk
    by_cases hkn : k = n
    · subst hkn
      rw [hlp_self] at hk
      exact absurd hk (by simp)
    · rw [hlp_ne k hkn] at hk
      exact hinv.gnone k hk
  · intro k p hk
    by_cases hkn : k = n
    · subst hkn
      rw [hlp_self] at hk
      obtain rfl : s = p := by simpa using hk
      exact ⟨hkeys_sup s hsmem, hadj⟩
    · rw [hlp_ne k hkn] at hk
      obtain ⟨hp1, hp2⟩ := hinv.gedge k p hk
      exact ⟨hkeys_sup p hp1, hp2⟩
  · rw [dKeys_dInsert]
    by_cases hc : dContains st.parent n
    · rw [if_pos hc]
      exact hinv.keys_nodup
    · rw [if_neg hc]
      refine hinv.keys_nodup.append (List.nodup_singleton n) ?_
      intro t ht1 ht2
      obtain rfl : t = n := by simpa using ht2
      exact hc ((dContains_iff_mem_keys _ _).mpr ht1)
  · intro k hk
    rcases mem_dKeys_dInsert.mp hk with hk | rfl
    · exact hinv.keys_free k hk
    · exact Or.inr (adj_free hadj)
  · intro k hk
    rcases mem_dKeys_dInsert.mp hk with hk | rfl
    · exact hinv.keys_reach k hk
    · obtain ⟨m, hm⟩ := hinv.keys_reach s hsmem
      exact ⟨m + 1, ReachN.succ hm hadj⟩
  · rw [dKeys_dInsert, dKeys_dInsert, hcont_iff]
    by_cases hc : dContains st.parent n
    · rw [if_pos hc, if_pos hc, hinv.keys_eq]
    · rw [if_neg hc, if_neg hc, hinv.keys_eq]
  · rw [hlc_ne start (fun hc => hnstart hc.symm)]
    exact hinv.cost_start
  · intro k ck hk
    by_cases hkn : k = n
    · subst hkn
      rw [hlc_self] at hk
      obtain rfl : ck = new := by simpa using hk.symm
      omega
    · rw [hlc_ne k hkn] at hk
      exact hinv.cost_nonneg k ck hk
  · intro e he
    rcases List.mem_append.mp he with he | he
    · exact hinv.fkey e he
    · obtain rfl : e = (new + heuristic_fn n goal, new, n) := by simpa using he
      rfl
  · intro e he
    rcases List.mem_append.mp he with he | he
    · obtain ⟨he1, ce, hce1, hce2⟩ := hinv.frontier_sub e he
      refine ⟨hkeys_sup _ he1, ?_⟩
      by_cases hen : e.2.2 = n
      · rw [hen, hlc_self]
        rcases hupd with hupd | ⟨old, hold, holt⟩
        · rw [hen, hupd] at hce1
          exact absurd hce1 (by simp)
        · rw [hen, hold] at hce1
          obtain rfl : ce = old := by simpa using hce1.symm
          exact ⟨new, rfl, by omega⟩
      · rw [hlc_ne _ hen]
        exact ⟨ce, hce1, hce2⟩
    · obtain rfl : e = (new + heuristic_fn n goal, new, n) := by simpa using he
      exact ⟨mem_dKeys_dInsert.mpr (Or.inr rfl), new, hlc_self, le_refl _⟩
  · intro v hv
    exact hkeys_sup v (hinv.visited_sub v hv)
  · intro k hk hkv
    rcases mem_dKeys_dInsert.mp hk with hk | rfl
    · by_cases hkn : k = n
      · subst hkn
        refine ⟨(new + heuristic_fn k goal, new, k), List.mem_append_right _ (by simp),
          rfl, new, hlc_self, le_refl _⟩
      · obtain ⟨e, he, he2, ck, hck, hle⟩ := hinv.coverPlus k hk hkv
        exact ⟨e, List.mem_append_left _ he, he2, ck, by rw [hlc_ne k hkn]; exact hck,
          hle⟩
    · exact ⟨(new + heuristic_fn k goal, new, k), List.mem_append_right _ (by simp),
        rfl, new, hlc_self, le_refl _⟩
  · intro k ck hk
    by_cases hkn : k = n
    · subst hkn
      rw [hlc_self] at hk
      obtain rfl : ck = new := by simpa using hk.symm
      exact hach_new
    · rw [hlc_ne k hkn] at hk
      exact hinv.ach k ck hk
  · intro e he
    rcases List.mem_append.mp he with he | he
    · exact hinv.achF e he
    · obtain rfl : e = (new + heuristic_fn n goal, new, n) := by simpa using he
      exact hach_new
  · intro v hv
    have hvn : v ≠ n := fun hc => hnvis (hc ▸ hv)
    obtain ⟨cv, hcv, hlbv⟩ := hinv.vlb v hv
    exact ⟨cv, by rw [hlc_ne v hvn]; exact hcv, hlbv⟩
  · intro k p hk
    by_cases hkn : k = n
    · subst hkn
      rw [hlp_self] at hk
      obtain rfl : s = p := by simpa using hk
      refine ⟨new, c, hlc_self, by rw [hlc_ne s (fun hc => hns hc.symm)]; exact hcs, ?_⟩
      rw [heC]
    · rw [hlp_ne k hkn] at hk
      obtain ⟨ck, cp, hck, hcp, hsum⟩ := hinv.pc k p hk
      have hpn : p ≠ n := fun hc => hnvis (hc ▸ (hinv.pvis k p hk).1)
      exact ⟨ck, cp, by rw [hlc_ne k hkn]; exact hck, by rw [hlc_ne p hpn]; exact hcp,
        hsum⟩
  · intro k p hk
    by_cases hkn : k = n
    · subst hkn
      rw [hlp_self] at hk
      obtain rfl : s = p := by simpa using hk
      exact ⟨hsv, fun hc => absurd hc hnvis⟩
    · rw [hlp_ne k hkn] at hk
      exact hinv.pvis k p hk
  · intro hc
    exact absurd (hc ▸ hsv) (List.not_mem_nil s)

/-- The whole A* relaxation pass preserves the optimality certificate, with
the same structural conclusions as the UCS pass. -/
theorem astarOptRelax_inv {grid : Grid} {start goal : State} {cost_fn : Action → Int}
    {heuristic_fn : State → State → Int}
    (hnn : ∀ x, 0 ≤ cost_fn x) (s : State) (c : Int) :
    ∀ (nbrs : List (State × Action)) (st : AstarSt),
      (∀ nb ∈ nbrs, nb ∈ get_neighbors s grid) →
      AstarOptInv grid start goal cost_fn heuristic_fn st → s ∈ st.visited →
      dLookup st.cost_so_far s = some c →
      AstarOptInv grid start goal cost_fn heuristic_fn
        (astarRelax cost_fn heuristic_fn goal s c nbrs st) ∧
      (∀ nb ∈ nbrs, ∃ cw, dLookup
        (astarRelax cost_fn heuristic_fn goal s c nbrs st).cost_so_far nb.1 =
        some cw ∧ cw ≤ c + cost_fn nb.2) ∧
      (∀ k ∈ dKeys st.parent,
        k ∈ dKeys (astarRelax cost_fn heuristic_fn goal s c nbrs st).parent) ∧
      (astarRelax cost_fn heuristic_fn goal s c nbrs st).visited = st.visited ∧
      (astarRelax cost_fn heuristic_fn goal s c nbrs st).states_explored =
        st.states_explored ∧
      (∀ k ck, dLookup st.cost_so_far k = some ck →
        ∃ ck2, dLookup (astarRelax cost_fn heuristic_fn goal s c nbrs st).cost_so_far k =
          some ck2 ∧ ck2 ≤ ck) ∧
      (∀ v ∈ st.visited, dLookup
        (astarRelax cost_fn heuristic_fn goal s c nbrs st).cost_so_far v =
        dLookup st.cost_so_far v) := by
  intro nbrs
  induction nbrs with
  | nil =>
    intro st _ hinv hsv hcs
    rw [astarRelax_nil]
    exact ⟨hinv, by simp, fun k hk => hk, rfl, rfl,
      fun k ck hck => ⟨ck, hck, le_refl ck⟩, fun v _ => rfl⟩
  | cons nb nbrs ih =>
    intro st hnb hinv hsv hcs
    have hnb0 : nb ∈ get_neighbors s grid := hnb nb (List.mem_cons_self _ _)
    have hnb0' : ((nb.1, nb.2) : State × Action) ∈ get_neighbors s grid := by
      rwa [show ((nb.1, nb.2) : State × Action) = nb from rfl]
    have hnbs : nb.1 ≠ s := get_neighbors_ne hnb0'
    have hach_new : CostReach grid cost_fn start nb.1 (c + cost_fn nb.2) :=
      costReach_step (hinv.ach s c hcs) hnb0'
    cases hl : dLookup st.cost_so_far nb.1 with
    | none =>
      rw [astarRelax_cons_none nbrs hl]
      have hinv' := @astarOptRelax1_inv grid start goal s nb.1 nb.2 cost_fn heuristic_fn
        c st hnn hnb0' hinv hsv hcs (Or.inl hl)
      have hcs' : dLookup (dInsert st.cost_so_far nb.1 (c + cost_fn nb.2)) s =
          some c := by
        rw [dLookup_dInsert_ne _ _ (fun hc => hnbs hc.symm)]
        exact hcs
      have hrest := ih _ (fun x hx => hnb x (List.mem_cons_of_mem _ hx)) hinv'
        (by exact hsv) hcs'
      obtain ⟨hr1, hr2, hr3, hr4, hr5, hr6, hr7⟩ := hrest
      refine ⟨hr1, ?_, ?_, hr4, hr5, ?_, ?_⟩
      · intro x hx
        rcases List.mem_cons.mp hx with hx | hx
        · subst hx
          obtain ⟨ck2, hck2, hle2⟩ := hr6 x.1 (c + cost_fn x.2)
            (dLookup_dInsert_self _ _ _)
          exact ⟨ck2, hck2, hle2⟩
        · exact hr2 x hx
      · intro k hk
        exact hr3 k (mem_dKeys_dInsert.mpr (Or.inl hk))
      · intro k ck hck
        have hkn : k ≠ nb.1 := fun hc => by
          rw [hc, hl] at hck
          exact absurd hck (by simp)
        refine hr6 k ck ?_
        rw [dLookup_dInsert_ne _ _ hkn]
        exact hck
      · intro v hv
        have hvn : v ≠ nb.1 := fun hc => by
          have h1 := hinv.visited_sub v hv
          rw [← hinv.keys_eq] at h1
          have h2 := (dLookup_isSome_iff _ _).mpr h1
          rw [hc, hl] at h2
          simp at h2
        rw [hr7 v (by exact hv), dLookup_dInsert_ne _ _ hvn]
    | some old =>
      rw [astarRelax_cons_some nbrs hl]
      by_cases hlt : c + cost_fn nb.2 < old
      · rw [if_pos hlt]
        have hinv' := @astarOptRelax1_inv grid start goal s nb.1 nb.2 cost_fn
          heuristic_fn c st hnn hnb0' hinv hsv hcs (Or.inr ⟨old, hl, hlt⟩)
        have hcs' : dLookup (dInsert st.cost_so_far nb.1 (c + cost_fn nb.2)) s =
            some c := by
          rw [dLookup_dInsert_ne _ _ (fun hc => hnbs hc.symm)]
          exact hcs
        have hrest := ih _ (fun x hx => hnb x (List.mem_cons_of_mem _ hx)) hinv'
          (by exact hsv) hcs'
        obtain ⟨hr1, hr2, hr3, hr4, hr5, hr6, hr7⟩ := hrest
        have hnvis : nb.1 ∉ st.visited := by
          intro hc
          obtain ⟨cv, hcv, hlbv⟩ := hinv.vlb nb.1 hc
          obtain rfl : cv = old := by
            rw [hl] at hcv
            simpa using hcv.symm
          obtain ⟨q, hqp, hqc⟩ := hach_new
          have := hlbv q hqp
          omega
        refine ⟨hr1, ?_, ?_, hr4, hr5, ?_, ?_⟩
        · intro x hx
          rcases List.mem_cons.mp hx with hx | hx
          · subst hx
            obtain ⟨ck2, hck2, hle2⟩ := hr6 x.1 (c + cost_fn x.2)
              (dLookup_dInsert_self _ _ _)
            exact ⟨ck2, hck2, hle2⟩
          · exact hr2 x hx
        · intro k hk
          exact hr3 k (mem_dKeys_dInsert.mpr (Or.inl hk))
        · intro k ck hck
          by_cases hkn : k = nb.1
          · subst hkn
            obtain rfl : ck = old := by
              rw [hl] at hck
              simpa using hck.symm
            obtain ⟨ck2, hck2, hle2⟩ := hr6 nb.1 (c + cost_fn nb.2)
              (dLookup_dInsert_self _ _ _)
            exact ⟨ck2, hck2, by omega⟩
          · refine hr6 k ck ?_
            rw [dLookup_dInsert_ne _ _ hkn]
            exact hck
        · intro v hv
          have hvn : v ≠ nb.1 := fun hc => hnvis (hc ▸ hv)
          rw [hr7 v (by exact hv), dLookup_dInsert_ne _ _ hvn]
      · rw [if_neg hlt]
        have hrest := ih st (fun x hx => hnb x (List.mem_cons_of_mem _ hx)) hinv hsv hcs
        obtain ⟨hr1, hr2, hr3, hr4, hr5, hr6, hr7⟩ := hrest
        refine ⟨hr1, ?_, hr3, hr4, hr5, hr6, hr7⟩
        intro x hx
        rcases List.mem_cons.mp hx with hx | hx
        · subst hx
          obtain ⟨ck2, hck2, hle2⟩ := hr6 x.1 old hl
          exact ⟨ck2, hck2, by omega⟩
        · exact hr2 x hx

/-- The A* cut argument: with a consistent heuristic, whenever the loop pops
a minimal frontier entry `(f, g, s)`, `f` is a lower bound on the cost of
every valid path to every not-yet-expanded state plus that state's
heuristic. -/
theorem astar_cut {grid : Grid} {start goal : State} {cost_fn : Action → Int}
    {heuristic_fn : State → State → Int} {st : AstarSt}
    (hnn : ∀ x, 0 ≤ cost_fn x)
    (hcons : ∀ u x, Adj grid u x →
      heuristic_fn u goal ≤ eCost cost_fn u x + heuristic_fn x goal)
    (hinv : AstarOptInv grid start goal cost_fn heuristic_fn st)
    (hvc : AstarOptVC grid cost_fn st)
    {f g : Int} {s : State} {rest : List (Int × Int × State)}
    (hpop : popMin astarKeyLe st.frontier = some ((f, g, s), rest)) :
    ∀ (q : List State) (x : State), PathFrom grid start x q → x ∉ st.visited →
      f ≤ pathCost cost_fn q + heuristic_fn x goal := by
  have hmain : ∀ (m : Nat) (q : List State) (x : State), q.length ≤ m →
      PathFrom grid start x q → x ∉ st.visited →
      f ≤ pathCost cost_fn q + heuristic_fn x goal := by
    intro m
    induction m with
    | zero =>
      intro q x hlen hq _
      rcases q with _ | ⟨a, l⟩
      · exact absurd rfl hq.1
      · simp at hlen
    | succ m ih =>
      intro q x hlen hq hx
      rcases pathFrom_snoc hq with ⟨rfl, rfl⟩ | ⟨q', u, rfl, hq', hadj⟩
      · have hve : st.visited = [] := by
          by_contra hv
          exact hx (hinv.start_visited hv)
        have hst := hinv.empty_init hve
        rw [hst] at hpop
        have hss : popMin astarKeyLe (astarInit x goal heuristic_fn).frontier =
            some ((heuristic_fn x goal, 0, x), []) := by
          simp [astarInit, popMin, listMin, eraseFirst]
        rw [hss] at hpop
        simp only [Option.some.injEq, Prod.mk.injEq] at hpop
        obtain ⟨⟨hf0, -⟩, -⟩ := hpop
        rw [pathCost_single]
        omega
      · have hqlast := hq'.2.2.1
        rw [pathCost_snoc cost_fn hqlast]
        have hlen' : q'.length ≤ m := by
          rw [List.length_append] at hlen
          simp only [List.length_cons, List.length_nil] at hlen
          omega
        have heCnn : 0 ≤ eCost cost_fn u x := by
          obtain ⟨a, ha⟩ := hadj
          rw [adj_eCost cost_fn ha]
          exact hnn a
        by_cases huv : u ∈ st.visited
        · obtain ⟨hxkeys, cv, cw, hcv, hcw, hcwle⟩ := hvc u huv x hadj
          obtain ⟨cvlb, hcvlb, hlbv⟩ := hinv.vlb u huv
          obtain rfl : cvlb = cv := by
            rw [hcv] at hcvlb
            simpa using hcvlb.symm
          obtain ⟨e, he, he2, ck, hck, hckle⟩ := hinv.coverPlus x hxkeys hx
          obtain rfl : ck = cw := by
            rw [hcw] at hck
            simpa using hck.symm
          have hkey := popMin_le astarKeyLe_total astarKeyLe_trans hpop e he
          have hfe : f ≤ e.1 := astarKeyLe_fst hkey
          have hfk := hinv.fkey e he
          rw [he2] at hfk
          have hlbq := hlbv q' hq'
          omega
        · have := ih q' u hlen' hq' huv
          have := hcons u x hadj
          omega
  intro q x hq hx
  exact hmain q.length q x (le_refl _) hq hx

/-- One continuing A* step preserves the optimality certificate and its
expansion closure, for a non-negative cost function and consistent
heuristic. -/
theorem astarOpt_step {grid : Grid} {start goal : State} {cost_fn : Action → Int}
    {heuristic_fn : State → State → Int} {st st' : AstarSt}
    (hnn : ∀ x, 0 ≤ cost_fn x)
    (hcons : ∀ u x, Adj grid u x →
      heuristic_fn u goal ≤ eCost cost_fn u x + heuristic_fn x goal)
    (h : astarStep grid goal cost_fn heuristic_fn st = .inl st')
    (hP : AstarOptInv grid start goal cost_fn heuristic_fn st ∧
      AstarOptVC grid cost_fn st) :
    AstarOptInv grid start goal cost_fn heuristic_fn st' ∧ AstarOptVC grid cost_fn st' := by
  obtain ⟨hinv, hvc⟩ := hP
  rcases astarStep_inl_char h with ⟨f, c, s, rest, hpop, hv, hst'⟩ |
    ⟨f, c, s, rest, hpop, hv, hg, hst'⟩
  · subst hst'
    obtain ⟨hmem, hrest⟩ := popMin_eq_some hpop
    constructor
    · refine ⟨hinv.gstart, hinv.gnone, hinv.gedge, hinv.keys_nodup, hinv.keys_free,
        hinv.keys_reach, hinv.keys_eq, hinv.cost_start, hinv.cost_nonneg, ?_, ?_,
        hinv.visited_sub, hinv.visited_nodup, hinv.count, hinv.goal_not_visited, ?_,
        hinv.ach, ?_, hinv.vlb, hinv.pc, hinv.pvis, hinv.start_visited, ?_⟩
      · intro e he
        have he2 : e ∈ rest := he
        rw [hrest] at he2
        exact hinv.fkey e (mem_of_mem_eraseFirst he2)
      · intro e he
        have he2 : e ∈ rest := he
        rw [hrest] at he2
        exact hinv.frontier_sub e (mem_of_mem_eraseFirst he2)
      · intro k hk hkv
        obtain ⟨e, he, he2, ck, hck, hle⟩ := hinv.coverPlus k hk hkv
        have hec : e ≠ (f, c, s) := fun hc => hkv (by rw [← he2, hc]; exact hv)
        refine ⟨e, ?_, he2, ck, hck, hle⟩
        show e ∈ rest
        rw [hrest]
        exact mem_eraseFirst_of_ne hec he
      · intro e he
        have he2 : e ∈ rest := he
        rw [hrest] at he2
        exact hinv.achF e (mem_of_mem_eraseFirst he2)
      · intro hc
        exact absurd ((show st.visited = [] from hc) ▸ hv) (List.not_mem_nil s)
    · exact hvc
  · obtain ⟨hmem, hrest⟩ := popMin_eq_some hpop
    obtain ⟨hsmem, cs0, hcs0, hcs0le⟩ := hinv.frontier_sub (f, c, s) hmem
    obtain ⟨e', he', he'2, ck', hck', hck'le⟩ := hinv.coverPlus s hsmem hv
    have heq1 : ck' = cs0 := by
      rw [hcs0] at hck'
      simpa using hck'.symm
    have hkey := popMin_le astarKeyLe_total astarKeyLe_trans hpop e' he'
    have hfe' : f ≤ e'.1 := astarKeyLe_fst hkey
    have hfk0 : f = c + heuristic_fn s goal := hinv.fkey (f, c, s) hmem
    have hfk' := hinv.fkey e' he'
    rw [he'2] at hfk'
    have hcs0le2 : cs0 ≤ c := hcs0le
    have hcs : dLookup st.cost_so_far s = some c := by
      have heq2 : cs0 = c := by omega
      rw [hcs0, heq2]
    have hlbs : ∀ q, PathFrom grid start s q → c ≤ pathCost cost_fn q := by
      intro q hq
      have := astar_cut hnn hcons hinv hvc hpop q s hq hv
      omega
    have hsv1 : s ∈ st.visited ++ [s] := List.mem_append_right _ (by simp)
    have hinv1 : AstarOptInv grid start goal cost_fn heuristic_fn
        ⟨rest, st.parent, st.cost_so_far, st.visited ++ [s],
          st.states_explored + 1⟩ := by
      refine ⟨hinv.gstart, hinv.gnone, hinv.gedge, hinv.keys_nodup, hinv.keys_free,
        hinv.keys_reach, hinv.keys_eq, hinv.cost_start, hinv.cost_nonneg, ?_, ?_, ?_,
        ?_, ?_, ?_, ?_, hinv.ach, ?_, ?_, hinv.pc, ?_, ?_, ?_⟩
      · intro e he
        have he2 : e ∈ rest := he
        rw [hrest] at he2
        exact hinv.fkey e (mem_of_mem_eraseFirst he2)
      · intro e he
        have he2 : e ∈ rest := he
        rw [hrest] at he2
        exact hinv.frontier_sub e (mem_of_mem_eraseFirst he2)
      · intro v hvv
        have hvv : v ∈ st.visited ++ [s] := hvv
        rcases List.mem_append.mp hvv with hvv | hvv
        · exact hinv.visited_sub v hvv
        · obtain rfl : v = s := by simpa using hvv
          exact hsmem
      · refine List.Nodup.append hinv.visited_nodup (List.nodup_singleton s) ?_
        intro t ht1 ht2
        obtain rfl : t = s := by simpa using ht2
        exact hv ht1
      · simp [hinv.count]
      · intro hc
        rcases List.mem_append.mp hc with hc | hc
        · exact hinv.goal_not_visited hc
        · have : goal = s := by simpa using hc
          exact hg this.symm
      · intro k hk hkv
        have hks : k ≠ s := fun hc => hkv (hc ▸ hsv1)
        have hkvold : k ∉ st.visited := fun hc => hkv (List.mem_append_left _ hc)
        obtain ⟨e, he, he2, ck, hck, hle⟩ := hinv.coverPlus k hk hkvold
        have hec : e ≠ (f, c, s) := fun hc => hks (by rw [← he2, hc])
        refine ⟨e, ?_, he2, ck, hck, hle⟩
        show e ∈ rest
        rw [hrest]
        exact mem_eraseFirst_of_ne hec he
      · intro e he
        have he2 : e ∈ rest := he
        rw [hrest] at he2
        exact hinv.achF e (mem_of_mem_eraseFirst he2)
      · intro v hvv
        have hvv : v ∈ st.visited ++ [s] := hvv
        rcases List.mem_append.mp hvv with hvv | hvv
        · obtain ⟨cv, hcv, hlbv⟩ := hinv.vlb v hvv
          exact ⟨cv, hcv, hlbv⟩
        · obtain rfl : v = s := by simpa using hvv
          exact ⟨c, hcs, hlbs⟩
      · intro k p hk
        obtain ⟨hpv, hord⟩ := hinv.pvis k p hk
        refine ⟨List.mem_append_left _ hpv, ?_⟩
        intro hkv
        have hkv : k ∈ st.visited ++ [s] := hkv
        rcases List.mem_append.mp hkv with hkv | hkv
        · show idxIn (st.visited ++ [s]) p < idxIn (st.visited ++ [s]) k
          rw [idxIn_append_of_mem hpv, idxIn_append_of_mem hkv]
          exact hord hkv
        · obtain rfl : k = s := by simpa using hkv
          show idxIn (st.visited ++ [k]) p < idxIn (st.visited ++ [k]) k
          rw [idxIn_append_of_mem hpv, idxIn_append_self hv]
          exact idxIn_lt_length hpv
      · intro _
        by_cases hve : st.visited = []
        · have hst := hinv.empty_init hve
          have hmem2 : (f, c, s) ∈ (astarInit start goal heuristic_fn).frontier := by
            rw [← hst]
            exact hmem
          simp only [astarInit, List.mem_singleton, Prod.mk.injEq] at hmem2
          obtain ⟨-, -, rfl⟩ := hmem2
          exact List.mem_append_right _ (by simp)
        · exact List.mem_append_left _ (hinv.start_visited hve)
      · intro hc
        exact absurd hc (by simp)
    have hfold := astarOptRelax_inv hnn s c (get_neighbors s grid)
      ⟨rest, st.parent, st.cost_so_far, st.visited ++ [s], st.states_explored + 1⟩
      (fun nb hnb => hnb) hinv1 hsv1 (by exact hcs)
    obtain ⟨hf1, hf2, hf3, hf4, hf5, hf6, hf7⟩ := hfold
    subst hst'
    refine ⟨hf1, ?_⟩
    intro v hvv w hadj
    rw [hf4] at hvv
    have hvv : v ∈ st.visited ++ [s] := hvv
    rcases List.mem_append.mp hvv with hvv | hvv
    · obtain ⟨hwkeys, cv, cw, hcv, hcw, hcwle⟩ := hvc v hvv w hadj
      refine ⟨hf3 w hwkeys, ?_⟩
      obtain ⟨cw2, hcw2, hcw2le⟩ := hf6 w cw (by exact hcw)
      have hcvfix := hf7 v (List.mem_append_left _ hvv)
      exact ⟨cv, cw2, by rw [hcvfix]; exact hcv, hcw2, by omega⟩
    · obtain rfl : v = s := by simpa using hvv
      obtain ⟨a, ha⟩ := hadj
      obtain ⟨cw, hcw, hcwle⟩ := hf2 (w, a) ha
      have hsfix := hf7 v hsv1
      have hcw2 : dLookup (astarRelax cost_fn heuristic_fn goal v c
          (get_neighbors v grid)
          ⟨rest, st.parent, st.cost_so_far, st.visited ++ [v],
            st.states_explored + 1⟩).cost_so_far w = some cw := hcw
      have hwkeys : w ∈ dKeys (astarRelax cost_fn heuristic_fn goal v c
          (get_neighbors v grid)
          ⟨rest, st.parent, st.cost_so_far, st.visited ++ [v],
            st.states_explored + 1⟩).cost_so_far :=
        (dLookup_isSome_iff _ _).mp (by rw [hcw2]; rfl)
      have hcwle2 : cw ≤ c + cost_fn a := hcwle
      refine ⟨hf1.keys_eq ▸ hwkeys, c, cw, by rw [hsfix]; exact hcs, hcw, ?_⟩
      rw [adj_eCost cost_fn ha]
      omega

theorem astarOptInv_visited_le {grid : Grid} {start goal : State}
    {cost_fn : Action → Int} {heuristic_fn : State → State → Int} {st : AstarSt}
    (hinv : AstarOptInv grid start goal cost_fn heuristic_fn st) :
    st.visited.length ≤ grid.length * grid.length + 1 := by
  have h1 : st.visited.length ≤ (start :: allCells grid).length := by
    refine nodup_subset_length_le hinv.visited_nodup ?_
    intro k hk
    rcases hinv.keys_free k (hinv.visited_sub k hk) with hk | hk
    · exact hk ▸ List.mem_cons_self _ _
    · exact List.mem_cons_of_mem _ (freeCell_mem_allCells hk)
  rw [List.length_cons, allCells_length] at h1
  omega

theorem astar_opt_loop_some (grid : Grid) (start goal : State) (cost_fn : Action → Int)
    (heuristic_fn : State → State → Int) (hnn : ∀ x, 0 ≤ cost_fn x)
    (hcons : ∀ u x, Adj grid u x →
      heuristic_fn u goal ≤ eCost cost_fn u x + heuristic_fn x goal) :
    ∃ stf, astarLoop grid goal cost_fn heuristic_fn (dfsFuel grid)
      (astarInit start goal heuristic_fn) = some stf := by
  have := iterStep_total (astarStep grid goal cost_fn heuristic_fn)
    (P := fun st => AstarOptInv grid start goal cost_fn heuristic_fn st ∧
      AstarOptVC grid cost_fn st)
    (fun st => st.frontier.length +
      5 * ((grid.length * grid.length + 1) - st.visited.length))
    (fun st st' hs hP => astarOpt_step hnn hcons hs hP)
    (fun st st' hs hP => by
      have hP' := astarOpt_step hnn hcons hs hP
      have hvle' := astarOptInv_visited_le hP'.1
      rcases astarStep_inl_char hs with ⟨f, c, s, rest, hpop, hv, hst'⟩ |
        ⟨f, c, s, rest, hpop, hv, hg, hst'⟩
      · subst hst'
        obtain ⟨hmem, hrest⟩ := popMin_eq_some hpop
        have e1 : rest.length + 1 = st.frontier.length := by
          rw [hrest]
          exact length_eraseFirst_of_mem hmem
        dsimp only
        omega
      · obtain ⟨hmem, hrest⟩ := popMin_eq_some hpop
        have e1 : rest.length + 1 = st.frontier.length := by
          rw [hrest]
          exact length_eraseFirst_of_mem hmem
        have hlen := astarRelax_lengths cost_fn heuristic_fn goal s c
          (get_neighbors s grid)
          ⟨rest, st.parent, st.cost_so_far, st.visited ++ [s], st.states_explored + 1⟩
        have e4 := get_neighbors_length_le s grid
        have f1 : st'.frontier.length ≤ rest.length + 4 := by
          rw [hst']
          have h1 := hlen.1
          have h2 : (⟨rest, st.parent, st.cost_so_far, st.visited ++ [s],
            st.states_explored + 1⟩ : AstarSt).frontier.length = rest.length := rfl
          omega
        have f2 : st'.visited.length = st.visited.length + 1 := by
          rw [hst', hlen.2.1]
          simp
        dsimp only
        omega)
    (dfsFuel grid) (astarInit start goal heuristic_fn)
    (astarOptInv_init grid start goal cost_fn heuristic_fn)
    (by
      rw [dfsFuel]
      simp [astarInit]
      omega)
  exact this

/-- Every A* run with a non-negative cost function and consistent heuristic,
packaged with the full optimality certificate. -/
theorem astar_opt_run (grid : Grid) (start goal : State) (cost_fn : Action → Int)
    (heuristic_fn : State → State → Int) (hnn : ∀ x, 0 ≤ cost_fn x)
    (hcons : ∀ u x, Adj grid u x →
      heuristic_fn u goal ≤ eCost cost_fn u x + heuristic_fn x goal) :
    ∃ st0 stf, (AstarOptInv grid start goal cost_fn heuristic_fn st0 ∧
        AstarOptVC grid cost_fn st0) ∧
      astarStep grid goal cost_fn heuristic_fn st0 = .inr stf ∧
      astar grid start goal cost_fn heuristic_fn =
        some (reconstruct_path stf.parent start goal, stf.states_explored) := by
  obtain ⟨stf, hloop⟩ := astar_opt_loop_some grid start goal cost_fn heuristic_fn hnn
    hcons
  obtain ⟨st0, hreach, hlast⟩ := iterStep_last hloop
  have hinv0 := iterReach_inv
    (P := fun st => AstarOptInv grid start goal cost_fn heuristic_fn st ∧
      AstarOptVC grid cost_fn st)
    (astarOptInv_init grid start goal cost_fn heuristic_fn)
    (fun st st' hs hP => astarOpt_step hnn hcons hs hP) st0 hreach
  refine ⟨st0, stf, hinv0, hlast, ?_⟩
  rw [astar, hloop]
  rfl

/-- With a non-negative cost function, a consistent heuristic vanishing at
the goal, and the goal reachable, `astar` returns a non-empty valid path of
minimal total cost. -/
theorem astar_min_cost (grid : Grid) (start goal : State) (cost_fn : Action → Int)
    (heuristic_fn : State → State → Int) (hnn : ∀ x, 0 ≤ cost_fn x)
    (hcons : ∀ u x, Adj grid u x →
      heuristic_fn u goal ≤ eCost cost_fn u x + heuristic_fn x goal)
    (hgoal0 : heuristic_fn goal goal = 0) (hreach : Reaches grid start goal) :
    ∃ p n, astar grid start goal cost_fn heuristic_fn = some (.ok p, n) ∧ p ≠ [] ∧
      PathFrom grid start goal p ∧
      ∀ q, PathFrom grid start goal q → pathCost cost_fn p ≤ pathCost cost_fn q := by
  obtain ⟨st0, stf, ⟨hinv, hvc⟩, hlast, hres⟩ := astar_opt_run grid start goal cost_fn
    heuristic_fn hnn hcons
  rcases astarStep_inr_char hlast with ⟨hq, rfl⟩ | ⟨f, c, rest, hpop, hgv, rfl⟩
  · exfalso
    have hfr : stf.frontier = [] := by
      cases hf : stf.frontier with
      | nil => rfl
      | cons x xs =>
        rw [hf, popMin_isSome] at hq
        exact absurd hq (by simp)
    have hkv : ∀ k ∈ dKeys stf.parent, k ∈ stf.visited := by
      intro k hk
      by_contra hkv
      obtain ⟨e, he, -⟩ := hinv.coverPlus k hk hkv
      rw [hfr] at he
      simp at he
    have hstart : start ∈ dKeys stf.parent :=
      (dLookup_isSome_iff _ _).mp (by rw [hinv.gstart]; rfl)
    have hclosed : ∀ x, Reaches grid start x → x ∈ dKeys stf.parent :=
      reaches_subset_closed hstart
        (fun u hu t hadj => (hvc u (hkv u hu) t hadj).1)
    exact hinv.goal_not_visited (hkv goal (hclosed goal hreach))
  · obtain ⟨hmem, hrest⟩ := popMin_eq_some hpop
    obtain ⟨hgmem, cg, hcg, hcgle⟩ := hinv.frontier_sub (f, c, goal) hmem
    obtain ⟨e', he', he'2, ck', hck', hck'le⟩ := hinv.coverPlus goal hgmem hgv
    have heq1 : ck' = cg := by
      rw [hcg] at hck'
      simpa using hck'.symm
    have hkey := popMin_le astarKeyLe_total astarKeyLe_trans hpop e' he'
    have hfe' : f ≤ e'.1 := astarKeyLe_fst hkey
    have hfk0 : f = c + heuristic_fn goal goal := hinv.fkey (f, c, goal) hmem
    have hfk' := hinv.fkey e' he'
    rw [he'2] at hfk'
    have hcgle2 : cg ≤ c := hcgle
    have hcg' : dLookup st0.cost_so_far goal = some c := by
      have heq2 : cg = c := by omega
      rw [hcg, heq2]
    obtain ⟨p, hp, hppath⟩ :=
      (goodParent_reconstruct (astarOptInv_goodParent hinv) goal).2 hgmem
    have hcost : pathCost cost_fn p = c := by
      rw [reconstruct_path, if_pos ((dContains_iff_mem_keys _ _).mpr hgmem)] at hp
      exact reconWalk_cost hinv.cost_start hinv.pc _ goal p c hp hcg'
    refine ⟨p, st0.states_explored + 1, ?_, hppath.1, hppath, ?_⟩
    · rw [hres]
      show some (reconstruct_path st0.parent start goal, st0.states_explored + 1) = _
      rw [hp]
    · intro q hqpath
      rw [hcost]
      have := astar_cut hnn hcons hinv hvc hpop q goal hqpath hgv
      omega

/-! ## C2: scenario-B facts and frontier structure -/

theorem cost_scenario2_pos : ∀ x, 0 < cost_scenario2 x := by
  intro x
  rw [cost_scenario2]
  split <;> norm_num

theorem heuristic_scenario2_self (g : State) : heuristic_scenario2 g g = 0 := by
  rw [heuristic_scenario2]
  simp

theorem heuristic_scenario2_nonneg (s g : State) : 0 ≤ heuristic_scenario2 s g := by
  rw [heuristic_scenario2]
  positivity

/-- The scenario-B heuristic is consistent for the scenario-B step costs:
a move changes it by at most the move's cost. -/
theorem heuristic_scenario2_consistent {grid : Grid} (goal : State) :
    ∀ u x, Adj grid u x → heuristic_scenario2 u goal ≤
      eCost cost_scenario2 u x + heuristic_scenario2 x goal := by
  intro u x hadj
  obtain ⟨a, ha⟩ := hadj
  rw [adj_eCost cost_scenario2 ha]
  obtain ⟨hact, hx, -⟩ := mem_get_neighbors.mp ha
  subst hx
  fin_cases hact <;> simp [cost_scenario2, heuristic_scenario2] <;>
    simp only [Int.abs_eq_natAbs] <;> omega

/-- Structure of the frontier after a relaxation pass: old entries plus
freshly pushed `(base + cost, neighbour)` entries. -/
theorem ucsRelax_frontier_sub (cost_fn : Action → Int) (s : State) (c : Int) :
    ∀ (nbrs : List (State × Action)) (st : UcsSt),
      ∀ e ∈ (ucsRelax cost_fn s c nbrs st).frontier,
        e ∈ st.frontier ∨ ∃ nb ∈ nbrs, e = (c + cost_fn nb.2, nb.1) := by
  intro nbrs
  induction nbrs with
  | nil =>
    intro st e he
    rw [ucsRelax_nil] at he
    exact Or.inl he
  | cons nb nbrs ih =>
    intro st e he
    have step : ∀ st1 : UcsSt, st1.frontier = st.frontier ∨
        st1.frontier = st.frontier ++ [(c + cost_fn nb.2, nb.1)] →
        e ∈ (ucsRelax cost_fn s c nbrs st1).frontier →
        e ∈ st.frontier ∨ ∃ x ∈ nb :: nbrs, e = (c + cost_fn x.2, x.1) := by
      intro st1 hfr he1
      rcases ih st1 e he1 with he2 | ⟨x, hx, hex⟩
      · rcases hfr with hfr | hfr
        · rw [hfr] at he2
          exact Or.inl he2
        · rw [hfr] at he2
          rcases List.mem_append.mp he2 with he3 | he3
          · exact Or.inl he3
          · obtain rfl : e = (c + cost_fn nb.2, nb.1) := by simpa using he3
            exact Or.inr ⟨nb, List.mem_cons_self _ _, rfl⟩
      · exact Or.inr ⟨x, List.mem_cons_of_mem _ hx, hex⟩
    cases hl : dLookup st.cost_so_far nb.1 with
    | none =>
      rw [ucsRelax_cons_none nbrs hl] at he
      exact step _ (Or.inr rfl) he
    | some old =>
      rw [ucsRelax_cons_some nbrs hl] at he
      by_cases hlt : c + cost_fn nb.2 < old
      · rw [if_pos hlt] at he
        exact step _ (Or.inr rfl) he
      · rw [if_neg hlt] at he
        exact step _ (Or.inl rfl) he

theorem astarRelax_frontier_sub (cost_fn : Action → Int)
    (heuristic_fn : State → State → Int) (goal s : State) (c : Int) :
    ∀ (nbrs : List (State × Action)) (st : AstarSt),
      ∀ e ∈ (astarRelax cost_fn heuristic_fn goal s c nbrs st).frontier,
        e ∈ st.frontier ∨ ∃ nb ∈ nbrs,
          e = (c + cost_fn nb.2 + heuristic_fn nb.1 goal, c + cost_fn nb.2, nb.1) := by
  intro nbrs
  induction nbrs with
  | nil =>
    intro st e he
    rw [astarRelax_nil] at he
    exact Or.inl he
  | cons nb nbrs ih =>
    intro st e he
    have step : ∀ st1 : AstarSt, st1.frontier = st.frontier ∨
        st1.frontier = st.frontier ++
          [(c + cost_fn nb.2 + heuristic_fn nb.1 goal, c + cost_fn nb.2, nb.1)] →
        e ∈ (astarRelax cost_fn heuristic_fn goal s c nbrs st1).frontier →
        e ∈ st.frontier ∨ ∃ x ∈ nb :: nbrs,
          e = (c + cost_fn x.2 + heuristic_fn x.1 goal, c + cost_fn x.2, x.1) := by
      intro st1 hfr he1
      rcases ih st1 e he1 with he2 | ⟨x, hx, hex⟩
      · rcases hfr with hfr | hfr
        · rw [hfr] at he2
          exact Or.inl he2
        · rw [hfr] at he2
          rcases List.mem_append.mp he2 with he3 | he3
          · exact Or.inl he3
          · obtain rfl : e = (c + cost_fn nb.2 + heuristic_fn nb.1 goal,
                c + cost_fn nb.2, nb.1) := by simpa using he3
            exact Or.inr ⟨nb, List.mem_cons_self _ _, rfl⟩
      · exact Or.inr ⟨x, List.mem_cons_of_mem _ hx, hex⟩
    cases hl : dLookup st.cost_so_far nb.1 with
    | none =>
      rw [astarRelax_cons_none nbrs hl] at he
      exact step _ (Or.inr rfl) he
    | some old =>
      rw [astarRelax_cons_some nbrs hl] at he
      by_cases hlt : c + cost_fn nb.2 < old
      · rw [if_pos hlt] at he
        exact step _ (Or.inr rfl) he
      · rw [if_neg hlt] at he
        exact step _ (Or.inl rfl) he

/-! ## C2: expansion order bounds the frontier keys -/

theorem ucsKeyLe_mono_fst {d c : Int} {v : State} {e : Int × State} (hle : d ≤ c)
    (h : ucsKeyLe (c, v) e = true) : ucsKeyLe (d, v) e = true := by
  simp only [ucsKeyLe, Bool.decide_or, Bool.or_eq_true, decide_eq_true_eq,
    Bool.and_eq_true] at h ⊢
  rcases h with h | ⟨h1, h2⟩
  · left
    omega
  · rcases lt_or_eq_of_le hle with h3 | h3
    · left
      omega
    · right
      exact ⟨by omega, h2⟩

theorem astarKeyLe_mono {d2 f2 d1 f1 : Int} {v : State} {e : Int × Int × State}
    (hf : f2 ≤ f1) (hd : d2 ≤ d1)
    (h : astarKeyLe (f1, d1, v) e = true) : astarKeyLe (f2, d2, v) e = true := by
  simp only [astarKeyLe, Bool.decide_or, Bool.or_eq_true, decide_eq_true_eq,
    Bool.and_eq_true] at h ⊢
  rcases h with h | ⟨h1, h | ⟨h2, h3⟩⟩
  · left
    omega
  · rcases lt_or_eq_of_le hf with h4 | h4
    · left
      omega
    · right
      exact ⟨by omega, Or.inl (by omega)⟩
  · rcases lt_or_eq_of_le hf with h4 | h4
    · left
      omega
    · rcases lt_or_eq_of_le hd with h5 | h5
      · right
        exact ⟨by omega, Or.inl (by omega)⟩
      · right
        exact ⟨by omega, Or.inr ⟨by omega, h3⟩⟩

/-- Stored costs only decrease across a relaxation pass (purely structural). -/
theorem ucsRelax_cost_mono (cost_fn : Action → Int) (s : State) (c : Int) :
    ∀ (nbrs : List (State × Action)) (st : UcsSt) (k : State) (ck : Int),
      dLookup st.cost_so_far k = some ck →
      ∃ ck2, dLookup (ucsRelax cost_fn s c nbrs st).cost_so_far k = some ck2 ∧
        ck2 ≤ ck := by
  intro nbrs
  induction nbrs with
  | nil =>
    intro st k ck hck
    rw [ucsRelax_nil]
    exact ⟨ck, hck, le_refl ck⟩
  | cons nb nbrs ih =>
    intro st k ck hck
    cases hl : dLookup st.cost_so_far nb.1 with
    | none =>
      rw [ucsRelax_cons_none nbrs hl]
      have hkn : k ≠ nb.1 := fun hc => by
        rw [hc, hl] at hck
        exact absurd hck (by simp)
      refine ih _ k ck ?_
      rw [dLookup_dInsert_ne _ _ hkn]
      exact hck
    | some old =>
      rw [ucsRelax_cons_some nbrs hl]
      by_cases hlt : c + cost_fn nb.2 < old
      · rw [if_pos hlt]
        by_cases hkn : k = nb.1
        · subst hkn
          obtain rfl : ck = old := by
            rw [hl] at hck
            simpa using hck.symm
          obtain ⟨ck2, hck2, hle2⟩ := ih
            (⟨st.frontier ++ [(c + cost_fn nb.2, nb.1)],
              dInsert st.parent nb.1 (some s),
              dInsert st.cost_so_far nb.1 (c + cost_fn nb.2),
              st.visited, st.states_explored⟩ : UcsSt) nb.1 (c + cost_fn nb.2)
            (dLookup_dInsert_self _ _ _)
          exact ⟨ck2, hck2, by omega⟩
        · refine ih _ k ck ?_
          rw [dLookup_dInsert_ne _ _ hkn]
          exact hck
      · rw [if_neg hlt]
        exact ih st k ck hck

theorem astarRelax_cost_mono (cost_fn : Action → Int)
    (heuristic_fn : State → State → Int) (goal s : State) (c : Int) :
    ∀ (nbrs : List (State × Action)) (st : AstarSt) (k : State) (ck : Int),
      dLookup st.cost_so_far k = some ck →
      ∃ ck2, dLookup
        (astarRelax cost_fn heuristic_fn goal s c nbrs st).cost_so_far k = some ck2 ∧
        ck2 ≤ ck := by
  intro nbrs
  induction nbrs with
  | nil =>
    intro st k ck hck
    rw [astarRelax_nil]
    exact ⟨ck, hck, le_refl ck⟩
  | cons nb nbrs ih =>
    intro st k ck hck
    cases hl : dLookup st.cost_so_far nb.1 with
    | none =>
      rw [astarRelax_cons_none nbrs hl]
      have hkn : k ≠ nb.1 := fun hc => by
        rw [hc, hl] at hck
        exact absurd hck (by simp)
      refine ih _ k ck ?_
      rw [dLookup_dInsert_ne _ _ hkn]
      exact hck
    | some old =>
      rw [astarRelax_cons_some nbrs hl]
      by_cases hlt : c + cost_fn nb.2 < old
      · rw [if_pos hlt]
        by_cases hkn : k = nb.1
        · subst hkn
          obtain rfl : ck = old := by
            rw [hl] at hck
            simpa using hck.symm
          obtain ⟨ck2, hck2, hle2⟩ := ih
            (⟨st.frontier ++ [(c + cost_fn nb.2 + heuristic_fn nb.1 goal, c + cost_fn nb.2, nb.1)],
              dInsert st.parent nb.1 (some s),
              dInsert st.cost_so_far nb.1 (c + cost_fn nb.2),
              st.visited, st.states_explored⟩ : AstarSt) nb.1 (c + cost_fn nb.2)
            (dLookup_dInsert_self _ _ _)
          exact ⟨ck2, hck2, by omega⟩
        · refine ih _ k ck ?_
          rw [dLookup_dInsert_ne _ _ hkn]
          exact hck
      · rw [if_neg hlt]
        exact ih st k ck hck

/-- For every expanded state, its stored key stays below every frontier
key. -/
def UcsKeyMono (st : UcsSt) : Prop :=
  ∀ v ∈ st.visited, ∃ cv, dLookup st.cost_so_far v = some cv ∧
    ∀ e ∈ st.frontier, ucsKeyLe (cv, v) e = true

def AstarKeyMono (goal : State) (heuristic_fn : State → State → Int)
    (st : AstarSt) : Prop :=
  ∀ v ∈ st.visited, ∃ cv, dLookup st.cost_so_far v = some cv ∧
    ∀ e ∈ st.frontier, astarKeyLe (cv + heuristic_fn v goal, cv, v) e = true

theorem ucsKeyMono_step {grid : Grid} {start goal : State} {cost_fn : Action → Int}
    {st st' : UcsSt} (hpos : ∀ x, 0 < cost_fn x)
    (h : ucsStep grid goal cost_fn st = .inl st')
    (hinv : UcsOptInv grid start goal cost_fn st) (hkm : UcsKeyMono st) :
    UcsKeyMono st' := by
  rcases ucsStep_inl_char h with ⟨c, s, rest, hpop, hv, hst'⟩ |
    ⟨c, s, rest, hpop, hv, hg, hst'⟩
  · subst hst'
    intro v hvv
    obtain ⟨cv, hcv, hkey⟩ := hkm v hvv
    refine ⟨cv, hcv, ?_⟩
    intro e he
    have he2 : e ∈ rest := he
    rw [(popMin_eq_some hpop).2] at he2
    exact hkey e (mem_of_mem_eraseFirst he2)
  · obtain ⟨hmem, hrest⟩ := popMin_eq_some hpop
    obtain ⟨hsmem, cs0, hcs0, hcs0le⟩ := hinv.frontier_sub (c, s) hmem
    obtain ⟨e', he', he'2, ck', hck', hck'le⟩ := hinv.coverPlus s hsmem hv
    have heq1 : ck' = cs0 := by
      rw [hcs0] at hck'
      simpa using hck'.symm
    have hkey0 := popMin_le ucsKeyLe_total ucsKeyLe_trans hpop e' he'
    have hce' : c ≤ e'.1 := ucsKeyLe_fst hkey0
    have hcs : dLookup st.cost_so_far s = some c := by
      have heq2 : cs0 = c := by omega
      rw [hcs0, heq2]
    subst hst'
    intro v hvv
    have hvv2 : v ∈ st.visited ++ [s] := by
      have := (ucsRelax_lengths cost_fn s c (get_neighbors s grid)
        ⟨rest, st.parent, st.cost_so_far, st.visited ++ [s],
          st.states_explored + 1⟩).2.1
      rw [this] at hvv
      exact hvv
    have hrest_sub : ∀ e, e ∈ rest → e ∈ st.frontier := by
      intro e he
      rw [hrest] at he
      exact mem_of_mem_eraseFirst he
    have hfr_shape := ucsRelax_frontier_sub cost_fn s c (get_neighbors s grid)
      ⟨rest, st.parent, st.cost_so_far, st.visited ++ [s], st.states_explored + 1⟩
    rcases List.mem_append.mp hvv2 with hvv3 | hvv3
    · obtain ⟨cv, hcv, hkey⟩ := hkm v hvv3
      obtain ⟨cv2, hcv2, hcv2le⟩ := ucsRelax_cost_mono cost_fn s c (get_neighbors s grid)
        ⟨rest, st.parent, st.cost_so_far, st.visited ++ [s],
          st.states_explored + 1⟩ v cv (by exact hcv)
      refine ⟨cv2, hcv2, ?_⟩
      intro e he
      rcases hfr_shape e he with he2 | ⟨nb, hnb, rfl⟩
      · exact ucsKeyLe_mono_fst hcv2le (hkey e (hrest_sub e he2))
      · have hcvc : cv ≤ c := ucsKeyLe_fst (hkey (c, s) hmem)
        have hstep : 0 < cost_fn nb.2 := hpos nb.2
        show ucsKeyLe (cv2, v) (c + cost_fn nb.2, nb.1) = true
        simp only [ucsKeyLe, Bool.decide_or, Bool.or_eq_true, decide_eq_true_eq,
          Bool.and_eq_true]
        left
        omega
    · obtain rfl : v = s := by simpa using hvv3
      obtain ⟨cv2, hcv2, hcv2le⟩ := ucsRelax_cost_mono cost_fn v c (get_neighbors v grid)
        ⟨rest, st.parent, st.cost_so_far, st.visited ++ [v],
          st.states_explored + 1⟩ v c (by exact hcs)
      refine ⟨cv2, hcv2, ?_⟩
      intro e he
      rcases hfr_shape e he with he2 | ⟨nb, hnb, rfl⟩
      · have hkey := popMin_le ucsKeyLe_total ucsKeyLe_trans hpop e (hrest_sub e he2)
        exact ucsKeyLe_mono_fst hcv2le hkey
      · have hstep : 0 < cost_fn nb.2 := hpos nb.2
        show ucsKeyLe (cv2, v) (c + cost_fn nb.2, nb.1) = true
        simp only [ucsKeyLe, Bool.decide_or, Bool.or_eq_true, decide_eq_true_eq,
          Bool.and_eq_true]
        left
        omega

/-- Completeness of UCS expansion: when the pop of the goal ends the loop
with cost `c`, every state reachable by a strictly cheaper path -- or by a
path of the same cost that ends at a lexicographically earlier non-goal
state -- has already been expanded. -/
theorem ucs_complete {grid : Grid} {start goal : State} {cost_fn : Action → Int}
    {st : UcsSt} (hpos : ∀ x, 0 < cost_fn x)
    (hinv : UcsOptInv grid start goal cost_fn st) (hvc : UcsOptVC grid cost_fn st)
    {c : Int} {rest : List (Int × State)}
    (hpop : popMin ucsKeyLe st.frontier = some ((c, goal), rest)) :
    ∀ (q : List State) (x : State), PathFrom grid start x q →
      (pathCost cost_fn q < c ∨
        (pathCost cost_fn q = c ∧ x ≠ goal ∧ stateLe x goal = true)) →
      x ∈ st.visited := by
  have hnn : ∀ x, 0 ≤ cost_fn x := fun x => le_of_lt (hpos x)
  have hmain : ∀ (m : Nat) (q : List State) (x : State), q.length ≤ m →
      PathFrom grid start x q →
      (pathCost cost_fn q < c ∨
        (pathCost cost_fn q = c ∧ x ≠ goal ∧ stateLe x goal = true)) →
      x ∈ st.visited := by
    intro m
    induction m with
    | zero =>
      intro q x hlen hq _
      rcases q with _ | ⟨a, l⟩
      · exact absurd rfl hq.1
      · simp at hlen
    | succ m ih =>
      intro q x hlen hq hcase
      rcases pathFrom_snoc hq with ⟨rfl, rfl⟩ | ⟨q', u, rfl, hq', hadj⟩
      · by_cases hve : st.visited = []
        · exfalso
          have hst := hinv.empty_init hve
          rw [hst] at hpop
          have hss : popMin ucsKeyLe (ucsInit x).frontier = some ((0, x), []) := by
            simp [ucsInit, popMin, listMin, eraseFirst]
          rw [hss] at hpop
          simp only [Option.some.injEq, Prod.mk.injEq] at hpop
          obtain ⟨⟨hc0, hxg⟩, -⟩ := hpop
          rw [pathCost_single] at hcase
          rcases hcase with hlt | ⟨-, hne, -⟩
          · omega
          · exact hne hxg
        · exact hinv.start_visited hve
      · have hqlast := hq'.2.2.1
        have hecpos : 0 < eCost cost_fn u x := by
          obtain ⟨a, ha⟩ := hadj
          rw [adj_eCost cost_fn ha]
          exact hpos a
        have hqc : pathCost cost_fn (q' ++ [x]) =
            pathCost cost_fn q' + eCost cost_fn u x := pathCost_snoc cost_fn hqlast
        have hlen' : q'.length ≤ m := by
          rw [List.length_append] at hlen
          simp only [List.length_cons, List.length_nil] at hlen
          omega
        have hu : u ∈ st.visited := by
          refine ih q' u hlen' hq' (Or.inl ?_)
          rcases hcase with hlt | ⟨heq, -, -⟩ <;> omega
        by_contra hx
        obtain ⟨hxkeys, cv, cw, hcv, hcw, hcwle⟩ := hvc u hu x hadj
        obtain ⟨cvlb, hcvlb, hlbv⟩ := hinv.vlb u hu
        obtain rfl : cvlb = cv := by
          rw [hcv] at hcvlb
          simpa using hcvlb.symm
        obtain ⟨e, he, he2, ck, hck, hckle⟩ := hinv.coverPlus x hxkeys hx
        have heqck : ck = cw := by
          rw [hcw] at hck
          simpa using hck.symm
        have hkey := popMin_le ucsKeyLe_total ucsKeyLe_trans hpop e he
        have hlbq := hlbv q' hq'
        have hwq : ck ≤ pathCost cost_fn (q' ++ [x]) := by omega
        simp only [ucsKeyLe, Bool.decide_or, Bool.or_eq_true, decide_eq_true_eq,
          Bool.and_eq_true] at hkey
        rcases hcase with hlt | ⟨heq, hne, hxle⟩
        · rcases hkey with hk | ⟨hk, -⟩ <;> omega
        · rcases hkey with hk | ⟨hk, hgs⟩
          · omega
          · have hgx : stateLe goal e.2 = true := hgs
            rw [he2] at hgx
            exact hne (stateLe_antisymm hxle hgx)
  intro q x hq hcase
  exact hmain q.length q x (le_refl _) hq hcase

/-- Under a consistent heuristic, the key pushed for a neighbour dominates
the key of the expanded entry. -/
theorem astarKeyLe_push {grid : Grid} {cost_fn : Action → Int}
    {heuristic_fn : State → State → Int} {goal s : State} {c : Int}
    {nb : State × Action} (hpos : ∀ x, 0 < cost_fn x)
    (hcons : ∀ u x, Adj grid u x →
      heuristic_fn u goal ≤ eCost cost_fn u x + heuristic_fn x goal)
    (hnb : nb ∈ get_neighbors s grid) :
    astarKeyLe (c + heuristic_fn s goal, c, s)
      (c + cost_fn nb.2 + heuristic_fn nb.1 goal, c + cost_fn nb.2, nb.1) = true := by
  have hnb' : ((nb.1, nb.2) : State × Action) ∈ get_neighbors s grid := by
    rwa [show ((nb.1, nb.2) : State × Action) = nb from rfl]
  have hc := hcons s nb.1 ⟨nb.2, hnb'⟩
  rw [adj_eCost cost_fn hnb'] at hc
  have hstep : 0 < cost_fn nb.2 := hpos nb.2
  simp only [astarKeyLe, Bool.decide_or, Bool.or_eq_true, decide_eq_true_eq,
    Bool.and_eq_true]
  by_cases hlt : c + heuristic_fn s goal < c + cost_fn nb.2 + heuristic_fn nb.1 goal
  · left
    exact hlt
  · right
    exact ⟨by omega, Or.inl (by omega)⟩

theorem astarKeyMono_step {grid : Grid} {start goal : State}
    {cost_fn : Action → Int} {heuristic_fn : State → State → Int}
    {st st' : AstarSt} (hpos : ∀ x, 0 < cost_fn x)
    (hcons : ∀ u x, Adj grid u x →
      heuristic_fn u goal ≤ eCost cost_fn u x + heuristic_fn x goal)
    (h : astarStep grid goal cost_fn heuristic_fn st = .inl st')
    (hinv : AstarOptInv grid start goal cost_fn heuristic_fn st)
    (hkm : AstarKeyMono goal heuristic_fn st) :
    AstarKeyMono goal heuristic_fn st' := by
  rcases astarStep_inl_char h with ⟨f, c, s, rest, hpop, hv, hst'⟩ |
    ⟨f, c, s, rest, hpop, hv, hg, hst'⟩
  · subst hst'
    intro v hvv
    obtain ⟨cv, hcv, hkey⟩ := hkm v hvv
    refine ⟨cv, hcv, ?_⟩
    intro e he
    have he2 : e ∈ rest := he
    rw [(popMin_eq_some hpop).2] at he2
    exact hkey e (mem_of_mem_eraseFirst he2)
  · obtain ⟨hmem, hrest⟩ := popMin_eq_some hpop
    obtain ⟨hsmem, cs0, hcs0, hcs0le⟩ := hinv.frontier_sub (f, c, s) hmem
    obtain ⟨e', he', he'2, ck', hck', hck'le⟩ := hinv.coverPlus s hsmem hv
    have heq1 : ck' = cs0 := by
      rw [hcs0] at hck'
      simpa using hck'.symm
    have hkey0 := popMin_le astarKeyLe_total astarKeyLe_trans hpop e' he'
    have hfe' : f ≤ e'.1 := astarKeyLe_fst hkey0
    have hfk0 : f = c + heuristic_fn s goal := hinv.fkey (f, c, s) hmem
    have hfk' := hinv.fkey e' he'
    rw [he'2] at hfk'
    have hcs0le2 : cs0 ≤ c := hcs0le
    have hcs : dLookup st.cost_so_far s = some c := by
      have heq2 : cs0 = c := by omega
      rw [hcs0, heq2]
    subst hst'
    intro v hvv
    have hvv2 : v ∈ st.visited ++ [s] := by
      have := (astarRelax_lengths cost_fn heuristic_fn goal s c (get_neighbors s grid)
        ⟨rest, st.parent, st.cost_so_far, st.visited ++ [s],
          st.states_explored + 1⟩).2.1
      rw [this] at hvv
      exact hvv
    have hrest_sub : ∀ e, e ∈ rest → e ∈ st.frontier := by
      intro e he
      rw [hrest] at he
      exact mem_of_mem_eraseFirst he
    have hfr_shape := astarRelax_frontier_sub cost_fn heuristic_fn goal s c
      (get_neighbors s grid)
      ⟨rest, st.parent, st.cost_so_far, st.visited ++ [s], st.states_explored + 1⟩
    rcases List.mem_append.mp hvv2 with hvv3 | hvv3
    · obtain ⟨cv, hcv, hkey⟩ := hkm v hvv3
      obtain ⟨cv2, hcv2, hcv2le⟩ := astarRelax_cost_mono cost_fn heuristic_fn goal s c
        (get_neighbors s grid)
        ⟨rest, st.parent, st.cost_so_far, st.visited ++ [s],
          st.states_explored + 1⟩ v cv (by exact hcv)
      refine ⟨cv2, hcv2, ?_⟩
      intro e he
      rcases hfr_shape e he with he2 | ⟨nb, hnb, rfl⟩
      · exact astarKeyLe_mono (by omega) hcv2le (hkey e (hrest_sub e he2))
      · have hk1 : astarKeyLe (cv + heuristic_fn v goal, cv, v) (f, c, s) = true :=
          hkey (f, c, s) hmem
        rw [hfk0] at hk1
        have hk2 := @astarKeyLe_push grid cost_fn heuristic_fn goal s c nb
          hpos hcons hnb
        have hk3 := astarKeyLe_trans _ _ _ hk1 hk2
        exact astarKeyLe_mono (by omega) hcv2le hk3
    · obtain rfl : v = s := by simpa using hvv3
      obtain ⟨cv2, hcv2, hcv2le⟩ := astarRelax_cost_mono cost_fn heuristic_fn goal v c
        (get_neighbors v grid)
        ⟨rest, st.parent, st.cost_so_far, st.visited ++ [v],
          st.states_explored + 1⟩ v c (by exact hcs)
      refine ⟨cv2, hcv2, ?_⟩
      intro e he
      rcases hfr_shape e he with he2 | ⟨nb, hnb, rfl⟩
      · have hkey := popMin_le astarKeyLe_total astarKeyLe_trans hpop e (hrest_sub e he2)
        rw [hfk0] at hkey
        exact astarKeyLe_mono (by omega) hcv2le hkey
      · have hk2 := @astarKeyLe_push grid cost_fn heuristic_fn goal v c nb
          hpos hcons hnb
        exact astarKeyLe_mono (by omega) hcv2le hk2

theorem astarKeyMono_init (start goal : State)
    (heuristic_fn : State → State → Int) :
    AstarKeyMono goal heuristic_fn (astarInit start goal heuristic_fn) := by
  intro v hvv
  exact absurd hvv (List.not_mem_nil v)

/-- Every A* run with strictly positive costs and a consistent heuristic,
packaged with the optimality certificate and the key-monotonicity
invariant. -/
theorem astar_full_run (grid : Grid) (start goal : State) (cost_fn : Action → Int)
    (heuristic_fn : State → State → Int) (hpos : ∀ x, 0 < cost_fn x)
    (hcons : ∀ u x, Adj grid u x →
      heuristic_fn u goal ≤ eCost cost_fn u x + heuristic_fn x goal) :
    ∃ st0 stf, ((AstarOptInv grid start goal cost_fn heuristic_fn st0 ∧
        AstarOptVC grid cost_fn st0) ∧ AstarKeyMono goal heuristic_fn st0) ∧
      astarStep grid goal cost_fn heuristic_fn st0 = .inr stf ∧
      astar grid start goal cost_fn heuristic_fn =
        some (reconstruct_path stf.parent start goal, stf.states_explored) := by
  have hnn : ∀ x, 0 ≤ cost_fn x := fun x => le_of_lt (hpos x)
  obtain ⟨stf, hloop⟩ := astar_opt_loop_some grid start goal cost_fn heuristic_fn hnn
    hcons
  obtain ⟨st0, hreach, hlast⟩ := iterStep_last hloop
  have hinv0 := iterReach_inv
    (P := fun st => (AstarOptInv grid start goal cost_fn heuristic_fn st ∧
      AstarOptVC grid cost_fn st) ∧ AstarKeyMono goal heuristic_fn st)
    ⟨astarOptInv_init grid start goal cost_fn heuristic_fn,
      astarKeyMono_init start goal heuristic_fn⟩
    (fun st st' hs hP => ⟨astarOpt_step hnn hcons hs hP.1,
      astarKeyMono_step hpos hcons hs hP.1.1 hP.2⟩) st0 hreach
  refine ⟨st0, stf, hinv0, hlast, ?_⟩
  rw [astar, hloop]
  rfl

/-- C2: with a non-negative cost function and the goal reachable from a free
start, `ucs` returns a path of minimum total cost; and under the scenario-B
cost function and heuristic, `astar` returns a path of the same minimal
total cost as `ucs`, expanding at most as many states as `ucs` does. -/
theorem ucs_astar_optimal (grid : Grid) (start goal : State)
    (cost_fn : Action → Int)
    (_hs : FreeCell grid start) (_hg : FreeCell grid goal)
    (hnn : ∀ x, 0 ≤ cost_fn x) (hreach : Reaches grid start goal) :
    (∃ p n, ucs grid start goal cost_fn = some (.ok p, n) ∧ p ≠ [] ∧
      PathFrom grid start goal p ∧
      ∀ q, PathFrom grid start goal q → pathCost cost_fn p ≤ pathCost cost_fn q) ∧
    (∃ pU nU pA nA,
      ucs grid start goal cost_scenario2 = some (.ok pU, nU) ∧
      astar grid start goal cost_scenario2 heuristic_scenario2 = some (.ok pA, nA) ∧
      pU ≠ [] ∧ PathFrom grid start goal pU ∧
      pA ≠ [] ∧ PathFrom grid start goal pA ∧
      pathCost cost_scenario2 pA = pathCost cost_scenario2 pU ∧
      (∀ q, PathFrom grid start goal q →
        pathCost cost_scenario2 pA ≤ pathCost cost_scenario2 q) ∧
      nA ≤ nU) := by
  refine ⟨ucs_min_cost grid start goal cost_fn hnn hreach, ?_⟩
  have hnn2 : ∀ x, 0 ≤ cost_scenario2 x := fun x => le_of_lt (cost_scenario2_pos x)
  have hcons := @heuristic_scenario2_consistent grid goal
  obtain ⟨stU, stfU, ⟨hinvU, hvcU⟩, hlastU, hresU⟩ :=
    ucs_opt_run grid start goal cost_scenario2 hnn2
  rcases ucsStep_inr_char hlastU with ⟨hq, rfl⟩ | ⟨C, restU, hpopU, hgvU, rfl⟩
  · exfalso
    have hfr : stfU.frontier = [] := by
      cases hf : stfU.frontier with
      | nil => rfl
      | cons x xs =>
        rw [hf, popMin_isSome] at hq
        exact absurd hq (by simp)
    have hkv : ∀ k ∈ dKeys stfU.parent, k ∈ stfU.visited := by
      intro k hk
      by_contra hkv
      obtain ⟨e, he, -⟩ := hinvU.coverPlus k hk hkv
      rw [hfr] at he
      simp at he
    have hstart : start ∈ dKeys stfU.parent :=
      (dLookup_isSome_iff _ _).mp (by rw [hinvU.gstart]; rfl)
    have hclosed : ∀ x, Reaches grid start x → x ∈ dKeys stfU.parent :=
      reaches_subset_closed hstart
        (fun u hu t hadj => (hvcU u (hkv u hu) t hadj).1)
    exact hinvU.goal_not_visited (hkv goal (hclosed goal hreach))
  · obtain ⟨hmemU, hrestU⟩ := popMin_eq_some hpopU
    obtain ⟨hgmemU, cgU, hcgU, hcgleU⟩ := hinvU.frontier_sub (C, goal) hmemU
    obtain ⟨eU', heU', heU'2, ckU', hckU', hckU'le⟩ := hinvU.coverPlus goal hgmemU hgvU
    have heqU1 : ckU' = cgU := by
      rw [hcgU] at hckU'
      simpa using hckU'.symm
    have hkeyU := popMin_le ucsKeyLe_total ucsKeyLe_trans hpopU eU' heU'
    have hceU' : C ≤ eU'.1 := ucsKeyLe_fst hkeyU
    have hcgU' : dLookup stU.cost_so_far goal = some C := by
      have heq2 : cgU = C := by
        have h1 : cgU ≤ (C, goal).1 := hcgleU
        have h2 : cgU ≤ C := h1
        omega
      rw [hcgU, heq2]
    obtain ⟨pU, hpU, hppathU⟩ :=
      (goodParent_reconstruct (ucsOptInv_goodParent hinvU) goal).2 hgmemU
    have hcostU : pathCost cost_scenario2 pU = C := by
      rw [reconstruct_path, if_pos ((dContains_iff_mem_keys _ _).mpr hgmemU)] at hpU
      exact reconWalk_cost hinvU.cost_start hinvU.pc _ goal pU C hpU hcgU'
    obtain ⟨stA, stfA, ⟨⟨hinvA, hvcA⟩, hkmA⟩, hlastA, hresA⟩ :=
      astar_full_run grid start goal cost_scenario2 heuristic_scenario2
        cost_scenario2_pos hcons
    rcases astarStep_inr_char hlastA with ⟨hqA, rfl⟩ | ⟨fA, cA, restA, hpopA, hgvA, rfl⟩
    · exfalso
      have hfr : stfA.frontier = [] := by
        cases hf : stfA.frontier with
        | nil => rfl
        | cons x xs =>
          rw [hf, popMin_isSome] at hqA
          exact absurd hqA (by simp)
      have hkv : ∀ k ∈ dKeys stfA.parent, k ∈ stfA.visited := by
        intro k hk
        by_contra hkv
        obtain ⟨e, he, -⟩ := hinvA.coverPlus k hk hkv
        rw [hfr] at he
        simp at he
      have hstart : start ∈ dKeys stfA.parent :=
        (dLookup_isSome_iff _ _).mp (by rw [hinvA.gstart]; rfl)
      have hclosed : ∀ x, Reaches grid start x → x ∈ dKeys stfA.parent :=
        reaches_subset_closed hstart
          (fun u hu t hadj => (hvcA u (hkv u hu) t hadj).1)
      exact hinvA.goal_not_visited (hkv goal (hclosed goal hreach))
    · obtain ⟨hmemA, hrestA⟩ := popMin_eq_some hpopA
      obtain ⟨hgmemA, cgA, hcgA, hcgleA⟩ := hinvA.frontier_sub (fA, cA, goal) hmemA
      obtain ⟨eA', heA', heA'2, ckA', hckA', hckA'le⟩ := hinvA.coverPlus goal hgmemA hgvA
      have heqA1 : ckA' = cgA := by
        rw [hcgA] at hckA'
        simpa using hckA'.symm
      have hkeyA := popMin_le astarKeyLe_total astarKeyLe_trans hpopA eA' heA'
      have hfeA' : fA ≤ eA'.1 := astarKeyLe_fst hkeyA
      have hfkA0 : fA = cA + heuristic_scenario2 goal goal :=
        hinvA.fkey (fA, cA, goal) hmemA
      have hfkA' := hinvA.fkey eA' heA'
      rw [heA'2] at hfkA'
      have hcgleA2 : cgA ≤ cA := hcgleA
      have hcgA' : dLookup stA.cost_so_far goal = some cA := by
        have heq2 : cgA = cA := by omega
        rw [hcgA, heq2]
      obtain ⟨pA, hpA, hppathA⟩ :=
        (goodParent_reconstruct (astarOptInv_goodParent hinvA) goal).2 hgmemA
      have hcostA : pathCost cost_scenario2 pA = cA := by
        rw [reconstruct_path, if_pos ((dContains_iff_mem_keys _ _).mpr hgmemA)] at hpA
        exact reconWalk_cost hinvA.cost_start hinvA.pc _ goal pA cA hpA hcgA'
      have hH0 : heuristic_scenario2 goal goal = 0 := heuristic_scenario2_self goal
      have hCcA : C ≤ cA := by
        have := ucs_cut hnn2 hinvU hvcU hpopU pA goal hppathA hgvU
        omega
      have hcAC : cA ≤ C := by
        have := astar_cut hnn2 hcons hinvA hvcA hpopA pU goal hppathU hgvA
        omega
      have hCA : cA = C := le_antisymm hcAC hCcA
      have hsub : ∀ v ∈ stA.visited, v ∈ stU.visited := by
        intro v hvv
        obtain ⟨cv, hcv, hkey⟩ := hkmA v hvv
        have hk := hkey (fA, cA, goal) hmemA
        have hvnn := heuristic_scenario2_nonneg v goal
        obtain ⟨qv, hqv, hqvc⟩ := hinvA.ach v cv hcv
        simp only [astarKeyLe, Bool.decide_or, Bool.or_eq_true, decide_eq_true_eq,
          Bool.and_eq_true] at hk
        have hvg : v ≠ goal := fun hc => hinvA.goal_not_visited (hc ▸ hvv)
        refine ucs_complete cost_scenario2_pos hinvU hvcU hpopU qv v hqv ?_
        rcases hk with hk | ⟨hk1, hk | ⟨hk2, hk3⟩⟩
        · left
          omega
        · left
          omega
        · right
          exact ⟨by omega, hvg, hk3⟩
      have hlenAU := nodup_subset_length_le hinvA.visited_nodup hsub
      have hcntA : stA.states_explored = stA.visited.length := hinvA.count
      have hcntU : stU.states_explored = stU.visited.length := hinvU.count
      refine ⟨pU, stU.states_explored + 1, pA, stA.states_explored + 1,
        ?_, ?_, hppathU.1, hppathU, hppathA.1, hppathA, ?_, ?_, by omega⟩
      · rw [hresU]
        show some (reconstruct_path stU.parent start goal,
          stU.states_explored + 1) = _
        rw [hpU]
      · rw [hresA]
        show some (reconstruct_path stA.parent start goal,
          stA.states_explored + 1) = _
        rw [hpA]
      · rw [hcostA, hcostU]
        exact hCA
      · intro q hq
        rw [hcostA, hCA]
        exact ucs_cut hnn2 hinvU hvcU hpopU q goal hq hgvU

theorem ucs_astar_optimal_witness :
    FreeCell [['F', 'F'], ['F', 'F']] ((0 : Int), (0 : Int)) ∧
    FreeCell [['F', 'F'], ['F', 'F']] ((1 : Int), (1 : Int)) ∧
    (∀ x, 0 ≤ cost_scenario1 x) ∧
    Reaches [['F', 'F'], ['F', 'F']] ((0 : Int), (0 : Int)) ((1 : Int), (1 : Int)) ∧
    ((∃ p n, ucs [['F', 'F'], ['F', 'F']] ((0 : Int), (0 : Int)) ((1 : Int), (1 : Int))
        cost_scenario1 = some (.ok p, n) ∧ p ≠ [] ∧
      PathFrom [['F', 'F'], ['F', 'F']] ((0 : Int), (0 : Int)) ((1 : Int), (1 : Int)) p ∧
      ∀ q, PathFrom [['F', 'F'], ['F', 'F']] ((0 : Int), (0 : Int))
        ((1 : Int), (1 : Int)) q →
        pathCost cost_scenario1 p ≤ pathCost cost_scenario1 q) ∧
    (∃ pU nU pA nA,
      ucs [['F', 'F'], ['F', 'F']] ((0 : Int), (0 : Int)) ((1 : Int), (1 : Int))
        cost_scenario2 = some (.ok pU, nU) ∧
      astar [['F', 'F'], ['F', 'F']] ((0 : Int), (0 : Int)) ((1 : Int), (1 : Int))
        cost_scenario2 heuristic_scenario2 = some (.ok pA, nA) ∧
      pU ≠ [] ∧
      PathFrom [['F', 'F'], ['F', 'F']] ((0 : Int), (0 : Int)) ((1 : Int), (1 : Int)) pU ∧
      pA ≠ [] ∧
      PathFrom [['F', 'F'], ['F', 'F']] ((0 : Int), (0 : Int)) ((1 : Int), (1 : Int)) pA ∧
      pathCost cost_scenario2 pA = pathCost cost_scenario2 pU ∧
      (∀ q, PathFrom [['F', 'F'], ['F', 'F']] ((0 : Int), (0 : Int))
        ((1 : Int), (1 : Int)) q →
        pathCost cost_scenario2 pA ≤ pathCost cost_scenario2 q) ∧
      nA ≤ nU)) :=
  ⟨by decide, by decide, fun x => by simp [cost_scenario1],
   ⟨2, ReachN.succ (t := ((1 : Int), (1 : Int)))
     (ReachN.succ (t := ((0 : Int), (1 : Int))) ReachN.zero
       ⟨((0 : Int), (1 : Int)), by decide⟩)
     ⟨((1 : Int), (0 : Int)), by decide⟩⟩,
   ucs_astar_optimal [['F', 'F'], ['F', 'F']] ((0 : Int), (0 : Int))
     ((1 : Int), (1 : Int)) cost_scenario1 (by decide) (by decide)
     (fun x => by simp [cost_scenario1])
     ⟨2, ReachN.succ (t := ((1 : Int), (1 : Int)))
       (ReachN.succ (t := ((0 : Int), (1 : Int))) ReachN.zero
         ⟨((0 : Int), (1 : Int)), by decide⟩)
       ⟨((1 : Int), (0 : Int)), by decide⟩⟩⟩

end Search
